import Mathlib


/-!
Cryptokey-routing trie (`module/whitelist.c`)

A shallow embedding of the longest-prefix-match trie of `module/whitelist.c`
and a verification of its contract.

Conventions of the embedding.

* Memory is explicit: `Mem` holds the heap of `struct whitelist_node` objects
  (indexed by address), the allocator break and, for every peer, the contents
  of `peer->whitelist_list` in list order.  A nullable pointer is an
  `Option Nat`.
* The host is little-endian (`__LITTLE_ENDIAN` is defined), so `ntohl` and
  `be64toh` swap bytes.
* `while`/`for` loops take a fuel argument that bounds the number of
  iterations; running out of fuel is the outcome `out_of_fuel`.
* A load or store outside an object is the outcome `bad_access`, a failed
  `MPASS` is the outcome `assert_failed`.
* The code runs sequentially (the writer holds the table lock and no reader
  runs concurrently), so `call_rcu` reclaims at once and every peer that is
  found in the trie is live.
-/

namespace WG

/-! ## Machine-level helpers -/

/-- One byte of memory. -/
abbrev u8 := Fin 256

/-- Result of running a piece of code. -/
inductive Outcome (α : Type) where
  | ok : α → Outcome α
  | bad_access : Outcome α
  | assert_failed : Outcome α
  | out_of_fuel : Outcome α
  deriving DecidableEq, Repr

/-- Sequencing of outcomes. -/
def Outcome.bind {α β : Type} (x : Outcome α) (f : α → Outcome β) : Outcome β :=
  match x with
  | .ok a => f a
  | .bad_access => .bad_access
  | .assert_failed => .assert_failed
  | .out_of_fuel => .out_of_fuel

instance : Monad Outcome where
  pure := Outcome.ok
  bind := Outcome.bind

/-- Little-endian load of a byte string as an unsigned integer. -/
def loadLE : List u8 → Nat
  | [] => 0
  | b :: bs => b.val + 256 * loadLE bs

/-- Little-endian store of the low `n` bytes of an unsigned integer. -/
def storeLE : Nat → Nat → List u8
  | 0, _ => []
  | n + 1, x => ⟨x % 256, Nat.mod_lt _ (by decide)⟩ :: storeLE n (x / 256)

/-- Load `*(const uint32_t *)p`. -/
def load32 (p : List u8) : Nat := loadLE (p.take 4)

/-- Load `*(const uint64_t *)p`. -/
def load64 (p : List u8) : Nat := loadLE (p.take 8)

/-- On a little-endian host `ntohl` reverses the four bytes of its argument. -/
def ntohl (x : Nat) : Nat := loadLE (storeLE 4 x).reverse

/-- On a little-endian host `be64toh` reverses the eight bytes of its argument. -/
def be64toh (x : Nat) : Nat := loadLE (storeLE 8 x).reverse

/-- Number of bits needed to write `x`, looking at no more than `w` bits. -/
def flsAux : Nat → Nat → Nat
  | 0, _ => 0
  | w + 1, x => if x = 0 then 0 else flsAux w (x / 2) + 1

/-- Find last set bit of an `int`: `fls 0 = 0`, `fls 1 = 1`, `fls 0x80000000 = 32`. -/
def fls (x : Nat) : Nat := flsAux 32 x

/-- Find last set bit of a 64-bit value. -/
def fls64 (x : Nat) : Nat := flsAux 64 x

/-- The errno value `EINVAL`. -/
def EINVAL : Nat := 22

/-- The errno value `ENOMEM`. -/
def ENOMEM : Nat := 12

/-- The address family `AF_INET`. -/
def AF_INET : Nat := 2

/-- The address family `AF_INET6` (FreeBSD). -/
def AF_INET6 : Nat := 28

/-! ## Data model -/

/-- Fields of `struct whitelist_node` (membership in a peer's list is kept in `Mem.lists`). -/
structure whitelist_node where
  peer : Option Nat
  bit0 : Option Nat
  bit1 : Option Nat
  cidr : Nat
  bit_at_a : Nat
  bit_at_b : Nat
  bitlen : Nat
  bits : List u8
  deriving DecidableEq, Repr

/-- The child pointer `node->bit[i]`. -/
def whitelist_node.bit (n : whitelist_node) (i : Nat) : Option Nat :=
  if i = 0 then n.bit0 else n.bit1

/-- The node after the store `node->bit[i] = v`. -/
def whitelist_node.set_bit (n : whitelist_node) (i : Nat) (v : Option Nat) : whitelist_node :=
  if i = 0 then { n with bit0 := v } else { n with bit1 := v }

/-- A node as returned by `kzalloc`: every field is zero. -/
def zero_node : whitelist_node :=
  { peer := none, bit0 := none, bit1 := none, cidr := 0, bit_at_a := 0, bit_at_b := 0,
    bitlen := 0, bits := List.replicate 16 0 }

/-- Fields of `struct whitelist`. -/
structure whitelist where
  root4 : Option Nat
  root6 : Option Nat
  seq : Nat
  deriving DecidableEq, Repr

/-- Kernel memory: the node heap, the allocator break and every peer's node list. -/
structure Mem where
  heap : Nat → Option whitelist_node
  brk : Nat
  lists : Nat → List Nat

/-- Memory with no node allocated and every peer's list empty. -/
def Mem.empty : Mem := { heap := fun _ => none, brk := 0, lists := fun _ => [] }

/-- Load the node at address `p`. -/
def Mem.read (m : Mem) (p : Nat) : Outcome whitelist_node :=
  match m.heap p with
  | none => .bad_access
  | some n => .ok n

/-- Overwrite the node at address `p`. -/
def Mem.store (m : Mem) (p : Nat) (n : whitelist_node) : Mem :=
  { m with heap := fun q => if q = p then some n else m.heap q }

/-- Read-modify-write of the node at address `p`. -/
def Mem.update (m : Mem) (p : Nat) (f : whitelist_node → whitelist_node) : Outcome Mem :=
  match m.heap p with
  | none => .bad_access
  | some n => .ok (m.store p (f n))

/-- Release the node at address `p` (`kfree`, or `call_rcu` with no reader left). -/
def Mem.free (m : Mem) (p : Nat) : Mem :=
  { m with heap := fun q => if q = p then none else m.heap q }

/-- The allocator `kzalloc`: on success a fresh zeroed node, `NULL` when `avail` is false. -/
def kzalloc (m : Mem) (avail : Bool) : Option Nat × Mem :=
  if avail then
    (some m.brk, { m with heap := fun q => if q = m.brk then some zero_node else m.heap q,
                          brk := m.brk + 1 })
  else (none, m)

/-- Unlink a node from the list it is on (`list_del`, `list_del_init`). -/
def list_del (m : Mem) (node : Nat) : Mem :=
  { m with lists := fun p => (m.lists p).filter (fun q => q ≠ node) }

/-- Append a node to `peer->whitelist_list` (`list_add_tail`). -/
def list_add_tail (m : Mem) (node peer : Nat) : Mem :=
  { m with lists := fun p => if p = peer then m.lists p ++ [node] else m.lists p }

/-- Unlink a node and append it to `peer->whitelist_list` (`list_move_tail`). -/
def list_move_tail (m : Mem) (node peer : Nat) : Mem :=
  list_add_tail (list_del m node) node peer

/-! ## `whitelist.c` -/

/-- Copy of `n` bytes from `src` to the start of `dst`. -/
def memcpy (dst src : List u8) (n : Nat) : List u8 := src.take n ++ dst.drop n

/-- Source lines 6-15: convert a wire-order address into the host-order words the trie compares. -/
def native_endian (dst src : List u8) (bits : Nat) : List u8 :=
  if bits = 32 then
    storeLE 4 (ntohl (load32 src)) ++ dst.drop 4
  else if bits = 128 then
    storeLE 8 (be64toh (load64 src)) ++ storeLE 8 (be64toh (load64 (src.drop 8))) ++ dst.drop 16
  else dst

/-- Source lines 17-29. -/
def copy_and_assign_cidr (node : whitelist_node) (src : List u8) (cidr bits : Nat) :
    whitelist_node :=
  { node with
    cidr := cidr
    bit_at_a := (cidr / 8) ^^^ ((bits / 8 - 1) % 8)
    bit_at_b := 7 - cidr % 8
    bitlen := bits
    bits := memcpy node.bits src (bits / 8) }

/-- Index computed by `CHOOSE_NODE` (lines 30-31): `(key[bit_at_a] >> bit_at_b) & 1`. -/
def choose_index (parent : whitelist_node) (key : List u8) : Outcome Nat :=
  match key[parent.bit_at_a]? with
  | none => .bad_access
  | some b => .ok ((b.val >>> parent.bit_at_b) &&& 1)

/-- Value of `CHOOSE_NODE(parent, key)` (lines 30-31). -/
def CHOOSE_NODE (parent : whitelist_node) (key : List u8) : Outcome (Option Nat) :=
  match choose_index parent key with
  | .ok i => .ok (parent.bit i)
  | .bad_access => .bad_access
  | .assert_failed => .assert_failed
  | .out_of_fuel => .out_of_fuel

/-- Source lines 131-135. -/
def fls128 (a b : Nat) : Nat := if a ≠ 0 then fls64 a + 64 else fls64 b

/-- Source lines 137-148. -/
def common_bits (node : whitelist_node) (key : List u8) (bits : Nat) : Nat :=
  if bits = 32 then
    (32 - fls (load32 node.bits ^^^ load32 key)) % 256
  else if bits = 128 then
    (128 - fls128 (load64 node.bits ^^^ load64 key)
      (load64 (node.bits.drop 8) ^^^ load64 (key.drop 8))) % 256
  else 0

/-- Source lines 150-161. -/
def prefix_matches (node : whitelist_node) (key : List u8) (bits : Nat) : Bool :=
  decide (common_bits node key bits ≥ node.cidr)

/-- The loop of `find_node` (lines 169-175), started at `node` with `found`. -/
def find_node_loop (m : Mem) (bits : Nat) (key : List u8) :
    Nat → Option Nat → Option Nat → Outcome (Option Nat)
  | _, none, found => .ok found
  | 0, some _, _ => .out_of_fuel
  | fuel + 1, some p, found =>
    match m.heap p with
    | none => .bad_access
    | some node =>
      if prefix_matches node key bits then
        let found := if node.peer.isSome then some p else found
        if node.cidr = bits then .ok found
        else
          match CHOOSE_NODE node key with
          | .ok next => find_node_loop m bits key fuel next found
          | .bad_access => .bad_access
          | .assert_failed => .assert_failed
          | .out_of_fuel => .out_of_fuel
      else .ok found

/-- Source lines 163-177. -/
def find_node (m : Mem) (trie : Option Nat) (bits : Nat) (key : List u8) (fuel : Nat) :
    Outcome (Option Nat) :=
  find_node_loop m bits key fuel trie none

/-- Source lines 180-201.  The stack buffer `ip` starts zeroed; the peer that is found is
live, so `wg_peer_get_maybe_zero` hands it back and the walk is not restarted. -/
def lookup (m : Mem) (root : Option Nat) (bits : Nat) (be_ip : List u8) (fuel : Nat) :
    Outcome (Option Nat) :=
  let ip := native_endian (List.replicate 16 0) be_ip bits
  match find_node m root bits ip fuel with
  | .ok none => .ok none
  | .ok (some node) =>
    match m.heap node with
    | none => .bad_access
    | some n => .ok n.peer
  | .bad_access => .bad_access
  | .assert_failed => .assert_failed
  | .out_of_fuel => .out_of_fuel

/-- The loop of `node_placement` (lines 213-221), started at `node` with `parent`. -/
def node_placement_loop (m : Mem) (key : List u8) (cidr bits : Nat) :
    Nat → Option Nat → Option Nat → Outcome (Bool × Option Nat)
  | _, none, parent => .ok (false, parent)
  | 0, some _, _ => .out_of_fuel
  | fuel + 1, some p, parent =>
    match m.heap p with
    | none => .bad_access
    | some node =>
      if node.cidr ≤ cidr ∧ prefix_matches node key bits = true then
        if node.cidr = cidr then .ok (true, some p)
        else
          match CHOOSE_NODE node key with
          | .ok next => node_placement_loop m key cidr bits fuel next (some p)
          | .bad_access => .bad_access
          | .assert_failed => .assert_failed
          | .out_of_fuel => .out_of_fuel
      else .ok (false, parent)

/-- Source lines 203-224: the pair `(exact, *rnode)`. -/
def node_placement (m : Mem) (trie : Option Nat) (key : List u8) (cidr bits : Nat)
    (fuel : Nat) : Outcome (Bool × Option Nat) :=
  node_placement_loop m key cidr bits fuel trie none

/-- Source lines 268-295 of `add`: `down` is not `NULL`, `newnode` is set up, `parent` is the
node found by `node_placement`.  `a2` tells whether the allocation of line 279 succeeds. -/
def add_split (m : Mem) (trie : Option Nat) (bits : Nat) (key : List u8) (cidr : Nat)
    (newnode : Nat) (parent : Option Nat) (down : Nat) (a2 : Bool) :
    Outcome (Nat × Mem × Option Nat) := do
  let dn ← m.read down
  let nn ← m.read newnode
  let cidr := min cidr (common_bits dn key bits)
  if nn.cidr = cidr then
    let i ← choose_index nn dn.bits
    let m ← m.update newnode (fun n => n.set_bit i (some down))
    match parent with
    | none => .ok (0, m, some newnode)
    | some par =>
      let pn ← m.read par
      let nn ← m.read newnode
      let j ← choose_index pn nn.bits
      let m ← m.update par (fun n => n.set_bit j (some newnode))
      .ok (0, m, trie)
  else
    match kzalloc m a2 with
    | (none, m) => .ok (ENOMEM, m.free newnode, trie)
    | (some node, m) =>
      let nn ← m.read newnode
      let m ← m.update node (fun n => copy_and_assign_cidr n nn.bits cidr bits)
      let bn ← m.read node
      let dn ← m.read down
      let i ← choose_index bn dn.bits
      let m ← m.update node (fun n => n.set_bit i (some down))
      let bn ← m.read node
      let nn ← m.read newnode
      let j ← choose_index bn nn.bits
      let m ← m.update node (fun n => n.set_bit j (some newnode))
      match parent with
      | none => .ok (0, m, some node)
      | some par =>
        let pn ← m.read par
        let bn ← m.read node
        let k ← choose_index pn bn.bits
        let m ← m.update par (fun n => n.set_bit k (some node))
        .ok (0, m, trie)

/-- Source lines 258-296 of `add`: link the prepared `newnode` below `node`, the node found
by `node_placement`.  When `node` is `NULL`, `down` is `*trie` (line 259), and line 268
loads `down->bits` in `common_bits` without a test: a bad access when `*trie` is `NULL`. -/
def add_link (m : Mem) (trie : Option Nat) (bits : Nat) (key : List u8) (cidr : Nat)
    (newnode : Nat) (node : Option Nat) (a2 : Bool) : Outcome (Nat × Mem × Option Nat) :=
  match node with
  | none =>
    match trie with
    | none => .bad_access
    | some down => add_split m trie bits key cidr newnode none down a2
  | some nd => do
    let n ← m.read nd
    let i ← choose_index n key
    match n.bit i with
    | none =>
      let m ← m.update nd (fun n => n.set_bit i (some newnode))
      .ok (0, m, trie)
    | some down => add_split m trie bits key cidr newnode (some nd) down a2

/-- Source lines 245-296 of `add`, given the result `(exact, node)` of `node_placement`.
`a1` tells whether the allocation of line 251 succeeds, `a2` whether that of line 279 does. -/
def add_tail (m : Mem) (trie : Option Nat) (bits : Nat) (key : List u8) (cidr : Nat)
    (pr : Nat) (a1 a2 : Bool) (exact : Bool) (node : Option Nat) :
    Outcome (Nat × Mem × Option Nat) :=
  if exact then
    match node with
    | none => .bad_access
    | some node => do
      let m ← m.update node (fun n => { n with peer := some pr })
      let m := list_move_tail m node pr
      .ok (0, m, trie)
  else
    match kzalloc m a1 with
    | (none, m) => .ok (ENOMEM, m, trie)
    | (some newnode, m) => do
      let m ← m.update newnode (fun n => { n with peer := some pr })
      let m := list_add_tail m newnode pr
      let m ← m.update newnode (fun n => copy_and_assign_cidr n key cidr bits)
      add_link m trie bits key cidr newnode node a2

/-- Source lines 226-296.  The C parameter `trie` is the address of a root pointer,
`&table->root4` or `&table->root6`, which is never `NULL`; the argument `trie` here is the
pointer stored there, `*trie`, and the result is the errno, the memory and the value of
`*trie` after the call.  Line 235 reads `if (!atomic_load_acq(trie))`: the macro of
`include/sys/wg_module.h` (lines 53-58) loads the variable it is given, which is the
parameter `trie` itself and not `*trie`, so the condition is false in every call and
lines 236-243 are never run, also when `*trie` is `NULL`.  `a1` tells whether the
allocation of line 251 succeeds, `a2` whether that of line 279 does. -/
def add (m : Mem) (trie : Option Nat) (bits : Nat) (key : List u8) (cidr : Nat)
    (peer : Option Nat) (a1 a2 : Bool) (fuel : Nat) : Outcome (Nat × Mem × Option Nat) :=
  match peer with
  | none => .ok (EINVAL, m, trie)
  | some pr =>
    if cidr > bits then .ok (EINVAL, m, trie)
    else
      match node_placement m trie key cidr bits fuel with
      | .ok (exact, node) => add_tail m trie bits key cidr pr a1 a2 exact node
      | .bad_access => .bad_access
      | .assert_failed => .assert_failed
      | .out_of_fuel => .out_of_fuel

/-- Source lines 298-303. -/
def wg_whitelist_init (_table : whitelist) : whitelist :=
  { root4 := none, root6 := none, seq := 1 }

/-- Source lines 329-339. -/
def wg_whitelist_insert_v4 (table : whitelist) (m : Mem) (ip : List u8) (cidr : Nat)
    (peer : Option Nat) (a1 a2 : Bool) (fuel : Nat) : Outcome (Nat × whitelist × Mem) :=
  let table := { table with seq := table.seq + 1 }
  let key := native_endian (List.replicate 4 0) ip 32
  match add m table.root4 32 key cidr peer a1 a2 fuel with
  | .ok (r, m, root) => .ok (r, { table with root4 := root }, m)
  | .bad_access => .bad_access
  | .assert_failed => .assert_failed
  | .out_of_fuel => .out_of_fuel

/-- Source lines 341-351. -/
def wg_whitelist_insert_v6 (table : whitelist) (m : Mem) (ip : List u8) (cidr : Nat)
    (peer : Option Nat) (a1 a2 : Bool) (fuel : Nat) : Outcome (Nat × whitelist × Mem) :=
  let table := { table with seq := table.seq + 1 }
  let key := native_endian (List.replicate 16 0) ip 128
  match add m table.root6 128 key cidr peer a1 a2 fuel with
  | .ok (r, m, root) => .ok (r, { table with root6 := root }, m)
  | .bad_access => .bad_access
  | .assert_failed => .assert_failed
  | .out_of_fuel => .out_of_fuel

/-- A `struct whitelist_node **`: the address of the root pointer or of `node->bit[i]`. -/
inductive Slot where
  | top : Slot
  | child : Nat → Nat → Slot
  deriving DecidableEq, Repr

/-- Variables of the loop of `walk_remove_by_peer`: memory, `*top`, `stack[0..len)` with
`stack[len - 1]` first, and `prev`. -/
structure WalkState where
  m : Mem
  root : Option Nat
  stack : List Slot
  prev : Option Nat

/-- Load `*nptr`. -/
def WalkState.deref (st : WalkState) (nptr : Slot) : Outcome (Option Nat) :=
  match nptr with
  | .top => .ok st.root
  | .child p i =>
    match st.m.heap p with
    | none => .bad_access
    | some n => .ok (n.bit i)

/-- Store `*nptr = v`. -/
def WalkState.assign (st : WalkState) (nptr : Slot) (v : Option Nat) : Outcome WalkState :=
  match nptr with
  | .top => .ok { st with root := v }
  | .child p i =>
    match st.m.heap p with
    | none => .bad_access
    | some n => .ok { st with m := st.m.store p (n.set_bit i v) }

/-- The statement macro `PUSH(p)` (lines 85-88): `MPASS(len < 128); stack[len++] = p`. -/
def PUSH (st : WalkState) (p : Slot) : Outcome WalkState :=
  if st.stack.length < 128 then .ok { st with stack := p :: st.stack }
  else .assert_failed

/-- One iteration of the loop of `walk_remove_by_peer` (lines 98-124) followed by the
loop increment `prev = node`. -/
def walk_step (peer : Nat) (st : WalkState) : Outcome WalkState :=
  match st.stack with
  | [] => .ok st
  | nptr :: rest => do
    let node ← st.deref nptr
    match node with
    | none => .ok { st with stack := rest, prev := none }
    | some nd =>
      let n ← st.m.read nd
      let descending ←
        (match st.prev with
         | none => Outcome.ok true
         | some pv =>
           match st.m.heap pv with
           | none => Outcome.bad_access
           | some pn => Outcome.ok (decide (pn.bit0 = some nd ∨ pn.bit1 = some nd)))
      if descending then
        if n.bit0 ≠ none then
          let st ← PUSH st (.child nd 0)
          .ok { st with prev := some nd }
        else if n.bit1 ≠ none then
          let st ← PUSH st (.child nd 1)
          .ok { st with prev := some nd }
        else .ok { st with prev := some nd }
      else if n.bit0 = st.prev then
        if n.bit1 ≠ none then
          let st ← PUSH st (.child nd 1)
          .ok { st with prev := some nd }
        else .ok { st with prev := some nd }
      else
        if n.peer = some peer then
          let m ← st.m.update nd (fun n => { n with peer := none })
          let m := list_del m nd
          let st := { st with m := m }
          if n.bit0 = none ∨ n.bit1 = none then
            let st ← st.assign nptr (n.bit (if n.bit0 ≠ none then 0 else 1))
            let st := { st with m := st.m.free nd }
            let node ← st.deref nptr
            .ok { st with stack := rest, prev := node }
          else .ok { st with stack := rest, prev := some nd }
        else .ok { st with stack := rest, prev := some nd }

/-- The `for` loop of `walk_remove_by_peer` (line 97): iterate while `len > 0`. -/
def walk_loop (peer : Nat) : Nat → WalkState → Outcome WalkState
  | fuel, st =>
    if st.stack = [] then .ok st
    else
      match fuel with
      | 0 => .out_of_fuel
      | fuel + 1 =>
        match walk_step peer st with
        | .ok st => walk_loop peer fuel st
        | .bad_access => .bad_access
        | .assert_failed => .assert_failed
        | .out_of_fuel => .out_of_fuel

/-- Source lines 80-129.  The result is the memory and the value of `*top`. -/
def walk_remove_by_peer (m : Mem) (top : Option Nat) (peer : Option Nat) (fuel : Nat) :
    Outcome (Mem × Option Nat) :=
  match peer, top with
  | none, _ => .ok (m, top)
  | some _, none => .ok (m, top)
  | some pr, some _ =>
    match PUSH { m := m, root := top, stack := [], prev := none } .top with
    | .ok st =>
      match walk_loop pr fuel st with
      | .ok st => .ok (st.m, st.root)
      | .bad_access => .bad_access
      | .assert_failed => .assert_failed
      | .out_of_fuel => .out_of_fuel
    | .bad_access => .bad_access
    | .assert_failed => .assert_failed
    | .out_of_fuel => .out_of_fuel

/-- Source lines 353-360. -/
def wg_whitelist_remove_by_peer (table : whitelist) (m : Mem) (peer : Option Nat)
    (fuel : Nat) : Outcome (whitelist × Mem) :=
  let table := { table with seq := table.seq + 1 }
  match walk_remove_by_peer m table.root4 peer fuel with
  | .ok (m, r4) =>
    match walk_remove_by_peer m table.root6 peer fuel with
    | .ok (m, r6) => .ok ({ table with root4 := r4, root6 := r6 }, m)
    | .bad_access => .bad_access
    | .assert_failed => .assert_failed
    | .out_of_fuel => .out_of_fuel
  | .bad_access => .bad_access
  | .assert_failed => .assert_failed
  | .out_of_fuel => .out_of_fuel

/-- The C expression `DIV_ROUND_UP(n, d)`. -/
def DIV_ROUND_UP (n d : Nat) : Nat := (n + d - 1) / d

/-- The byte `ip[k] &= ~0U << (-cidr % 8U)` of line 369: `-cidr` is an `int` that the
unsigned remainder converts modulo `2 ^ 32`, and the store truncates to eight bits. -/
def mask_last_byte (b : u8) (cidr : Nat) : u8 :=
  ⟨(b.val &&& (((2 ^ 32 - 1) <<< ((2 ^ 32 - cidr) % 2 ^ 32 % 8)) % 2 ^ 32)) % 256,
    Nat.mod_lt _ (by decide)⟩

/-- Fill `n` bytes of `buf` from offset `off` with zero (`memset(buf + off, 0, n)`). -/
def memset_zero (buf : List u8) (off n : Nat) : List u8 :=
  buf.take off ++ List.replicate n 0 ++ buf.drop (off + n)

/-- Source lines 362-373: the result is `(ip, *cidr, family)`; `ip` is the caller's
16-byte buffer. -/
def wg_whitelist_read_node (node : whitelist_node) (ip : List u8) : List u8 × Nat × Nat :=
  let cidr_bytes := DIV_ROUND_UP node.cidr 8
  let ip := native_endian ip node.bits node.bitlen
  let ip := memset_zero ip cidr_bytes (node.bitlen / 8 - cidr_bytes)
  let ip :=
    if node.cidr ≠ 0 then
      match ip[cidr_bytes - 1]? with
      | some b => ip.set (cidr_bytes - 1) (mask_last_byte b node.cidr)
      | none => ip
    else ip
  (ip, node.cidr, if node.bitlen = 32 then AF_INET else AF_INET6)

end WG


namespace WG

/-! ## Specification-level notions -/

/-- Bit `i` of a wire-order address, counting from the most significant bit of byte 0. -/
def wire_bit (a : List u8) (i : Nat) : Bool := (a.getD (i / 8) 0).val.testBit (7 - i % 8)

/-- The unsigned integer that `common_bits` compares: the `bits`-bit host-order value of a key. -/
def key_val (bits : Nat) (k : List u8) : Nat :=
  if bits = 32 then load32 k else load64 k * 2 ^ 64 + load64 (k.drop 8)

/-- Bit `i` of a host-order key, counting from the most significant bit of its value. -/
def kbit (bits : Nat) (k : List u8) (i : Nat) : Bool := (key_val bits k).testBit (bits - 1 - i)

/-- A node is reachable from a root pointer through child pointers. -/
inductive Reach (h : Nat → Option whitelist_node) : Option Nat → Nat → Prop where
  | root (p : Nat) : Reach h (some p) p
  | left (r : Option Nat) (p q : Nat) (n : whitelist_node) :
      Reach h r p → h p = some n → n.bit0 = some q → Reach h r q
  | right (r : Option Nat) (p q : Nat) (n : whitelist_node) :
      Reach h r p → h p = some n → n.bit1 = some q → Reach h r q

/-! ## The trie as a tree

The pointer structure below a root is described by a tree that records, for every node, its
address, prefix length, stored key and peer. -/

/-- Shape of the pointer structure below a root. -/
inductive Tree where
  | nil : Tree
  | node (p : Nat) (cidr : Nat) (bs : List u8) (peer : Option Nat) (l r : Tree) : Tree
  deriving DecidableEq, Repr

/-- Root address of a tree. -/
def Tree.ptr : Tree → Option Nat
  | .nil => none
  | .node p _ _ _ _ _ => some p

/-- Addresses of the nodes of a tree. -/
def Tree.ptrs : Tree → List Nat
  | .nil => []
  | .node p _ _ _ l r => p :: (l.ptrs ++ r.ptrs)

/-- Number of nodes on the longest downward path. -/
def Tree.height : Tree → Nat
  | .nil => 0
  | .node _ _ _ _ l r => max l.height r.height + 1

/-- The node record written by `copy_and_assign_cidr` plus peer and children. -/
def mk_node (bits cidr : Nat) (bs : List u8) (peer l r : Option Nat) : whitelist_node :=
  { peer := peer, bit0 := l, bit1 := r, cidr := cidr,
    bit_at_a := (cidr / 8) ^^^ ((bits / 8 - 1) % 8), bit_at_b := 7 - cidr % 8,
    bitlen := bits, bits := bs }

/-- The heap holds the tree: every node of the tree is stored at its address. -/
def Laid (bits : Nat) (h : Nat → Option whitelist_node) : Tree → Prop
  | .nil => True
  | .node p c bs pe l r =>
    h p = some (mk_node bits c bs pe l.ptr r.ptr) ∧ Laid bits h l ∧ Laid bits h r

/-- Radix-trie ordering: below a node of prefix length `c` every node is longer than `c`,
agrees with it on the first `c` bits and has bit `c` equal to the branch taken. -/
def TInv (bits : Nat) : Nat → (Nat → Bool) → Tree → Prop
  | _, _, .nil => True
  | lo, pre, .node _ c bs _ l r =>
    lo ≤ c ∧ c ≤ bits ∧ bs.length = 16 ∧ (∀ i, i < lo → kbit bits bs i = pre i) ∧
    TInv bits (c + 1) (fun i => if i = c then false else kbit bits bs i) l ∧
    TInv bits (c + 1) (fun i => if i = c then true else kbit bits bs i) r

/-- The key bytes as stored in a fresh node by `copy_and_assign_cidr`. -/
def key_bits (bits : Nat) (key : List u8) : List u8 :=
  memcpy (List.replicate 16 0) key (bits / 8)

/-- The value `common_bits` computes from the stored bytes of a node. -/
def cbits (bits : Nat) (bs key : List u8) : Nat :=
  common_bits (mk_node bits 0 bs none none none) key bits

/-- Effect of a successful `add` on the tree; `np` is the allocator break. -/
def addT (bits : Nat) (key : List u8) (cidr pe np : Nat) : Tree → Tree
  | .nil => .node np cidr (key_bits bits key) (some pe) .nil .nil
  | .node p c bs po l r =>
    if c ≤ cidr ∧ c ≤ cbits bits bs key then
      if c = cidr then .node p c bs (some pe) l r
      else if kbit bits key c then .node p c bs po l (addT bits key cidr pe np r)
      else .node p c bs po (addT bits key cidr pe np l) r
    else
      let kb := key_bits bits key
      let cb := min cidr (cbits bits bs key)
      let down := Tree.node p c bs po l r
      if cidr = cb then
        if kbit bits bs cidr then .node np cidr kb (some pe) .nil down
        else .node np cidr kb (some pe) down .nil
      else
        let leaf := Tree.node np cidr kb (some pe) .nil .nil
        let kb2 := key_bits bits kb
        let i := kbit bits bs cb
        let j := kbit bits kb cb
        .node (np + 1) cb kb2 none
          (if j then (if i then .nil else down) else leaf)
          (if j then leaf else (if i then down else .nil))

/-- Address of the node that carries the route after a successful `add`. -/
def placedT (bits : Nat) (key : List u8) (cidr np : Nat) : Tree → Nat
  | .nil => np
  | .node p c bs _ l r =>
    if c ≤ cidr ∧ c ≤ cbits bits bs key then
      if c = cidr then p
      else if kbit bits key c then placedT bits key cidr np r
      else placedT bits key cidr np l
    else np

/-- Effect of `walk_remove_by_peer` on the tree. -/
def removeT (pe : Nat) : Tree → Tree
  | .nil => .nil
  | .node p c bs po l r =>
    let l := removeT pe l
    let r := removeT pe r
    if po = some pe then
      if l.ptr = none ∨ r.ptr = none then (if l.ptr ≠ none then l else r)
      else .node p c bs none l r
    else .node p c bs po l r

/-- Addresses of the nodes whose peer is `pe`. -/
def Tree.owned (pe : Nat) : Tree → List Nat
  | .nil => []
  | .node p _ _ po l r => (if po = some pe then [p] else []) ++ (l.owned pe ++ r.owned pe)

/-- Nodes met by the search for `key`: address, prefix length and peer of every node whose
prefix the key matches, from the root downwards. -/
def pathT (bits : Nat) (key : List u8) : Tree → List (Nat × Nat × Option Nat)
  | .nil => []
  | .node p c bs pe l r =>
    if c ≤ cbits bits bs key then
      (p, c, pe) ::
        (if c = bits then []
         else if kbit bits key c then pathT bits key r else pathT bits key l)
    else []

/-- Every node has two children or a peer. -/
def Full : Tree → Prop
  | .nil => True
  | .node _ _ _ pe l r => ((l.ptr ≠ none ∧ r.ptr ≠ none) ∨ pe ≠ none) ∧ Full l ∧ Full r

end WG


namespace WG

/-- Peer bound to the prefix of length `c` among the nodes of a search path. -/
def route_at (path : List (Nat × Nat × Option Nat)) (c : Nat) : Option Nat :=
  match path with
  | [] => none
  | e :: rest => if e.2.1 = c then e.2.2 else route_at rest c

/-- The node `find_node` remembers: the last node of the path that carries a peer. -/
def path_found (found : Option Nat) : List (Nat × Nat × Option Nat) → Option Nat
  | [] => found
  | e :: rest => path_found (if e.2.2.isSome then some e.1 else found) rest

/-- Peer of the last node of a search path that carries one. -/
def path_best (best : Option Nat) : List (Nat × Nat × Option Nat) → Option Nat
  | [] => best
  | e :: rest => path_best (if e.2.2.isSome then e.2.2 else best) rest

end WG

namespace WG

/-- What `add` may assume about the subtree it descends into and about the node above it. -/
def AddPre (bits : Nat) (m : Mem) (key : List u8) (cidr : Nat) (trie : Option Nat) (t : Tree)
    (parent : Option Nat) (pc : Nat) (pbs : List u8) (ppo pl pr2 : Option Nat) : Prop :=
  Laid bits m.heap t ∧ t.ptrs.Nodup ∧ (∀ q, q ∈ t.ptrs → q < m.brk) ∧
  (parent = none → t.ptr = trie ∧ t.ptr ≠ none) ∧
  (∀ par, parent = some par → par < m.brk ∧ par ∉ t.ptrs ∧ pc < cidr ∧
    m.heap par = some (mk_node bits pc pbs ppo pl pr2) ∧
    (if kbit bits key pc then pr2 else pl) = t.ptr)

/-- What a successful `add` establishes for the subtree and for the node above it. -/
def AddPost (bits : Nat) (m : Mem) (key : List u8) (cidr pr : Nat) (trie : Option Nat)
    (t : Tree) (parent : Option Nat) (pc : Nat) (pbs : List u8) (ppo pl pr2 : Option Nat)
    (m2 : Mem) (trie2 : Option Nat) : Prop :=
  Laid bits m2.heap (addT bits key cidr pr m.brk t) ∧
  (parent = none → trie2 = (addT bits key cidr pr m.brk t).ptr) ∧
  (∀ par, parent = some par → trie2 = trie ∧
    m2.heap par = some (mk_node bits pc pbs ppo
      (if kbit bits key pc then pl else (addT bits key cidr pr m.brk t).ptr)
      (if kbit bits key pc then (addT bits key cidr pr m.brk t).ptr else pr2))) ∧
  (∀ q, q < m.brk → q ∉ t.ptrs → parent ≠ some q → m2.heap q = m.heap q) ∧
  m.brk ≤ m2.brk ∧ m2.brk ≤ m.brk + 2 ∧
  (∀ q, q ∈ (addT bits key cidr pr m.brk t).ptrs → q < m2.brk) ∧
  m2.lists = (if placedT bits key cidr m.brk t = m.brk then list_add_tail m m.brk pr
    else list_move_tail m (placedT bits key cidr m.brk t) pr).lists

end WG

namespace WG

/-- What a call of `add` that fails with `ENOMEM` leaves behind. -/
def AddFail (m : Mem) (pr : Nat) (m2 : Mem) (trie trie2 : Option Nat) : Prop :=
  trie2 = trie ∧ (∀ q, q < m.brk → m2.heap q = m.heap q) ∧ m.brk ≤ m2.brk ∧
  m2.brk ≤ m.brk + 1 ∧
  (m2.lists = m.lists ∨ (m2.lists = (list_add_tail m m.brk pr).lists ∧ m2.heap m.brk = none))

end WG

namespace WG

/-- Memory after lines 251-256 of `add`: the new node is allocated, owned by `pr` and filled in. -/
def leaf_mem (m : Mem) (bits : Nat) (key : List u8) (cidr pr : Nat) : Mem :=
  { heap := fun q => if q = m.brk then
      some (mk_node bits cidr (key_bits bits key) (some pr) none none) else m.heap q,
    brk := m.brk + 1,
    lists := (list_add_tail m m.brk pr).lists }

end WG

namespace WG

/-- What a successful call of `add` on the trie `t` establishes. -/
def AddDone (bits : Nat) (m : Mem) (key : List u8) (cidr pr : Nat) (t : Tree) (m2 : Mem)
    (trie2 : Option Nat) : Prop :=
  trie2 = (addT bits key cidr pr m.brk t).ptr ∧
  Laid bits m2.heap (addT bits key cidr pr m.brk t) ∧
  (∀ q, q < m.brk → q ∉ t.ptrs → m2.heap q = m.heap q) ∧
  m.brk ≤ m2.brk ∧ m2.brk ≤ m.brk + 2 ∧
  (∀ q, q ∈ (addT bits key cidr pr m.brk t).ptrs → q < m2.brk) ∧
  m2.lists = (if placedT bits key cidr m.brk t = m.brk then list_add_tail m m.brk pr
    else list_move_tail m (placedT bits key cidr m.brk t) pr).lists

/-- A run that, if it returns, returns 0 or `ENOMEM`. -/
def Errs {α : Type} (x : Outcome (Nat × α)) : Prop :=
  ∀ e r, x = .ok (e, r) → e = 0 ∨ e = ENOMEM

end WG


namespace WG

/-! ## Description of the traversal of `walk_remove_by_peer` -/

/-- Number of nodes of a tree. -/
def Tree.size : Tree → Nat
  | .nil => 0
  | .node _ _ _ _ l r => l.size + r.size + 1

/-- The node that holds a slot, if the slot is a child pointer. -/
def Slot.owner : Slot → Option Nat
  | .top => none
  | .child p _ => some p

/-- The state after storing `v` into a slot. -/
def slot_set (st : WalkState) (s : Slot) (v : Option Nat) : WalkState :=
  match s with
  | .top => { st with root := v }
  | .child p i =>
    match st.m.heap p with
    | none => st
    | some n => { st with m := st.m.store p (n.set_bit i v) }

/-- From `st` the loop reaches `st2` after finitely many iterations. -/
def Runs (peer : Nat) (st st2 : WalkState) : Prop :=
  ∃ k, ∀ f, walk_loop peer (k + f) st = walk_loop peer f st2

/-- From `st` the loop stops at a failed `MPASS` after finitely many iterations. -/
def Fails (peer : Nat) (st : WalkState) : Prop :=
  ∃ k, ∀ f, walk_loop peer (k + f) st = .assert_failed

/-- The loop is about to enter the subtree `t` held by the slot on top of the stack. -/
def WalkPre (bits : Nat) (st : WalkState) (s : Slot) (rest : List Slot) (t : Tree) : Prop :=
  st.stack = s :: rest ∧ st.deref s = .ok t.ptr ∧ t.ptr ≠ none ∧
  Laid bits st.m.heap t ∧ t.ptrs.Nodup ∧ (∀ p, s.owner = some p → p ∉ t.ptrs) ∧
  (st.prev = none ∨ ∃ pv pn, st.prev = some pv ∧ st.m.heap pv = some pn ∧
    (pn.bit0 = t.ptr ∨ pn.bit1 = t.ptr))

/-- The loop has left the subtree `t`: the slot holds what is left of it. -/
def WalkPost (bits peer : Nat) (st : WalkState) (s : Slot) (rest : List Slot) (t : Tree)
    (st2 : WalkState) : Prop :=
  st2.stack = rest ∧ st2.prev = (removeT peer t).ptr ∧
  Laid bits st2.m.heap (removeT peer t) ∧
  st2.root = (slot_set st s (removeT peer t).ptr).root ∧
  (∀ x, x ∉ t.ptrs → st2.m.heap x = (slot_set st s (removeT peer t).ptr).m.heap x) ∧
  st2.m.brk = st.m.brk ∧
  st2.m.lists = fun pe => (st.m.lists pe).filter (fun x => decide (x ∉ t.owned peer))

/-- The tree that is left of a node once both subtrees have been treated. -/
def finishT (peer : Nat) (p c : Nat) (bs : List u8) (po : Option Nat) (l r : Tree) : Tree :=
  if po = some peer then
    if l.ptr = none ∨ r.ptr = none then (if l.ptr ≠ none then l else r)
    else .node p c bs none l r
  else .node p c bs po l r

/-- The loop is at the node `q`, between the treatment of its subtrees: `dl` and `dr` tell
which of the two subtrees have been treated since the state `st0`. -/
def WalkMid (bits peer : Nat) (st0 st : WalkState) (s : Slot) (rest : List Slot) (q c : Nat)
    (bs : List u8) (po : Option Nat) (l r : Tree) (dl dr : Bool) : Prop :=
  st.stack = s :: rest ∧ st.deref s = .ok (some q) ∧
  st.m.heap q = some (mk_node bits c bs po (if dl then removeT peer l else l).ptr
    (if dr then removeT peer r else r).ptr) ∧
  Laid bits st.m.heap (if dl then removeT peer l else l) ∧
  Laid bits st.m.heap (if dr then removeT peer r else r) ∧
  st.root = st0.root ∧
  (∀ x, x ≠ q → x ∉ l.ptrs → x ∉ r.ptrs → st.m.heap x = st0.m.heap x) ∧
  st.m.brk = st0.m.brk ∧
  st.m.lists = fun pe => (st0.m.lists pe).filter (fun x =>
    decide (x ∉ (if dl then l.owned peer else []) ++ (if dr then r.owned peer else [])))

/-- Outcome of the treatment of the subtree `t` entered in state `st0`, seen from a later
state `st`: the loop leaves the subtree, or it stops at the stack assertion. -/
def WalkResult (bits peer : Nat) (st0 st : WalkState) (s : Slot) (rest : List Slot)
    (t : Tree) : Prop :=
  (∃ st2, Runs peer st st2 ∧ WalkPost bits peer st0 s rest t st2) ∨
    (Fails peer st ∧ 128 < rest.length + t.height)

end WG


namespace WG

/-! ## Tables and sequences of calls -/

/-- A configuration call on a table.  For an insert `a1` and `a2` tell which of its
allocations succeed. -/
inductive Call where
  | insert_v4 (ip : List u8) (cidr : Nat) (peer : Option Nat) (a1 a2 : Bool) : Call
  | insert_v6 (ip : List u8) (cidr : Nat) (peer : Option Nat) (a1 a2 : Bool) : Call
  | remove_by_peer (peer : Option Nat) : Call
  deriving DecidableEq, Repr

/-- Run one call.  The result of the `void` function `wg_whitelist_remove_by_peer` is given
as 0. -/
def Call.run (c : Call) (table : whitelist) (m : Mem) (fuel : Nat) :
    Outcome (Nat × whitelist × Mem) :=
  match c with
  | .insert_v4 ip cidr peer a1 a2 => wg_whitelist_insert_v4 table m ip cidr peer a1 a2 fuel
  | .insert_v6 ip cidr peer a1 a2 => wg_whitelist_insert_v6 table m ip cidr peer a1 a2 fuel
  | .remove_by_peer peer =>
    match wg_whitelist_remove_by_peer table m peer fuel with
    | .ok (table, m) => .ok (0, table, m)
    | .bad_access => .bad_access
    | .assert_failed => .assert_failed
    | .out_of_fuel => .out_of_fuel

/-- The address argument has the size of its C type: four bytes for a `struct in_addr`,
sixteen for a `struct in6_addr`. -/
def Call.typed : Call → Prop
  | .insert_v4 ip _ _ _ _ => ip.length = 4
  | .insert_v6 ip _ _ _ _ => ip.length = 16
  | .remove_by_peer _ => True

instance : (c : Call) → Decidable c.typed
  | .insert_v4 ip _ _ _ _ => inferInstanceAs (Decidable (ip.length = 4))
  | .insert_v6 ip _ _ _ _ => inferInstanceAs (Decidable (ip.length = 16))
  | .remove_by_peer _ => inferInstanceAs (Decidable True)

/-- The call is an insert. -/
def Call.inserts : Call → Bool
  | .insert_v4 _ _ _ _ _ => true
  | .insert_v6 _ _ _ _ _ => true
  | .remove_by_peer _ => false

/-- The tables reached from the table and memory `s` by a sequence of calls each of which
returned, the inserts with result 0. -/
inductive Reached (s : whitelist × Mem) : List Call → whitelist → Mem → Prop where
  | first : Reached s [] s.1 s.2
  | step (cs : List Call) (c : Call) (table table2 : whitelist) (m m2 : Mem) (fuel : Nat) :
      Reached s cs table m → c.typed → c.run table m fuel = .ok (0, table2, m2) →
      Reached s (cs ++ [c]) table2 m2

/-- Run a sequence of calls from a given table; `none` when a call does not return 0. -/
def run_calls (fuel : Nat) : List Call → whitelist × Mem → Option (whitelist × Mem)
  | [], s => some s
  | c :: cs, s =>
    match c.run s.1 s.2 fuel with
    | .ok (0, table, m) => run_calls fuel cs (table, m)
    | _ => none

/-- The table of `wg_whitelist_init` in a memory without nodes. -/
def start : whitelist × Mem := (wg_whitelist_init { root4 := none, root6 := none, seq := 0 },
  Mem.empty)

/-- A table whose IPv4 trie is the single node of the prefix `ip/cidr` for the peer `pr`,
written into an empty memory directly: the node 0 is filled in as `add` fills in a new node
(lines 251-256), it is the only entry of the list of `pr`, and `root4` points to it. -/
def seed_v4 (ip : List u8) (cidr pr : Nat) : whitelist × Mem :=
  ({ root4 := some 0, root6 := none, seq := 1 },
    leaf_mem Mem.empty 32 (native_endian (List.replicate 4 0) ip 32) cidr pr)

/-- A table whose IPv6 trie is the single node of the prefix `ip/cidr` for the peer `pr`,
written into an empty memory directly. -/
def seed_v6 (ip : List u8) (cidr pr : Nat) : whitelist × Mem :=
  ({ root4 := none, root6 := some 0, seq := 1 },
    leaf_mem Mem.empty 128 (native_endian (List.replicate 16 0) ip 128) cidr pr)

/-- The table and memory after a sequence of calls on the table and memory `s`, each run
with fuel 200; `s` itself if one of the calls does not return 0. -/
def after (s : whitelist × Mem) (cs : List Call) : whitelist × Mem :=
  (run_calls 200 cs s).getD s

/-- One route: the table whose IPv4 trie is the single node 10.0.0.0/8 of peer 1. -/
def first_route : whitelist × Mem := seed_v4 [10, 0, 0, 0] 8 1

/-- The routes of the scenario of the specification, 10.0.0.0/8 for peer 1 and 10.1.0.0/16
for peer 2: the table of `first_route` after the insert of 10.1.0.0/16 for peer 2. -/
def scenario : whitelist × Mem :=
  after first_route [.insert_v4 [10, 1, 0, 0] 16 (some 2) true true]

/-- Two sibling routes, 10.0.0.0/8 for peer 1 and 11.0.0.0/8 for peer 2: the table of
`first_route` after the insert of 11.0.0.0/8 for peer 2. -/
def siblings : whitelist × Mem :=
  after first_route [.insert_v4 [11, 0, 0, 0] 8 (some 2) true true]

/-- The run returned. -/
def Outcome.returned {α : Type} (x : Outcome α) : Bool :=
  match x with
  | .ok _ => true
  | .bad_access => false
  | .assert_failed => false
  | .out_of_fuel => false

/-- The run stopped at a load or store through a bad pointer. -/
def Outcome.faulted {α : Type} (x : Outcome α) : Bool :=
  match x with
  | .ok _ => false
  | .bad_access => true
  | .assert_failed => false
  | .out_of_fuel => false

/-- The value that a run returned, or `d` when it did not return. -/
def Outcome.get {α : Type} (x : Outcome α) (d : α) : α :=
  match x with
  | .ok a => a
  | .bad_access => d
  | .assert_failed => d
  | .out_of_fuel => d

/-- The table and memory after the removal of the peer `p` from the table and memory `s`,
run with fuel 200. -/
def after_remove (s : whitelist × Mem) (p : Nat) : whitelist × Mem :=
  (wg_whitelist_remove_by_peer s.1 s.2 (some p) 200).get start

/-- The table and memory after the insert of the IPv4 prefix `ip/cidr` for the peer `p` into
the table and memory `s`, with every allocation succeeding and fuel 200. -/
def after_insert_v4 (s : whitelist × Mem) (ip : List u8) (cidr p : Nat) : whitelist × Mem :=
  ((wg_whitelist_insert_v4 s.1 s.2 ip cidr (some p) true true 200).get (0, start)).2

/-- Readers see the same trie in `(table2, m2)` as in `(table, m)`: the root pointers are
equal, every node reachable from a root is unchanged and every lookup gives the same
result. -/
def SameForReaders (table table2 : whitelist) (m m2 : Mem) : Prop :=
  table2.root4 = table.root4 ∧ table2.root6 = table.root6 ∧
  (∀ x, (Reach m.heap table.root4 x ∨ Reach m.heap table.root6 x) → m2.heap x = m.heap x) ∧
  (∀ q, q.length = 4 → ∀ f, 33 ≤ f →
    lookup m2 table2.root4 32 q f = lookup m table.root4 32 q f) ∧
  (∀ q, q.length = 16 → ∀ f, 129 ≤ f →
    lookup m2 table2.root6 128 q f = lookup m table.root6 128 q f)

/-! ## Longest-prefix match, as the specification states it -/

/-- The first `cidr` bits of two wire-order addresses are equal. -/
def same_lead (a b : List u8) (cidr : Nat) : Prop :=
  ∀ i, i < cidr → wire_bit a i = wire_bit b i

instance (a b : List u8) (cidr : Nat) : Decidable (same_lead a b cidr) :=
  inferInstanceAs (Decidable (∀ i, i < cidr → wire_bit a i = wire_bit b i))

/-- The binding of the longest bound prefix, looking from length `n` downwards. -/
def lpm_from (route : Nat → Option Nat) : Nat → Option Nat
  | 0 => route 0
  | n + 1 =>
    match route (n + 1) with
    | some p => some p
    | none => lpm_from route n

/-- The prefix of the node `n` covers the wire-order address `q`: with the key that `lookup`
computes from `q`, `prefix_matches` holds, that is, the first `n.cidr` bits of the prefix
are those of `q`. -/
def covers (bits : Nat) (n : whitelist_node) (q : List u8) : Prop :=
  prefix_matches n (native_endian (List.replicate 16 0) q bits) bits = true

/-- The result `r` is the longest-prefix match of the address `q` in the trie below `root`:
if it is a peer, a reachable node whose prefix covers `q` carries it and no reachable node
with a peer and a longer prefix covers `q`; if it is no peer, no reachable node whose
prefix covers `q` carries a peer. -/
def IsLpm (m : Mem) (root : Option Nat) (bits : Nat) (q : List u8) (r : Option Nat) : Prop :=
  (∀ p, r = some p → ∃ x n, Reach m.heap root x ∧ m.heap x = some n ∧ n.peer = some p ∧
    covers bits n q ∧
    ∀ y k, Reach m.heap root y → m.heap y = some k → k.peer ≠ none → covers bits k q →
      k.cidr ≤ n.cidr) ∧
  (r = none → ∀ y k, Reach m.heap root y → m.heap y = some k → covers bits k q →
    k.peer = none)

/-! ## Invariant of a table -/

/-- Two tries share the memory: the tree `t` with keys of `bits` bits and the tree `u` with
keys of `ubits` bits are laid out on disjoint nodes, both are ordered, and the node list of
every peer holds the nodes of the two trees that carry the peer, each once. -/
def PairInv (bits ubits : Nat) (m : Mem) (t u : Tree) : Prop :=
  Laid bits m.heap t ∧ Laid ubits m.heap u ∧
  TInv bits 0 (fun _ => false) t ∧ TInv ubits 0 (fun _ => false) u ∧
  (t.ptrs ++ u.ptrs).Nodup ∧ (∀ x, x ∈ t.ptrs ++ u.ptrs → x < m.brk) ∧
  (∀ pe, (m.lists pe).Nodup ∧ ∀ x, x ∈ m.lists pe ↔ x ∈ t.owned pe ∨ x ∈ u.owned pe)

/-- Effect of `walk_remove_by_peer` on the tree, for a peer that may be `NULL`. -/
def removeO (peer : Option Nat) (t : Tree) : Tree :=
  match peer with
  | none => t
  | some pe => removeT pe t

/-- The trees `t4` and `t6` describe the two tries of a table. -/
def TableInv (table : whitelist) (m : Mem) (t4 t6 : Tree) : Prop :=
  t4.ptr = table.root4 ∧ t6.ptr = table.root6 ∧ PairInv 32 128 m t4 t6

/-- The table is well formed: below each root pointer the memory holds a tree of nodes, no
node met twice or shared between the two tries, each trie ordered as a radix trie of its key
width (along every path the prefixes get longer, each extending the one above by the branch
taken), and the node list of every peer holds exactly the nodes that carry the peer, each
once.  The empty table of `wg_whitelist_init` is well formed, and so is every table that
the calls reach from a well-formed one. -/
def WellFormed (table : whitelist) (m : Mem) : Prop := ∃ t4 t6, TableInv table m t4 t6

/-- Every node reachable from a root has two non-null children or carries a peer. -/
def NodesFull (table : whitelist) (m : Mem) : Prop :=
  ∀ x n, (Reach m.heap table.root4 x ∨ Reach m.heap table.root6 x) → m.heap x = some n →
    (n.bit0 ≠ none ∧ n.bit1 ≠ none) ∨ n.peer ≠ none

end WG


namespace WG

/-! ## Freeing the table (`whitelist.c`, lines 42-78 and 305-327) -/

/-- Source lines 42-50: `push_rcu(stack, p, &len)`.  The stack holds `stack[0..len)` with
`stack[len - 1]` first. -/
def push_rcu (stack : List Nat) (p : Option Nat) : Outcome (List Nat) :=
  match p with
  | none => .ok stack
  | some q => if stack.length < 128 then .ok (q :: stack) else .assert_failed

/-- The loop of `root_free_rcu` (lines 58-62): pop a node, push its children, free it.  Only
non-null nodes are ever on the stack, so the loop ends when `len` is 0. -/
def root_free_rcu_loop : Nat → Mem → List Nat → Outcome Mem
  | _, m, [] => .ok m
  | 0, _, _ :: _ => .out_of_fuel
  | fuel + 1, m, node :: stack => do
    let n ← m.read node
    let stack ← push_rcu stack n.bit0
    let stack ← push_rcu stack n.bit1
    root_free_rcu_loop fuel (m.free node) stack

/-- Source lines 52-64, run when `call_rcu` fires. -/
def root_free_rcu (m : Mem) (root : Nat) (fuel : Nat) : Outcome Mem :=
  root_free_rcu_loop fuel m [root]

/-- The loop of `root_remove_peer_lists` (lines 72-77): pop a node, push its children, and
unlink the node from the list of its peer if it has one. -/
def root_remove_peer_lists_loop : Nat → Mem → List Nat → Outcome Mem
  | _, m, [] => .ok m
  | 0, _, _ :: _ => .out_of_fuel
  | fuel + 1, m, node :: stack => do
    let n ← m.read node
    let stack ← push_rcu stack n.bit0
    let stack ← push_rcu stack n.bit1
    root_remove_peer_lists_loop fuel (if n.peer ≠ none then list_del m node else m) stack

/-- Source lines 66-78. -/
def root_remove_peer_lists (m : Mem) (root : Nat) (fuel : Nat) : Outcome Mem :=
  root_remove_peer_lists_loop fuel m [root]

/-- Lines 315-320 and 321-326 of `wg_whitelist_free`: unlink and reclaim one old trie. -/
def free_root (m : Mem) (old : Option Nat) (fuel : Nat) : Outcome Mem :=
  match old with
  | none => .ok m
  | some node => do
    let m ← root_remove_peer_lists m node fuel
    root_free_rcu m node fuel

/-- Source lines 305-327. -/
def wg_whitelist_free (table : whitelist) (m : Mem) (fuel : Nat) : Outcome (whitelist × Mem) :=
  let old4 := table.root4
  let old6 := table.root6
  let table := { table with seq := table.seq + 1 }
  let table := { table with root4 := none }
  let table := { table with root6 := none }
  match free_root m old4 fuel with
  | .ok m =>
    match free_root m old6 fuel with
    | .ok m => .ok (table, m)
    | .bad_access => .bad_access
    | .assert_failed => .assert_failed
    | .out_of_fuel => .out_of_fuel
  | .bad_access => .bad_access
  | .assert_failed => .assert_failed
  | .out_of_fuel => .out_of_fuel

/-! ## Lookup of a packet (lines 375-397) -/

/-- The protocol number `ETH_P_IP`. -/
def ETH_P_IP : Nat := 0x0800

/-- The protocol number `ETH_P_IPV6`. -/
def ETH_P_IPV6 : Nat := 0x86DD

/-- On a little-endian host `htons` swaps the two bytes of its argument. -/
def htons (x : Nat) : Nat := loadLE (storeLE 2 x).reverse

/-- What the lookup functions read of a `struct mbuf`: `skb->protocol` and the address fields
`ip_hdr(skb)->daddr`, `ip_hdr(skb)->saddr`, `ipv6_hdr(skb)->daddr`, `ipv6_hdr(skb)->saddr`. -/
structure mbuf where
  protocol : Nat
  ip_daddr : List u8
  ip_saddr : List u8
  ipv6_daddr : List u8
  ipv6_saddr : List u8

/-- Source lines 375-385. -/
def wg_whitelist_lookup_dst (table : whitelist) (m : Mem) (skb : mbuf) (fuel : Nat) :
    Outcome (Option Nat) :=
  if skb.protocol = htons ETH_P_IP then lookup m table.root4 32 skb.ip_daddr fuel
  else if skb.protocol = htons ETH_P_IPV6 then lookup m table.root6 128 skb.ipv6_daddr fuel
  else .ok none

/-- Source lines 387-397. -/
def wg_whitelist_lookup_src (table : whitelist) (m : Mem) (skb : mbuf) (fuel : Nat) :
    Outcome (Option Nat) :=
  if skb.protocol = htons ETH_P_IP then lookup m table.root4 32 skb.ip_saddr fuel
  else if skb.protocol = htons ETH_P_IPV6 then lookup m table.root6 128 skb.ipv6_saddr fuel
  else .ok none

/-! ## `peer.h` -/

/-- How a call ends: it returns a value or the kernel panics with a message. -/
inductive Run (α : Type) where
  | returned : α → Run α
  | panicked : String → Run α
  deriving DecidableEq, Repr

/-- Lines 71-76 of `include/sys/peer.h`: the call of `kref_get` is commented out and the body
panics before its `return peer`.  The argument is the peer and its reference count, the
result would be the returned peer and the new reference count. -/
def wg_peer_get (_peer : Nat) (_refcount : Nat) : Run (Nat × Nat) :=
  .panicked "XXX"

/-! ## Further specification-level notions -/

/-- Number of leading bits on which two wire-order addresses agree, counted from bit `i` on
and looking at no more than `n` bits. -/
def agree_from (a b : List u8) : Nat → Nat → Nat
  | 0, _ => 0
  | n + 1, i => if wire_bit a i = wire_bit b i then agree_from a b n (i + 1) + 1 else 0

/-- Length of the common prefix of two `bits`-bit wire-order addresses. -/
def common_lead (a b : List u8) (bits : Nat) : Nat := agree_from a b bits 0

/-- Nodes of a tree that carry a peer. -/
def Tree.carriers : Tree → List Nat
  | .nil => []
  | .node p _ _ po l r => (if po ≠ none then [p] else []) ++ (l.carriers ++ r.carriers)

/-- The stack of the whole-trie walks fits: the tree at distance `i` from the bottom of the
stack has no more than `H - i` nodes on a path. -/
def Bounded (H : Nat) : List Tree → Prop
  | [] => True
  | t :: rest => t.height + rest.length ≤ H ∧ Bounded H rest

/-! ## States used in the examples -/

/-- Memory at line 268 of `add` during the insert of 11.0.0.0/8 for peer 2 into the trie of
`first_route`: the new leaf is the node 1 and `down` is the root, the node 0. -/
def split_demo : Mem :=
  leaf_mem first_route.2 32 (native_endian (List.replicate 4 0) [11, 0, 0, 0] 32) 8 2

/-! ## Description of the whole-trie walks -/

/-- The subtrees that a whole-trie walk pushes for a node: the right one on top, `NULL`
children left out. -/
def kids (l r : Tree) : List Tree :=
  (if r.ptr = none then [] else [r]) ++ (if l.ptr = none then [] else [l])

/-- Addresses of the nodes of a list of trees. -/
def forest_ptrs : List Tree → List Nat
  | [] => []
  | t :: ts => t.ptrs ++ forest_ptrs ts

/-- Nodes of a list of trees that carry a peer. -/
def forest_carriers : List Tree → List Nat
  | [] => []
  | t :: ts => t.carriers ++ forest_carriers ts

/-- Number of nodes of a list of trees. -/
def forest_size : List Tree → Nat
  | [] => 0
  | t :: ts => t.size + forest_size ts

/-- The run stopped at a failed `MPASS`. -/
def Outcome.asserted {α : Type} (x : Outcome α) : Bool :=
  match x with
  | .ok _ => false
  | .bad_access => false
  | .assert_failed => true
  | .out_of_fuel => false

/-- The table and memory after `wg_whitelist_free` on the table and memory `s`, run with
fuel 400. -/
def after_free (s : whitelist × Mem) : whitelist × Mem :=
  (wg_whitelist_free s.1 s.2 400).get start

/-- The inserts of the IPv6 prefixes of the address `::` of the lengths `n - 1` down to 0,
the longest first, all for peer 1. -/
def chain_calls (n : Nat) : List Call :=
  (List.range n).reverse.map
    (fun k => Call.insert_v6 (List.replicate 16 0) k (some 1) true true)

/-- An IPv6 trie that is one path of `n + 1` nodes, the prefixes of the address `::` of the
lengths `n` down to 0, all for peer 1: the node of `::/n` is written into an empty memory
directly (`seed_v6`), the prefixes of the lengths `n - 1` down to 0 are inserted after it,
the longest first, each insert becoming the new root. -/
def deep_chain (n : Nat) : whitelist × Mem :=
  after (seed_v6 (List.replicate 16 0) n 1) (chain_calls n)

/-- The IPv6 address whose first `j` bits are one and whose other bits are zero. -/
def ones_lead (j : Nat) : List u8 :=
  (List.range 16).map (fun i => Fin.ofNat (256 - 2 ^ (8 - min 8 (j - 8 * i))))

/-- The inserts of the host routes for the addresses with `n - 1` leading ones down to no
leading one, all for peer 1. -/
def comb_calls (n : Nat) : List Call :=
  (List.range n).reverse.map (fun j => Call.insert_v6 (ones_lead j) 128 (some 1) true true)

/-- An IPv6 trie of `n + 1` host routes, for the addresses with `n` leading ones down to no
leading one, all for peer 1: the node of the first address is written into an empty memory
directly (`seed_v6`), the other addresses are inserted after it.  The branch nodes lie on
one path, each with a leaf as its left child. -/
def comb (n : Nat) : whitelist × Mem :=
  after (seed_v6 (ones_lead n) 128 1) (comb_calls n)

/-- The insert of 10.2.0.0/16 for peer 3 into the trie of `scenario`, where the allocation
of the leaf succeeds and the allocation of the branch node at line 279 fails. -/
def enomem_demo : Outcome (Nat × whitelist × Mem) :=
  wg_whitelist_insert_v4 scenario.1 scenario.2 [10, 2, 0, 0] 16 (some 3) true false 200

end WG


namespace WG

/-! ## The decision bit is read in range

`find_node`, `node_placement` and `add` once more, with the index computation of `CHOOSE_NODE`
as a parameter `ch`.  With `choose_index` for `ch` these are the functions above; with
`choose_index_checked` every evaluation of `CHOOSE_NODE` first checks that the read stays
inside the key. -/

/-- The index of `CHOOSE_NODE` behind a check of its node: the prefix length is below `bits`
and the byte index `bit_at_a` lies inside the `bits / 8` bytes of a key. -/
def choose_index_checked (bits : Nat) (parent : whitelist_node) (key : List u8) :
    Outcome Nat :=
  if parent.cidr < bits ∧ parent.bit_at_a < bits / 8 then choose_index parent key
  else .assert_failed

/-- Value of `CHOOSE_NODE(parent, key)` with the index computed by `ch`. -/
def CHOOSE_NODE_with (ch : whitelist_node → List u8 → Outcome Nat) (parent : whitelist_node)
    (key : List u8) : Outcome (Option Nat) :=
  match ch parent key with
  | .ok i => .ok (parent.bit i)
  | .bad_access => .bad_access
  | .assert_failed => .assert_failed
  | .out_of_fuel => .out_of_fuel

/-- The loop of `find_node` (lines 169-175) with the index computed by `ch`. -/
def find_node_loop_with (ch : whitelist_node → List u8 → Outcome Nat) (m : Mem) (bits : Nat)
    (key : List u8) : Nat → Option Nat → Option Nat → Outcome (Option Nat)
  | _, none, found => .ok found
  | 0, some _, _ => .out_of_fuel
  | fuel + 1, some p, found =>
    match m.heap p with
    | none => .bad_access
    | some node =>
      if prefix_matches node key bits then
        let found := if node.peer.isSome then some p else found
        if node.cidr = bits then .ok found
        else
          match CHOOSE_NODE_with ch node key with
          | .ok next => find_node_loop_with ch m bits key fuel next found
          | .bad_access => .bad_access
          | .assert_failed => .assert_failed
          | .out_of_fuel => .out_of_fuel
      else .ok found

/-- Source lines 180-201 with the index computed by `ch`. -/
def lookup_with (ch : whitelist_node → List u8 → Outcome Nat) (m : Mem) (root : Option Nat)
    (bits : Nat) (be_ip : List u8) (fuel : Nat) : Outcome (Option Nat) :=
  let ip := native_endian (List.replicate 16 0) be_ip bits
  match find_node_loop_with ch m bits ip fuel root none with
  | .ok none => .ok none
  | .ok (some node) =>
    match m.heap node with
    | none => .bad_access
    | some n => .ok n.peer
  | .bad_access => .bad_access
  | .assert_failed => .assert_failed
  | .out_of_fuel => .out_of_fuel

/-- The loop of `node_placement` (lines 213-221) with the index computed by `ch`. -/
def node_placement_loop_with (ch : whitelist_node → List u8 → Outcome Nat) (m : Mem)
    (key : List u8) (cidr bits : Nat) :
    Nat → Option Nat → Option Nat → Outcome (Bool × Option Nat)
  | _, none, parent => .ok (false, parent)
  | 0, some _, _ => .out_of_fuel
  | fuel + 1, some p, parent =>
    match m.heap p with
    | none => .bad_access
    | some node =>
      if node.cidr ≤ cidr ∧ prefix_matches node key bits = true then
        if node.cidr = cidr then .ok (true, some p)
        else
          match CHOOSE_NODE_with ch node key with
          | .ok next => node_placement_loop_with ch m key cidr bits fuel next (some p)
          | .bad_access => .bad_access
          | .assert_failed => .assert_failed
          | .out_of_fuel => .out_of_fuel
      else .ok (false, parent)

/-- Source lines 268-295 of `add` with the index computed by `ch`. -/
def add_split_with (ch : whitelist_node → List u8 → Outcome Nat) (m : Mem)
    (trie : Option Nat) (bits : Nat) (key : List u8) (cidr : Nat)
    (newnode : Nat) (parent : Option Nat) (down : Nat) (a2 : Bool) :
    Outcome (Nat × Mem × Option Nat) := do
  let dn ← m.read down
  let nn ← m.read newnode
  let cidr := min cidr (common_bits dn key bits)
  if nn.cidr = cidr then
    let i ← ch nn dn.bits
    let m ← m.update newnode (fun n => n.set_bit i (some down))
    match parent with
    | none => .ok (0, m, some newnode)
    | some par =>
      let pn ← m.read par
      let nn ← m.read newnode
      let j ← ch pn nn.bits
      let m ← m.update par (fun n => n.set_bit j (some newnode))
      .ok (0, m, trie)
  else
    match kzalloc m a2 with
    | (none, m) => .ok (ENOMEM, m.free newnode, trie)
    | (some node, m) =>
      let nn ← m.read newnode
      let m ← m.update node (fun n => copy_and_assign_cidr n nn.bits cidr bits)
      let bn ← m.read node
      let dn ← m.read down
      let i ← ch bn dn.bits
      let m ← m.update node (fun n => n.set_bit i (some down))
      let bn ← m.read node
      let nn ← m.read newnode
      let j ← ch bn nn.bits
      let m ← m.update node (fun n => n.set_bit j (some newnode))
      match parent with
      | none => .ok (0, m, some node)
      | some par =>
        let pn ← m.read par
        let bn ← m.read node
        let k ← ch pn bn.bits
        let m ← m.update par (fun n => n.set_bit k (some node))
        .ok (0, m, trie)

/-- Source lines 258-296 of `add` with the index computed by `ch`. -/
def add_link_with (ch : whitelist_node → List u8 → Outcome Nat) (m : Mem)
    (trie : Option Nat) (bits : Nat) (key : List u8) (cidr : Nat)
    (newnode : Nat) (node : Option Nat) (a2 : Bool) : Outcome (Nat × Mem × Option Nat) :=
  match node with
  | none =>
    match trie with
    | none => .bad_access
    | some down => add_split_with ch m trie bits key cidr newnode none down a2
  | some nd => do
    let n ← m.read nd
    let i ← ch n key
    match n.bit i with
    | none =>
      let m ← m.update nd (fun n => n.set_bit i (some newnode))
      .ok (0, m, trie)
    | some down => add_split_with ch m trie bits key cidr newnode (some nd) down a2

/-- Source lines 245-296 of `add` with the index computed by `ch`. -/
def add_tail_with (ch : whitelist_node → List u8 → Outcome Nat) (m : Mem)
    (trie : Option Nat) (bits : Nat) (key : List u8) (cidr : Nat)
    (pr : Nat) (a1 a2 : Bool) (exact : Bool) (node : Option Nat) :
    Outcome (Nat × Mem × Option Nat) :=
  if exact then
    match node with
    | none => .bad_access
    | some node => do
      let m ← m.update node (fun n => { n with peer := some pr })
      let m := list_move_tail m node pr
      .ok (0, m, trie)
  else
    match kzalloc m a1 with
    | (none, m) => .ok (ENOMEM, m, trie)
    | (some newnode, m) => do
      let m ← m.update newnode (fun n => { n with peer := some pr })
      let m := list_add_tail m newnode pr
      let m ← m.update newnode (fun n => copy_and_assign_cidr n key cidr bits)
      add_link_with ch m trie bits key cidr newnode node a2

/-- Source lines 226-296 with the index computed by `ch`; as in `add`, lines 236-243 are
never run. -/
def add_with (ch : whitelist_node → List u8 → Outcome Nat) (m : Mem) (trie : Option Nat)
    (bits : Nat) (key : List u8) (cidr : Nat) (peer : Option Nat) (a1 a2 : Bool)
    (fuel : Nat) : Outcome (Nat × Mem × Option Nat) :=
  match peer with
  | none => .ok (EINVAL, m, trie)
  | some pr =>
    if cidr > bits then .ok (EINVAL, m, trie)
    else
      match node_placement_loop_with ch m key cidr bits fuel trie none with
      | .ok (exact, node) => add_tail_with ch m trie bits key cidr pr a1 a2 exact node
      | .bad_access => .bad_access
      | .assert_failed => .assert_failed
      | .out_of_fuel => .out_of_fuel

/-! ## The store that publishes an insert

`add` once more, stopped before its last store to the root pointer or to a node that was
there before the call: the result is the memory at that point and the store that is left. -/

/-- A store of `add` into the trie that readers see. -/
inductive Store where
  | root (v : Option Nat) : Store
  | child (x i : Nat) (v : Option Nat) : Store
  | peer (x pr : Nat) : Store
  deriving DecidableEq, Repr

/-- Perform the store that is left: `rcu_assign_pointer(*trie, v)` (lines 274, 290),
`rcu_assign_pointer(x->bit[i], v)` (lines 264, 276, 292), or `rcu_assign_pointer(x->peer, pr)`
followed by the move of `x` to the list of the peer (lines 246-247). -/
def publish (m : Mem) (trie : Option Nat) (st : Option Store) : Outcome (Mem × Option Nat) :=
  match st with
  | none => .ok (m, trie)
  | some (.root v) => .ok (m, v)
  | some (.child x i v) => do
    let m ← m.update x (fun n => n.set_bit i v)
    .ok (m, trie)
  | some (.peer x pr) => do
    let m ← m.update x (fun n => { n with peer := some pr })
    .ok (list_move_tail m x pr, trie)

/-- The prepared call, finished by its store. -/
def finish (trie : Option Nat) (x : Outcome (Nat × Mem × Option Store)) :
    Outcome (Nat × Mem × Option Nat) := do
  let (r, m, st) ← x
  let (m, trie) ← publish m trie st
  .ok (r, m, trie)

/-- Source lines 268-295 of `add` without the store of line 274, 276, 290 or 292. -/
def add_split_prepare (m : Mem) (bits : Nat) (key : List u8) (cidr : Nat)
    (newnode : Nat) (parent : Option Nat) (down : Nat) (a2 : Bool) :
    Outcome (Nat × Mem × Option Store) := do
  let dn ← m.read down
  let nn ← m.read newnode
  let cidr := min cidr (common_bits dn key bits)
  if nn.cidr = cidr then
    let i ← choose_index nn dn.bits
    let m ← m.update newnode (fun n => n.set_bit i (some down))
    match parent with
    | none => .ok (0, m, some (.root (some newnode)))
    | some par =>
      let pn ← m.read par
      let nn ← m.read newnode
      let j ← choose_index pn nn.bits
      .ok (0, m, some (.child par j (some newnode)))
  else
    match kzalloc m a2 with
    | (none, m) => .ok (ENOMEM, m.free newnode, none)
    | (some node, m) =>
      let nn ← m.read newnode
      let m ← m.update node (fun n => copy_and_assign_cidr n nn.bits cidr bits)
      let bn ← m.read node
      let dn ← m.read down
      let i ← choose_index bn dn.bits
      let m ← m.update node (fun n => n.set_bit i (some down))
      let bn ← m.read node
      let nn ← m.read newnode
      let j ← choose_index bn nn.bits
      let m ← m.update node (fun n => n.set_bit j (some newnode))
      match parent with
      | none => .ok (0, m, some (.root (some node)))
      | some par =>
        let pn ← m.read par
        let bn ← m.read node
        let k ← choose_index pn bn.bits
        .ok (0, m, some (.child par k (some node)))

/-- Source lines 258-296 of `add` without the store of line 264, 274, 276, 290 or 292. -/
def add_link_prepare (m : Mem) (trie : Option Nat) (bits : Nat) (key : List u8) (cidr : Nat)
    (newnode : Nat) (node : Option Nat) (a2 : Bool) : Outcome (Nat × Mem × Option Store) :=
  match node with
  | none =>
    match trie with
    | none => .bad_access
    | some down => add_split_prepare m bits key cidr newnode none down a2
  | some nd => do
    let n ← m.read nd
    let i ← choose_index n key
    match n.bit i with
    | none => .ok (0, m, some (.child nd i (some newnode)))
    | some down => add_split_prepare m bits key cidr newnode (some nd) down a2

/-- Source lines 245-296 of `add` without its last store into the trie. -/
def add_tail_prepare (m : Mem) (trie : Option Nat) (bits : Nat) (key : List u8) (cidr : Nat)
    (pr : Nat) (a1 a2 : Bool) (exact : Bool) (node : Option Nat) :
    Outcome (Nat × Mem × Option Store) :=
  if exact then
    match node with
    | none => .bad_access
    | some node => .ok (0, m, some (.peer node pr))
  else
    match kzalloc m a1 with
    | (none, m) => .ok (ENOMEM, m, none)
    | (some newnode, m) => do
      let m ← m.update newnode (fun n => { n with peer := some pr })
      let m := list_add_tail m newnode pr
      let m ← m.update newnode (fun n => copy_and_assign_cidr n key cidr bits)
      add_link_prepare m trie bits key cidr newnode node a2

/-- Source lines 226-296 without the last store into the trie; as in `add`, lines 236-243
are never run. -/
def add_prepare (m : Mem) (trie : Option Nat) (bits : Nat) (key : List u8) (cidr : Nat)
    (peer : Option Nat) (a1 a2 : Bool) (fuel : Nat) : Outcome (Nat × Mem × Option Store) :=
  match peer with
  | none => .ok (EINVAL, m, none)
  | some pr =>
    if cidr > bits then .ok (EINVAL, m, none)
    else
      match node_placement m trie key cidr bits fuel with
      | .ok (exact, node) => add_tail_prepare m trie bits key cidr pr a1 a2 exact node
      | .bad_access => .bad_access
      | .assert_failed => .assert_failed
      | .out_of_fuel => .out_of_fuel

/-! ## What `add` knows after `node_placement` -/

/-- The search of `node_placement` stopped at the node `d`: it is a node of the trie that
is longer than the target or does not match the key. -/
def Stopped (bits : Nat) (m : Mem) (key : List u8) (cidr : Nat) (d : Nat) : Prop :=
  d < m.brk ∧ ∃ dn, m.heap d = some dn ∧ dn.cidr ≤ bits ∧
    ¬ (dn.cidr ≤ cidr ∧ prefix_matches dn key bits = true)

/-- The result `node` of a `node_placement` that is not exact: the node is shorter than the
target, and the search stopped at the node below it, or at the root when `node` is `NULL`. -/
def Placed (bits : Nat) (m : Mem) (key : List u8) (cidr : Nat) (trie : Option Nat)
    (node : Option Nat) : Prop :=
  (node = none → ∀ d, trie = some d → Stopped bits m key cidr d) ∧
  (∀ nd, node = some nd → nd < m.brk ∧ ∃ pn, m.heap nd = some pn ∧ pn.cidr < cidr ∧
    pn.bit_at_a = (pn.cidr / 8) ^^^ ((bits / 8 - 1) % 8) ∧
    ∀ i d, choose_index pn key = .ok i → pn.bit i = some d → Stopped bits m key cidr d)

/-! ## Publication of an insert -/

/-- The node that a store writes; `none` for the store into the root pointer. -/
def Store.target : Store → Option Nat
  | .root _ => none
  | .child x _ _ => some x
  | .peer x _ => some x

/-- A call of `add` on the trie `trie` in memory `m` that returned the trie `trie2` in memory
`m2` was published by the store `st` from the memory `m1`: up to `m1` no node that was there
before the call is written, the store gives `m2` and `trie2`, the nodes allocated by the call
are in `m1` as they are in `m2`, every node that was there before the call and is not the
target of the store is unchanged, and the store puts a new pointer into the root or into a
child slot of a node that was reachable, or a peer into a node that was reachable. -/
def Published (m : Mem) (trie : Option Nat) (m1 : Mem) (st : Store) (m2 : Mem)
    (trie2 : Option Nat) : Prop :=
  (∀ x, x < m.brk → m1.heap x = m.heap x) ∧
  publish m1 trie (some st) = .ok (m2, trie2) ∧
  (∀ x, m.brk ≤ x → m2.heap x = m1.heap x) ∧
  (∀ x, x < m.brk → st.target ≠ some x → m2.heap x = m.heap x) ∧
  (match st with
   | .root v => trie2 = v ∧ v ≠ trie
   | .child x i v => trie2 = trie ∧ x < m.brk ∧ Reach m.heap trie x ∧
       ∃ n, m.heap x = some n ∧ n.bit i ≠ v ∧ m2.heap x = some (n.set_bit i v)
   | .peer x pr => trie2 = trie ∧ x < m.brk ∧ Reach m.heap trie x ∧
       ∃ n, m.heap x = some n ∧ m2.heap x = some { n with peer := some pr })

end WG


namespace WG

/-! ## Bytes, words and bits -/

theorem flsAux_le_iff (w : Nat) : ∀ (x n : Nat), x < 2 ^ w → (flsAux w x ≤ n ↔ x < 2 ^ n) := by
  induction w with
  | zero =>
    intro x n hx
    simp at hx
    subst hx
    simp [flsAux]
  | succ w ih =>
    intro x n hx
    unfold flsAux
    by_cases h0 : x = 0
    · subst h0; simp
    · simp only [h0, if_false]
      have hx2 : x / 2 < 2 ^ w := by
        rw [Nat.pow_succ] at hx; omega
      cases n with
      | zero => simp; omega
      | succ n =>
        rw [Nat.add_le_add_iff_right, ih (x / 2) n hx2, Nat.pow_succ]
        omega

theorem flsAux_le_width (w : Nat) : ∀ x, flsAux w x ≤ w := by
  induction w with
  | zero => intro x; simp [flsAux]
  | succ w ih =>
    intro x
    unfold flsAux
    split
    · omega
    · have := ih (x / 2); omega

theorem loadLE_lt : ∀ bs : List u8, loadLE bs < 2 ^ (8 * bs.length)
  | [] => by simp [loadLE]
  | b :: bs => by
    have ih := loadLE_lt bs
    have hb := b.isLt
    simp only [loadLE, List.length_cons]
    have : 2 ^ (8 * (bs.length + 1)) = 256 * 2 ^ (8 * bs.length) := by
      rw [Nat.mul_add, Nat.pow_add]; norm_num; ring
    omega

theorem testBit_loadLE : ∀ (bs : List u8) (j : Nat),
    (loadLE bs).testBit j = (bs.getD (j / 8) 0).val.testBit (j % 8)
  | [], j => by simp [loadLE]
  | b :: bs, j => by
    have ih := testBit_loadLE bs (j - 8)
    have hb : b.val < 2 ^ 8 := b.isLt
    have h := Nat.testBit_mul_pow_two_add (loadLE bs) hb j
    simp only [loadLE]
    rw [show b.val + 256 * loadLE bs = 2 ^ 8 * loadLE bs + b.val by norm_num; omega, h]
    by_cases hj : j < 8
    · have h1 : j / 8 = 0 := by omega
      have h2 : j % 8 = j := by omega
      simp [hj, h1, h2]
    · have h1 : j / 8 = (j - 8) / 8 + 1 := by omega
      have h2 : j % 8 = (j - 8) % 8 := by omega
      simp only [hj, if_false, ih, h1, h2, List.getD_cons_succ]

theorem storeLE_loadLE : ∀ (bs : List u8), storeLE bs.length (loadLE bs) = bs
  | [] => rfl
  | b :: bs => by
    have ih := storeLE_loadLE bs
    have hb := b.isLt
    simp only [List.length_cons, storeLE, loadLE]
    congr 1
    · apply Fin.ext; simp
    · rw [show (b.val + 256 * loadLE bs) / 256 = loadLE bs by omega]; exact ih

theorem storeLE_length : ∀ (n x : Nat), (storeLE n x).length = n
  | 0, _ => rfl
  | n + 1, x => by simp [storeLE, storeLE_length n]

theorem native_endian_32 (dst src : List u8) (h : 4 ≤ src.length) :
    native_endian dst src 32 = (src.take 4).reverse ++ dst.drop 4 := by
  have hl : (src.take 4).length = 4 := by simp; omega
  have h1 : storeLE 4 (load32 src) = src.take 4 := by
    have := storeLE_loadLE (src.take 4); rw [hl] at this; exact this
  have hl2 : ((src.take 4).reverse).length = 4 := by simp; omega
  have h2 := storeLE_loadLE (src.take 4).reverse
  rw [hl2] at h2
  simp only [native_endian, if_true, ntohl, h1, h2]

theorem native_endian_128 (dst src : List u8) (h : 16 ≤ src.length) :
    native_endian dst src 128 =
      (src.take 8).reverse ++ ((src.drop 8).take 8).reverse ++ dst.drop 16 := by
  have hl : (src.take 8).length = 8 := by simp; omega
  have h1 : storeLE 8 (load64 src) = src.take 8 := by
    have := storeLE_loadLE (src.take 8); rw [hl] at this; exact this
  have hl2 : ((src.take 8).reverse).length = 8 := by simp; omega
  have h2 := storeLE_loadLE (src.take 8).reverse
  rw [hl2] at h2
  have hl' : ((src.drop 8).take 8).length = 8 := by simp; omega
  have h1' : storeLE 8 (load64 (src.drop 8)) = (src.drop 8).take 8 := by
    have := storeLE_loadLE ((src.drop 8).take 8); rw [hl'] at this; exact this
  have hl2' : (((src.drop 8).take 8).reverse).length = 8 := by simp; omega
  have h2' := storeLE_loadLE ((src.drop 8).take 8).reverse
  rw [hl2'] at h2'
  simp only [native_endian, be64toh, h1, h2, h1', h2']
  simp

end WG


namespace WG

theorem fls128_le_iff (a b n : Nat) (ha : a < 2 ^ 64) (hb : b < 2 ^ 64) :
    fls128 a b ≤ n ↔ 2 ^ 64 * a + b < 2 ^ n := by
  unfold fls128 fls64
  by_cases h0 : a = 0
  · subst h0
    simp [flsAux_le_iff 64 b n hb]
  · simp only [h0, ne_eq, not_false_eq_true, if_true]
    by_cases hn : 64 ≤ n
    · obtain ⟨k, rfl⟩ : ∃ k, n = k + 64 := ⟨n - 64, by omega⟩
      rw [Nat.add_le_add_iff_right, flsAux_le_iff 64 a k ha, Nat.pow_add]
      constructor
      · intro h
        have : 2 ^ 64 * (a + 1) ≤ 2 ^ 64 * 2 ^ k := Nat.mul_le_mul_left _ h
        rw [Nat.mul_comm (2 ^ k)]
        omega
      · intro h
        by_contra hk
        have : 2 ^ 64 * 2 ^ k ≤ 2 ^ 64 * a := Nat.mul_le_mul_left _ (by omega)
        rw [Nat.mul_comm (2 ^ k)] at h
        omega
    · have h1 : (2:Nat) ^ n < 2 ^ 64 := Nat.pow_lt_pow_right (by decide) (by omega)
      have h2 : 2 ^ 64 * 1 ≤ 2 ^ 64 * a := Nat.mul_le_mul_left _ (by omega)
      constructor
      · intro h; omega
      · intro h; omega

theorem fls128_le_width (a b : Nat) : fls128 a b ≤ 128 := by
  unfold fls128 fls64
  have h1 := flsAux_le_width 64 a
  have h2 := flsAux_le_width 64 b
  split <;> omega

theorem load32_lt (k : List u8) : load32 k < 2 ^ 32 := by
  have h := loadLE_lt (k.take 4)
  have hl : (k.take 4).length ≤ 4 := by simp
  have : (2:Nat) ^ (8 * (k.take 4).length) ≤ 2 ^ 32 :=
    Nat.pow_le_pow_right (by decide) (by omega)
  unfold load32; omega

theorem load64_lt (k : List u8) : load64 k < 2 ^ 64 := by
  have h := loadLE_lt (k.take 8)
  have hl : (k.take 8).length ≤ 8 := by simp
  have : (2:Nat) ^ (8 * (k.take 8).length) ≤ 2 ^ 64 :=
    Nat.pow_le_pow_right (by decide) (by omega)
  unfold load64; omega

theorem key_val_lt (bits : Nat) (hb : bits = 32 ∨ bits = 128) (k : List u8) :
    key_val bits k < 2 ^ bits := by
  rcases hb with rfl | rfl
  · simp only [key_val, if_true]; exact load32_lt k
  · have h1 := load64_lt k
    have h2 := load64_lt (k.drop 8)
    simp only [key_val]
    norm_num at h1 h2 ⊢
    omega

theorem xor_concat64 (a b c d : Nat) (hb : b < 2 ^ 64) (hd : d < 2 ^ 64) :
    (2 ^ 64 * a + b) ^^^ (2 ^ 64 * c + d) = 2 ^ 64 * (a ^^^ c) + (b ^^^ d) := by
  have hx : b ^^^ d < 2 ^ 64 := Nat.xor_lt_two_pow hb hd
  apply Nat.eq_of_testBit_eq
  intro i
  rw [Nat.testBit_xor, Nat.testBit_mul_pow_two_add _ hb, Nat.testBit_mul_pow_two_add _ hd,
    Nat.testBit_mul_pow_two_add _ hx]
  by_cases hi : i < 64 <;> simp [hi]

/-- Generic form of the common-prefix computation `W - fls (x ^ y)`. -/
theorem width_sub_fls_ge_iff (W F X Y c : Nat) (hW : W < 256) (hX : X < 2 ^ W)
    (hY : Y < 2 ^ W) (hF : ∀ n, F ≤ n ↔ X ^^^ Y < 2 ^ n) (hc : c ≤ W) :
    c ≤ (W - F) % 256 ↔ ∀ i < c, X.testBit (W - 1 - i) = Y.testBit (W - 1 - i) := by
  have hFW : F ≤ W := (hF W).2 (Nat.xor_lt_two_pow hX hY)
  rw [Nat.mod_eq_of_lt (by omega)]
  have h1 : c ≤ W - F ↔ F ≤ W - c := by omega
  rw [h1, hF]
  constructor
  · intro h i hi
    have hlt : X ^^^ Y < 2 ^ (W - 1 - i) :=
      Nat.lt_of_lt_of_le h (Nat.pow_le_pow_right (by decide) (by omega))
    have := Nat.testBit_lt_two_pow hlt
    rw [Nat.testBit_xor] at this
    revert this
    cases X.testBit (W - 1 - i) <;> cases Y.testBit (W - 1 - i) <;> simp
  · intro h
    apply Nat.lt_pow_two_of_testBit
    intro j hj
    rw [Nat.testBit_xor]
    by_cases hjW : j < W
    · have := h (W - 1 - j) (by omega)
      rw [show W - 1 - (W - 1 - j) = j by omega] at this
      rw [this]; simp
    · have hp : (2:Nat) ^ W ≤ 2 ^ j := Nat.pow_le_pow_right (by decide) (by omega)
      rw [Nat.testBit_lt_two_pow (Nat.lt_of_lt_of_le hX hp),
        Nat.testBit_lt_two_pow (Nat.lt_of_lt_of_le hY hp)]
      rfl

theorem common_bits_ge_iff (bits : Nat) (hb : bits = 32 ∨ bits = 128) (n : whitelist_node)
    (k : List u8) (c : Nat) (hc : c ≤ bits) :
    c ≤ common_bits n k bits ↔ ∀ i < c, kbit bits n.bits i = kbit bits k i := by
  rcases hb with rfl | rfl
  · have h := width_sub_fls_ge_iff 32 (fls (load32 n.bits ^^^ load32 k)) (load32 n.bits)
      (load32 k) c (by decide) (load32_lt _) (load32_lt _)
      (fun m => flsAux_le_iff 32 _ m (Nat.xor_lt_two_pow (load32_lt _) (load32_lt _))) hc
    simpa [common_bits, kbit, key_val] using h
  · have hX := key_val_lt 128 (Or.inr rfl) n.bits
    have hY := key_val_lt 128 (Or.inr rfl) k
    have h := width_sub_fls_ge_iff 128
      (fls128 (load64 n.bits ^^^ load64 k) (load64 (n.bits.drop 8) ^^^ load64 (k.drop 8)))
      (key_val 128 n.bits) (key_val 128 k) c (by decide) hX hY ?_ hc
    · simpa [common_bits, kbit] using h
    · intro m
      rw [fls128_le_iff _ _ _ (Nat.xor_lt_two_pow (load64_lt _) (load64_lt _))
        (Nat.xor_lt_two_pow (load64_lt _) (load64_lt _))]
      have e : key_val 128 n.bits ^^^ key_val 128 k =
          2 ^ 64 * (load64 n.bits ^^^ load64 k) +
            (load64 (n.bits.drop 8) ^^^ load64 (k.drop 8)) := by
        simp only [key_val, show ¬ (128 = 32) by decide, if_false]
        rw [Nat.mul_comm (load64 n.bits), Nat.mul_comm (load64 k)]
        exact xor_concat64 _ _ _ _ (load64_lt _) (load64_lt _)
      rw [e]

theorem common_bits_le (bits : Nat) (hb : bits = 32 ∨ bits = 128) (n : whitelist_node)
    (k : List u8) : common_bits n k bits ≤ bits := by
  rcases hb with rfl | rfl
  · simp only [common_bits, if_true]
    have : (32 - fls (load32 n.bits ^^^ load32 k)) % 256 ≤ 32 - fls (load32 n.bits ^^^ load32 k) :=
      Nat.mod_le _ _
    omega
  · simp only [common_bits, show ¬ (128 = 32) by decide, if_false, if_true]
    exact Nat.le_trans (Nat.mod_le _ _) (Nat.sub_le _ _)

end WG


namespace WG

theorem shift_and_one (b k : Nat) : (b >>> k) &&& 1 = if b.testBit k then 1 else 0 := by
  rw [Nat.and_one_is_mod, Nat.shiftRight_eq_div_pow, Nat.testBit_to_div_mod]
  by_cases h : b / 2 ^ k % 2 = 1
  · simp [h]
  · simp [h]; omega

theorem getD_take (k : List u8) (n j : Nat) (h : j < n) :
    (k.take n).getD j 0 = k.getD j 0 := by
  simp [List.getD_eq_getElem?_getD, List.getElem?_take, h]

theorem getD_drop (k : List u8) (n j : Nat) :
    (k.drop n).getD j 0 = k.getD (n + j) 0 := by
  simp [List.getD_eq_getElem?_getD, List.getElem?_drop]

theorem xor3 (a : Nat) (h : a < 4) : a ^^^ 3 = 3 - a := by
  interval_cases a <;> rfl

theorem xor7 (a : Nat) (h : a < 16) : a ^^^ 7 = if a < 8 then 7 - a else 23 - a := by
  interval_cases a <;> rfl

theorem kbit_eq_byte (bits : Nat) (hb : bits = 32 ∨ bits = 128) (key : List u8) (c : Nat)
    (hc : c < bits) :
    kbit bits key c =
      (key.getD ((c / 8) ^^^ ((bits / 8 - 1) % 8)) 0).val.testBit (7 - c % 8) := by
  rcases hb with rfl | rfl
  · simp only [kbit, key_val, if_true, load32, testBit_loadLE]
    rw [show (32 / 8 - 1) % 8 = 3 by rfl, xor3 _ (by omega),
      show (32 - 1 - c) / 8 = 3 - c / 8 by omega, show (32 - 1 - c) % 8 = 7 - c % 8 by omega,
      getD_take _ _ _ (by omega)]
  · simp only [kbit, key_val, show ¬ (128 = 32) by decide, if_false]
    rw [Nat.mul_comm, Nat.testBit_mul_pow_two_add _ (load64_lt _)]
    rw [show (128 / 8 - 1) % 8 = 7 by rfl, xor7 _ (by omega)]
    by_cases h : c < 64
    · have h1 : ¬ (128 - 1 - c < 64) := by omega
      have h2 : c / 8 < 8 := by omega
      simp only [h1, h2, if_false, if_true, load64, testBit_loadLE]
      rw [show (128 - 1 - c - 64) / 8 = 7 - c / 8 by omega,
        show (128 - 1 - c - 64) % 8 = 7 - c % 8 by omega, getD_take _ _ _ (by omega)]
    · have h1 : 128 - 1 - c < 64 := by omega
      have h2 : ¬ (c / 8 < 8) := by omega
      simp only [h1, h2, if_false, if_true, load64, testBit_loadLE]
      rw [show (128 - 1 - c) / 8 = 15 - c / 8 by omega,
        show (128 - 1 - c) % 8 = 7 - c % 8 by omega, getD_take _ _ _ (by omega), getD_drop,
        show 8 + (15 - c / 8) = 23 - c / 8 by omega]

theorem bit_at_a_lt (bits : Nat) (hb : bits = 32 ∨ bits = 128) (c : Nat) (hc : c < bits) :
    (c / 8) ^^^ ((bits / 8 - 1) % 8) < bits / 8 := by
  rcases hb with rfl | rfl
  · rw [show (32 / 8 - 1) % 8 = 3 by rfl, xor3 _ (by omega)]; omega
  · rw [show (128 / 8 - 1) % 8 = 7 by rfl, xor7 _ (by omega)]; split <;> omega

theorem choose_index_eq (bits : Nat) (hb : bits = 32 ∨ bits = 128) (n : whitelist_node)
    (key : List u8) (c : Nat) (hc : c < bits)
    (ha : n.bit_at_a = (c / 8) ^^^ ((bits / 8 - 1) % 8)) (hbb : n.bit_at_b = 7 - c % 8)
    (hk : bits / 8 ≤ key.length) :
    choose_index n key = .ok (if kbit bits key c then 1 else 0) := by
  have hlt := bit_at_a_lt bits hb c hc
  have hin : n.bit_at_a < key.length := by omega
  unfold choose_index
  rw [List.getElem?_eq_getElem hin]
  simp only [shift_and_one, kbit_eq_byte bits hb key c hc, hbb, ← ha]
  rw [List.getD_eq_getElem _ _ hin]

end WG


namespace WG

theorem getD_reverse_append (l r : List u8) (j : Nat) (h : j < l.length) :
    (l.reverse ++ r).getD (l.length - 1 - j) 0 = l.getD j 0 := by
  have h1 : l.length - 1 - j < l.reverse.length := by simp; omega
  rw [List.getD_eq_getElem?_getD, List.getElem?_append_left h1, List.getElem?_reverse (by omega),
    show l.length - 1 - (l.length - 1 - j) = j by omega, List.getD_eq_getElem?_getD]

theorem native_endian_length (dst src : List u8) (bits : Nat) (hb : bits = 32 ∨ bits = 128)
    (hs : bits / 8 ≤ src.length) (hd : bits / 8 ≤ dst.length) :
    (native_endian dst src bits).length = dst.length := by
  rcases hb with rfl | rfl
  · rw [native_endian_32 _ _ (by omega)]; simp; omega
  · rw [native_endian_128 _ _ (by omega)]; simp; omega

/-- Bit `i` of the host-order key made by `native_endian` is bit `i` of the wire address. -/
theorem kbit_native_endian (bits : Nat) (hb : bits = 32 ∨ bits = 128) (dst w : List u8)
    (hw : bits / 8 ≤ w.length) (i : Nat) (hi : i < bits) :
    kbit bits (native_endian dst w bits) i = wire_bit w i := by
  rw [kbit_eq_byte bits hb _ i hi]
  unfold wire_bit
  congr 2
  rcases hb with rfl | rfl
  · rw [native_endian_32 _ _ (by omega), show (32 / 8 - 1) % 8 = 3 by rfl, xor3 _ (by omega)]
    have hl : (w.take 4).length = 4 := by simp; omega
    have := getD_reverse_append (w.take 4) (dst.drop 4) (i / 8) (by omega)
    rw [hl] at this
    rw [show 3 - i / 8 = 4 - 1 - i / 8 by omega, this, getD_take _ _ _ (by omega)]
  · rw [native_endian_128 _ _ (by omega), show (128 / 8 - 1) % 8 = 7 by rfl, xor7 _ (by omega)]
    have hl : (w.take 8).length = 8 := by simp; omega
    have hl2 : ((w.drop 8).take 8).length = 8 := by simp; omega
    by_cases h : i / 8 < 8
    · simp only [h, if_true]
      have := getD_reverse_append (w.take 8)
        (((w.drop 8).take 8).reverse ++ dst.drop 16) (i / 8) (by omega)
      rw [hl] at this
      rw [List.append_assoc, show 7 - i / 8 = 8 - 1 - i / 8 by omega, this,
        getD_take _ _ _ (by omega)]
    · simp only [h, if_false]
      have := getD_reverse_append ((w.drop 8).take 8) (dst.drop 16) (i / 8 - 8) (by omega)
      rw [hl2] at this
      have h3 : ((w.take 8).reverse ++ ((w.drop 8).take 8).reverse ++ dst.drop 16).getD
          (23 - i / 8) 0 =
          (((w.drop 8).take 8).reverse ++ dst.drop 16).getD (8 - 1 - (i / 8 - 8)) 0 := by
        rw [List.append_assoc, List.getD_eq_getElem?_getD, List.getD_eq_getElem?_getD,
          List.getElem?_append_right (by simp; omega)]
        congr 2
        simp; omega
      rw [h3, this, getD_take _ _ _ (by omega), getD_drop]
      congr 1; omega

end WG


namespace WG

/-! ## Heap and tree -/

theorem common_bits_eq_cbits (bits : Nat) (n : whitelist_node) (key : List u8) :
    common_bits n key bits = cbits bits n.bits key := rfl

theorem prefix_matches_mk (bits c : Nat) (bs : List u8) (pe l r : Option Nat) (key : List u8) :
    prefix_matches (mk_node bits c bs pe l r) key bits = decide (c ≤ cbits bits bs key) := rfl

theorem cbits_ge_iff (bits : Nat) (hb : bits = 32 ∨ bits = 128) (bs k : List u8) (c : Nat)
    (hc : c ≤ bits) : c ≤ cbits bits bs k ↔ ∀ i, i < c → kbit bits bs i = kbit bits k i :=
  common_bits_ge_iff bits hb _ k c hc

theorem cbits_le (bits : Nat) (hb : bits = 32 ∨ bits = 128) (bs k : List u8) :
    cbits bits bs k ≤ bits := common_bits_le bits hb _ k

theorem cbits_differ (bits : Nat) (hb : bits = 32 ∨ bits = 128) (bs k : List u8)
    (h : cbits bits bs k < bits) :
    kbit bits bs (cbits bits bs k) ≠ kbit bits k (cbits bits bs k) := by
  intro he
  have h1 := (cbits_ge_iff bits hb bs k (cbits bits bs k) (by omega)).1 (Nat.le_refl _)
  have h2 : cbits bits bs k + 1 ≤ cbits bits bs k := by
    rw [cbits_ge_iff bits hb bs k _ (by omega)]
    intro i hi
    rcases Nat.lt_succ_iff_lt_or_eq.1 hi with h' | h'
    · exact h1 i h'
    · rw [h']; exact he
  omega

theorem choose_index_mk (bits : Nat) (hb : bits = 32 ∨ bits = 128) (c : Nat) (bs : List u8)
    (pe l r : Option Nat) (key : List u8) (hc : c < bits) (hk : bits / 8 ≤ key.length) :
    choose_index (mk_node bits c bs pe l r) key = .ok (if kbit bits key c then 1 else 0) :=
  choose_index_eq bits hb _ key c hc rfl rfl hk

theorem CHOOSE_NODE_mk (bits : Nat) (hb : bits = 32 ∨ bits = 128) (c : Nat) (bs : List u8)
    (pe l r : Option Nat) (key : List u8) (hc : c < bits) (hk : bits / 8 ≤ key.length) :
    CHOOSE_NODE (mk_node bits c bs pe l r) key = .ok (if kbit bits key c then r else l) := by
  unfold CHOOSE_NODE
  rw [choose_index_mk bits hb c bs pe l r key hc hk]
  cases kbit bits key c <;> rfl

@[simp] theorem ptr_node (p c : Nat) (bs : List u8) (pe : Option Nat) (l r : Tree) :
    (Tree.node p c bs pe l r).ptr = some p := rfl

@[simp] theorem ptr_nil : Tree.nil.ptr = none := rfl

@[simp] theorem mk_node_cidr (bits c : Nat) (bs : List u8) (pe l r : Option Nat) :
    (mk_node bits c bs pe l r).cidr = c := rfl

@[simp] theorem mk_node_peer (bits c : Nat) (bs : List u8) (pe l r : Option Nat) :
    (mk_node bits c bs pe l r).peer = pe := rfl

@[simp] theorem mk_node_bits (bits c : Nat) (bs : List u8) (pe l r : Option Nat) :
    (mk_node bits c bs pe l r).bits = bs := rfl

@[simp] theorem mk_node_bit0 (bits c : Nat) (bs : List u8) (pe l r : Option Nat) :
    (mk_node bits c bs pe l r).bit0 = l := rfl

@[simp] theorem mk_node_bit1 (bits c : Nat) (bs : List u8) (pe l r : Option Nat) :
    (mk_node bits c bs pe l r).bit1 = r := rfl

theorem Laid_congr (bits : Nat) (h h2 : Nat → Option whitelist_node) :
    ∀ t : Tree, (∀ q, q ∈ t.ptrs → h2 q = h q) → Laid bits h t → Laid bits h2 t
  | .nil, _, _ => trivial
  | .node p c bs pe l r, hq, hl => by
    obtain ⟨h1, h3, h4⟩ := hl
    refine ⟨?_, Laid_congr bits h h2 l ?_ h3, Laid_congr bits h h2 r ?_ h4⟩
    · rw [hq p (by simp [Tree.ptrs])]; exact h1
    · intro q hq2; exact hq q (by simp [Tree.ptrs, hq2])
    · intro q hq2; exact hq q (by simp [Tree.ptrs, hq2])

theorem TInv_mono (bits : Nat) : ∀ (t : Tree) (lo lo2 : Nat) (pre pre2 : Nat → Bool),
    lo2 ≤ lo → (∀ i, i < lo2 → pre2 i = pre i) → TInv bits lo pre t → TInv bits lo2 pre2 t
  | .nil, _, _, _, _, _, _, _ => trivial
  | .node p c bs pe l r, lo, lo2, pre, pre2, hlo, hpre, h => by
    obtain ⟨h1, h2, h3, h4, h5, h6⟩ := h
    refine ⟨by omega, h2, h3, ?_, h5, h6⟩
    intro i hi
    rw [h4 i (by omega), hpre i hi]

theorem TInv_height (bits : Nat) : ∀ (t : Tree) (lo : Nat) (pre : Nat → Bool),
    TInv bits lo pre t → t.height ≤ bits + 1 - lo
  | .nil, lo, pre, _ => by simp [Tree.height]
  | .node p c bs pe l r, lo, pre, h => by
    obtain ⟨h1, h2, _, _, h5, h6⟩ := h
    have := TInv_height bits l _ _ h5
    have := TInv_height bits r _ _ h6
    simp only [Tree.height]
    omega

theorem find_node_loop_spec (bits : Nat) (hb : bits = 32 ∨ bits = 128) (m : Mem)
    (key : List u8) (hk : bits / 8 ≤ key.length) :
    ∀ (t : Tree) (lo : Nat) (pre : Nat → Bool) (found : Option Nat) (fuel : Nat),
      Laid bits m.heap t → TInv bits lo pre t → t.height ≤ fuel →
      find_node_loop m bits key fuel t.ptr found = .ok (path_found found (pathT bits key t))
  | .nil, _, _, found, fuel, _, _, _ => by
    cases fuel <;> simp [find_node_loop, pathT, path_found]
  | .node p c bs pe l r, lo, pre, found, fuel, hl, hi, hf => by
    obtain ⟨h1, h3, h4⟩ := hl
    obtain ⟨_, hc, _, _, h5, h6⟩ := hi
    cases fuel with
    | zero => simp [Tree.height] at hf
    | succ fuel =>
      simp only [Tree.height] at hf
      simp only [ptr_node, find_node_loop, h1, prefix_matches_mk, pathT]
      by_cases hm : c ≤ cbits bits bs key
      · simp only [hm, decide_True, if_true, path_found, mk_node_cidr, mk_node_peer]
        by_cases hcb : c = bits
        · simp [hcb, path_found]
        · simp only [hcb, if_false]
          rw [CHOOSE_NODE_mk bits hb c bs pe _ _ key (by omega) hk]
          by_cases hd : kbit bits key c = true
          · simp only [hd, if_true]
            exact find_node_loop_spec bits hb m key hk r _ _ _ fuel h4 h6 (by omega)
          · simp only [hd]
            exact find_node_loop_spec bits hb m key hk l _ _ _ fuel h3 h5 (by omega)
      · simp [hm, path_found]

theorem mem_pathT_ge (bits : Nat) (key : List u8) :
    ∀ (t : Tree) (lo : Nat) (pre : Nat → Bool), TInv bits lo pre t →
      ∀ e, e ∈ pathT bits key t → lo ≤ e.2.1 ∧ e.2.1 ≤ bits
  | .nil, _, _, _, e, he => by simp [pathT] at he
  | .node p c bs pe l r, lo, pre, hi, e, he => by
    obtain ⟨h1, hc, _, _, h5, h6⟩ := hi
    simp only [pathT] at he
    split at he
    · rcases List.mem_cons.1 he with rfl | he
      · exact ⟨h1, hc⟩
      · split at he
        · simp at he
        · split at he
          · have := mem_pathT_ge bits key r _ _ h6 e he; omega
          · have := mem_pathT_ge bits key l _ _ h5 e he; omega
    · simp at he

theorem route_at_none_of_lt (path : List (Nat × Nat × Option Nat)) (c : Nat)
    (h : ∀ e, e ∈ path → c < e.2.1) : route_at path c = none := by
  induction path with
  | nil => rfl
  | cons e rest ih =>
    have := h e (by simp)
    simp only [route_at]
    rw [if_neg (by omega)]
    exact ih (fun e he => h e (by simp [he]))

/-- A key that leaves the region of a subtree meets none of its nodes. -/
theorem pathT_eq_nil (bits : Nat) (hb : bits = 32 ∨ bits = 128) (key : List u8) :
    ∀ (t : Tree) (lo : Nat) (pre : Nat → Bool), TInv bits lo pre t →
      (∃ i, i < lo ∧ kbit bits key i ≠ pre i) → pathT bits key t = []
  | .nil, _, _, _, _ => rfl
  | .node p c bs pe l r, lo, pre, hi, ⟨i, hlt, hne⟩ => by
    obtain ⟨h1, hc, _, h4, _, _⟩ := hi
    simp only [pathT]
    rw [if_neg]
    intro hm
    have := (cbits_ge_iff bits hb bs key c hc).1 hm i (by omega)
    rw [h4 i hlt] at this
    exact hne this.symm

end WG


namespace WG

/-! ## Memory operations -/

@[simp] theorem ok_bind {α β : Type} (a : α) (f : α → Outcome β) :
    (Outcome.ok a >>= f) = f a := rfl

@[simp] theorem store_heap (m : Mem) (p : Nat) (n : whitelist_node) (q : Nat) :
    (m.store p n).heap q = if q = p then some n else m.heap q := rfl

@[simp] theorem store_brk (m : Mem) (p : Nat) (n : whitelist_node) :
    (m.store p n).brk = m.brk := rfl

@[simp] theorem store_lists (m : Mem) (p : Nat) (n : whitelist_node) :
    (m.store p n).lists = m.lists := rfl

@[simp] theorem list_add_tail_heap (m : Mem) (a b : Nat) : (list_add_tail m a b).heap = m.heap :=
  rfl

@[simp] theorem list_add_tail_brk (m : Mem) (a b : Nat) : (list_add_tail m a b).brk = m.brk :=
  rfl

@[simp] theorem list_del_heap (m : Mem) (a : Nat) : (list_del m a).heap = m.heap := rfl

@[simp] theorem list_del_brk (m : Mem) (a : Nat) : (list_del m a).brk = m.brk := rfl

@[simp] theorem list_move_tail_heap (m : Mem) (a b : Nat) :
    (list_move_tail m a b).heap = m.heap := rfl

@[simp] theorem list_move_tail_brk (m : Mem) (a b : Nat) :
    (list_move_tail m a b).brk = m.brk := rfl

theorem read_of_heap (m : Mem) (p : Nat) (n : whitelist_node) (h : m.heap p = some n) :
    m.read p = .ok n := by simp [Mem.read, h]

theorem update_of_heap (m : Mem) (p : Nat) (n : whitelist_node) (f : whitelist_node → whitelist_node)
    (h : m.heap p = some n) : m.update p f = .ok (m.store p (f n)) := by simp [Mem.update, h]

theorem set_bit_mk (bits c : Nat) (bs : List u8) (pe l r : Option Nat) (d : Bool)
    (v : Option Nat) :
    (mk_node bits c bs pe l r).set_bit (if d then 1 else 0) v =
      mk_node bits c bs pe (if d then l else v) (if d then v else r) := by
  cases d <;> rfl

theorem bit_mk (bits c : Nat) (bs : List u8) (pe l r : Option Nat) (d : Bool) :
    (mk_node bits c bs pe l r).bit (if d then 1 else 0) = if d then r else l := by
  cases d <;> rfl

theorem new_leaf_eq (bits cidr pr : Nat) (key : List u8) :
    copy_and_assign_cidr { zero_node with peer := some pr } key cidr bits =
      mk_node bits cidr (key_bits bits key) (some pr) none none := rfl

theorem new_branch_eq (bits cidr : Nat) (kb : List u8) :
    copy_and_assign_cidr zero_node kb cidr bits =
      mk_node bits cidr (key_bits bits kb) none none none := rfl

theorem key_bits_length (bits : Nat) (hb : bits = 32 ∨ bits = 128) (key : List u8)
    (hk : bits / 8 ≤ key.length) : (key_bits bits key).length = 16 := by
  rcases hb with rfl | rfl <;> simp [key_bits, memcpy] <;> omega

theorem key_val_key_bits (bits : Nat) (hb : bits = 32 ∨ bits = 128) (key : List u8)
    (hk : bits / 8 ≤ key.length) : key_val bits (key_bits bits key) = key_val bits key := by
  rcases hb with rfl | rfl
  · simp only [key_val, if_true, load32, key_bits, memcpy]
    rw [List.take_append_of_le_length (by simp; omega)]
    simp [List.take_take]
  · simp only [key_val, show ¬ (128 = 32) by decide, if_false, load64, key_bits, memcpy]
    have h16 : (List.take (128 / 8) key).length = 16 := by simp; omega
    rw [List.take_append_of_le_length (by simp; omega),
      List.drop_append_of_le_length (by simp; omega),
      List.take_append_of_le_length (by simp; omega)]
    simp [List.take_take, List.take_drop]

theorem kbit_key_bits (bits : Nat) (hb : bits = 32 ∨ bits = 128) (key : List u8)
    (hk : bits / 8 ≤ key.length) (i : Nat) : kbit bits (key_bits bits key) i = kbit bits key i := by
  unfold kbit; rw [key_val_key_bits bits hb key hk]

end WG


namespace WG

/-! ## The errno of `add` -/

theorem errs_bind {α β : Type} (x : Outcome α) (f : α → Outcome (Nat × β))
    (h : ∀ a, Errs (f a)) : Errs (x >>= f) := by
  cases x with
  | ok a => exact h a
  | bad_access => intro e r he; cases he
  | assert_failed => intro e r he; cases he
  | out_of_fuel => intro e r he; cases he

theorem errs_zero {α : Type} (r : α) : Errs (Outcome.ok (0, r)) := by
  intro e r2 he
  simp only [Outcome.ok.injEq, Prod.mk.injEq] at he
  exact Or.inl he.1.symm

theorem errs_enomem {α : Type} (r : α) : Errs (Outcome.ok (ENOMEM, r)) := by
  intro e r2 he
  simp only [Outcome.ok.injEq, Prod.mk.injEq] at he
  exact Or.inr he.1.symm

theorem errs_bad_access {α : Type} : Errs (Outcome.bad_access : Outcome (Nat × α)) := by
  intro e r he; cases he

theorem add_split_errs (m : Mem) (trie : Option Nat) (bits : Nat) (key : List u8)
    (cidr newnode : Nat) (parent : Option Nat) (down : Nat) (a2 : Bool) :
    Errs (add_split m trie bits key cidr newnode parent down a2) := by
  unfold add_split
  refine errs_bind _ _ (fun dn => errs_bind _ _ (fun nn => ?_))
  show Errs (if nn.cidr = min cidr (common_bits dn key bits) then _ else _)
  split_ifs
  · refine errs_bind _ _ (fun i => errs_bind _ _ (fun m1 => ?_))
    cases parent with
    | none => exact errs_zero _
    | some par =>
      exact errs_bind _ _ (fun pn => errs_bind _ _ (fun nn2 => errs_bind _ _ (fun j =>
        errs_bind _ _ (fun m2 => errs_zero _))))
  · cases a2 with
    | false => exact errs_enomem _
    | true =>
      simp only [kzalloc, if_true]
      refine errs_bind _ _ (fun nn2 => errs_bind _ _ (fun m1 => errs_bind _ _ (fun bn =>
        errs_bind _ _ (fun dn2 => errs_bind _ _ (fun i => errs_bind _ _ (fun m2 =>
        errs_bind _ _ (fun bn2 => errs_bind _ _ (fun nn3 => errs_bind _ _ (fun j =>
        errs_bind _ _ (fun m3 => ?_))))))))))
      cases parent with
      | none => exact errs_zero _
      | some par =>
        exact errs_bind _ _ (fun pn => errs_bind _ _ (fun bn3 => errs_bind _ _ (fun k =>
          errs_bind _ _ (fun m4 => errs_zero _))))

theorem add_link_errs (m : Mem) (trie : Option Nat) (bits : Nat) (key : List u8)
    (cidr newnode : Nat) (node : Option Nat) (a2 : Bool) :
    Errs (add_link m trie bits key cidr newnode node a2) := by
  unfold add_link
  cases node with
  | none =>
    cases trie with
    | none => exact errs_bad_access
    | some down => exact add_split_errs m _ bits key cidr newnode none down a2
  | some nd =>
    refine errs_bind _ _ (fun n => errs_bind _ _ (fun i => ?_))
    cases n.bit i with
    | none => exact errs_bind _ _ (fun m1 => errs_zero _)
    | some down => exact add_split_errs m _ bits key cidr newnode (some nd) down a2

theorem add_tail_errs (m : Mem) (trie : Option Nat) (bits : Nat) (key : List u8)
    (cidr pr : Nat) (a1 a2 : Bool) (exact : Bool) (node : Option Nat) :
    Errs (add_tail m trie bits key cidr pr a1 a2 exact node) := by
  unfold add_tail
  cases exact with
  | true =>
    cases node with
    | none => exact errs_bad_access
    | some nd => exact errs_bind _ _ (fun m1 => errs_zero _)
  | false =>
    cases a1 with
    | false => exact errs_enomem _
    | true =>
      simp only [Bool.false_eq_true, if_false, kzalloc, if_true]
      exact errs_bind _ _ (fun m1 => errs_bind _ _ (fun m2 =>
        add_link_errs _ trie bits key cidr _ node a2))

/-- With a peer and a prefix length within the key, `add` returns 0 or `ENOMEM` if it
returns, whatever the memory holds. -/
theorem add_errs (m : Mem) (trie : Option Nat) (bits : Nat) (key : List u8) (cidr : Nat)
    (hc : cidr ≤ bits) (pr : Nat) (a1 a2 : Bool) (fuel : Nat) :
    Errs (add m trie bits key cidr (some pr) a1 a2 fuel) := by
  have hc2 : ¬ (cidr > bits) := by omega
  simp only [add, hc2, if_false]
  cases node_placement m trie key cidr bits fuel with
  | ok x => exact add_tail_errs m trie bits key cidr pr a1 a2 x.1 x.2
  | bad_access => exact errs_bad_access
  | assert_failed => intro e r he; cases he
  | out_of_fuel => intro e r he; cases he

end WG


namespace WG

/-! ## The cases of `add` -/

theorem add_tail_exact (m : Mem) (trie : Option Nat) (bits : Nat) (key : List u8)
    (cidr pr : Nat) (a1 a2 : Bool) (nd : Nat) (n : whitelist_node) (h : m.heap nd = some n) :
    add_tail m trie bits key cidr pr a1 a2 true (some nd) =
      .ok (0, list_move_tail (m.store nd { n with peer := some pr }) nd pr, trie) := by
  simp [add_tail, Mem.update, h]

theorem add_tail_new (m : Mem) (trie : Option Nat) (bits : Nat) (key : List u8)
    (cidr pr : Nat) (a2 : Bool) (node : Option Nat) :
    ∃ m3, add_tail m trie bits key cidr pr true a2 false node =
        add_link m3 trie bits key cidr m.brk node a2 ∧
      m3.heap m.brk = some (mk_node bits cidr (key_bits bits key) (some pr) none none) ∧
      (∀ q, q ≠ m.brk → m3.heap q = m.heap q) ∧
      m3.brk = m.brk + 1 ∧ m3.lists = (list_add_tail m m.brk pr).lists := by
  simp only [add_tail, kzalloc, Mem.update, if_true, Bool.false_eq_true, if_false,
    ok_bind, store_heap, list_add_tail_heap]
  refine ⟨_, rfl, ?_, ?_, rfl, rfl⟩
  · simp [new_leaf_eq]
  · intro q hq; simp [hq]

theorem add_link_attach (m : Mem) (trie : Option Nat) (bits : Nat)
    (hb : bits = 32 ∨ bits = 128) (key : List u8) (hk : bits / 8 ≤ key.length)
    (cidr newnode : Nat) (a2 : Bool) (nd c : Nat) (bs : List u8) (po l r : Option Nat)
    (h : m.heap nd = some (mk_node bits c bs po l r)) (hc : c < bits)
    (hs : (if kbit bits key c then r else l) = none) :
    ∃ m', add_link m trie bits key cidr newnode (some nd) a2 = .ok (0, m', trie) ∧
      m'.heap nd = some (mk_node bits c bs po (if kbit bits key c then l else some newnode)
        (if kbit bits key c then some newnode else r)) ∧
      (∀ q, q ≠ nd → m'.heap q = m.heap q) ∧
      m'.brk = m.brk ∧ m'.lists = m.lists := by
  have hci := choose_index_mk bits hb c bs po l r key hc hk
  have hbit := bit_mk bits c bs po l r (kbit bits key c)
  rw [hs] at hbit
  simp only [add_link, Mem.update, Mem.read, ok_bind, h, hci, hbit]
  refine ⟨_, rfl, ?_, ?_, rfl, rfl⟩
  · simp [set_bit_mk]
  · intro q h1
    simp [h1]

end WG

namespace WG

theorem add_split_direct (m : Mem) (trie : Option Nat) (bits : Nat)
    (hb : bits = 32 ∨ bits = 128) (key : List u8) (cidr : Nat) (a2 : Bool)
    (newnode down : Nat) (parent : Option Nat) (kb : List u8) (npe : Option Nat)
    (dc : Nat) (dbs : List u8) (dpo dl dr : Option Nat)
    (pc : Nat) (pbs : List u8) (ppo pl pr : Option Nat)
    (hn : m.heap newnode = some (mk_node bits cidr kb npe none none))
    (hd : m.heap down = some (mk_node bits dc dbs dpo dl dr))
    (hcidr : cidr < bits) (hkb : bits / 8 ≤ kb.length)
    (hdbs : bits / 8 ≤ dbs.length)
    (hmin : cidr ≤ cbits bits dbs key)
    (hpar : ∀ par, parent = some par → par ≠ newnode ∧ pc < bits ∧
      m.heap par = some (mk_node bits pc pbs ppo pl pr)) :
    ∃ m' trie', add_split m trie bits key cidr newnode parent down a2 = .ok (0, m', trie') ∧
      m'.heap newnode = some (mk_node bits cidr kb npe
        (if kbit bits dbs cidr then none else some down)
        (if kbit bits dbs cidr then some down else none)) ∧
      (parent = none → trie' = some newnode) ∧
      (∀ par, parent = some par → trie' = trie ∧
        m'.heap par = some (mk_node bits pc pbs ppo
          (if kbit bits kb pc then pl else some newnode)
          (if kbit bits kb pc then some newnode else pr))) ∧
      (∀ q, q ≠ newnode → parent ≠ some q → m'.heap q = m.heap q) ∧
      m'.brk = m.brk ∧ m'.lists = m.lists := by
  have hci := choose_index_mk bits hb cidr kb npe none none dbs hcidr hdbs
  have hmin' : min cidr (common_bits (mk_node bits dc dbs dpo dl dr) key bits) = cidr := by
    rw [common_bits_eq_cbits]; simp [hmin]
  cases parent with
  | none =>
    simp only [add_split, Mem.read, Mem.update, hd, hn, ok_bind, mk_node_cidr, hmin', if_true,
      mk_node_bits, hci]
    refine ⟨_, _, rfl, ?_, fun _ => rfl, ?_, ?_, rfl, rfl⟩
    · simp [set_bit_mk]
    · intro par h; cases h
    · intro q h1 _
      simp [h1]
  | some par =>
    obtain ⟨hp1, hp2, hp3⟩ := hpar par rfl
    have hcp := choose_index_mk bits hb pc pbs ppo pl pr kb hp2 hkb
    simp only [add_split, Mem.read, Mem.update, hd, hn, ok_bind, mk_node_cidr, hmin', if_true,
      mk_node_bits, hci, store_heap, hp1, if_false, hp3, set_bit_mk, hcp]
    refine ⟨_, _, rfl, ?_, ?_, ?_, ?_, rfl, rfl⟩
    · simp [hp1.symm]
    · intro h; cases h
    · intro par2 h
      cases h
      simp
    · intro q h1 h2
      have : q ≠ par := fun h => h2 (by rw [h])
      simp [h1, this]

end WG

namespace WG

theorem add_split_branch (m : Mem) (trie : Option Nat) (bits : Nat)
    (hb : bits = 32 ∨ bits = 128) (key : List u8) (cidr : Nat)
    (newnode down : Nat) (parent : Option Nat) (kb : List u8) (npe : Option Nat)
    (dc : Nat) (dbs : List u8) (dpo dl dr : Option Nat)
    (pc : Nat) (pbs : List u8) (ppo pl pr : Option Nat)
    (hn : m.heap newnode = some (mk_node bits cidr kb npe none none))
    (hd : m.heap down = some (mk_node bits dc dbs dpo dl dr))
    (hnb : newnode ≠ m.brk) (hdb : down ≠ m.brk)
    (hcidr : cidr ≤ bits) (hkb : bits / 8 ≤ kb.length)
    (hdbs : bits / 8 ≤ dbs.length)
    (hmin : cbits bits dbs key < cidr)
    (hpar : ∀ par, parent = some par → par ≠ newnode ∧ par ≠ m.brk ∧ pc < bits ∧
      m.heap par = some (mk_node bits pc pbs ppo pl pr)) :
    ∃ m' trie', add_split m trie bits key cidr newnode parent down true = .ok (0, m', trie') ∧
      m'.heap newnode = some (mk_node bits cidr kb npe none none) ∧
      m'.heap m.brk = some (mk_node bits (cbits bits dbs key) (key_bits bits kb) none
        (if kbit bits kb (cbits bits dbs key) then
          (if kbit bits dbs (cbits bits dbs key) then none else some down)
         else some newnode)
        (if kbit bits kb (cbits bits dbs key) then some newnode
         else (if kbit bits dbs (cbits bits dbs key) then some down else none))) ∧
      (parent = none → trie' = some m.brk) ∧
      (∀ par, parent = some par → trie' = trie ∧
        m'.heap par = some (mk_node bits pc pbs ppo
          (if kbit bits (key_bits bits kb) pc then pl else some m.brk)
          (if kbit bits (key_bits bits kb) pc then some m.brk else pr))) ∧
      (∀ q, q ≠ m.brk → parent ≠ some q → m'.heap q = m.heap q) ∧
      m'.brk = m.brk + 1 ∧ m'.lists = m.lists := by
  have hcb : cbits bits dbs key < bits := by omega
  have hmin' : min cidr (common_bits (mk_node bits dc dbs dpo dl dr) key bits) =
      cbits bits dbs key := by
    rw [common_bits_eq_cbits]; simp; omega
  have hne : ¬ (cidr = cbits bits dbs key) := by omega
  have hci1 := choose_index_mk bits hb (cbits bits dbs key) (key_bits bits kb) none none none
    dbs hcb hdbs
  have hci2 : ∀ x y, choose_index (mk_node bits (cbits bits dbs key) (key_bits bits kb) none x y)
      kb = .ok (if kbit bits kb (cbits bits dbs key) then 1 else 0) :=
    fun x y => choose_index_mk bits hb (cbits bits dbs key) (key_bits bits kb) none x y
      kb hcb hkb
  have hkb2 : bits / 8 ≤ (key_bits bits kb).length := by
    rw [key_bits_length bits hb kb hkb]; rcases hb with rfl | rfl <;> decide
  cases parent with
  | none =>
    simp only [add_split, Mem.read, Mem.update, hd, hn, ok_bind, mk_node_cidr, hmin', hne,
      if_false, kzalloc, if_true, hnb, hdb, store_heap, new_branch_eq, mk_node_bits, hci1,
      set_bit_mk, hci2]
    refine ⟨_, _, rfl, ?_, ?_, fun _ => rfl, ?_, ?_, rfl, rfl⟩
    · simp [hnb, hn]
    · simp
    · intro par h; cases h
    · intro q h1 _
      simp [h1]
  | some par =>
    obtain ⟨hp1, hp0, hp2, hp3⟩ := hpar par rfl
    have hcp := choose_index_mk bits hb pc pbs ppo pl pr (key_bits bits kb) hp2 hkb2
    simp only [add_split, Mem.read, Mem.update, hd, hn, ok_bind, mk_node_cidr, hmin', hne,
      if_false, kzalloc, if_true, hnb, hdb, store_heap, new_branch_eq, mk_node_bits, hci1,
      set_bit_mk, hci2, hp0, hp3, hcp]
    refine ⟨_, _, rfl, ?_, ?_, ?_, ?_, ?_, rfl, rfl⟩
    · simp [hnb, hp1.symm, hn]
    · simp [hp0.symm]
    · intro h; cases h
    · intro par2 h
      cases h
      simp
    · intro q h1 h2
      have : q ≠ par := fun h => h2 (by rw [h])
      simp [h1, this]

end WG


namespace WG

theorem add_link_down (m : Mem) (trie : Option Nat) (bits : Nat)
    (hb : bits = 32 ∨ bits = 128) (key : List u8) (hk : bits / 8 ≤ key.length)
    (cidr newnode down : Nat) (parent : Option Nat) (a2 : Bool)
    (pc : Nat) (pbs : List u8) (ppo pl pr : Option Nat)
    (hroot : parent = none → trie = some down)
    (hpar : ∀ par, parent = some par → pc < bits ∧
      m.heap par = some (mk_node bits pc pbs ppo pl pr) ∧
      (if kbit bits key pc then pr else pl) = some down) :
    add_link m trie bits key cidr newnode parent a2 =
      add_split m trie bits key cidr newnode parent down a2 := by
  cases parent with
  | none => simp [add_link, hroot rfl]
  | some par =>
    obtain ⟨h1, h2, h3⟩ := hpar par rfl
    have hci := choose_index_mk bits hb pc pbs ppo pl pr key h1 hk
    have hbit := bit_mk bits pc pbs ppo pl pr (kbit bits key pc)
    rw [h3] at hbit
    simp only [add_link, Mem.read, h2, ok_bind, hci, hbit]

theorem add_nil (bits : Nat) (hb : bits = 32 ∨ bits = 128) (m : Mem) (key : List u8)
    (hk : bits / 8 ≤ key.length) (cidr : Nat) (hcidr : cidr ≤ bits) (pr : Nat)
    (trie : Option Nat) (parent : Option Nat)
    (pc : Nat) (pbs : List u8) (ppo pl pr2 : Option Nat)
    (hpre : AddPre bits m key cidr trie .nil parent pc pbs ppo pl pr2) :
    ∃ m2 trie2, add_tail m trie bits key cidr pr true true false parent = .ok (0, m2, trie2) ∧
      AddPost bits m key cidr pr trie .nil parent pc pbs ppo pl pr2 m2 trie2 := by
  obtain ⟨_, _, _, hnone, hsome⟩ := hpre
  cases parent with
  | none => exact absurd rfl (hnone rfl).2
  | some par =>
    obtain ⟨hp1, _, hp3, hp4, hp5⟩ := hsome par rfl
    obtain ⟨m3, e3, h3a, h3b, h3c, h3d⟩ := add_tail_new m trie bits key cidr pr true (some par)
    have hp4' : m3.heap par = some (mk_node bits pc pbs ppo pl pr2) := by
      rw [h3b par (by omega)]; exact hp4
    obtain ⟨m2, e2, h2a, h2b, h2c, h2d⟩ := add_link_attach m3 trie bits hb key hk cidr m.brk
      true par pc pbs ppo pl pr2 hp4' (by omega) hp5
    refine ⟨m2, trie, by rw [e3, e2], ?_, ?_, ?_, ?_, ?_, ?_, ?_, ?_⟩
    · refine ⟨?_, trivial, trivial⟩
      rw [h2b _ (by omega), h3a]; rfl
    · intro h; cases h
    · intro par2 h
      cases h
      exact ⟨rfl, h2a⟩
    · intro q hq _ hqp
      have : q ≠ par := fun h => hqp (by rw [h])
      rw [h2b q this, h3b q (by omega)]
    · omega
    · omega
    · intro q hq
      simp [addT, Tree.ptrs] at hq
      omega
    · simp [placedT, h2d, h3d]

end WG


namespace WG

theorem mem_ptrs_branch (np cb cidr : Nat) (kb kb2 : List u8) (pe : Option Nat) (T : Tree)
    (i j : Bool) (q : Nat)
    (h : q ∈ (Tree.node (np + 1) cb kb2 none
      (if j then (if i then .nil else T) else .node np cidr kb pe .nil .nil)
      (if j then .node np cidr kb pe .nil .nil else (if i then T else .nil))).ptrs) :
    q = np + 1 ∨ q = np ∨ q ∈ T.ptrs := by
  cases i <;> cases j <;> simp [Tree.ptrs] at h <;> tauto



theorem add_bottom (bits : Nat) (hb : bits = 32 ∨ bits = 128) (m : Mem) (key : List u8)
    (hk : bits / 8 ≤ key.length) (cidr : Nat) (hcidr : cidr ≤ bits) (pr : Nat)
    (trie : Option Nat) (parent : Option Nat)
    (pc : Nat) (pbs : List u8) (ppo pl pr2 : Option Nat)
    (p c : Nat) (bs : List u8) (po : Option Nat) (l r : Tree)
    (hc : c ≤ bits) (hbs : bs.length = 16)
    (hcond : ¬ (c ≤ cidr ∧ c ≤ cbits bits bs key))
    (hpre : AddPre bits m key cidr trie (.node p c bs po l r) parent pc pbs ppo pl pr2) :
    ∃ m2 trie2, add_tail m trie bits key cidr pr true true false parent = .ok (0, m2, trie2) ∧
      AddPost bits m key cidr pr trie (.node p c bs po l r) parent pc pbs ppo pl pr2
        m2 trie2 := by
  obtain ⟨hlaid, _, hlt, hnone, hsome⟩ := hpre
  have hlaid0 := hlaid
  obtain ⟨hp, _, _⟩ := hlaid
  have hpb : p < m.brk := hlt p (by simp [Tree.ptrs])
  obtain ⟨m3, e3, h3a, h3b, h3c, h3d⟩ := add_tail_new m trie bits key cidr pr true parent
  have hkb : bits / 8 ≤ (key_bits bits key).length := by
    rw [key_bits_length bits hb key hk]; rcases hb with rfl | rfl <;> decide
  have hdbs : bits / 8 ≤ bs.length := by
    rw [hbs]; rcases hb with rfl | rfl <;> decide
  have hroot : parent = none → trie = some p := fun h => by
    have := (hnone h).1; simpa using this.symm
  have hpar3 : ∀ par, parent = some par → par ≠ m.brk ∧ pc < bits ∧
      m3.heap par = some (mk_node bits pc pbs ppo pl pr2) ∧
      (if kbit bits key pc then pr2 else pl) = some p := by
    intro par h
    obtain ⟨h1, _, h2, h4, h5⟩ := hsome par h
    refine ⟨by omega, by omega, ?_, by simpa using h5⟩
    rw [h3b par (by omega)]; exact h4
  have e4 := add_link_down m3 trie bits hb key hk cidr m.brk p parent true pc pbs ppo pl pr2
    hroot (fun par h => (hpar3 par h).2)
  have hd3 : m3.heap p = some (mk_node bits c bs po l.ptr r.ptr) := by
    rw [h3b p (by omega)]; exact hp
  have hlaid3 : ∀ m2 : Mem, (∀ q, q ≠ m.brk → q ≠ m.brk + 1 → parent ≠ some q →
      m2.heap q = m3.heap q) → Laid bits m2.heap (.node p c bs po l r) := by
    intro m2 hfr
    apply Laid_congr bits m.heap m2.heap _ _ hlaid0
    intro q hq
    have hq1 := hlt q hq
    have hq2 : parent ≠ some q := by
      intro h
      exact (hsome q h).2.1 hq
    rw [hfr q (by omega) (by omega) hq2, h3b q (by omega)]
  by_cases hmin : cidr ≤ cbits bits bs key
  · -- the new node takes the place of `down`
    have hcl : cidr < bits := by
      have := cbits_le bits hb bs key
      by_contra hh
      exact hcond ⟨by omega, by omega⟩
    obtain ⟨m2, trie2, e2, h2a, h2b, h2c, h2d, h2e, h2f⟩ :=
      add_split_direct m3 trie bits hb key cidr true m.brk p parent (key_bits bits key)
        (some pr) c bs po l.ptr r.ptr pc pbs ppo pl pr2 h3a hd3 hcl hkb hdbs hmin
        (fun par h => ⟨(hpar3 par h).1, (hpar3 par h).2.1, (hpar3 par h).2.2.1⟩)
    have haddT : addT bits key cidr pr m.brk (.node p c bs po l r) =
        if kbit bits bs cidr then
          .node m.brk cidr (key_bits bits key) (some pr) .nil (.node p c bs po l r)
        else .node m.brk cidr (key_bits bits key) (some pr) (.node p c bs po l r) .nil := by
      simp only [addT, hcond, if_false]
      rw [if_pos (by simp [hmin])]
    have hptr : (addT bits key cidr pr m.brk (.node p c bs po l r)).ptr = some m.brk := by
      rw [haddT]; split <;> rfl
    have hl2 := hlaid3 m2 (fun q h1 _ h3 => h2d q h1 h3)
    refine ⟨m2, trie2, by rw [e3, e4, e2], ?_, ?_, ?_, ?_, ?_, ?_, ?_, ?_⟩
    · rw [haddT]
      by_cases hd : kbit bits bs cidr = true
      · simp only [hd, if_true] at h2a ⊢
        exact ⟨h2a, trivial, hl2⟩
      · simp only [hd] at h2a ⊢
        exact ⟨h2a, hl2, trivial⟩
    · intro h; rw [hptr]; exact h2b h
    · intro par h
      obtain ⟨h1, h2⟩ := h2c par h
      refine ⟨h1, ?_⟩
      rw [h2, hptr, kbit_key_bits bits hb key hk]
    · intro q hq1 _ hq3
      rw [h2d q (by omega) hq3, h3b q (by omega)]
    · omega
    · omega
    · intro q hq
      rw [haddT] at hq
      have : q = m.brk ∨ q ∈ (Tree.node p c bs po l r).ptrs := by
        split at hq <;> simpa [Tree.ptrs] using hq
      rcases this with h | h
      · omega
      · have := hlt q h; omega
    · have : placedT bits key cidr m.brk (.node p c bs po l r) = m.brk := by
        simp only [placedT, hcond, if_false]
      rw [this, if_pos rfl, h2f, h3d]
  · -- a branch node is needed
    have hmin2 : cbits bits bs key < cidr := by omega
    obtain ⟨m2, trie2, e2, h2n, h2a, h2b, h2c, h2d, h2e, h2f⟩ :=
      add_split_branch m3 trie bits hb key cidr m.brk p parent (key_bits bits key)
        (some pr) c bs po l.ptr r.ptr pc pbs ppo pl pr2 h3a hd3 (by omega) (by omega) hcidr
        hkb hdbs hmin2
        (fun par h => ⟨(hpar3 par h).1, by
          have := (hsome par h).1; omega, (hpar3 par h).2.1, (hpar3 par h).2.2.1⟩)
    rw [h3c] at h2a h2b h2c h2d h2e
    have haddT : addT bits key cidr pr m.brk (.node p c bs po l r) =
        .node (m.brk + 1) (cbits bits bs key) (key_bits bits (key_bits bits key)) none
          (if kbit bits (key_bits bits key) (cbits bits bs key) then
            (if kbit bits bs (cbits bits bs key) then .nil else .node p c bs po l r)
           else .node m.brk cidr (key_bits bits key) (some pr) .nil .nil)
          (if kbit bits (key_bits bits key) (cbits bits bs key) then
            .node m.brk cidr (key_bits bits key) (some pr) .nil .nil
           else (if kbit bits bs (cbits bits bs key) then .node p c bs po l r else .nil)) := by
      have h1 : min cidr (cbits bits bs key) = cbits bits bs key := by omega
      have h2 : ¬ (cidr = cbits bits bs key) := by omega
      simp only [addT, hcond, if_false, h1, h2]
    have hptr : (addT bits key cidr pr m.brk (.node p c bs po l r)).ptr = some (m.brk + 1) := by
      rw [haddT]; rfl
    have hl2 := hlaid3 m2 (fun q _ h2 h3 => h2d q h2 h3)
    have hleaf : Laid bits m2.heap (.node m.brk cidr (key_bits bits key) (some pr) .nil .nil) :=
      ⟨h2n, trivial, trivial⟩
    refine ⟨m2, trie2, by rw [e3, e4, e2], ?_, ?_, ?_, ?_, ?_, ?_, ?_, ?_⟩
    · rw [haddT]
      by_cases hj : kbit bits (key_bits bits key) (cbits bits bs key) = true
      · by_cases hi : kbit bits bs (cbits bits bs key) = true
        · simp only [hj, hi, if_true] at h2a ⊢
          exact ⟨h2a, trivial, hleaf⟩
        · simp only [hj, hi, if_true, if_false] at h2a ⊢
          exact ⟨h2a, hl2, hleaf⟩
      · by_cases hi : kbit bits bs (cbits bits bs key) = true
        · simp only [hj, hi, if_true, if_false] at h2a ⊢
          exact ⟨h2a, hleaf, hl2⟩
        · simp only [hj, hi, if_false] at h2a ⊢
          exact ⟨h2a, hleaf, trivial⟩
    · intro h; rw [hptr]; exact h2b h
    · intro par h
      obtain ⟨h1, h2⟩ := h2c par h
      refine ⟨h1, ?_⟩
      have hkb2 : bits / 8 ≤ (key_bits bits key).length := hkb
      rw [h2, hptr, kbit_key_bits bits hb _ hkb2, kbit_key_bits bits hb key hk]
    · intro q hq1 _ hq3
      rw [h2d q (by omega) hq3, h3b q (by omega)]
    · omega
    · omega
    · intro q hq
      rw [haddT] at hq
      have : q = m.brk + 1 ∨ q = m.brk ∨ q ∈ (Tree.node p c bs po l r).ptrs := by
        exact mem_ptrs_branch _ _ _ _ _ _ _ _ _ _ hq
      rcases this with h | h | h
      · omega
      · omega
      · have := hlt q h; omega
    · have : placedT bits key cidr m.brk (.node p c bs po l r) = m.brk := by
        simp only [placedT, hcond, if_false]
      rw [this, if_pos rfl, h2f, h3d]

end WG


namespace WG

theorem mk_node_slot_same (bits pc : Nat) (pbs : List u8) (ppo pl pr2 : Option Nat) (d : Bool)
    (v : Option Nat) (h : (if d then pr2 else pl) = v) :
    mk_node bits pc pbs ppo (if d then pl else v) (if d then v else pr2) =
      mk_node bits pc pbs ppo pl pr2 := by
  cases d <;> simp at h <;> simp [h]

theorem add_exact (bits : Nat) (m : Mem) (key : List u8) (cidr : Nat) (pr : Nat)
    (trie : Option Nat) (parent : Option Nat)
    (pc : Nat) (pbs : List u8) (ppo pl pr2 : Option Nat)
    (p : Nat) (bs : List u8) (po : Option Nat) (l r : Tree)
    (hcond : cidr ≤ cbits bits bs key)
    (hpre : AddPre bits m key cidr trie (.node p cidr bs po l r) parent pc pbs ppo pl pr2) :
    ∃ m2 trie2, add_tail m trie bits key cidr pr true true true (some p) = .ok (0, m2, trie2) ∧
      AddPost bits m key cidr pr trie (.node p cidr bs po l r) parent pc pbs ppo pl pr2
        m2 trie2 := by
  obtain ⟨hlaid, hnd, hlt, hnone, hsome⟩ := hpre
  obtain ⟨hp, hl, hr⟩ := hlaid
  have hpb : p < m.brk := hlt p (by simp [Tree.ptrs])
  have haddT : addT bits key cidr pr m.brk (.node p cidr bs po l r) =
      .node p cidr bs (some pr) l r := by
    simp [addT, hcond]
  have hplaced : placedT bits key cidr m.brk (.node p cidr bs po l r) = p := by
    simp [placedT, hcond]
  simp only [Tree.ptrs, List.nodup_cons, List.mem_append, not_or] at hnd
  refine ⟨_, _, add_tail_exact m trie bits key cidr pr true true p _ hp, ?_, ?_, ?_, ?_, ?_, ?_,
    ?_, ?_⟩
  · rw [haddT]
    refine ⟨by simp; rfl, ?_, ?_⟩
    · apply Laid_congr bits m.heap _ l _ hl
      intro q hq
      have : q ≠ p := fun h => hnd.1.1 (h ▸ hq)
      simp [this]
    · apply Laid_congr bits m.heap _ r _ hr
      intro q hq
      have : q ≠ p := fun h => hnd.1.2 (h ▸ hq)
      simp [this]
  · intro h; rw [haddT]; exact (hnone h).1.symm
  · intro par h
    obtain ⟨_, h2, _, h4, h5⟩ := hsome par h
    have : par ≠ p := fun e => h2 (by rw [e]; simp [Tree.ptrs])
    refine ⟨rfl, ?_⟩
    rw [haddT]
    simp only [list_move_tail_heap, store_heap, this, if_false, h4, ptr_node]
    rw [mk_node_slot_same _ _ _ _ _ _ _ _ (by simpa using h5)]
  · intro q _ hq _
    have : q ≠ p := fun e => hq (by rw [e]; simp [Tree.ptrs])
    simp [this]
  · simp
  · simp
  · intro q hq
    rw [haddT] at hq
    simpa using hlt q hq
  · rw [hplaced, if_neg (by omega)]
    rfl

end WG

namespace WG

theorem add_pre_child (bits : Nat) (m : Mem) (key : List u8) (cidr : Nat)
    (trie : Option Nat) (parent : Option Nat)
    (pc : Nat) (pbs : List u8) (ppo pl pr2 : Option Nat)
    (p c : Nat) (bs : List u8) (po : Option Nat) (l r : Tree) (hc : c < cidr)
    (hpre : AddPre bits m key cidr trie (.node p c bs po l r) parent pc pbs ppo pl pr2) :
    AddPre bits m key cidr trie (if kbit bits key c then r else l) (some p) c bs po
      l.ptr r.ptr := by
  obtain ⟨hlaid, hnd, hlt, _, _⟩ := hpre
  obtain ⟨hp, hl, hr⟩ := hlaid
  simp only [Tree.ptrs, List.nodup_cons, List.mem_append, not_or, List.nodup_append] at hnd
  have hpb : p < m.brk := hlt p (by simp [Tree.ptrs])
  cases hd : kbit bits key c
  · simp only [Bool.false_eq_true, if_false]
    refine ⟨hl, hnd.2.1, fun q hq => hlt q (by simp [Tree.ptrs, hq]), (fun h => by cases h), ?_⟩
    intro par h
    cases h
    exact ⟨hpb, hnd.1.1, hc, hp, by simp [hd]⟩
  · simp only [if_true]
    refine ⟨hr, hnd.2.2.1, fun q hq => hlt q (by simp [Tree.ptrs, hq]), (fun h => by cases h), ?_⟩
    intro par h
    cases h
    exact ⟨hpb, hnd.1.2, hc, hp, by simp [hd]⟩

theorem add_lift (bits : Nat) (m : Mem) (key : List u8) (cidr pr : Nat)
    (trie : Option Nat) (parent : Option Nat)
    (pc : Nat) (pbs : List u8) (ppo pl pr2 : Option Nat)
    (p c : Nat) (bs : List u8) (po : Option Nat) (l r : Tree) (hc : c < cidr)
    (hcond : c ≤ cbits bits bs key)
    (hpre : AddPre bits m key cidr trie (.node p c bs po l r) parent pc pbs ppo pl pr2)
    (m2 : Mem) (trie2 : Option Nat)
    (hpost : AddPost bits m key cidr pr trie (if kbit bits key c then r else l) (some p)
      c bs po l.ptr r.ptr m2 trie2) :
    AddPost bits m key cidr pr trie (.node p c bs po l r) parent pc pbs ppo pl pr2
      m2 trie2 := by
  obtain ⟨hlaid, hnd, hlt, hnone, hsome⟩ := hpre
  obtain ⟨hp, hl, hr⟩ := hlaid
  obtain ⟨q1, _, q3, q4, q5, q6, q7, q8⟩ := hpost
  obtain ⟨q3a, q3b⟩ := q3 p rfl
  simp only [Tree.ptrs, List.nodup_cons, List.mem_append, not_or, List.nodup_append] at hnd
  have hpb : p < m.brk := hlt p (by simp [Tree.ptrs])
  have hne : ¬ (c = cidr) := by omega
  have hcc : c ≤ cidr ∧ c ≤ cbits bits bs key := ⟨by omega, hcond⟩
  have hdisj : ∀ q, q ∈ l.ptrs → q ∈ r.ptrs → False := fun q h1 h2 => hnd.2.2.2 h1 h2
  rcases Bool.eq_false_or_eq_true (kbit bits key c) with hd | hd
  · simp only [hd, if_true] at q1 q3b q4 q7 q8
    have haddT : addT bits key cidr pr m.brk (.node p c bs po l r) =
        .node p c bs po l (addT bits key cidr pr m.brk r) := by
      simp [addT, hcc, hne, hd]
    have hplaced : placedT bits key cidr m.brk (.node p c bs po l r) =
        placedT bits key cidr m.brk r := by
      simp [placedT, hcc, hne, hd]
    rw [AddPost, haddT, hplaced]
    refine ⟨⟨q3b, ?_, q1⟩, ?_, ?_, ?_, q5, q6, ?_, q8⟩
    · apply Laid_congr bits m.heap _ l _ hl
      intro q hq
      exact q4 q (hlt q (by simp [Tree.ptrs, hq])) (fun h => hdisj q hq h)
        (fun h => hnd.1.1 (by cases h; exact hq))
    · intro h; rw [q3a]; exact (hnone h).1.symm
    · intro par h
      obtain ⟨h1, h2, _, h4, h5⟩ := hsome par h
      refine ⟨q3a, ?_⟩
      rw [q4 par h1 (fun h' => h2 (by simp [Tree.ptrs, h']))
        (fun h' => h2 (by cases h'; simp [Tree.ptrs])), h4,
        mk_node_slot_same _ _ _ _ _ _ _ _ (by simpa using h5)]
    · intro q h1 h2 _
      exact q4 q h1 (fun h' => h2 (by simp [Tree.ptrs, h']))
        (fun h' => h2 (by cases h'; simp [Tree.ptrs]))
    · intro q hq
      simp only [Tree.ptrs, List.mem_cons, List.mem_append] at hq
      rcases hq with h | h | h
      · omega
      · have := hlt q (by simp [Tree.ptrs, h]); omega
      · exact q7 q h
  · simp only [hd, Bool.false_eq_true, if_false] at q1 q3b q4 q7 q8
    have haddT : addT bits key cidr pr m.brk (.node p c bs po l r) =
        .node p c bs po (addT bits key cidr pr m.brk l) r := by
      simp [addT, hcc, hne, hd]
    have hplaced : placedT bits key cidr m.brk (.node p c bs po l r) =
        placedT bits key cidr m.brk l := by
      simp [placedT, hcc, hne, hd]
    rw [AddPost, haddT, hplaced]
    refine ⟨⟨q3b, q1, ?_⟩, ?_, ?_, ?_, q5, q6, ?_, q8⟩
    · apply Laid_congr bits m.heap _ r _ hr
      intro q hq
      exact q4 q (hlt q (by simp [Tree.ptrs, hq])) (fun h => hdisj q h hq)
        (fun h => hnd.1.2 (by cases h; exact hq))
    · intro h; rw [q3a]; exact (hnone h).1.symm
    · intro par h
      obtain ⟨h1, h2, _, h4, h5⟩ := hsome par h
      refine ⟨q3a, ?_⟩
      rw [q4 par h1 (fun h' => h2 (by simp [Tree.ptrs, h']))
        (fun h' => h2 (by cases h'; simp [Tree.ptrs])), h4,
        mk_node_slot_same _ _ _ _ _ _ _ _ (by simpa using h5)]
    · intro q h1 h2 _
      exact q4 q h1 (fun h' => h2 (by simp [Tree.ptrs, h']))
        (fun h' => h2 (by cases h'; simp [Tree.ptrs]))
    · intro q hq
      simp only [Tree.ptrs, List.mem_cons, List.mem_append] at hq
      rcases hq with h | h | h
      · omega
      · exact q7 q h
      · have := hlt q (by simp [Tree.ptrs, h]); omega

end WG


namespace WG

/-- `node_placement` followed by the rest of `add` performs `addT` on the heap. -/
theorem add_descend (bits : Nat) (hb : bits = 32 ∨ bits = 128) (m : Mem) (key : List u8)
    (hk : bits / 8 ≤ key.length) (cidr : Nat) (hcidr : cidr ≤ bits) (pr : Nat)
    (trie : Option Nat) :
    ∀ (t : Tree) (lo : Nat) (pre : Nat → Bool) (parent : Option Nat)
      (pc : Nat) (pbs : List u8) (ppo pl pr2 : Option Nat) (fuel : Nat),
      TInv bits lo pre t → t.height ≤ fuel →
      AddPre bits m key cidr trie t parent pc pbs ppo pl pr2 →
      ∃ ex nd m2 trie2,
        node_placement_loop m key cidr bits fuel t.ptr parent = .ok (ex, nd) ∧
        add_tail m trie bits key cidr pr true true ex nd = .ok (0, m2, trie2) ∧
        AddPost bits m key cidr pr trie t parent pc pbs ppo pl pr2 m2 trie2
  | .nil, lo, pre, parent, pc, pbs, ppo, pl, pr2, fuel, _, _, hpre => by
    obtain ⟨m2, trie2, h1, h2⟩ :=
      add_nil bits hb m key hk cidr hcidr pr trie parent pc pbs ppo pl pr2 hpre
    refine ⟨false, parent, m2, trie2, ?_, h1, h2⟩
    cases fuel <;> simp [node_placement_loop]
  | .node p c bs po l r, lo, pre, parent, pc, pbs, ppo, pl, pr2, fuel, hinv, hf, hpre => by
    obtain ⟨_, hc, hbs, _, h5, h6⟩ := hinv
    have hp : m.heap p = some (mk_node bits c bs po l.ptr r.ptr) := hpre.1.1
    cases fuel with
    | zero => simp [Tree.height] at hf
    | succ fuel =>
      simp only [Tree.height] at hf
      simp only [ptr_node, node_placement_loop, hp, prefix_matches_mk, mk_node_cidr,
        decide_eq_true_eq]
      by_cases hcond : c ≤ cidr ∧ c ≤ cbits bits bs key
      · simp only [hcond, and_self, if_true]
        by_cases hex : c = cidr
        · subst hex
          simp only [if_true]
          obtain ⟨m2, trie2, h1, h2⟩ := add_exact bits m key c pr trie parent pc pbs ppo pl pr2
            p bs po l r hcond.2 hpre
          exact ⟨true, some p, m2, trie2, rfl, h1, h2⟩
        · simp only [hex, if_false]
          have hlt : c < cidr := by omega
          rw [CHOOSE_NODE_mk bits hb c bs po _ _ key (by omega) hk]
          have hchild := add_pre_child bits m key cidr trie parent pc pbs ppo pl pr2 p c bs po
            l r hlt hpre
          rcases Bool.eq_false_or_eq_true (kbit bits key c) with hd | hd
          · simp only [hd, if_true] at hchild ⊢
            obtain ⟨ex, nd, m2, trie2, e1, e2, e3⟩ :=
              add_descend bits hb m key hk cidr hcidr pr trie r
                _ _ (some p) c bs po l.ptr r.ptr fuel h6 (by omega) hchild
            refine ⟨ex, nd, m2, trie2, e1, e2, ?_⟩
            exact add_lift bits m key cidr pr trie parent pc pbs ppo pl pr2 p c bs po l r hlt
              hcond.2 hpre m2 trie2 (by simpa [hd] using e3)
          · simp only [hd, Bool.false_eq_true, if_false] at hchild ⊢
            obtain ⟨ex, nd, m2, trie2, e1, e2, e3⟩ :=
              add_descend bits hb m key hk cidr hcidr pr trie l
                _ _ (some p) c bs po l.ptr r.ptr fuel h5 (by omega) hchild
            refine ⟨ex, nd, m2, trie2, e1, e2, ?_⟩
            exact add_lift bits m key cidr pr trie parent pc pbs ppo pl pr2 p c bs po l r hlt
              hcond.2 hpre m2 trie2 (by simpa [hd] using e3)
      · simp only [hcond, if_false]
        obtain ⟨m2, trie2, h1, h2⟩ := add_bottom bits hb m key hk cidr hcidr pr trie parent pc
          pbs ppo pl pr2 p c bs po l r hc hbs hcond hpre
        exact ⟨false, parent, m2, trie2, rfl, h1, h2⟩

end WG


namespace WG

/-- On a trie that has a node, `add` with both allocations succeeding performs `addT` on the
heap and touches nothing else. -/
theorem add_ok (bits : Nat) (hb : bits = 32 ∨ bits = 128) (m : Mem) (key : List u8)
    (hk : bits / 8 ≤ key.length) (cidr : Nat) (hcidr : cidr ≤ bits) (pr : Nat)
    (t : Tree) (lo : Nat) (pre : Nat → Bool) (fuel : Nat)
    (hl : Laid bits m.heap t) (hi : TInv bits lo pre t) (hnd : t.ptrs.Nodup)
    (hlt : ∀ q, q ∈ t.ptrs → q < m.brk) (hf : t.height ≤ fuel) (hne : t.ptr ≠ none) :
    ∃ m2, add m t.ptr bits key cidr (some pr) true true fuel =
        .ok (0, m2, (addT bits key cidr pr m.brk t).ptr) ∧
      Laid bits m2.heap (addT bits key cidr pr m.brk t) ∧
      (∀ q, q < m.brk → q ∉ t.ptrs → m2.heap q = m.heap q) ∧
      m.brk ≤ m2.brk ∧ m2.brk ≤ m.brk + 2 ∧
      (∀ q, q ∈ (addT bits key cidr pr m.brk t).ptrs → q < m2.brk) ∧
      m2.lists = (if placedT bits key cidr m.brk t = m.brk then list_add_tail m m.brk pr
        else list_move_tail m (placedT bits key cidr m.brk t) pr).lists := by
  cases t with
  | nil => exact absurd rfl hne
  | node p c bs po l r =>
    have hpre : AddPre bits m key cidr (Tree.node p c bs po l r).ptr (.node p c bs po l r) none
        0 [] none none none :=
      ⟨hl, hnd, hlt, fun _ => ⟨rfl, by simp⟩, fun par h => by cases h⟩
    obtain ⟨ex, nd, m2, trie2, e1, e2, e3⟩ :=
      add_descend bits hb m key hk cidr hcidr pr _ (.node p c bs po l r) lo pre none
        0 [] none none none fuel hi hf hpre
    obtain ⟨q1, q2, _, q4, q5, q6, q7, q8⟩ := e3
    have hc : ¬ (cidr > bits) := by omega
    refine ⟨m2, ?_, q1, fun q h1 h2 => q4 q h1 h2 (by simp), q5, q6, q7, q8⟩
    rw [← q2 rfl, ← e2]
    simp only [add, hc, if_false, ptr_node, node_placement]
    rw [show some p = (Tree.node p c bs po l r).ptr from rfl, e1]

end WG


namespace WG

/-! ## Allocation failure -/

theorem add_split_flags (m : Mem) (trie : Option Nat) (bits : Nat) (key : List u8)
    (cidr newnode : Nat) (parent : Option Nat) (down : Nat) (a2 : Bool)
    (r : Mem × Option Nat)
    (h : add_split m trie bits key cidr newnode parent down true = .ok (0, r)) :
    add_split m trie bits key cidr newnode parent down a2 = .ok (0, r) ∨
      add_split m trie bits key cidr newnode parent down a2 =
        .ok (ENOMEM, m.free newnode, trie) := by
  cases a2 with
  | true => left; exact h
  | false =>
    revert h
    simp only [add_split, Mem.read]
    cases m.heap down with
    | none => simp [Bind.bind, Outcome.bind]
    | some dn =>
      cases m.heap newnode with
      | none => simp [Bind.bind, Outcome.bind]
      | some nn =>
        simp only [ok_bind]
        by_cases hc : nn.cidr = min cidr (common_bits dn key bits)
        · simp only [hc, if_true]
          intro h; left; exact h
        · simp only [hc, if_false, kzalloc, Bool.false_eq_true]
          intro _; right; trivial

theorem add_link_flags (m : Mem) (trie : Option Nat) (bits : Nat) (key : List u8)
    (cidr newnode : Nat) (node : Option Nat) (a2 : Bool) (r : Mem × Option Nat)
    (h : add_link m trie bits key cidr newnode node true = .ok (0, r)) :
    add_link m trie bits key cidr newnode node a2 = .ok (0, r) ∨
      add_link m trie bits key cidr newnode node a2 = .ok (ENOMEM, m.free newnode, trie) := by
  revert h
  simp only [add_link]
  cases node with
  | none =>
    cases trie with
    | none => simp
    | some down => exact add_split_flags m _ bits key cidr newnode none down a2 r
  | some nd =>
    simp only [Mem.read]
    cases m.heap nd with
    | none => simp [Bind.bind, Outcome.bind]
    | some n =>
      simp only [ok_bind]
      cases choose_index n key with
      | ok i =>
        simp only [ok_bind]
        cases n.bit i with
        | none => intro h; left; exact h
        | some down => exact add_split_flags m _ bits key cidr newnode (some nd) down a2 r
      | bad_access => simp [Bind.bind, Outcome.bind]
      | assert_failed => simp [Bind.bind, Outcome.bind]
      | out_of_fuel => simp [Bind.bind, Outcome.bind]

theorem add_tail_leaf_mem (m : Mem) (trie : Option Nat) (bits : Nat) (key : List u8)
    (cidr pr : Nat) (a2 : Bool) (node : Option Nat) :
    add_tail m trie bits key cidr pr true a2 false node =
      add_link (leaf_mem m bits key cidr pr) trie bits key cidr m.brk node a2 := by
  simp only [add_tail, kzalloc, Mem.update, if_true, Bool.false_eq_true, if_false,
    ok_bind, store_heap, list_add_tail_heap]
  congr 1
  simp only [leaf_mem, Mem.store, list_add_tail, new_leaf_eq]
  congr 1
  funext q
  by_cases hq : q = m.brk <;> simp [hq]

theorem add_tail_flags (m : Mem) (trie : Option Nat) (bits : Nat) (key : List u8)
    (cidr pr : Nat) (a1 a2 : Bool) (exact : Bool) (node : Option Nat) (r : Mem × Option Nat)
    (h : add_tail m trie bits key cidr pr true true exact node = .ok (0, r)) :
    add_tail m trie bits key cidr pr a1 a2 exact node = .ok (0, r) ∨
      ∃ m3, add_tail m trie bits key cidr pr a1 a2 exact node = .ok (ENOMEM, m3, trie) ∧
        AddFail m pr m3 trie trie := by
  cases exact with
  | true => left; rw [← h]; simp only [add_tail, if_true]
  | false =>
    cases a1 with
    | false =>
      right
      refine ⟨m, by simp [add_tail, kzalloc], rfl, fun _ _ => rfl, Nat.le_refl _, by omega,
        Or.inl rfl⟩
    | true =>
      rw [add_tail_leaf_mem] at h ⊢
      rcases add_link_flags _ trie bits key cidr m.brk node a2 r h with h2 | h2
      · left; exact h2
      · right
        refine ⟨_, h2, rfl, ?_, ?_, ?_, Or.inr ⟨rfl, ?_⟩⟩
        · intro q hq
          have : q ≠ m.brk := by omega
          simp [Mem.free, leaf_mem, this]
        · simp [Mem.free, leaf_mem]
        · simp [Mem.free, leaf_mem]
        · simp [Mem.free, leaf_mem]

end WG

namespace WG

/-- On a trie that has no node, `add` with valid arguments never returns 0: it fails with
`ENOMEM` when the allocation of line 251 fails, and otherwise line 268 loads through the
`NULL` pointer `down`. -/
theorem add_null_root (m : Mem) (bits : Nat) (key : List u8) (cidr : Nat) (hc : cidr ≤ bits)
    (pr : Nat) (a1 a2 : Bool) (fuel : Nat) :
    add m none bits key cidr (some pr) a1 a2 fuel =
      if a1 = true then .bad_access else .ok (ENOMEM, m, none) := by
  have hc2 : ¬ (cidr > bits) := by omega
  have hnp : node_placement m none key cidr bits fuel = .ok (false, none) := by
    cases fuel <;> rfl
  simp only [add, hc2, if_false, hnp]
  cases a1 with
  | true =>
    rw [add_tail_leaf_mem]
    simp [add_link]
  | false => simp [add_tail, kzalloc]

/-- On a trie that has a node `add` returns with any allocator behaviour: either it succeeds
and performs `addT`, or it fails with `ENOMEM` and leaves the trie as it was. -/
theorem add_total (bits : Nat) (hb : bits = 32 ∨ bits = 128) (m : Mem) (key : List u8)
    (hk : bits / 8 ≤ key.length) (cidr : Nat) (hcidr : cidr ≤ bits) (pr : Nat)
    (t : Tree) (lo : Nat) (pre : Nat → Bool) (fuel : Nat) (a1 a2 : Bool)
    (hl : Laid bits m.heap t) (hi : TInv bits lo pre t) (hnd : t.ptrs.Nodup)
    (hlt : ∀ q, q ∈ t.ptrs → q < m.brk) (hf : t.height ≤ fuel) (hne : t.ptr ≠ none) :
    ∃ e m2 trie2, add m t.ptr bits key cidr (some pr) a1 a2 fuel = .ok (e, m2, trie2) ∧
      ((e = 0 ∧ AddDone bits m key cidr pr t m2 trie2) ∨
        (e = ENOMEM ∧ AddFail m pr m2 t.ptr trie2)) ∧
      (a1 = true → a2 = true → e = 0) := by
  obtain ⟨m2, e2, q1, q2, q3, q4, q5, q6⟩ :=
    add_ok bits hb m key hk cidr hcidr pr t lo pre fuel hl hi hnd hlt hf hne
  have hdone : AddDone bits m key cidr pr t m2 (addT bits key cidr pr m.brk t).ptr :=
    ⟨rfl, q1, q2, q3, q4, q5, q6⟩
  have hc : ¬ (cidr > bits) := by omega
  cases t with
  | nil => exact absurd rfl hne
  | node p c bs po l r =>
    simp only [add, hc, if_false, ptr_node] at e2 ⊢
    cases hnp : node_placement m (some p) key cidr bits fuel with
    | ok x =>
      obtain ⟨ex, nd⟩ := x
      rw [hnp] at e2
      simp only at e2 ⊢
      rcases add_tail_flags m (some p) bits key cidr pr a1 a2 ex nd _ e2 with h | ⟨m3, h, hf3⟩
      · exact ⟨0, m2, _, h, Or.inl ⟨rfl, hdone⟩, fun _ _ => rfl⟩
      · refine ⟨ENOMEM, m3, _, h, Or.inr ⟨rfl, hf3⟩, ?_⟩
        intro h1 h2
        subst h1; subst h2
        rw [e2] at h
        cases h
    | bad_access => rw [hnp] at e2; cases e2
    | assert_failed => rw [hnp] at e2; cases e2
    | out_of_fuel => rw [hnp] at e2; cases e2

end WG


namespace WG

/-! ## Insertion on the tree -/

theorem TInv_rebase (bits : Nat) (p c : Nat) (bs : List u8) (po : Option Nat) (l r : Tree)
    (lo lo2 : Nat) (pre pre2 : Nat → Bool) (h : TInv bits lo pre (.node p c bs po l r))
    (hlo : lo2 ≤ c) (hpre : ∀ i, i < lo2 → kbit bits bs i = pre2 i) :
    TInv bits lo2 pre2 (.node p c bs po l r) := by
  obtain ⟨_, h2, h3, _, h5, h6⟩ := h
  exact ⟨hlo, h2, h3, hpre, h5, h6⟩

theorem TInv_leaf (bits : Nat) (hb : bits = 32 ∨ bits = 128) (key : List u8)
    (hk : bits / 8 ≤ key.length) (np cidr : Nat) (pe : Option Nat) (lo : Nat)
    (pre : Nat → Bool) (hlo : lo ≤ cidr) (hc : cidr ≤ bits)
    (hpre : ∀ i, i < lo → kbit bits key i = pre i) :
    TInv bits lo pre (.node np cidr (key_bits bits key) pe .nil .nil) :=
  ⟨hlo, hc, key_bits_length bits hb key hk,
    fun i hi => by rw [kbit_key_bits bits hb key hk]; exact hpre i hi, trivial, trivial⟩

theorem split_facts (bits : Nat) (c cidr : Nat) (bs key : List u8)
    (hcond : ¬ (c ≤ cidr ∧ c ≤ cbits bits bs key)) :
    (cidr ≤ cbits bits bs key → cidr < c) ∧ (cbits bits bs key < cidr → cbits bits bs key < c) := by
  constructor <;> intro h <;> by_contra hh <;> exact hcond ⟨by omega, by omega⟩

theorem TInv_addT (bits : Nat) (hb : bits = 32 ∨ bits = 128) (key : List u8)
    (hk : bits / 8 ≤ key.length) (cidr pe np : Nat) (hc : cidr ≤ bits) :
    ∀ (t : Tree) (lo : Nat) (pre : Nat → Bool), TInv bits lo pre t → lo ≤ cidr →
      (∀ i, i < lo → kbit bits key i = pre i) → TInv bits lo pre (addT bits key cidr pe np t)
  | .nil, lo, pre, _, hlo, hpre => TInv_leaf bits hb key hk np cidr _ lo pre hlo hc hpre
  | .node p c bs po l r, lo, pre, hi, hlo, hpre => by
    have hi0 := hi
    obtain ⟨h1, h2, h3, h4, h5, h6⟩ := hi
    have hkb : bits / 8 ≤ (key_bits bits key).length := by
      rw [key_bits_length bits hb key hk]; rcases hb with rfl | rfl <;> decide
    simp only [addT]
    by_cases hcond : c ≤ cidr ∧ c ≤ cbits bits bs key
    · simp only [hcond, and_self, if_true]
      have hag := (cbits_ge_iff bits hb bs key c h2).1 hcond.2
      by_cases hex : c = cidr
      · simp only [hex, if_true]
        subst hex
        exact ⟨h1, h2, h3, h4, h5, h6⟩
      · simp only [hex, if_false]
        rcases Bool.eq_false_or_eq_true (kbit bits key c) with hd | hd
        · simp only [hd, if_true]
          refine ⟨h1, h2, h3, h4, h5, ?_⟩
          apply TInv_addT bits hb key hk cidr pe np hc r _ _ h6 (by omega)
          intro i hi
          by_cases hic : i = c
          · simp [hic, hd]
          · simp only [hic, if_false]; exact (hag i (by omega)).symm
        · simp only [hd, Bool.false_eq_true, if_false]
          refine ⟨h1, h2, h3, h4, ?_, h6⟩
          apply TInv_addT bits hb key hk cidr pe np hc l _ _ h5 (by omega)
          intro i hi
          by_cases hic : i = c
          · simp [hic, hd]
          · simp only [hic, if_false]; exact (hag i (by omega)).symm
    · simp only [hcond, if_false]
      obtain ⟨hf1, hf2⟩ := split_facts bits c cidr bs key hcond
      by_cases hmin : cidr ≤ cbits bits bs key
      · have hm : cidr = min cidr (cbits bits bs key) := by omega
        rw [if_pos hm]
        have hag := (cbits_ge_iff bits hb bs key cidr hc).1 hmin
        have hdown : ∀ b : Bool, kbit bits bs cidr = b → TInv bits (cidr + 1)
            (fun i => if i = cidr then b else kbit bits (key_bits bits key) i)
            (.node p c bs po l r) := by
          intro b hb2
          apply TInv_rebase bits p c bs po l r lo _ pre _ hi0 (by have := hf1 hmin; omega)
          intro i hi
          by_cases hic : i = cidr
          · simp [hic, hb2]
          · simp only [hic, if_false]
            rw [kbit_key_bits bits hb key hk]; exact hag i (by omega)
        have hroot : ∀ i, i < lo → kbit bits (key_bits bits key) i = pre i := fun i hi => by
          rw [kbit_key_bits bits hb key hk]; exact hpre i hi
        rcases Bool.eq_false_or_eq_true (kbit bits bs cidr) with hd | hd
        · simp only [hd, if_true]
          exact ⟨hlo, hc, key_bits_length bits hb key hk, hroot, trivial, hdown true hd⟩
        · simp only [hd, Bool.false_eq_true, if_false]
          exact ⟨hlo, hc, key_bits_length bits hb key hk, hroot, hdown false hd, trivial⟩
      · have hlt : cbits bits bs key < cidr := by omega
        have hm : ¬ (cidr = min cidr (cbits bits bs key)) := by omega
        have hm2 : min cidr (cbits bits bs key) = cbits bits bs key := by omega
        rw [if_neg hm, hm2]
        have hcb : cbits bits bs key < bits := by omega
        have hne := cbits_differ bits hb bs key hcb
        have hag := (cbits_ge_iff bits hb bs key (cbits bits bs key) (by omega)).1 (Nat.le_refl _)
        have hk2 : ∀ i, kbit bits (key_bits bits (key_bits bits key)) i = kbit bits key i :=
          fun i => by rw [kbit_key_bits bits hb _ hkb, kbit_key_bits bits hb key hk]
        have hlocb : lo ≤ cbits bits bs key := by
          rw [cbits_ge_iff bits hb bs key lo (by omega)]
          intro i hi
          rw [h4 i hi, hpre i hi]
        have hdown : ∀ b : Bool, kbit bits bs (cbits bits bs key) = b →
            TInv bits (cbits bits bs key + 1)
            (fun i => if i = cbits bits bs key then b
              else kbit bits (key_bits bits (key_bits bits key)) i)
            (.node p c bs po l r) := by
          intro b hb2
          apply TInv_rebase bits p c bs po l r lo _ pre _ hi0 (by have := hf2 hlt; omega)
          intro i hi
          by_cases hic : i = cbits bits bs key
          · simp [hic, hb2]
          · simp only [hic, if_false]
            rw [hk2]; exact hag i (by omega)
        have hleaf : ∀ b : Bool, kbit bits (key_bits bits key) (cbits bits bs key) = b →
            TInv bits (cbits bits bs key + 1)
            (fun i => if i = cbits bits bs key then b
              else kbit bits (key_bits bits (key_bits bits key)) i)
            (.node np cidr (key_bits bits key) (some pe) .nil .nil) := by
          intro b hb2
          refine ⟨by omega, hc, key_bits_length bits hb key hk, ?_, trivial, trivial⟩
          intro i hi
          by_cases hic : i = cbits bits bs key
          · simp [hic, hb2]
          · simp only [hic, if_false]
            rw [hk2, kbit_key_bits bits hb key hk]
        have hroot : ∀ i, i < lo → kbit bits (key_bits bits (key_bits bits key)) i = pre i :=
          fun i hi => by rw [hk2]; exact hpre i hi
        rw [kbit_key_bits bits hb key hk] at hleaf ⊢
        rcases Bool.eq_false_or_eq_true (kbit bits key (cbits bits bs key)) with hj | hj <;>
          rcases Bool.eq_false_or_eq_true (kbit bits bs (cbits bits bs key)) with hd | hd
        · exact absurd (hd.trans hj.symm) hne
        · simp only [hj, hd, if_true, Bool.false_eq_true, if_false]
          exact ⟨hlocb, by omega, key_bits_length bits hb _ hkb, hroot, hdown false hd,
            hleaf true hj⟩
        · simp only [hj, hd, if_true, Bool.false_eq_true, if_false]
          exact ⟨hlocb, by omega, key_bits_length bits hb _ hkb, hroot, hleaf false hj,
            hdown true hd⟩
        · exact absurd (hd.trans hj.symm) hne

end WG


namespace WG

theorem route_at_cons (p c : Nat) (pe : Option Nat) (rest : List (Nat × Nat × Option Nat))
    (c2 : Nat) : route_at ((p, c, pe) :: rest) c2 = if c = c2 then pe else route_at rest c2 :=
  rfl

theorem route_at_nil (c2 : Nat) : route_at [] c2 = none := rfl

theorem pathT_node_nil (bits : Nat) (k : List u8) (p c : Nat) (bs : List u8)
    (po : Option Nat) (l r : Tree) (h : ¬ (c ≤ cbits bits bs k)) :
    pathT bits k (.node p c bs po l r) = [] := by
  simp [pathT, h]

theorem pathT_node_pos (bits : Nat) (k : List u8) (p c : Nat) (bs : List u8)
    (po : Option Nat) (l r : Tree) (h : c ≤ cbits bits bs k) (hc : c ≠ bits) :
    pathT bits k (.node p c bs po l r) =
      (p, c, po) :: (if kbit bits k c then pathT bits k r else pathT bits k l) := by
  simp [pathT, h, hc]

theorem pathT_node_head (bits : Nat) (k : List u8) (p c : Nat) (bs : List u8)
    (po : Option Nat) (l r : Tree) (h : c ≤ cbits bits bs k) :
    ∃ rest, pathT bits k (.node p c bs po l r) = (p, c, po) :: rest := by
  simp [pathT, h]

theorem route_at_leaf (bits : Nat) (k : List u8) (np cidr : Nat) (kb : List u8)
    (pe : Option Nat) (c : Nat) :
    route_at (pathT bits k (.node np cidr kb pe .nil .nil)) c =
      if cidr ≤ cbits bits kb k ∧ cidr = c then pe else none := by
  by_cases h1 : cidr ≤ cbits bits kb k
  · by_cases h3 : cidr = bits
    · have : pathT bits k (.node np cidr kb pe .nil .nil) = [(np, cidr, pe)] := by
        simp only [pathT, if_pos h1, if_pos h3]
      rw [this, route_at_cons, route_at_nil]
      by_cases h2 : cidr = c
      · rw [if_pos h2, if_pos ⟨h1, h2⟩]
      · rw [if_neg h2, if_neg (fun h => h2 h.2)]
    · rw [pathT_node_pos bits k np cidr kb pe .nil .nil h1 h3, route_at_cons]
      have : (if kbit bits k cidr = true then pathT bits k .nil else pathT bits k .nil) = [] := by
        split <;> rfl
      rw [this, route_at_nil]
      by_cases h2 : cidr = c
      · rw [if_pos h2, if_pos ⟨h1, h2⟩]
      · rw [if_neg h2, if_neg (fun h => h2 h.2)]
  · rw [pathT_node_nil bits k np cidr kb pe .nil .nil h1, route_at_nil,
      if_neg (fun h => h1 h.1)]

theorem route_at_down_none (bits : Nat) (k : List u8) (p c : Nat) (bs : List u8)
    (po : Option Nat) (l r : Tree) (lo : Nat) (pre : Nat → Bool)
    (h : TInv bits lo pre (.node p c bs po l r)) (c2 : Nat) (hc : c2 < c) :
    route_at (pathT bits k (.node p c bs po l r)) c2 = none := by
  apply route_at_none_of_lt
  intro e he
  have h2 := TInv_rebase bits p c bs po l r lo c pre (kbit bits bs) h (Nat.le_refl _)
    (fun _ _ => rfl)
  have := (mem_pathT_ge bits k _ _ _ h2 e he).1
  omega

theorem route_exact (bits : Nat) (k : List u8) (p c : Nat) (bs : List u8)
    (po : Option Nat) (l r : Tree) (pe : Nat) (c2 : Nat) (M : Prop) [Decidable M]
    (hM : M ↔ c ≤ cbits bits bs k) :
    route_at (pathT bits k (.node p c bs (some pe) l r)) c2 =
      if c2 = c ∧ M then some pe else route_at (pathT bits k (.node p c bs po l r)) c2 := by
  by_cases hm : c ≤ cbits bits bs k
  · obtain ⟨rest, e1⟩ : ∃ rest, pathT bits k (.node p c bs (some pe) l r) =
        (p, c, some pe) :: rest ∧ pathT bits k (.node p c bs po l r) = (p, c, po) :: rest := by
      simp [pathT, hm]
    rw [e1.1, e1.2, route_at_cons, route_at_cons]
    by_cases hcc : c = c2
    · rw [if_pos hcc, if_pos ⟨hcc.symm, hM.2 hm⟩]
    · rw [if_neg hcc, if_neg (fun h => hcc h.1.symm), if_neg hcc]
  · rw [pathT_node_nil _ _ _ _ _ _ _ _ hm, pathT_node_nil _ _ _ _ _ _ _ _ hm,
      if_neg (fun h => hm (hM.1 h.2))]

end WG

namespace WG

theorem route_descend_right (bits : Nat) (hb : bits = 32 ∨ bits = 128) (key k : List u8)
    (p c cidr pe : Nat) (bs : List u8) (po : Option Nat) (l r r2 : Tree) (c2 : Nat)
    (M : Prop) [Decidable M]
    (hM : M → ∀ i, i < cidr → kbit bits key i = kbit bits k i)
    (hlt : c < cidr) (hc : cidr ≤ bits) (hbs : c ≤ cbits bits bs key)
    (hd : kbit bits key c = true)
    (ih : route_at (pathT bits k r2) c2 =
      if c2 = cidr ∧ M then some pe else route_at (pathT bits k r) c2) :
    route_at (pathT bits k (.node p c bs po l r2)) c2 =
      if c2 = cidr ∧ M then some pe else route_at (pathT bits k (.node p c bs po l r)) c2 := by
  have hag := (cbits_ge_iff bits hb bs key c (by omega)).1 hbs
  by_cases hm : c ≤ cbits bits bs k
  · rw [pathT_node_pos _ _ _ _ _ _ _ _ hm (by omega), pathT_node_pos _ _ _ _ _ _ _ _ hm (by omega),
      route_at_cons, route_at_cons]
    by_cases hcc : c = c2
    · rw [if_pos hcc, if_pos hcc, if_neg (fun h => by omega)]
    · rw [if_neg hcc, if_neg hcc]
      rcases Bool.eq_false_or_eq_true (kbit bits k c) with hd2 | hd2
      · simp only [hd2, if_true]; exact ih
      · simp only [hd2, Bool.false_eq_true, if_false]
        rw [if_neg]
        intro h
        have := hM h.2 c hlt
        rw [hd, hd2] at this
        cases this
  · rw [pathT_node_nil _ _ _ _ _ _ _ _ hm, pathT_node_nil _ _ _ _ _ _ _ _ hm, if_neg]
    intro h
    apply hm
    rw [cbits_ge_iff bits hb bs k c (by omega)]
    intro i hi
    exact (hag i hi).trans (hM h.2 i (by omega))

theorem route_descend_left (bits : Nat) (hb : bits = 32 ∨ bits = 128) (key k : List u8)
    (p c cidr pe : Nat) (bs : List u8) (po : Option Nat) (l l2 r : Tree) (c2 : Nat)
    (M : Prop) [Decidable M]
    (hM : M → ∀ i, i < cidr → kbit bits key i = kbit bits k i)
    (hlt : c < cidr) (hc : cidr ≤ bits) (hbs : c ≤ cbits bits bs key)
    (hd : kbit bits key c = false)
    (ih : route_at (pathT bits k l2) c2 =
      if c2 = cidr ∧ M then some pe else route_at (pathT bits k l) c2) :
    route_at (pathT bits k (.node p c bs po l2 r)) c2 =
      if c2 = cidr ∧ M then some pe else route_at (pathT bits k (.node p c bs po l r)) c2 := by
  have hag := (cbits_ge_iff bits hb bs key c (by omega)).1 hbs
  by_cases hm : c ≤ cbits bits bs k
  · rw [pathT_node_pos _ _ _ _ _ _ _ _ hm (by omega), pathT_node_pos _ _ _ _ _ _ _ _ hm (by omega),
      route_at_cons, route_at_cons]
    by_cases hcc : c = c2
    · rw [if_pos hcc, if_pos hcc, if_neg (fun h => by omega)]
    · rw [if_neg hcc, if_neg hcc]
      rcases Bool.eq_false_or_eq_true (kbit bits k c) with hd2 | hd2
      · simp only [hd2, if_true]
        rw [if_neg]
        intro h
        have := hM h.2 c hlt
        rw [hd, hd2] at this
        cases this
      · simp only [hd2, Bool.false_eq_true, if_false]; exact ih
  · rw [pathT_node_nil _ _ _ _ _ _ _ _ hm, pathT_node_nil _ _ _ _ _ _ _ _ hm, if_neg]
    intro h
    apply hm
    rw [cbits_ge_iff bits hb bs k c (by omega)]
    intro i hi
    exact (hag i hi).trans (hM h.2 i (by omega))

/-- The new node is put above `down`. -/
theorem route_direct (bits : Nat) (k : List u8)
    (np cidr pe : Nat) (kb : List u8) (down : Tree) (c2 : Nat)
    (hcb : cidr < bits)
    (b : Bool)
    (hdown1 : kbit bits k cidr ≠ b → pathT bits k down = [])
    (hdown2 : ¬ (cidr ≤ cbits bits kb k) → pathT bits k down = []) :
    route_at (pathT bits k (if b then .node np cidr kb (some pe) .nil down
        else .node np cidr kb (some pe) down .nil)) c2 =
      if c2 = cidr ∧ cidr ≤ cbits bits kb k then some pe
      else route_at (pathT bits k down) c2 := by
  by_cases hMt : cidr ≤ cbits bits kb k
  · have e : pathT bits k (if b then .node np cidr kb (some pe) .nil down
        else .node np cidr kb (some pe) down .nil) =
        (np, cidr, some pe) :: (if kbit bits k cidr = b then pathT bits k down else []) := by
      cases b
      · simp only [Bool.false_eq_true, if_false]
        rw [pathT_node_pos _ _ _ _ _ _ _ _ hMt (by omega)]
        cases kbit bits k cidr <;> simp [pathT]
      · simp only [if_true]
        rw [pathT_node_pos _ _ _ _ _ _ _ _ hMt (by omega)]
        cases kbit bits k cidr <;> simp [pathT]
    rw [e, route_at_cons]
    by_cases hq : cidr = c2
    · rw [if_pos hq, if_pos ⟨hq.symm, hMt⟩]
    · rw [if_neg hq, if_neg (show ¬ (c2 = cidr ∧ cidr ≤ cbits bits kb k) from
        fun h => hq h.1.symm)]
      by_cases hs : kbit bits k cidr = b
      · rw [if_pos hs]
      · rw [if_neg hs, hdown1 hs]
  · have e : pathT bits k (if b then .node np cidr kb (some pe) .nil down
        else .node np cidr kb (some pe) down .nil) = [] := by
      cases b
      · simp only [Bool.false_eq_true, if_false]; exact pathT_node_nil _ _ _ _ _ _ _ _ hMt
      · simp only [if_true]; exact pathT_node_nil _ _ _ _ _ _ _ _ hMt
    rw [e, hdown2 hMt, if_neg (fun h => hMt h.2)]

end WG

namespace WG

/-- A branch node is put above `down` and the new leaf. -/
theorem route_branch (bits : Nat) (k : List u8)
    (np cidr pe cb : Nat) (kb kb2 : List u8) (down : Tree) (c2 : Nat)
    (hcb : cb < bits) (hlt : cb < cidr) (i j : Bool) (hij : i ≠ j)
    (hd1 : kbit bits k cb ≠ i → pathT bits k down = [])
    (hd2 : ¬ (cb ≤ cbits bits kb2 k) → pathT bits k down = [] ∧ ¬ (cidr ≤ cbits bits kb k))
    (hd3 : route_at (pathT bits k down) cb = none)
    (hMj : cidr ≤ cbits bits kb k → kbit bits k cb = j) :
    route_at (pathT bits k (.node (np + 1) cb kb2 none
        (if j then (if i then .nil else down) else .node np cidr kb (some pe) .nil .nil)
        (if j then .node np cidr kb (some pe) .nil .nil else (if i then down else .nil)))) c2 =
      if c2 = cidr ∧ cidr ≤ cbits bits kb k then some pe
      else route_at (pathT bits k down) c2 := by
  by_cases hBt : cb ≤ cbits bits kb2 k
  · rw [pathT_node_pos _ _ _ _ _ _ _ _ hBt (by omega), route_at_cons]
    by_cases hq : cb = c2
    · rw [if_pos hq, if_neg (show ¬ (c2 = cidr ∧ cidr ≤ cbits bits kb k) from
        fun h => by omega), ← hq, hd3]
    · rw [if_neg hq]
      by_cases hs : kbit bits k cb = j
      · have hne : kbit bits k cb ≠ i := fun h => hij (h.symm.trans hs)
        have e : (if kbit bits k cb = true then
            pathT bits k (if j then .node np cidr kb (some pe) .nil .nil
              else (if i then down else .nil))
            else pathT bits k (if j then (if i then .nil else down)
              else .node np cidr kb (some pe) .nil .nil)) =
            pathT bits k (.node np cidr kb (some pe) .nil .nil) := by
          rw [hs]; cases j <;> simp
        rw [e, route_at_leaf, hd1 hne, route_at_nil]
        by_cases h1 : cidr ≤ cbits bits kb k <;> by_cases h2 : cidr = c2
        · rw [if_pos ⟨h1, h2⟩, if_pos ⟨h2.symm, h1⟩]
        · rw [if_neg (fun h => h2 h.2), if_neg (fun h => h2 h.1.symm)]
        · rw [if_neg (fun h => h1 h.1), if_neg (fun h => h1 h.2)]
        · rw [if_neg (fun h => h1 h.1), if_neg (fun h => h1 h.2)]
      · have hki : kbit bits k cb = i := by
          revert hs hij
          cases kbit bits k cb <;> cases i <;> cases j <;> simp
        have e : (if kbit bits k cb = true then
            pathT bits k (if j then .node np cidr kb (some pe) .nil .nil
              else (if i then down else .nil))
            else pathT bits k (if j then (if i then .nil else down)
              else .node np cidr kb (some pe) .nil .nil)) =
            pathT bits k down := by
          rw [hki]
          revert hij
          cases i <;> cases j <;> simp
        rw [e, if_neg (show ¬ (c2 = cidr ∧ cidr ≤ cbits bits kb k) from fun h => hs (hMj h.2))]
  · rw [pathT_node_nil _ _ _ _ _ _ _ _ hBt, (hd2 hBt).1,
      if_neg (show ¬ (c2 = cidr ∧ cidr ≤ cbits bits kb k) from fun h => (hd2 hBt).2 h.2)]

end WG


namespace WG

/-- Effect of an insertion on the route that a search for `k` finds at each prefix length. -/
theorem route_at_addT (bits : Nat) (hb : bits = 32 ∨ bits = 128) (key : List u8)
    (hk : bits / 8 ≤ key.length) (cidr pe np : Nat) (hc : cidr ≤ bits) (k : List u8) :
    ∀ (t : Tree) (lo : Nat) (pre : Nat → Bool), TInv bits lo pre t → ∀ c2,
      route_at (pathT bits k (addT bits key cidr pe np t)) c2 =
        if c2 = cidr ∧ cidr ≤ cbits bits (key_bits bits key) k then some pe
        else route_at (pathT bits k t) c2
  | .nil, lo, pre, _, c2 => by
    rw [show addT bits key cidr pe np .nil =
      .node np cidr (key_bits bits key) (some pe) .nil .nil from rfl, route_at_leaf,
      show pathT bits k .nil = [] from rfl, route_at_nil]
    by_cases h1 : cidr ≤ cbits bits (key_bits bits key) k <;> by_cases h2 : cidr = c2
    · rw [if_pos ⟨h1, h2⟩, if_pos ⟨h2.symm, h1⟩]
    · rw [if_neg (fun h => h2 h.2), if_neg (fun h => h2 h.1.symm)]
    · rw [if_neg (fun h => h1 h.1), if_neg (fun h => h1 h.2)]
    · rw [if_neg (fun h => h1 h.1), if_neg (fun h => h1 h.2)]
  | .node p c bs po l r, lo, pre, hi, c2 => by
    have hi0 := hi
    obtain ⟨h1, h2, h3, h4, h5, h6⟩ := hi
    have hkb : bits / 8 ≤ (key_bits bits key).length := by
      rw [key_bits_length bits hb key hk]; rcases hb with rfl | rfl <;> decide
    have hkk : ∀ i, kbit bits (key_bits bits key) i = kbit bits key i :=
      fun i => kbit_key_bits bits hb key hk i
    have hM : cidr ≤ cbits bits (key_bits bits key) k ↔
        ∀ i, i < cidr → kbit bits key i = kbit bits k i := by
      rw [cbits_ge_iff bits hb _ k cidr hc]
      constructor
      · intro h i hi; rw [← hkk]; exact h i hi
      · intro h i hi; rw [hkk]; exact h i hi
    simp only [addT]
    by_cases hcond : c ≤ cidr ∧ c ≤ cbits bits bs key
    · simp only [hcond, and_self, if_true]
      have hag := (cbits_ge_iff bits hb bs key c h2).1 hcond.2
      by_cases hex : c = cidr
      · simp only [hex, if_true]
        subst hex
        apply route_exact
        rw [hM, cbits_ge_iff bits hb bs k c h2]
        constructor
        · intro h i hi; exact (hag i hi).trans (h i hi)
        · intro h i hi; exact (hag i hi).symm.trans (h i hi)
      · simp only [hex, if_false]
        have hlt : c < cidr := by omega
        rcases Bool.eq_false_or_eq_true (kbit bits key c) with hd | hd
        · simp only [hd, if_true]
          exact route_descend_right bits hb key k p c cidr pe bs po l r _ c2 _ hM.1 hlt hc
            hcond.2 hd (route_at_addT bits hb key hk cidr pe np hc k r _ _ h6 c2)
        · simp only [hd, Bool.false_eq_true, if_false]
          exact route_descend_left bits hb key k p c cidr pe bs po l _ r c2 _ hM.1 hlt hc
            hcond.2 hd (route_at_addT bits hb key hk cidr pe np hc k l _ _ h5 c2)
    · simp only [hcond, if_false]
      obtain ⟨hf1, hf2⟩ := split_facts bits c cidr bs key hcond
      by_cases hmin : cidr ≤ cbits bits bs key
      · have hm0 : cidr = min cidr (cbits bits bs key) := by omega
        rw [if_pos hm0]
        have hcc := hf1 hmin
        have hag := (cbits_ge_iff bits hb bs key cidr hc).1 hmin
        apply route_direct bits k np cidr pe _ _ c2 (by omega)
        · intro hne
          apply pathT_node_nil
          intro hm
          exact hne ((cbits_ge_iff bits hb bs k c h2).1 hm cidr hcc).symm
        · intro hMf
          apply pathT_node_nil
          intro hm
          apply hMf
          rw [hM]
          intro i hi
          exact (hag i hi).symm.trans ((cbits_ge_iff bits hb bs k c h2).1 hm i (by omega))
      · have hlt : cbits bits bs key < cidr := by omega
        have hm0 : ¬ (cidr = min cidr (cbits bits bs key)) := by omega
        have hm2 : min cidr (cbits bits bs key) = cbits bits bs key := by omega
        rw [if_neg hm0, hm2]
        have hcbl : cbits bits bs key < bits := by omega
        have hcc := hf2 hlt
        have hne := cbits_differ bits hb bs key hcbl
        have hag := (cbits_ge_iff bits hb bs key (cbits bits bs key) (by omega)).1 (Nat.le_refl _)
        have hk2 : ∀ i, kbit bits (key_bits bits (key_bits bits key)) i = kbit bits key i :=
          fun i => by rw [kbit_key_bits bits hb _ hkb, kbit_key_bits bits hb key hk]
        have hB : cbits bits bs key ≤ cbits bits (key_bits bits (key_bits bits key)) k ↔
            ∀ i, i < cbits bits bs key → kbit bits key i = kbit bits k i := by
          rw [cbits_ge_iff bits hb _ k _ (by omega)]
          constructor
          · intro h i hi; rw [← hk2]; exact h i hi
          · intro h i hi; rw [hk2]; exact h i hi
        apply route_branch bits k np cidr pe _ _ _ _ c2 hcbl hlt _ _
        · rw [hkk]; exact hne
        · intro hne2
          apply pathT_node_nil
          intro hm
          exact hne2 ((cbits_ge_iff bits hb bs k c h2).1 hm _ hcc).symm
        · intro hBf
          constructor
          · apply pathT_node_nil
            intro hm
            apply hBf
            rw [hB]
            intro i hi
            exact (hag i hi).symm.trans ((cbits_ge_iff bits hb bs k c h2).1 hm i (by omega))
          · intro h
            apply hBf
            rw [hB]
            intro i hi
            exact hM.1 h i (by omega)
        · exact route_at_down_none bits k p c bs po l r lo pre hi0 _ hcc
        · intro h
          rw [hkk]
          exact (hM.1 h _ hlt).symm

end WG


namespace WG

/-! ## Removal on the tree -/

theorem removeT_node (pe p c : Nat) (bs : List u8) (po : Option Nat) (l r : Tree) :
    removeT pe (.node p c bs po l r) = finishT pe p c bs po (removeT pe l) (removeT pe r) := rfl

theorem finishT_cases (pe p c : Nat) (bs : List u8) (po : Option Nat) (l r : Tree) :
    (po ≠ some pe ∧ finishT pe p c bs po l r = .node p c bs po l r) ∨
    (po = some pe ∧ l.ptr ≠ none ∧ r.ptr ≠ none ∧
      finishT pe p c bs po l r = .node p c bs none l r) ∨
    (po = some pe ∧ l.ptr ≠ none ∧ r.ptr = none ∧ finishT pe p c bs po l r = l) ∨
    (po = some pe ∧ l.ptr = none ∧ finishT pe p c bs po l r = r) := by
  unfold finishT
  by_cases h1 : po = some pe
  · by_cases h2 : l.ptr = none
    · right; right; right; simp [h1, h2]
    · by_cases h3 : r.ptr = none
      · right; right; left; simp [h1, h2, h3]
      · right; left; simp [h1, h2, h3]
  · left; simp [h1]

theorem ptrs_removeT (pe : Nat) : ∀ t : Tree, ∀ x, x ∈ (removeT pe t).ptrs → x ∈ t.ptrs
  | .nil, x, h => h
  | .node p c bs po l r, x, h => by
    rw [removeT_node] at h
    have hl := ptrs_removeT pe l x
    have hr := ptrs_removeT pe r x
    rcases finishT_cases pe p c bs po (removeT pe l) (removeT pe r) with
      ⟨_, e⟩ | ⟨_, _, _, e⟩ | ⟨_, _, _, e⟩ | ⟨_, _, e⟩ <;> rw [e] at h <;>
      simp only [Tree.ptrs, List.mem_cons, List.mem_append] at h ⊢ <;> tauto

theorem nodup_removeT (pe : Nat) : ∀ t : Tree, t.ptrs.Nodup → (removeT pe t).ptrs.Nodup
  | .nil, h => h
  | .node p c bs po l r, h => by
    rw [removeT_node]
    simp only [Tree.ptrs, List.nodup_cons, List.mem_append, not_or, List.nodup_append] at h
    have hl := nodup_removeT pe l h.2.1
    have hr := nodup_removeT pe r h.2.2.1
    have key : (p :: ((removeT pe l).ptrs ++ (removeT pe r).ptrs)).Nodup := by
      simp only [List.nodup_cons, List.mem_append, not_or, List.nodup_append]
      refine ⟨⟨fun hx => h.1.1 (ptrs_removeT pe l p hx), fun hx => h.1.2 (ptrs_removeT pe r p hx)⟩,
        hl, hr, ?_⟩
      intro x hx1 hx2
      exact h.2.2.2 (ptrs_removeT pe l x hx1) (ptrs_removeT pe r x hx2)
    rcases finishT_cases pe p c bs po (removeT pe l) (removeT pe r) with
      ⟨_, e⟩ | ⟨_, _, _, e⟩ | ⟨_, _, _, e⟩ | ⟨_, _, e⟩ <;> rw [e]
    · exact key
    · exact key
    · exact hl
    · exact hr

theorem owned_removeT (pe : Nat) : ∀ t : Tree, (removeT pe t).owned pe = []
  | .nil => rfl
  | .node p c bs po l r => by
    rw [removeT_node]
    have hl := owned_removeT pe l
    have hr := owned_removeT pe r
    rcases finishT_cases pe p c bs po (removeT pe l) (removeT pe r) with
      ⟨h, e⟩ | ⟨_, _, _, e⟩ | ⟨_, _, _, e⟩ | ⟨_, _, e⟩ <;> rw [e]
    · simp [Tree.owned, h, hl, hr]
    · simp [Tree.owned, hl, hr]
    · exact hl
    · exact hr

theorem removeT_of_owned_nil (pe : Nat) : ∀ t : Tree, t.owned pe = [] → removeT pe t = t
  | .nil, _ => rfl
  | .node p c bs po l r, h => by
    simp only [Tree.owned, List.append_eq_nil, ite_eq_right_iff, List.cons_ne_self, imp_false] at h
    rw [removeT_node, removeT_of_owned_nil pe l h.2.1, removeT_of_owned_nil pe r h.2.2]
    simp [finishT, h.1]

theorem removeT_idem (pe : Nat) (t : Tree) : removeT pe (removeT pe t) = removeT pe t :=
  removeT_of_owned_nil pe _ (owned_removeT pe t)

theorem height_removeT (pe : Nat) : ∀ t : Tree, (removeT pe t).height ≤ t.height
  | .nil => Nat.le_refl _
  | .node p c bs po l r => by
    rw [removeT_node]
    have hl := height_removeT pe l
    have hr := height_removeT pe r
    rcases finishT_cases pe p c bs po (removeT pe l) (removeT pe r) with
      ⟨_, e⟩ | ⟨_, _, _, e⟩ | ⟨_, _, _, e⟩ | ⟨_, _, e⟩ <;> rw [e] <;>
      simp only [Tree.height] <;> omega

theorem size_removeT (pe : Nat) : ∀ t : Tree, (removeT pe t).size ≤ t.size
  | .nil => Nat.le_refl _
  | .node p c bs po l r => by
    rw [removeT_node]
    have hl := size_removeT pe l
    have hr := size_removeT pe r
    rcases finishT_cases pe p c bs po (removeT pe l) (removeT pe r) with
      ⟨_, e⟩ | ⟨_, _, _, e⟩ | ⟨_, _, _, e⟩ | ⟨_, _, e⟩ <;> rw [e] <;>
      simp only [Tree.size] <;> omega

theorem owned_subset_ptrs (pe : Nat) : ∀ t : Tree, ∀ x, x ∈ t.owned pe → x ∈ t.ptrs
  | .nil, x, h => h
  | .node p c bs po l r, x, h => by
    have hl := owned_subset_ptrs pe l x
    have hr := owned_subset_ptrs pe r x
    simp only [Tree.owned, List.mem_append, Tree.ptrs, List.mem_cons] at h ⊢
    rcases h with h | h | h
    · split at h
      · simp at h; exact Or.inl h
      · simp at h
    · exact Or.inr (Or.inl (hl h))
    · exact Or.inr (Or.inr (hr h))

end WG


namespace WG

/-! ## Steps of `walk_remove_by_peer` -/

theorem walk_loop_nil (peer fuel : Nat) (st : WalkState) (h : st.stack = []) :
    walk_loop peer fuel st = .ok st := by
  cases fuel <;> simp [walk_loop, h]

theorem walk_loop_step_ok (peer fuel : Nat) (st b : WalkState) (h : st.stack ≠ [])
    (hs : walk_step peer st = .ok b) :
    walk_loop peer (fuel + 1) st = walk_loop peer fuel b := by
  rw [walk_loop]; simp [h, hs]

theorem walk_loop_step_fail (peer fuel : Nat) (st : WalkState) (h : st.stack ≠ [])
    (hs : walk_step peer st = .assert_failed) :
    walk_loop peer (fuel + 1) st = .assert_failed := by
  rw [walk_loop]; simp [h, hs]

theorem Runs.refl (peer : Nat) (st : WalkState) : Runs peer st st := ⟨0, fun f => by simp⟩

theorem Runs.trans {peer : Nat} {a b c : WalkState} (h1 : Runs peer a b) (h2 : Runs peer b c) :
    Runs peer a c := by
  obtain ⟨k1, e1⟩ := h1
  obtain ⟨k2, e2⟩ := h2
  exact ⟨k1 + k2, fun f => by rw [Nat.add_assoc, e1, e2]⟩

theorem Runs.fails {peer : Nat} {a b : WalkState} (h1 : Runs peer a b) (h2 : Fails peer b) :
    Fails peer a := by
  obtain ⟨k1, e1⟩ := h1
  obtain ⟨k2, e2⟩ := h2
  exact ⟨k1 + k2, fun f => by rw [Nat.add_assoc, e1, e2]⟩

theorem Runs.step {peer : Nat} {a b : WalkState} (hs : a.stack ≠ [])
    (h : walk_step peer a = .ok b) : Runs peer a b :=
  ⟨1, fun f => by rw [Nat.add_comm, walk_loop_step_ok peer f a b hs h]⟩

theorem Fails.of_step {peer : Nat} {a : WalkState} (hs : a.stack ≠ [])
    (h : walk_step peer a = .assert_failed) : Fails peer a :=
  ⟨1, fun f => by rw [Nat.add_comm, walk_loop_step_fail peer f a hs h]⟩

end WG


namespace WG

theorem step_enter (peer : Nat) (st : WalkState) (s : Slot) (rest : List Slot) (q : Nat)
    (n : whitelist_node) (hst : st.stack = s :: rest) (hd : st.deref s = .ok (some q))
    (hn : st.m.heap q = some n)
    (hdesc : st.prev = none ∨ ∃ pv pn, st.prev = some pv ∧ st.m.heap pv = some pn ∧
      (pn.bit0 = some q ∨ pn.bit1 = some q)) :
    walk_step peer st =
      if n.bit0 ≠ none then
        (if rest.length + 1 < 128 then
          .ok { st with stack := .child q 0 :: s :: rest, prev := some q }
         else .assert_failed)
      else if n.bit1 ≠ none then
        (if rest.length + 1 < 128 then
          .ok { st with stack := .child q 1 :: s :: rest, prev := some q }
         else .assert_failed)
      else .ok { st with prev := some q } := by
  by_cases h0 : n.bit0 = none <;> by_cases h1 : n.bit1 = none <;>
    by_cases hl : rest.length + 1 < 128 <;>
    rcases hdesc with h | ⟨pv, pn, h2, h3, h4⟩
  all_goals first
    | simp [walk_step, hst, hd, Mem.read, hn, h, PUSH, h0, h1, hl, Bind.bind, Outcome.bind]
    | (rcases h4 with h4 | h4 <;>
        simp [walk_step, hst, hd, Mem.read, hn, h2, h3, h4, PUSH, h0, h1, hl, Bind.bind,
          Outcome.bind])

theorem step_up_left (peer : Nat) (st : WalkState) (s : Slot) (rest : List Slot) (q pv : Nat)
    (n pn : whitelist_node) (hst : st.stack = s :: rest) (hd : st.deref s = .ok (some q))
    (hn : st.m.heap q = some n) (hp : st.prev = some pv) (hpn : st.m.heap pv = some pn)
    (h0 : pn.bit0 ≠ some q) (h1 : pn.bit1 ≠ some q) (hl : n.bit0 = some pv) :
    walk_step peer st =
      if n.bit1 ≠ none then
        (if rest.length + 1 < 128 then
          .ok { st with stack := .child q 1 :: s :: rest, prev := some q }
         else .assert_failed)
      else .ok { st with prev := some q } := by
  simp only [walk_step, hst, hd, ok_bind, Mem.read, hn, hp, hpn, h0, h1, or_self, decide_False,
    Bool.false_eq_true, if_false, hl, if_true, PUSH]
  by_cases hr : n.bit1 = none
  · simp [hr]
  · by_cases hlen : rest.length + 1 < 128 <;> simp [hr, hlen, Bind.bind, Outcome.bind]

theorem step_keep (peer : Nat) (st : WalkState) (s : Slot) (rest : List Slot) (q pv : Nat)
    (n pn : whitelist_node) (hst : st.stack = s :: rest) (hd : st.deref s = .ok (some q))
    (hn : st.m.heap q = some n) (hp : st.prev = some pv) (hpn : st.m.heap pv = some pn)
    (h0 : pn.bit0 ≠ some q) (h1 : pn.bit1 ≠ some q) (hl : n.bit0 ≠ some pv)
    (hpe : n.peer ≠ some peer) :
    walk_step peer st = .ok { st with stack := rest, prev := some q } := by
  simp only [walk_step, hst, hd, ok_bind, Mem.read, hn, hp, hpn, h0, h1, or_self, decide_False,
    Bool.false_eq_true, if_false, hl, hpe]

theorem step_clear (peer : Nat) (st : WalkState) (s : Slot) (rest : List Slot) (q pv : Nat)
    (n pn : whitelist_node) (hst : st.stack = s :: rest) (hd : st.deref s = .ok (some q))
    (hn : st.m.heap q = some n) (hp : st.prev = some pv) (hpn : st.m.heap pv = some pn)
    (h0 : pn.bit0 ≠ some q) (h1 : pn.bit1 ≠ some q) (hl : n.bit0 ≠ some pv)
    (hpe : n.peer = some peer) (hb0 : n.bit0 ≠ none) (hb1 : n.bit1 ≠ none) :
    walk_step peer st =
      .ok { st with m := list_del (st.m.store q { n with peer := none }) q,
                    stack := rest, prev := some q } := by
  simp only [walk_step, hst, hd, ok_bind, Mem.read, hn, hp, hpn, h0, h1, or_self, decide_False,
    Bool.false_eq_true, if_false, hl, hpe, if_true, Mem.update, hb0, hb1]

end WG

namespace WG

theorem bit_set_bit (n : whitelist_node) (i : Nat) (v : Option Nat) :
    (n.set_bit i v).bit i = v := by
  unfold whitelist_node.set_bit whitelist_node.bit
  by_cases h : i = 0 <;> simp [h]

theorem step_splice (peer : Nat) (st : WalkState) (s : Slot) (rest : List Slot) (q pv : Nat)
    (n pn : whitelist_node) (hst : st.stack = s :: rest) (hd : st.deref s = .ok (some q))
    (hn : st.m.heap q = some n) (hp : st.prev = some pv) (hpn : st.m.heap pv = some pn)
    (h0 : pn.bit0 ≠ some q) (h1 : pn.bit1 ≠ some q) (hl : n.bit0 ≠ some pv)
    (hpe : n.peer = some peer) (hb : n.bit0 = none ∨ n.bit1 = none)
    (hown : ∀ p, s.owner = some p → p ≠ q) :
    ∃ st2, walk_step peer st = .ok st2 ∧ st2.stack = rest ∧
      st2.prev = (if n.bit0 ≠ none then n.bit0 else n.bit1) ∧
      st2.root = (slot_set st s (if n.bit0 ≠ none then n.bit0 else n.bit1)).root ∧
      (∀ x, x ≠ q → st2.m.heap x =
        (slot_set st s (if n.bit0 ≠ none then n.bit0 else n.bit1)).m.heap x) ∧
      st2.m.heap q = none ∧ st2.m.brk = st.m.brk ∧ st2.m.lists = (list_del st.m q).lists := by
  have hw : n.bit (if n.bit0 ≠ none then 0 else 1) = (if n.bit0 ≠ none then n.bit0 else n.bit1) := by
    by_cases h : n.bit0 = none <;> simp [h, whitelist_node.bit]
  simp only [walk_step, hst, hd, ok_bind, Mem.read, hn, hp, hpn, h0, h1, or_self, decide_False,
    Bool.false_eq_true, if_false, hl, hpe, if_true, Mem.update, hb, hw]
  cases s with
  | top =>
    simp only [WalkState.assign, ok_bind, WalkState.deref]
    refine ⟨_, rfl, rfl, rfl, rfl, ?_, ?_, rfl, rfl⟩
    · intro x hx
      simp [slot_set, Mem.free, hx]
    · simp [Mem.free]
  | child par i =>
    have hpq : par ≠ q := hown par rfl
    simp only [WalkState.deref] at hd
    cases hpar : st.m.heap par with
    | none => rw [hpar] at hd; cases hd
    | some pn2 =>
      simp only [WalkState.assign, list_del_heap, store_heap, hpq, if_false, hpar, ok_bind,
        WalkState.deref, Mem.free, bit_set_bit]
      refine ⟨_, rfl, rfl, ?_, ?_, ?_, ?_, rfl, rfl⟩
      · exact bit_set_bit _ _ _
      · simp [slot_set, hpar]
      · intro x hx
        simp [slot_set, hpar, hx]
      · simp

end WG


namespace WG

theorem set_bit_same (n : whitelist_node) (i : Nat) : n.set_bit i (n.bit i) = n := by
  unfold whitelist_node.set_bit whitelist_node.bit
  by_cases h : i = 0 <;> simp [h]

theorem slot_set_same (st : WalkState) (s : Slot) (v : Option Nat)
    (h : st.deref s = .ok v) :
    (slot_set st s v).root = st.root ∧ (slot_set st s v).m.heap = st.m.heap := by
  cases s with
  | top =>
    simp only [WalkState.deref] at h
    cases h
    exact ⟨rfl, rfl⟩
  | child p i =>
    simp only [WalkState.deref] at h
    cases hp : st.m.heap p with
    | none => rw [hp] at h; cases h
    | some n =>
      rw [hp] at h
      cases h
      simp only [slot_set, hp, set_bit_same, true_and]
      funext x
      by_cases hx : x = p <;> simp [hx, hp]

theorem slot_set_heap_of_ne (st : WalkState) (s : Slot) (v : Option Nat) (x : Nat)
    (h : s.owner ≠ some x) : (slot_set st s v).m.heap x = st.m.heap x := by
  cases s with
  | top => rfl
  | child p i =>
    have hx : x ≠ p := fun e => h (by rw [e]; rfl)
    simp only [slot_set]
    cases st.m.heap p <;> simp [hx]

theorem slot_set_congr (st st2 : WalkState) (s : Slot) (v : Option Nat)
    (hr : st2.root = st.root) (hh : ∀ p, s.owner = some p → st2.m.heap p = st.m.heap p) :
    (slot_set st2 s v).root = (slot_set st s v).root ∧
      ∀ p, s.owner = some p → (slot_set st2 s v).m.heap p = (slot_set st s v).m.heap p := by
  cases s with
  | top => exact ⟨rfl, fun p h => by cases h⟩
  | child p i =>
    have := hh p rfl
    constructor
    · simp only [slot_set]
      cases h1 : st.m.heap p <;> cases h2 : st2.m.heap p <;> simp [hr]
    · intro p2 h
      cases h
      simp only [slot_set, this]
      cases h1 : st.m.heap p <;> simp [this, h1]

theorem mid_init (bits peer : Nat) (st : WalkState) (s : Slot) (rest : List Slot) (q c : Nat)
    (bs : List u8) (po : Option Nat) (l r : Tree)
    (h : WalkPre bits st s rest (.node q c bs po l r)) :
    WalkMid bits peer st st s rest q c bs po l r false false := by
  obtain ⟨h1, h2, _, h4, _, _, _⟩ := h
  refine ⟨h1, h2, h4.1, h4.2.1, h4.2.2, rfl, fun _ _ _ _ => rfl, rfl, ?_⟩
  funext pe
  simp

theorem mid_skip_left (bits peer : Nat) (st0 st : WalkState) (s : Slot) (rest : List Slot)
    (q c : Nat) (bs : List u8) (po : Option Nat) (l r : Tree) (dr : Bool) (hl : l.ptr = none)
    (h : WalkMid bits peer st0 st s rest q c bs po l r false dr) :
    WalkMid bits peer st0 st s rest q c bs po l r true dr := by
  cases l with
  | nil => exact h
  | node _ _ _ _ _ _ => cases hl

theorem mid_skip_right (bits peer : Nat) (st0 st : WalkState) (s : Slot) (rest : List Slot)
    (q c : Nat) (bs : List u8) (po : Option Nat) (l r : Tree) (dl : Bool) (hr : r.ptr = none)
    (h : WalkMid bits peer st0 st s rest q c bs po l r dl false) :
    WalkMid bits peer st0 st s rest q c bs po l r dl true := by
  cases r with
  | nil => exact h
  | node _ _ _ _ _ _ => cases hr

end WG


namespace WG

theorem deref_congr (st st2 : WalkState) (s : Slot) (hr : st2.root = st.root)
    (hh : ∀ p, s.owner = some p → st2.m.heap p = st.m.heap p) :
    st2.deref s = st.deref s := by
  cases s with
  | top => simp [WalkState.deref, hr]
  | child p i => simp [WalkState.deref, hh p rfl]

theorem filter_owned_step (L : List Nat) (A B : List Nat) :
    (L.filter (fun x => decide (x ∉ B))).filter (fun x => decide (x ∉ A)) =
      L.filter (fun x => decide (x ∉ A ++ B)) := by
  rw [List.filter_filter]
  congr 1
  funext x
  simp [not_or]

theorem mid_pre_left (bits peer : Nat) (st0 st : WalkState) (s : Slot) (rest : List Slot)
    (q c : Nat) (bs : List u8) (po : Option Nat) (l r : Tree) (dl dr : Bool)
    (hnd : (Tree.node q c bs po l r).ptrs.Nodup)
    (h : WalkMid bits peer st0 st s rest q c bs po l r dl dr)
    (hx : (if dl then removeT peer l else l).ptr ≠ none) :
    WalkPre bits { st with stack := .child q 0 :: s :: rest, prev := some q } (.child q 0)
      (s :: rest) (if dl then removeT peer l else l) := by
  obtain ⟨_, _, h3, h4, _, _, _, _, _⟩ := h
  simp only [Tree.ptrs, List.nodup_cons, List.mem_append, not_or, List.nodup_append] at hnd
  have hsub : ∀ x, x ∈ (if dl then removeT peer l else l).ptrs → x ∈ l.ptrs := by
    intro x hx
    cases dl
    · exact hx
    · exact ptrs_removeT peer l x hx
  refine ⟨rfl, ?_, hx, h4, ?_, ?_, Or.inr ⟨q, _, rfl, h3, Or.inl rfl⟩⟩
  · simp [WalkState.deref, h3, whitelist_node.bit]
  · cases dl
    · exact hnd.2.1
    · exact nodup_removeT peer l hnd.2.1
  · intro p hp
    cases hp
    exact fun hq => hnd.1.1 (hsub q hq)

theorem mid_pre_right (bits peer : Nat) (st0 st : WalkState) (s : Slot) (rest : List Slot)
    (q c : Nat) (bs : List u8) (po : Option Nat) (l r : Tree) (dl dr : Bool)
    (hnd : (Tree.node q c bs po l r).ptrs.Nodup)
    (h : WalkMid bits peer st0 st s rest q c bs po l r dl dr)
    (hx : (if dr then removeT peer r else r).ptr ≠ none) :
    WalkPre bits { st with stack := .child q 1 :: s :: rest, prev := some q } (.child q 1)
      (s :: rest) (if dr then removeT peer r else r) := by
  obtain ⟨_, _, h3, _, h5, _, _, _, _⟩ := h
  simp only [Tree.ptrs, List.nodup_cons, List.mem_append, not_or, List.nodup_append] at hnd
  have hsub : ∀ x, x ∈ (if dr then removeT peer r else r).ptrs → x ∈ r.ptrs := by
    intro x hx
    cases dr
    · exact hx
    · exact ptrs_removeT peer r x hx
  refine ⟨rfl, ?_, hx, h5, ?_, ?_, Or.inr ⟨q, _, rfl, h3, Or.inr rfl⟩⟩
  · simp [WalkState.deref, h3, whitelist_node.bit]
  · cases dr
    · exact hnd.2.2.1
    · exact nodup_removeT peer r hnd.2.2.1
  · intro p hp
    cases hp
    exact fun hq => hnd.1.2 (hsub q hq)

end WG


namespace WG

theorem mid_after_left (bits peer : Nat) (st0 st st2 : WalkState) (s : Slot) (rest : List Slot)
    (q c : Nat) (bs : List u8) (po : Option Nat) (l r : Tree) (dl dr : Bool)
    (hnd : (Tree.node q c bs po l r).ptrs.Nodup)
    (hown : ∀ p, s.owner = some p → p ∉ (Tree.node q c bs po l r).ptrs)
    (h : WalkMid bits peer st0 st s rest q c bs po l r dl dr)
    (hp : WalkPost bits peer { st with stack := .child q 0 :: s :: rest, prev := some q }
      (.child q 0) (s :: rest) (if dl then removeT peer l else l) st2) :
    WalkMid bits peer st0 st2 s rest q c bs po l r true dr ∧
      st2.prev = (removeT peer l).ptr := by
  obtain ⟨h1, h2, h3, h4, h5, h6, h7, h8, h9⟩ := h
  obtain ⟨p1, p2, p3, p4, p5, p7, p8⟩ := hp
  simp only [Tree.ptrs, List.nodup_cons, List.mem_append, not_or, List.nodup_append] at hnd
  have hrem : removeT peer (if dl then removeT peer l else l) = removeT peer l := by
    cases dl
    · rfl
    · exact removeT_idem peer l
  rw [hrem] at p2 p3 p4 p5
  have hsubl : ∀ x, x ∈ (if dl then removeT peer l else l).ptrs → x ∈ l.ptrs := by
    intro x hx
    cases dl
    · exact hx
    · exact ptrs_removeT peer l x hx
  have hsubr : ∀ x, x ∈ (if dr then removeT peer r else r).ptrs → x ∈ r.ptrs := by
    intro x hx
    cases dr
    · exact hx
    · exact ptrs_removeT peer r x hx
  have hss : ∀ v x, (slot_set { st with stack := .child q 0 :: s :: rest, prev := some q }
      (.child q 0) v).m.heap x =
      if x = q then some (mk_node bits c bs po v (if dr then removeT peer r else r).ptr)
      else st.m.heap x := by
    intro v x
    simp only [slot_set, h3]
    by_cases hx : x = q
    · simp [hx, whitelist_node.set_bit, mk_node]
    · simp [hx]
  have hroot : st2.root = st.root := by
    rw [p4]; simp [slot_set, h3]
  have hother : ∀ x, x ≠ q → x ∉ l.ptrs → st2.m.heap x = st.m.heap x := by
    intro x hx1 hx2
    rw [p5 x (fun hh => hx2 (hsubl x hh)), hss, if_neg hx1]
  refine ⟨⟨p1, ?_, ?_, by simpa using p3, ?_, by rw [hroot, h6], ?_, by rw [p7]; exact h8, ?_⟩, p2⟩
  · rw [deref_congr st st2 s hroot, h2]
    intro p hp
    have := hown p hp
    simp only [Tree.ptrs, List.mem_cons, List.mem_append, not_or] at this
    exact hother p this.1 this.2.1
  · rw [p5 q (fun hh => hnd.1.1 (hsubl q hh)), hss, if_pos rfl]
    rfl
  · apply Laid_congr bits st.m.heap _ _ _ h5
    intro x hx
    have hxr := hsubr x hx
    exact hother x (fun e => hnd.1.2 (e ▸ hxr)) (fun hh => hnd.2.2.2 hh hxr)
  · intro x hx1 hx2 hx3
    rw [hother x hx1 hx2, h7 x hx1 hx2 hx3]
  · rw [p8]
    funext pe
    simp only [h9]
    rw [filter_owned_step]
    cases dl
    · simp
    · simp [owned_removeT]

theorem mid_after_right (bits peer : Nat) (st0 st st2 : WalkState) (s : Slot) (rest : List Slot)
    (q c : Nat) (bs : List u8) (po : Option Nat) (l r : Tree) (dl dr : Bool)
    (hnd : (Tree.node q c bs po l r).ptrs.Nodup)
    (hown : ∀ p, s.owner = some p → p ∉ (Tree.node q c bs po l r).ptrs)
    (h : WalkMid bits peer st0 st s rest q c bs po l r dl dr)
    (hp : WalkPost bits peer { st with stack := .child q 1 :: s :: rest, prev := some q }
      (.child q 1) (s :: rest) (if dr then removeT peer r else r) st2) :
    WalkMid bits peer st0 st2 s rest q c bs po l r dl true ∧
      st2.prev = (removeT peer r).ptr := by
  obtain ⟨h1, h2, h3, h4, h5, h6, h7, h8, h9⟩ := h
  obtain ⟨p1, p2, p3, p4, p5, p7, p8⟩ := hp
  simp only [Tree.ptrs, List.nodup_cons, List.mem_append, not_or, List.nodup_append] at hnd
  have hrem : removeT peer (if dr then removeT peer r else r) = removeT peer r := by
    cases dr
    · rfl
    · exact removeT_idem peer r
  rw [hrem] at p2 p3 p4 p5
  have hsubl : ∀ x, x ∈ (if dl then removeT peer l else l).ptrs → x ∈ l.ptrs := by
    intro x hx
    cases dl
    · exact hx
    · exact ptrs_removeT peer l x hx
  have hsubr : ∀ x, x ∈ (if dr then removeT peer r else r).ptrs → x ∈ r.ptrs := by
    intro x hx
    cases dr
    · exact hx
    · exact ptrs_removeT peer r x hx
  have hss : ∀ v x, (slot_set { st with stack := .child q 1 :: s :: rest, prev := some q }
      (.child q 1) v).m.heap x =
      if x = q then some (mk_node bits c bs po (if dl then removeT peer l else l).ptr v)
      else st.m.heap x := by
    intro v x
    simp only [slot_set, h3]
    by_cases hx : x = q
    · simp [hx, whitelist_node.set_bit, mk_node]
    · simp [hx]
  have hroot : st2.root = st.root := by
    rw [p4]; simp [slot_set, h3]
  have hother : ∀ x, x ≠ q → x ∉ r.ptrs → st2.m.heap x = st.m.heap x := by
    intro x hx1 hx2
    rw [p5 x (fun hh => hx2 (hsubr x hh)), hss, if_neg hx1]
  refine ⟨⟨p1, ?_, ?_, ?_, by simpa using p3, by rw [hroot, h6], ?_, by rw [p7]; exact h8, ?_⟩, p2⟩
  · rw [deref_congr st st2 s hroot, h2]
    intro p hp
    have := hown p hp
    simp only [Tree.ptrs, List.mem_cons, List.mem_append, not_or] at this
    exact hother p this.1 this.2.2
  · rw [p5 q (fun hh => hnd.1.2 (hsubr q hh)), hss, if_pos rfl]
    rfl
  · apply Laid_congr bits st.m.heap _ _ _ h4
    intro x hx
    have hxl := hsubl x hx
    exact hother x (fun e => hnd.1.1 (e ▸ hxl)) (fun hh => hnd.2.2.2 hxl hh)
  · intro x hx1 hx2 hx3
    rw [hother x hx1 hx3, h7 x hx1 hx2 hx3]
  · rw [p8]
    funext pe
    simp only [h9]
    rw [filter_owned_step]
    congr 1
    funext x
    apply decide_eq_decide.2
    cases dr
    · simp only [Bool.false_eq_true, if_false, List.mem_append, List.append_nil, not_or]
      tauto
    · simp [owned_removeT]

end WG


namespace WG

theorem splice_post (bits peer : Nat) (st0 st st2 : WalkState) (s : Slot) (rest : List Slot)
    (q c : Nat) (bs : List u8) (po : Option Nat) (l r F : Tree)
    (hown : ∀ p, s.owner = some p → p ∉ (Tree.node q c bs po l r).ptrs)
    (h6 : st.root = st0.root)
    (hframe : ∀ x, x ∉ (Tree.node q c bs po l r).ptrs → st.m.heap x = st0.m.heap x)
    (hsub : ∀ x, x ∈ F.ptrs → x ∈ l.ptrs ∨ x ∈ r.ptrs) (hqF : q ∉ F.ptrs)
    (hF : Laid bits st.m.heap F)
    (q1 : st2.stack = rest) (q2 : st2.prev = F.ptr)
    (q3 : st2.root = (slot_set st s F.ptr).root)
    (q4 : ∀ x, x ≠ q → st2.m.heap x = (slot_set st s F.ptr).m.heap x)
    (q6 : st2.m.brk = st0.m.brk)
    (q7 : st2.m.lists = fun p => ((fun pe => (st0.m.lists pe).filter (fun x =>
      decide (x ∉ l.owned peer ++ r.owned peer))) p).filter (fun x => decide (x ≠ q)))
    (hpo : po = some peer) :
    st2.stack = rest ∧ st2.prev = F.ptr ∧ Laid bits st2.m.heap F ∧
      st2.root = (slot_set st0 s F.ptr).root ∧
      (∀ x, x ∉ (Tree.node q c bs po l r).ptrs → st2.m.heap x = (slot_set st0 s F.ptr).m.heap x) ∧
      st2.m.brk = st0.m.brk ∧
      st2.m.lists = fun pe => (st0.m.lists pe).filter (fun x =>
        decide (x ∉ (Tree.node q c bs po l r).owned peer)) := by
  have hcg := slot_set_congr st0 st s F.ptr h6
    (fun p hp => hframe p (hown p hp))
  refine ⟨q1, q2, ?_, by rw [q3, hcg.1], ?_, q6, ?_⟩
  · apply Laid_congr bits st.m.heap _ _ _ hF
    intro x hx
    have hxt : x ∈ (Tree.node q c bs po l r).ptrs := by
      simp only [Tree.ptrs, List.mem_cons, List.mem_append]
      exact Or.inr (hsub x hx)
    rw [q4 x (fun e => hqF (e ▸ hx))]
    exact slot_set_heap_of_ne st s _ x (fun e => hown x e hxt)
  · intro x hx
    have hxq : x ≠ q := fun e => hx (by rw [e]; simp [Tree.ptrs])
    rw [q4 x hxq]
    by_cases ho : s.owner = some x
    · exact hcg.2 x ho
    · rw [slot_set_heap_of_ne st s _ x ho, slot_set_heap_of_ne st0 s _ x ho, hframe x hx]
  · rw [q7]
    funext pe
    simp only
    rw [List.filter_filter]
    congr 1
    funext x
    simp [Tree.owned, hpo, not_or]

theorem mid_finish (bits peer : Nat) (st0 st : WalkState) (s : Slot) (rest : List Slot)
    (q c : Nat) (bs : List u8) (po : Option Nat) (l r : Tree)
    (hnd : (Tree.node q c bs po l r).ptrs.Nodup)
    (hown : ∀ p, s.owner = some p → p ∉ (Tree.node q c bs po l r).ptrs)
    (hd0 : st0.deref s = .ok (some q))
    (h : WalkMid bits peer st0 st s rest q c bs po l r true true)
    (pv : Nat) (pn : whitelist_node) (hp : st.prev = some pv) (hpn : st.m.heap pv = some pn)
    (hb0 : pn.bit0 ≠ some q) (hb1 : pn.bit1 ≠ some q) (hl : (removeT peer l).ptr ≠ some pv) :
    ∃ st2, walk_step peer st = .ok st2 ∧
      WalkPost bits peer st0 s rest (.node q c bs po l r) st2 := by
  obtain ⟨h1, h2, h3, h4, h5, h6, h7, h8, h9⟩ := h
  simp only [if_true] at h3 h4 h5 h9
  have hnd0 := hnd
  simp only [Tree.ptrs, List.nodup_cons, List.mem_append, not_or, List.nodup_append] at hnd
  have hql : q ∉ (removeT peer l).ptrs := fun hh => hnd.1.1 (ptrs_removeT peer l q hh)
  have hqr : q ∉ (removeT peer r).ptrs := fun hh => hnd.1.2 (ptrs_removeT peer r q hh)
  have hframe : ∀ x, x ∉ (Tree.node q c bs po l r).ptrs → st.m.heap x = st0.m.heap x := by
    intro x hx
    simp only [Tree.ptrs, List.mem_cons, List.mem_append, not_or] at hx
    exact h7 x hx.1 hx.2.1 hx.2.2
  have hownq : ∀ p, s.owner = some p → p ≠ q := by
    intro p hp e
    exact hown p hp (by rw [e]; simp [Tree.ptrs])
  have hsame := slot_set_same st0 s (some q) hd0
  have hn0 : (mk_node bits c bs po (removeT peer l).ptr (removeT peer r).ptr).bit0 ≠ some pv := hl
  unfold WalkPost
  rw [removeT_node]
  rcases finishT_cases peer q c bs po (removeT peer l) (removeT peer r) with
    ⟨hpo, e⟩ | ⟨hpo, hl1, hr1, e⟩ | ⟨hpo, hl1, hr1, e⟩ | ⟨hpo, hl1, e⟩
  · -- the node keeps its peer
    rw [e]
    refine ⟨_, step_keep peer st s rest q pv _ pn h1 h2 h3 hp hpn hb0 hb1 hn0 hpo, rfl, rfl,
      ⟨h3, h4, h5⟩, ?_, ?_, h8, ?_⟩
    · rw [ptr_node, hsame.1]
      exact h6
    · intro x hx
      rw [ptr_node, hsame.2]
      exact hframe x hx
    · show st.m.lists = _
      rw [h9]
      funext pe
      congr 1
      funext x
      simp [Tree.owned, hpo]
  · -- the peer is cleared, the node stays
    rw [e]
    refine ⟨_, step_clear peer st s rest q pv _ pn h1 h2 h3 hp hpn hb0 hb1 hn0 hpo hl1 hr1,
      rfl, rfl, ⟨?_, ?_, ?_⟩, ?_, ?_, h8, ?_⟩
    · simp [mk_node]
    · apply Laid_congr bits st.m.heap _ _ _ h4
      intro x hx
      have : x ≠ q := fun e => hql (e ▸ hx)
      simp [this]
    · apply Laid_congr bits st.m.heap _ _ _ h5
      intro x hx
      have : x ≠ q := fun e => hqr (e ▸ hx)
      simp [this]
    · rw [ptr_node, hsame.1]
      exact h6
    · intro x hx
      have : x ≠ q := fun e => hx (by rw [e]; simp [Tree.ptrs])
      simp only [list_del_heap, store_heap, this, if_false]
      rw [ptr_node, hsame.2, hframe x hx]
    · simp only [list_del, store_lists, h9]
      funext pe
      rw [List.filter_filter]
      congr 1
      funext x
      simp [Tree.owned, hpo, not_or]
  · -- the node is replaced by its left subtree
    rw [e]
    obtain ⟨st2, e2, q1, q2, q3, q4, _, q6, q7⟩ :=
      step_splice peer st s rest q pv _ pn h1 h2 h3 hp hpn hb0 hb1 hn0 hpo (Or.inr hr1) hownq
    have hw : (if (mk_node bits c bs po (removeT peer l).ptr (removeT peer r).ptr).bit0 ≠ none
        then (mk_node bits c bs po (removeT peer l).ptr (removeT peer r).ptr).bit0
        else (mk_node bits c bs po (removeT peer l).ptr (removeT peer r).ptr).bit1) =
        (removeT peer l).ptr := by
      simp [hl1]
    rw [hw] at q2 q3 q4
    exact ⟨st2, e2, splice_post bits peer st0 st st2 s rest q c bs po l r (removeT peer l) hown
      h6 hframe (fun x hx => Or.inl (ptrs_removeT peer l x hx)) hql h4 q1 q2 q3 q4
      (by rw [q6, h8]) (by rw [q7]; simp only [list_del, h9]) hpo⟩
  · rw [e]
    obtain ⟨st2, e2, q1, q2, q3, q4, _, q6, q7⟩ :=
      step_splice peer st s rest q pv _ pn h1 h2 h3 hp hpn hb0 hb1 hn0 hpo (Or.inl hl1) hownq
    have hw : (if (mk_node bits c bs po (removeT peer l).ptr (removeT peer r).ptr).bit0 ≠ none
        then (mk_node bits c bs po (removeT peer l).ptr (removeT peer r).ptr).bit0
        else (mk_node bits c bs po (removeT peer l).ptr (removeT peer r).ptr).bit1) =
        (removeT peer r).ptr := by
      simp [hl1]
    rw [hw] at q2 q3 q4
    exact ⟨st2, e2, splice_post bits peer st0 st st2 s rest q c bs po l r (removeT peer r) hown
      h6 hframe (fun x hx => Or.inr (ptrs_removeT peer r x hx)) hqr h5 q1 q2 q3 q4
      (by rw [q6, h8]) (by rw [q7]; simp only [list_del, h9]) hpo⟩

end WG


namespace WG

theorem ptr_mem_ptrs : ∀ (t : Tree) (x : Nat), t.ptr = some x → x ∈ t.ptrs
  | .nil, _, h => by cases h
  | .node p _ _ _ _ _, x, h => by
    simp only [ptr_node, Option.some.injEq] at h
    simp [Tree.ptrs, h]

theorem root_node_facts (bits : Nat) (h : Nat → Option whitelist_node) :
    ∀ (t : Tree) (pv : Nat), Laid bits h t → t.ptr = some pv →
      ∃ pn, h pv = some pn ∧ (∀ y, pn.bit0 = some y → y ∈ t.ptrs) ∧
        (∀ y, pn.bit1 = some y → y ∈ t.ptrs)
  | .nil, _, _, hp => by cases hp
  | .node p c bs pe l r, pv, hl, hp => by
    simp only [ptr_node, Option.some.injEq] at hp
    subst hp
    refine ⟨_, hl.1, ?_, ?_⟩
    · intro y hy
      simp only [mk_node_bit0] at hy
      simp [Tree.ptrs, ptr_mem_ptrs l y hy]
    · intro y hy
      simp only [mk_node_bit1] at hy
      simp [Tree.ptrs, ptr_mem_ptrs r y hy]

theorem mid_prev (bits peer : Nat) (st0 st : WalkState) (s : Slot) (rest : List Slot)
    (q c : Nat) (bs : List u8) (po : Option Nat) (l r : Tree) (dl dr : Bool) (x : Option Nat)
    (h : WalkMid bits peer st0 st s rest q c bs po l r dl dr) :
    WalkMid bits peer st0 { st with prev := x } s rest q c bs po l r dl dr := by
  obtain ⟨h1, h2, h3, h4, h5, h6, h7, h8, h9⟩ := h
  refine ⟨h1, ?_, h3, h4, h5, h6, h7, h8, h9⟩
  rw [← h2]
  cases s <;> rfl

theorem result_of_runs (bits peer : Nat) (st0 st st1 : WalkState) (s : Slot) (rest : List Slot)
    (t : Tree) (h1 : Runs peer st st1) (h2 : WalkResult bits peer st0 st1 s rest t) :
    WalkResult bits peer st0 st s rest t := by
  rcases h2 with ⟨st2, h3, h4⟩ | ⟨h3, h4⟩
  · exact Or.inl ⟨st2, h1.trans h3, h4⟩
  · exact Or.inr ⟨h1.fails h3, h4⟩

/-- The node itself is treated once the loop comes back to it with `prev` equal to it. -/
theorem walk_self (bits peer : Nat) (st0 st : WalkState) (s : Slot) (rest : List Slot)
    (q c : Nat) (bs : List u8) (po : Option Nat) (l r : Tree)
    (hnd : (Tree.node q c bs po l r).ptrs.Nodup)
    (hown : ∀ p, s.owner = some p → p ∉ (Tree.node q c bs po l r).ptrs)
    (hd0 : st0.deref s = .ok (some q))
    (h : WalkMid bits peer st0 st s rest q c bs po l r true true)
    (hp : st.prev = some q) :
    WalkResult bits peer st0 st s rest (.node q c bs po l r) := by
  have hnd2 := hnd
  simp only [Tree.ptrs, List.nodup_cons, List.mem_append, not_or, List.nodup_append] at hnd2
  have hql : ∀ x, (removeT peer l).ptr = some x → x ≠ q := fun x hx e =>
    hnd2.1.1 (ptrs_removeT peer l q (e ▸ ptr_mem_ptrs _ x hx))
  have hqr : ∀ x, (removeT peer r).ptr = some x → x ≠ q := fun x hx e =>
    hnd2.1.2 (ptrs_removeT peer r q (e ▸ ptr_mem_ptrs _ x hx))
  have h3 := h.2.2.1
  simp only [if_true] at h3
  obtain ⟨st2, e2, hpost⟩ := mid_finish bits peer st0 st s rest q c bs po l r hnd hown hd0 h q _
    hp h3 (fun e => hql q e rfl) (fun e => hqr q e rfl) (fun e => hql q e rfl)
  exact Or.inl ⟨st2, Runs.step (by rw [h.1]; simp) e2, hpost⟩

end WG


namespace WG

theorem height_pos : ∀ t : Tree, t.ptr ≠ none → 1 ≤ t.height
  | .nil, h => absurd rfl h
  | .node _ _ _ _ _ _, _ => by simp [Tree.height]

/-- The loop is back at the node after its right subtree. -/
theorem walk_after_right (bits peer N : Nat)
    (IH : ∀ t2 : Tree, t2.size ≤ N → ∀ (st : WalkState) (s : Slot) (rest : List Slot),
      WalkPre bits st s rest t2 → WalkResult bits peer st st s rest t2)
    (st0 st : WalkState) (s : Slot) (rest : List Slot)
    (q c : Nat) (bs : List u8) (po : Option Nat) (l r : Tree)
    (hnd : (Tree.node q c bs po l r).ptrs.Nodup)
    (hown : ∀ p, s.owner = some p → p ∉ (Tree.node q c bs po l r).ptrs)
    (hd0 : st0.deref s = .ok (some q)) (hN : l.size ≤ N)
    (h : WalkMid bits peer st0 st s rest q c bs po l r true true)
    (hp : st.prev = (removeT peer r).ptr) :
    WalkResult bits peer st0 st s rest (.node q c bs po l r) := by
  have hnd2 := hnd
  simp only [Tree.ptrs, List.nodup_cons, List.mem_append, not_or, List.nodup_append] at hnd2
  have hmid := h
  obtain ⟨h1, h2, h3, h4, h5, _, _, _, _⟩ := h
  simp only [if_true] at h3 h4 h5
  have hne : st.stack ≠ [] := by rw [h1]; simp
  cases hr : (removeT peer r).ptr with
  | none =>
    rw [hr] at hp
    have hstep := step_enter peer st s rest q _ h1 h2 h3 (Or.inl hp)
    simp only [mk_node_bit0, mk_node_bit1, hr, ne_eq, not_true_eq_false, if_false] at hstep
    cases hl : (removeT peer l).ptr with
    | none =>
      simp only [hl, not_true_eq_false, if_false] at hstep
      exact result_of_runs bits peer st0 st _ s rest _ (Runs.step hne hstep)
        (walk_self bits peer st0 _ s rest q c bs po l r hnd hown hd0
          (mid_prev bits peer st0 st s rest q c bs po l r true true _ hmid) rfl)
    | some lp =>
      simp only [hl, not_false_eq_true, if_true, reduceCtorEq] at hstep
      have hlh := height_pos (removeT peer l) (by rw [hl]; simp)
      have hlh2 := height_removeT peer l
      by_cases hlen : rest.length + 1 < 128
      · rw [if_pos hlen] at hstep
        have hpre := mid_pre_left bits peer st0 st s rest q c bs po l r true true hnd hmid
          (by simp [hl])
        simp only [if_true] at hpre
        rcases IH (removeT peer l) (Nat.le_trans (size_removeT peer l) hN) _ _ _ hpre with
          ⟨st2, hr2, hpost⟩ | ⟨hf, hb⟩
        · obtain ⟨hmid2, hp2⟩ := mid_after_left bits peer st0 st st2 s rest q c bs po l r
            true true hnd hown hmid (by simpa using hpost)
          obtain ⟨g1, g2, g3, g4, _, _, _, _, _⟩ := hmid2
          simp only [if_true] at g3 g4
          obtain ⟨pn, hpn, hb0, hb1⟩ := root_node_facts bits st2.m.heap _ lp g4 hl
          have hq0 : pn.bit0 ≠ some q := fun e =>
            hnd2.1.1 (ptrs_removeT peer l q (hb0 q e))
          have hq1 : pn.bit1 ≠ some q := fun e =>
            hnd2.1.1 (ptrs_removeT peer l q (hb1 q e))
          have hstep2 := step_up_left peer st2 s rest q lp _ pn g1 g2 g3 (by rw [hp2, hl]) hpn
            hq0 hq1 (by simp [hl])
          simp only [mk_node_bit1, hr, ne_eq, not_true_eq_false, if_false] at hstep2
          refine result_of_runs bits peer st0 st _ s rest _
            ((Runs.step hne hstep).trans (hr2.trans (Runs.step (by rw [g1]; simp) hstep2)))
            (walk_self bits peer st0 _ s rest q c bs po l r hnd hown hd0
              (mid_prev bits peer st0 st2 s rest q c bs po l r true true _
                ⟨g1, g2, by simpa using g3, by simpa using g4, ‹_›, ‹_›, ‹_›, ‹_›, ‹_›⟩) rfl)
        · refine Or.inr ⟨(Runs.step hne hstep).fails hf, ?_⟩
          simp only [List.length_cons, Tree.height] at hb ⊢
          omega
      · rw [if_neg hlen] at hstep
        refine Or.inr ⟨Fails.of_step hne hstep, ?_⟩
        simp only [Tree.height]
        omega
  | some rp =>
    rw [hr] at hp
    obtain ⟨pn, hpn, hb0, hb1⟩ := root_node_facts bits st.m.heap _ rp h5 hr
    have hq0 : pn.bit0 ≠ some q := fun e => hnd2.1.2 (ptrs_removeT peer r q (hb0 q e))
    have hq1 : pn.bit1 ≠ some q := fun e => hnd2.1.2 (ptrs_removeT peer r q (hb1 q e))
    have hl : (removeT peer l).ptr ≠ some rp := fun e =>
      hnd2.2.2.2 (ptrs_removeT peer l rp (ptr_mem_ptrs _ rp e))
        (ptrs_removeT peer r rp (ptr_mem_ptrs _ rp hr))
    obtain ⟨st2, e2, hpost⟩ := mid_finish bits peer st0 st s rest q c bs po l r hnd hown hd0 hmid
      rp pn hp hpn hq0 hq1 hl
    exact Or.inl ⟨st2, Runs.step hne e2, hpost⟩

end WG


namespace WG

/-- The loop pushes the right child slot, treats the right subtree and then the node. -/
theorem walk_go_right (bits peer N : Nat)
    (IH : ∀ t2 : Tree, t2.size ≤ N → ∀ (st : WalkState) (s : Slot) (rest : List Slot),
      WalkPre bits st s rest t2 → WalkResult bits peer st st s rest t2)
    (st0 st : WalkState) (s : Slot) (rest : List Slot)
    (q c : Nat) (bs : List u8) (po : Option Nat) (l r : Tree)
    (hnd : (Tree.node q c bs po l r).ptrs.Nodup)
    (hown : ∀ p, s.owner = some p → p ∉ (Tree.node q c bs po l r).ptrs)
    (hd0 : st0.deref s = .ok (some q)) (hNl : l.size ≤ N) (hNr : r.size ≤ N)
    (h : WalkMid bits peer st0 st s rest q c bs po l r true false)
    (hr0 : r.ptr ≠ none)
    (hstep : walk_step peer st =
      if rest.length + 1 < 128 then
        .ok { st with stack := .child q 1 :: s :: rest, prev := some q }
      else .assert_failed) :
    WalkResult bits peer st0 st s rest (.node q c bs po l r) := by
  have hne : st.stack ≠ [] := by rw [h.1]; simp
  have hrh := height_pos r hr0
  by_cases hlen : rest.length + 1 < 128
  · rw [if_pos hlen] at hstep
    have hpre := mid_pre_right bits peer st0 st s rest q c bs po l r true false hnd h
      (by simpa using hr0)
    simp only [Bool.false_eq_true, if_false] at hpre
    rcases IH r hNr _ _ _ hpre with ⟨st2, hr2, hpost⟩ | ⟨hf, hb⟩
    · obtain ⟨hmid2, hp2⟩ := mid_after_right bits peer st0 st st2 s rest q c bs po l r
        true false hnd hown h (by simpa using hpost)
      exact result_of_runs bits peer st0 st _ s rest _ ((Runs.step hne hstep).trans hr2)
        (walk_after_right bits peer N IH st0 st2 s rest q c bs po l r hnd hown hd0 hNl hmid2 hp2)
    · refine Or.inr ⟨(Runs.step hne hstep).fails hf, ?_⟩
      simp only [List.length_cons, Tree.height] at hb ⊢
      omega
  · rw [if_neg hlen] at hstep
    refine Or.inr ⟨Fails.of_step hne hstep, ?_⟩
    simp only [Tree.height]
    omega

/-- The loop is back at the node after its left subtree. -/
theorem walk_after_left (bits peer N : Nat)
    (IH : ∀ t2 : Tree, t2.size ≤ N → ∀ (st : WalkState) (s : Slot) (rest : List Slot),
      WalkPre bits st s rest t2 → WalkResult bits peer st st s rest t2)
    (st0 st : WalkState) (s : Slot) (rest : List Slot)
    (q c : Nat) (bs : List u8) (po : Option Nat) (l r : Tree)
    (hnd : (Tree.node q c bs po l r).ptrs.Nodup)
    (hown : ∀ p, s.owner = some p → p ∉ (Tree.node q c bs po l r).ptrs)
    (hd0 : st0.deref s = .ok (some q)) (hNl : l.size ≤ N) (hNr : r.size ≤ N)
    (h : WalkMid bits peer st0 st s rest q c bs po l r true false)
    (hp : st.prev = (removeT peer l).ptr) :
    WalkResult bits peer st0 st s rest (.node q c bs po l r) := by
  have hnd2 := hnd
  simp only [Tree.ptrs, List.nodup_cons, List.mem_append, not_or, List.nodup_append] at hnd2
  have hmid := h
  obtain ⟨h1, h2, h3, h4, h5, _, _, _, _⟩ := h
  simp only [if_true, Bool.false_eq_true, if_false] at h3 h4 h5
  have hne : st.stack ≠ [] := by rw [h1]; simp
  cases hl : (removeT peer l).ptr with
  | none =>
    rw [hl] at hp
    have hstep := step_enter peer st s rest q _ h1 h2 h3 (Or.inl hp)
    simp only [mk_node_bit0, mk_node_bit1, hl, ne_eq, not_true_eq_false, if_false] at hstep
    cases hr : r.ptr with
    | none =>
      simp only [hr, not_true_eq_false, if_false] at hstep
      exact result_of_runs bits peer st0 st _ s rest _ (Runs.step hne hstep)
        (walk_self bits peer st0 _ s rest q c bs po l r hnd hown hd0
          (mid_prev bits peer st0 st s rest q c bs po l r true true _
            (mid_skip_right bits peer st0 st s rest q c bs po l r true hr hmid)) rfl)
    | some rp =>
      simp only [hr, not_false_eq_true, if_true, reduceCtorEq] at hstep
      exact walk_go_right bits peer N IH st0 st s rest q c bs po l r hnd hown hd0 hNl hNr hmid
        (by simp [hr]) hstep
  | some lp =>
    rw [hl] at hp
    obtain ⟨pn, hpn, hb0, hb1⟩ := root_node_facts bits st.m.heap _ lp h4 hl
    have hq0 : pn.bit0 ≠ some q := fun e => hnd2.1.1 (ptrs_removeT peer l q (hb0 q e))
    have hq1 : pn.bit1 ≠ some q := fun e => hnd2.1.1 (ptrs_removeT peer l q (hb1 q e))
    have hstep := step_up_left peer st s rest q lp _ pn h1 h2 h3 hp hpn hq0 hq1 (by simp [hl])
    simp only [mk_node_bit1, ne_eq] at hstep
    cases hr : r.ptr with
    | none =>
      simp only [hr, not_true_eq_false, if_false] at hstep
      exact result_of_runs bits peer st0 st _ s rest _ (Runs.step hne hstep)
        (walk_self bits peer st0 _ s rest q c bs po l r hnd hown hd0
          (mid_prev bits peer st0 st s rest q c bs po l r true true _
            (mid_skip_right bits peer st0 st s rest q c bs po l r true hr hmid)) rfl)
    | some rp =>
      simp only [hr, not_false_eq_true, if_true, reduceCtorEq] at hstep
      exact walk_go_right bits peer N IH st0 st s rest q c bs po l r hnd hown hd0 hNl hNr hmid
        (by simp [hr]) hstep

/-- The loop of `walk_remove_by_peer` treats a subtree like `removeT`, unless the stack of 128
slots is too small for it. -/
theorem traverse (bits peer : Nat) : ∀ (N : Nat) (t : Tree), t.size ≤ N →
    ∀ (st : WalkState) (s : Slot) (rest : List Slot), WalkPre bits st s rest t →
      WalkResult bits peer st st s rest t := by
  intro N
  induction N with
  | zero =>
    intro t ht st s rest hpre
    cases t with
    | nil => exact absurd rfl hpre.2.2.1
    | node _ _ _ _ _ _ => simp [Tree.size] at ht
  | succ N IH =>
    intro t ht st s rest hpre
    cases t with
    | nil => exact absurd rfl hpre.2.2.1
    | node q c bs po l r =>
      simp only [Tree.size] at ht
      have hNl : l.size ≤ N := by omega
      have hNr : r.size ≤ N := by omega
      have hmid := mid_init bits peer st s rest q c bs po l r hpre
      obtain ⟨h1, h2, _, h4, hnd, hown, hdesc⟩ := hpre
      have hne : st.stack ≠ [] := by rw [h1]; simp
      have hstep := step_enter peer st s rest q _ h1 h2 h4.1 hdesc
      simp only [mk_node_bit0, mk_node_bit1, ne_eq] at hstep
      cases hl : l.ptr with
      | none =>
        have hmid1 := mid_skip_left bits peer st st s rest q c bs po l r false hl hmid
        simp only [hl, not_true_eq_false, if_false] at hstep
        cases hr : r.ptr with
        | none =>
          simp only [hr, not_true_eq_false, if_false] at hstep
          exact result_of_runs bits peer st st _ s rest _ (Runs.step hne hstep)
            (walk_self bits peer st _ s rest q c bs po l r hnd hown h2
              (mid_prev bits peer st st s rest q c bs po l r true true _
                (mid_skip_right bits peer st st s rest q c bs po l r true hr hmid1)) rfl)
        | some rp =>
          simp only [hr, not_false_eq_true, if_true, reduceCtorEq] at hstep
          exact walk_go_right bits peer N IH st st s rest q c bs po l r hnd hown h2 hNl hNr
            hmid1 (by simp [hr]) hstep
      | some lp =>
        simp only [hl, not_false_eq_true, if_true, reduceCtorEq] at hstep
        have hlh := height_pos l (by rw [hl]; simp)
        by_cases hlen : rest.length + 1 < 128
        · rw [if_pos hlen] at hstep
          have hpre2 := mid_pre_left bits peer st st s rest q c bs po l r false false hnd hmid
            (by simp [hl])
          simp only [Bool.false_eq_true, if_false] at hpre2
          rcases IH l hNl _ _ _ hpre2 with ⟨st2, hr2, hpost⟩ | ⟨hf, hb⟩
          · obtain ⟨hmid2, hp2⟩ := mid_after_left bits peer st st st2 s rest q c bs po l r
              false false hnd hown hmid (by simpa using hpost)
            exact result_of_runs bits peer st st _ s rest _ ((Runs.step hne hstep).trans hr2)
              (walk_after_left bits peer N IH st st2 s rest q c bs po l r hnd hown h2 hNl hNr
                hmid2 hp2)
          · refine Or.inr ⟨(Runs.step hne hstep).fails hf, ?_⟩
            simp only [List.length_cons, Tree.height] at hb ⊢
            omega
        · rw [if_neg hlen] at hstep
          refine Or.inr ⟨Fails.of_step hne hstep, ?_⟩
          simp only [Tree.height]
          omega

end WG


namespace WG

/-- More fuel does not change the outcome of a loop that has ended. -/
theorem walk_loop_mono (peer : Nat) : ∀ (f : Nat) (st : WalkState),
    walk_loop peer f st ≠ .out_of_fuel → ∀ d, walk_loop peer (f + d) st = walk_loop peer f st := by
  intro f
  induction f with
  | zero =>
    intro st h d
    by_cases hs : st.stack = []
    · rw [walk_loop_nil _ _ _ hs, walk_loop_nil _ _ _ hs]
    · exfalso; apply h; rw [walk_loop]; simp [hs]
  | succ f ih =>
    intro st h d
    by_cases hs : st.stack = []
    · rw [walk_loop_nil _ _ _ hs, walk_loop_nil _ _ _ hs]
    · rw [show f + 1 + d = (f + d) + 1 by omega]
      cases hstep : walk_step peer st with
      | ok b =>
        rw [walk_loop_step_ok peer _ st b hs hstep] at h ⊢
        rw [walk_loop_step_ok peer _ st b hs hstep]
        exact ih b h d
      | bad_access => rw [walk_loop]; conv_rhs => rw [walk_loop]
                      simp [hs, hstep]
      | assert_failed => rw [walk_loop]; conv_rhs => rw [walk_loop]
                         simp [hs, hstep]
      | out_of_fuel => rw [walk_loop]; conv_rhs => rw [walk_loop]
                       simp [hs, hstep]

theorem walk_remove_by_peer_mono (m : Mem) (top peer : Option Nat) (f : Nat)
    (h : walk_remove_by_peer m top peer f ≠ .out_of_fuel) (d : Nat) :
    walk_remove_by_peer m top peer (f + d) = walk_remove_by_peer m top peer f := by
  cases peer with
  | none => rfl
  | some pr =>
    cases top with
    | none => rfl
    | some tp =>
      simp only [walk_remove_by_peer, PUSH, List.length_nil, Nat.zero_lt_succ,
        show (0 : Nat) < 128 by norm_num, if_true] at h ⊢
      have hne : walk_loop pr f { m := m, root := some tp, stack := [Slot.top], prev := none }
          ≠ .out_of_fuel := by
        intro e; rw [e] at h; exact h rfl
      rw [walk_loop_mono pr f _ hne d]

theorem filter_owned_nil (lists : Nat → List Nat) :
    (fun pe => (lists pe).filter (fun x => decide (x ∉ ([] : List Nat)))) = lists := by
  funext pe
  simp

/-- With enough fuel `walk_remove_by_peer` performs `removeT` on the heap, unless the trie is
higher than the stack of 128 slots, in which case the assertion of `PUSH` fails. -/
theorem walk_remove_by_peer_spec (bits pr : Nat) (m : Mem) (t : Tree)
    (hl : Laid bits m.heap t) (hnd : t.ptrs.Nodup) :
    ∃ N, ∀ fuel, N ≤ fuel →
      (∃ m2, walk_remove_by_peer m t.ptr (some pr) fuel = .ok (m2, (removeT pr t).ptr) ∧
        Laid bits m2.heap (removeT pr t) ∧ (∀ x, x ∉ t.ptrs → m2.heap x = m.heap x) ∧
        m2.brk = m.brk ∧
        m2.lists = fun pe => (m.lists pe).filter (fun x => decide (x ∉ t.owned pr))) ∨
      (walk_remove_by_peer m t.ptr (some pr) fuel = .assert_failed ∧ 128 < t.height) := by
  cases t with
  | nil =>
    refine ⟨0, fun fuel _ => Or.inl ⟨m, rfl, trivial, fun _ _ => rfl, rfl, ?_⟩⟩
    simp only [Tree.owned]
    exact (filter_owned_nil m.lists).symm
  | node q c bs po l r =>
    have hpre : WalkPre bits { m := m, root := some q, stack := [Slot.top], prev := none }
        Slot.top [] (.node q c bs po l r) :=
      ⟨rfl, rfl, by simp, hl, hnd, (fun p hp => by cases hp), Or.inl rfl⟩
    rcases traverse bits pr _ _ (le_refl _) _ _ _ hpre with ⟨st2, ⟨k, hk⟩, hpost⟩ | ⟨⟨k, hk⟩, hb⟩
    · obtain ⟨p1, p2, p3, p4, p5, p6, p7⟩ := hpost
      refine ⟨k, fun fuel hf => Or.inl ⟨st2.m, ?_, p3, ?_, p6, p7⟩⟩
      · obtain ⟨d, rfl⟩ := Nat.exists_eq_add_of_le hf
        simp only [walk_remove_by_peer, PUSH, List.length_nil,
          show (0 : Nat) < 128 by norm_num, if_true, ptr_node]
        rw [hk d, walk_loop_nil _ _ _ p1]
        simp only [p4, slot_set]
      · intro x hx
        rw [p5 x hx]
        rfl
    · refine ⟨k, fun fuel hf => Or.inr ⟨?_, by simpa using hb⟩⟩
      obtain ⟨d, rfl⟩ := Nat.exists_eq_add_of_le hf
      simp only [walk_remove_by_peer, PUSH, List.length_nil,
        show (0 : Nat) < 128 by norm_num, if_true, ptr_node]
      rw [hk d]

/-- Whatever the fuel, a call of `walk_remove_by_peer` that returns has performed `removeT`. -/
theorem walk_remove_by_peer_ok (bits pr : Nat) (m : Mem) (t : Tree)
    (hl : Laid bits m.heap t) (hnd : t.ptrs.Nodup) (fuel : Nat) (m2 : Mem) (r : Option Nat)
    (h : walk_remove_by_peer m t.ptr (some pr) fuel = .ok (m2, r)) :
    r = (removeT pr t).ptr ∧ Laid bits m2.heap (removeT pr t) ∧
      (∀ x, x ∉ t.ptrs → m2.heap x = m.heap x) ∧ m2.brk = m.brk ∧
      m2.lists = fun pe => (m.lists pe).filter (fun x => decide (x ∉ t.owned pr)) := by
  obtain ⟨N, hN⟩ := walk_remove_by_peer_spec bits pr m t hl hnd
  have hmono := walk_remove_by_peer_mono m t.ptr (some pr) fuel (by rw [h]; simp) N
  rcases hN (fuel + N) (by omega) with ⟨m3, e, q1, q2, q3, q4⟩ | ⟨e, _⟩
  · rw [hmono, h] at e
    simp only [Outcome.ok.injEq, Prod.mk.injEq] at e
    obtain ⟨rfl, rfl⟩ := e
    exact ⟨rfl, q1, q2, q3, q4⟩
  · rw [hmono, h] at e
    cases e

end WG


namespace WG

/-! ## Nodes of the tree after an insertion -/

/-- The seven shapes of the tree after an insertion below an existing node. -/
theorem addT_cases (bits : Nat) (hb : bits = 32 ∨ bits = 128) (key : List u8)
    (hk : bits / 8 ≤ key.length) (cidr pe np : Nat) (hc : cidr ≤ bits)
    (p c : Nat) (bs : List u8) (po : Option Nat) (l r : Tree) :
    (c = cidr ∧ c ≤ cbits bits bs key ∧
      addT bits key cidr pe np (.node p c bs po l r) = .node p c bs (some pe) l r ∧
      placedT bits key cidr np (.node p c bs po l r) = p) ∨
    (c < cidr ∧ addT bits key cidr pe np (.node p c bs po l r) =
        .node p c bs po l (addT bits key cidr pe np r) ∧
      placedT bits key cidr np (.node p c bs po l r) = placedT bits key cidr np r) ∨
    (c < cidr ∧ addT bits key cidr pe np (.node p c bs po l r) =
        .node p c bs po (addT bits key cidr pe np l) r ∧
      placedT bits key cidr np (.node p c bs po l r) = placedT bits key cidr np l) ∨
    (placedT bits key cidr np (.node p c bs po l r) = np ∧
      (addT bits key cidr pe np (.node p c bs po l r) =
          .node np cidr (key_bits bits key) (some pe) .nil (.node p c bs po l r) ∨
        addT bits key cidr pe np (.node p c bs po l r) =
          .node np cidr (key_bits bits key) (some pe) (.node p c bs po l r) .nil ∨
        (∃ cb kb2, cb < cidr ∧ addT bits key cidr pe np (.node p c bs po l r) =
          .node (np + 1) cb kb2 none (.node p c bs po l r)
            (.node np cidr (key_bits bits key) (some pe) .nil .nil)) ∨
        (∃ cb kb2, cb < cidr ∧ addT bits key cidr pe np (.node p c bs po l r) =
          .node (np + 1) cb kb2 none (.node np cidr (key_bits bits key) (some pe) .nil .nil)
            (.node p c bs po l r)))) := by
  have hkb : bits / 8 ≤ (key_bits bits key).length := by
    rw [key_bits_length bits hb key hk]; rcases hb with rfl | rfl <;> decide
  simp only [addT, placedT]
  by_cases hcond : c ≤ cidr ∧ c ≤ cbits bits bs key
  · simp only [hcond, and_self, if_true]
    by_cases hex : c = cidr
    · exact Or.inl ⟨hex, trivial, by simp [hex], by simp [hex]⟩
    · have hlt : c < cidr := by omega
      rcases Bool.eq_false_or_eq_true (kbit bits key c) with hd | hd
      · exact Or.inr (Or.inl ⟨hlt, by simp [hex, hd], by simp [hex, hd]⟩)
      · exact Or.inr (Or.inr (Or.inl ⟨hlt, by simp [hex, hd], by simp [hex, hd]⟩))
  · simp only [hcond, if_false]
    refine Or.inr (Or.inr (Or.inr ⟨trivial, ?_⟩))
    by_cases hmin : cidr ≤ cbits bits bs key
    · have hm : cidr = min cidr (cbits bits bs key) := by omega
      rw [if_pos hm]
      rcases Bool.eq_false_or_eq_true (kbit bits bs cidr) with hd | hd
      · exact Or.inl (by simp [hd])
      · exact Or.inr (Or.inl (by simp [hd]))
    · have hlt : cbits bits bs key < cidr := by omega
      have hm : ¬ (cidr = min cidr (cbits bits bs key)) := by omega
      have hm2 : min cidr (cbits bits bs key) = cbits bits bs key := by omega
      rw [if_neg hm, hm2]
      have hne := cbits_differ bits hb bs key (by omega)
      rw [← kbit_key_bits bits hb key hk] at hne
      rcases Bool.eq_false_or_eq_true (kbit bits (key_bits bits key) (cbits bits bs key))
        with hj | hj
      · have hi : kbit bits bs (cbits bits bs key) = false := by
          cases h : kbit bits bs (cbits bits bs key)
          · rfl
          · rw [h, hj] at hne; exact absurd rfl hne
        exact Or.inr (Or.inr (Or.inl ⟨_, key_bits bits (key_bits bits key), hlt, by simp [hi, hj]⟩))
      · have hi : kbit bits bs (cbits bits bs key) = true := by
          cases h : kbit bits bs (cbits bits bs key)
          · rw [h, hj] at hne; exact absurd rfl hne
          · rfl
        exact Or.inr (Or.inr (Or.inr ⟨_, key_bits bits (key_bits bits key), hlt, by simp [hi, hj]⟩))

theorem placedT_mem (bits : Nat) (key : List u8) (cidr np : Nat) :
    ∀ t : Tree, placedT bits key cidr np t ∈ t.ptrs ∨ placedT bits key cidr np t = np
  | .nil => Or.inr rfl
  | .node p c bs po l r => by
    have ihl := placedT_mem bits key cidr np l
    have ihr := placedT_mem bits key cidr np r
    simp only [placedT]
    split_ifs <;> simp only [Tree.ptrs, List.mem_cons, List.mem_append, true_or, or_true] <;>
      tauto

theorem mem_ptrs_addT (bits : Nat) (hb : bits = 32 ∨ bits = 128) (key : List u8)
    (hk : bits / 8 ≤ key.length) (cidr pe np : Nat) (hc : cidr ≤ bits) :
    ∀ (t : Tree) (x : Nat), x ∈ (addT bits key cidr pe np t).ptrs →
      x ∈ t.ptrs ∨ x = np ∨ x = np + 1
  | .nil, x, hx => by
    simp only [addT, Tree.ptrs, List.append_nil, List.mem_singleton] at hx
    exact Or.inr (Or.inl hx)
  | .node p c bs po l r, x, hx => by
    have ihl := mem_ptrs_addT bits hb key hk cidr pe np hc l x
    have ihr := mem_ptrs_addT bits hb key hk cidr pe np hc r x
    rcases addT_cases bits hb key hk cidr pe np hc p c bs po l r with
      ⟨_, _, h, _⟩ | ⟨_, h, _⟩ | ⟨_, h, _⟩ | ⟨_, h | h | ⟨cb, kb2, _, h⟩ | ⟨cb, kb2, _, h⟩⟩
    · rw [h] at hx; exact Or.inl hx
    · rw [h] at hx
      simp only [Tree.ptrs, List.mem_cons, List.mem_append] at hx ⊢
      rcases hx with hx | hx | hx
      · exact Or.inl (Or.inl hx)
      · exact Or.inl (Or.inr (Or.inl hx))
      · rcases ihr hx with h1 | h1 | h1
        · exact Or.inl (Or.inr (Or.inr h1))
        · exact Or.inr (Or.inl h1)
        · exact Or.inr (Or.inr h1)
    · rw [h] at hx
      simp only [Tree.ptrs, List.mem_cons, List.mem_append] at hx ⊢
      rcases hx with hx | hx | hx
      · exact Or.inl (Or.inl hx)
      · rcases ihl hx with h1 | h1 | h1
        · exact Or.inl (Or.inr (Or.inl h1))
        · exact Or.inr (Or.inl h1)
        · exact Or.inr (Or.inr h1)
      · exact Or.inl (Or.inr (Or.inr hx))
    · rw [h] at hx
      rw [Tree.ptrs] at hx
      simp only [Tree.ptrs, List.nil_append, List.mem_cons] at hx
      rcases hx with hx | hx
      · exact Or.inr (Or.inl hx)
      · exact Or.inl (by simpa [Tree.ptrs] using hx)
    · rw [h] at hx
      rw [Tree.ptrs] at hx
      simp only [Tree.ptrs, List.append_nil, List.mem_cons] at hx
      rcases hx with hx | hx
      · exact Or.inr (Or.inl hx)
      · exact Or.inl (by simpa [Tree.ptrs] using hx)
    · rw [h] at hx
      rw [Tree.ptrs] at hx
      rcases List.mem_cons.1 hx with hx | hx
      · exact Or.inr (Or.inr hx)
      · rcases List.mem_append.1 hx with hx | hx
        · exact Or.inl hx
        · simp only [Tree.ptrs, List.append_nil, List.mem_singleton] at hx
          exact Or.inr (Or.inl hx)
    · rw [h] at hx
      rw [Tree.ptrs] at hx
      rcases List.mem_cons.1 hx with hx | hx
      · exact Or.inr (Or.inr hx)
      · rcases List.mem_append.1 hx with hx | hx
        · simp only [Tree.ptrs, List.append_nil, List.mem_singleton] at hx
          exact Or.inr (Or.inl hx)
        · exact Or.inl hx

theorem nodup_addT (bits : Nat) (hb : bits = 32 ∨ bits = 128) (key : List u8)
    (hk : bits / 8 ≤ key.length) (cidr pe np : Nat) (hc : cidr ≤ bits) :
    ∀ (t : Tree), t.ptrs.Nodup → (∀ x, x ∈ t.ptrs → x < np) →
      (addT bits key cidr pe np t).ptrs.Nodup
  | .nil, _, _ => by simp [addT, Tree.ptrs]
  | .node p c bs po l r, hnd, hlt => by
    have hnd2 := hnd
    simp only [Tree.ptrs, List.nodup_cons, List.mem_append, not_or, List.nodup_append] at hnd2
    obtain ⟨⟨hpl, hpr⟩, hl, hr, hdis⟩ := hnd2
    have hp : p < np := hlt p (by simp [Tree.ptrs])
    have hll : ∀ x, x ∈ l.ptrs → x < np := fun x hx => hlt x (by simp [Tree.ptrs, hx])
    have hrr : ∀ x, x ∈ r.ptrs → x < np := fun x hx => hlt x (by simp [Tree.ptrs, hx])
    have ihl := nodup_addT bits hb key hk cidr pe np hc l hl hll
    have ihr := nodup_addT bits hb key hk cidr pe np hc r hr hrr
    have ml := mem_ptrs_addT bits hb key hk cidr pe np hc l
    have mr := mem_ptrs_addT bits hb key hk cidr pe np hc r
    have hnp : np ∉ (Tree.node p c bs po l r).ptrs := fun h => by
      have := hlt np h; omega
    have hnp1 : np + 1 ∉ (Tree.node p c bs po l r).ptrs := fun h => by
      have := hlt (np + 1) h; omega
    rcases addT_cases bits hb key hk cidr pe np hc p c bs po l r with
      ⟨_, _, h, _⟩ | ⟨_, h, _⟩ | ⟨_, h, _⟩ | ⟨_, h | h | ⟨cb, kb2, _, h⟩ | ⟨cb, kb2, _, h⟩⟩
    · rw [h]; exact hnd
    · rw [h]
      simp only [Tree.ptrs, List.nodup_cons, List.mem_append, not_or, List.nodup_append]
      refine ⟨⟨hpl, ?_⟩, hl, ihr, ?_⟩
      · intro h
        rcases mr p h with h | h | h
        · exact hpr h
        · omega
        · omega
      · intro a ha hb
        rcases mr a hb with h | h | h
        · exact hdis ha h
        · have := hll a ha; omega
        · have := hll a ha; omega
    · rw [h]
      simp only [Tree.ptrs, List.nodup_cons, List.mem_append, not_or, List.nodup_append]
      refine ⟨⟨?_, hpr⟩, ihl, hr, ?_⟩
      · intro h
        rcases ml p h with h | h | h
        · exact hpl h
        · omega
        · omega
      · intro a ha hb
        rcases ml a ha with h | h | h
        · exact hdis h hb
        · have := hrr a hb; omega
        · have := hrr a hb; omega
    · rw [h, Tree.ptrs]
      rw [show Tree.nil.ptrs = [] from rfl, List.nil_append]
      exact List.nodup_cons.2 ⟨hnp, hnd⟩
    · rw [h, Tree.ptrs]
      rw [show Tree.nil.ptrs = [] from rfl, List.append_nil]
      exact List.nodup_cons.2 ⟨hnp, hnd⟩
    · rw [h, Tree.ptrs]
      rw [show (Tree.node np cidr (key_bits bits key) (some pe) .nil .nil).ptrs = [np] from rfl]
      refine List.nodup_cons.2 ⟨?_, List.nodup_append.2 ⟨hnd, by simp, ?_⟩⟩
      · intro hx
        rcases List.mem_append.1 hx with hx | hx
        · exact hnp1 hx
        · simp at hx
      · intro a ha hb
        simp only [List.mem_singleton] at hb
        exact hnp (hb ▸ ha)
    · rw [h, Tree.ptrs]
      rw [show (Tree.node np cidr (key_bits bits key) (some pe) .nil .nil).ptrs = [np] from rfl]
      refine List.nodup_cons.2 ⟨?_, List.nodup_append.2 ⟨by simp, hnd, ?_⟩⟩
      · intro hx
        rcases List.mem_append.1 hx with hx | hx
        · simp at hx
        · exact hnp1 hx
      · intro a ha hb
        simp only [List.mem_singleton] at ha
        exact hnp (ha ▸ hb)

end WG


namespace WG

theorem mem_owned_leaf (np cidr pe q x : Nat) (kb : List u8) :
    x ∈ (Tree.node np cidr kb (some pe) .nil .nil).owned q ↔ x = np ∧ q = pe := by
  simp only [Tree.owned, List.append_nil, Option.some.injEq]
  by_cases h : pe = q
  · simp [h]
  · simp [h]; intro _ e; exact h e.symm

/-- Nodes owned by a peer after an insertion: the node that carries the route moves to the
new peer, every other node stays with its peer. -/
theorem mem_owned_addT (bits : Nat) (hb : bits = 32 ∨ bits = 128) (key : List u8)
    (hk : bits / 8 ≤ key.length) (cidr pe np : Nat) (hc : cidr ≤ bits) (q x : Nat) :
    ∀ (t : Tree), t.ptrs.Nodup → (∀ y, y ∈ t.ptrs → y < np) →
      (x ∈ (addT bits key cidr pe np t).owned q ↔
        (x = placedT bits key cidr np t ∧ q = pe) ∨
          (x ∈ t.owned q ∧ x ≠ placedT bits key cidr np t))
  | .nil, _, _ => by
    rw [show addT bits key cidr pe np .nil =
      .node np cidr (key_bits bits key) (some pe) .nil .nil from rfl, mem_owned_leaf]
    simp [placedT, Tree.owned]
  | .node p c bs po l r, hnd, hlt => by
    have hnd2 := hnd
    simp only [Tree.ptrs, List.nodup_cons, List.mem_append, not_or, List.nodup_append] at hnd2
    obtain ⟨⟨hpl, hpr⟩, hl, hr, hdis⟩ := hnd2
    have hp : p < np := hlt p (by simp [Tree.ptrs])
    have hll : ∀ y, y ∈ l.ptrs → y < np := fun y hy => hlt y (by simp [Tree.ptrs, hy])
    have hrr : ∀ y, y ∈ r.ptrs → y < np := fun y hy => hlt y (by simp [Tree.ptrs, hy])
    have ihl := mem_owned_addT bits hb key hk cidr pe np hc q x l hl hll
    have ihr := mem_owned_addT bits hb key hk cidr pe np hc q x r hr hrr
    have ol : x ∈ l.owned q → x ∈ l.ptrs := owned_subset_ptrs q l x
    have or2 : x ∈ r.owned q → x ∈ r.ptrs := owned_subset_ptrs q r x
    have pl := placedT_mem bits key cidr np l
    have pr := placedT_mem bits key cidr np r
    have ot : x ∈ (Tree.node p c bs po l r).owned q → x ≠ np := fun h e => by
      have := hlt x (owned_subset_ptrs q _ x h); omega
    rcases addT_cases bits hb key hk cidr pe np hc p c bs po l r with
      ⟨_, _, h, hpl2⟩ | ⟨_, h, hpl2⟩ | ⟨_, h, hpl2⟩ |
        ⟨hpl2, h | h | ⟨cb, kb2, _, h⟩ | ⟨cb, kb2, _, h⟩⟩
    · rw [h, hpl2]
      simp only [Tree.owned, List.mem_append, Option.some.injEq]
      have a1 : x ∈ l.owned q → x ≠ p := fun h e => hpl (e ▸ ol h)
      have a2 : x ∈ r.owned q → x ≠ p := fun h e => hpr (e ▸ or2 h)
      by_cases h1 : po = some q <;> by_cases h2 : pe = q <;>
        simp only [h1, h2, if_true, if_false, List.mem_singleton, List.not_mem_nil,
          false_or] <;> clear * - a1 a2 h1 h2 <;> tauto
    · rw [h, hpl2]
      simp only [Tree.owned, List.mem_append]
      rw [ihr]
      have a0 : placedT bits key cidr np r ≠ p := fun e => by
        rcases pr with h | h
        · exact hpr (e ▸ h)
        · omega
      have a1 : x ∈ l.owned q → x ≠ placedT bits key cidr np r := fun h e => by
        rcases pr with h2 | h2
        · exact hdis (ol h) (e ▸ h2)
        · have := hll x (ol h); omega
      by_cases h1 : po = some q <;>
        simp only [h1, if_true, if_false, List.mem_singleton, List.not_mem_nil, false_or]
      · constructor
        · rintro (rfl | h | h)
          · exact Or.inr ⟨Or.inl rfl, fun e => a0 e.symm⟩
          · exact Or.inr ⟨Or.inr (Or.inl h), a1 h⟩
          · clear * - h; tauto
        · clear * - a0; tauto
      · constructor
        · rintro (h | h)
          · exact Or.inr ⟨Or.inl h, a1 h⟩
          · clear * - h; tauto
        · clear * - a0; tauto
    · rw [h, hpl2]
      simp only [Tree.owned, List.mem_append]
      rw [ihl]
      have a0 : placedT bits key cidr np l ≠ p := fun e => by
        rcases pl with h | h
        · exact hpl (e ▸ h)
        · omega
      have a1 : x ∈ r.owned q → x ≠ placedT bits key cidr np l := fun h e => by
        rcases pl with h2 | h2
        · exact hdis h2 (e ▸ or2 h)
        · have := hrr x (or2 h); omega
      by_cases h1 : po = some q <;>
        simp only [h1, if_true, if_false, List.mem_singleton, List.not_mem_nil, false_or]
      · constructor
        · rintro (rfl | h | h)
          · exact Or.inr ⟨Or.inl rfl, fun e => a0 e.symm⟩
          · clear * - h; tauto
          · exact Or.inr ⟨Or.inr (Or.inr h), a1 h⟩
        · clear * - a0; tauto
      · constructor
        · rintro (h | h)
          · clear * - h; tauto
          · exact Or.inr ⟨Or.inr h, a1 h⟩
        · clear * - a0; tauto
    · rw [h, hpl2, Tree.owned]
      simp only [List.mem_append, show Tree.nil.owned q = [] from rfl, List.not_mem_nil,
        false_or, Option.some.injEq]
      by_cases h2 : pe = q <;>
        simp only [h2, if_true, if_false, List.mem_singleton, List.not_mem_nil, false_or]
      · clear * - ot h2; tauto
      · have : ¬ q = pe := fun e => h2 e.symm
        clear * - ot h2 this; tauto
    · rw [h, hpl2, Tree.owned]
      simp only [List.mem_append, show Tree.nil.owned q = [] from rfl, List.not_mem_nil,
        or_false, Option.some.injEq]
      by_cases h2 : pe = q <;>
        simp only [h2, if_true, if_false, List.mem_singleton, List.not_mem_nil, false_or]
      · clear * - ot h2; tauto
      · have : ¬ q = pe := fun e => h2 e.symm
        clear * - ot h2 this; tauto
    · rw [h, hpl2, Tree.owned]
      simp only [List.mem_append, mem_owned_leaf, reduceCtorEq, if_false, List.not_mem_nil,
        false_or]
      clear * - ot; tauto
    · rw [h, hpl2, Tree.owned]
      simp only [List.mem_append, mem_owned_leaf, reduceCtorEq, if_false, List.not_mem_nil,
        false_or]
      clear * - ot; tauto

theorem Full_addT (bits : Nat) (hb : bits = 32 ∨ bits = 128) (key : List u8)
    (hk : bits / 8 ≤ key.length) (cidr pe np : Nat) (hc : cidr ≤ bits) :
    ∀ (t : Tree), Full t → Full (addT bits key cidr pe np t)
  | .nil, _ => by
    rw [show addT bits key cidr pe np .nil =
      .node np cidr (key_bits bits key) (some pe) .nil .nil from rfl]
    exact ⟨Or.inr (by simp), trivial, trivial⟩
  | .node p c bs po l r, hf => by
    obtain ⟨h1, h2, h3⟩ := hf
    have ihl := Full_addT bits hb key hk cidr pe np hc l h2
    have ihr := Full_addT bits hb key hk cidr pe np hc r h3
    have nl : (addT bits key cidr pe np l).ptr ≠ none := by
      cases l with
      | nil => simp [addT, Tree.ptr]
      | node p2 c2 bs2 po2 l2 r2 =>
        rcases addT_cases bits hb key hk cidr pe np hc p2 c2 bs2 po2 l2 r2 with
          ⟨_, _, h, _⟩ | ⟨_, h, _⟩ | ⟨_, h, _⟩ | ⟨_, h | h | ⟨cb, kb2, _, h⟩ | ⟨cb, kb2, _, h⟩⟩ <;>
        · rw [h]; simp
    have nr : (addT bits key cidr pe np r).ptr ≠ none := by
      cases r with
      | nil => simp [addT, Tree.ptr]
      | node p2 c2 bs2 po2 l2 r2 =>
        rcases addT_cases bits hb key hk cidr pe np hc p2 c2 bs2 po2 l2 r2 with
          ⟨_, _, h, _⟩ | ⟨_, h, _⟩ | ⟨_, h, _⟩ | ⟨_, h | h | ⟨cb, kb2, _, h⟩ | ⟨cb, kb2, _, h⟩⟩ <;>
        · rw [h]; simp
    rcases addT_cases bits hb key hk cidr pe np hc p c bs po l r with
      ⟨_, _, h, _⟩ | ⟨_, h, _⟩ | ⟨_, h, _⟩ | ⟨_, h | h | ⟨cb, kb2, _, h⟩ | ⟨cb, kb2, _, h⟩⟩
    · rw [h]; exact ⟨Or.inr (by simp), h2, h3⟩
    · rw [h]
      refine ⟨?_, h2, ihr⟩
      rcases h1 with ⟨a, _⟩ | a
      · exact Or.inl ⟨a, nr⟩
      · exact Or.inr a
    · rw [h]
      refine ⟨?_, ihl, h3⟩
      rcases h1 with ⟨_, a⟩ | a
      · exact Or.inl ⟨nl, a⟩
      · exact Or.inr a
    · rw [h]; exact ⟨Or.inr (by simp), trivial, h1, h2, h3⟩
    · rw [h]; exact ⟨Or.inr (by simp), ⟨h1, h2, h3⟩, trivial⟩
    · rw [h]
      exact ⟨Or.inl ⟨by simp, by simp⟩, ⟨h1, h2, h3⟩, Or.inr (by simp), trivial, trivial⟩
    · rw [h]
      exact ⟨Or.inl ⟨by simp, by simp⟩, ⟨Or.inr (by simp), trivial, trivial⟩, h1, h2, h3⟩

end WG


namespace WG

/-- The node that carries the route after an insertion holds the prefix length, a key that
agrees with the inserted key on the prefix, and the peer. -/
theorem placed_node (bits : Nat) (hb : bits = 32 ∨ bits = 128) (key : List u8)
    (hk : bits / 8 ≤ key.length) (cidr pe np : Nat) (hc : cidr ≤ bits)
    (h : Nat → Option whitelist_node) :
    ∀ (t : Tree) (lo : Nat) (pre : Nat → Bool), TInv bits lo pre t →
      Laid bits h (addT bits key cidr pe np t) →
      ∃ bs l r, h (placedT bits key cidr np t) = some (mk_node bits cidr bs (some pe) l r) ∧
        bs.length = 16 ∧ ∀ i, i < cidr → kbit bits bs i = kbit bits key i
  | .nil, _, _, _, hl => by
    rw [show addT bits key cidr pe np .nil =
      .node np cidr (key_bits bits key) (some pe) .nil .nil from rfl] at hl
    exact ⟨_, _, _, hl.1, key_bits_length bits hb key hk,
      fun i _ => kbit_key_bits bits hb key hk i⟩
  | .node p c bs po l r, lo, pre, hi, hl => by
    obtain ⟨_, hcb, hlen, _, i5, i6⟩ := hi
    have hleaf : ∀ (x y : Option Nat),
        h np = some (mk_node bits cidr (key_bits bits key) (some pe) x y) →
        ∃ bs l r, h np = some (mk_node bits cidr bs (some pe) l r) ∧
          bs.length = 16 ∧ ∀ i, i < cidr → kbit bits bs i = kbit bits key i :=
      fun x y e => ⟨_, _, _, e, key_bits_length bits hb key hk,
        fun i _ => kbit_key_bits bits hb key hk i⟩
    rcases addT_cases bits hb key hk cidr pe np hc p c bs po l r with
      ⟨he, hm, ha, hp⟩ | ⟨_, ha, hp⟩ | ⟨_, ha, hp⟩ |
        ⟨hp, ha | ha | ⟨cb, kb2, _, ha⟩ | ⟨cb, kb2, _, ha⟩⟩
    · rw [ha] at hl
      rw [hp]
      subst he
      exact ⟨bs, _, _, hl.1, hlen, (cbits_ge_iff bits hb bs key c hcb).1 hm⟩
    · rw [ha] at hl
      rw [hp]
      exact placed_node bits hb key hk cidr pe np hc h r _ _ i6 hl.2.2
    · rw [ha] at hl
      rw [hp]
      exact placed_node bits hb key hk cidr pe np hc h l _ _ i5 hl.2.1
    · rw [ha] at hl
      rw [hp]
      exact hleaf _ _ hl.1
    · rw [ha] at hl
      rw [hp]
      exact hleaf _ _ hl.1
    · rw [ha] at hl
      rw [hp]
      exact hleaf _ _ hl.2.2.1
    · rw [ha] at hl
      rw [hp]
      exact hleaf _ _ hl.2.1.1

/-- After an insert the node that carries the route is the last node of the list of the
peer. -/
theorem last_after_add (m : Mem) (P pr : Nat) :
    ((if P = m.brk then list_add_tail m m.brk pr else list_move_tail m P pr).lists pr).getLast? =
      some P := by
  by_cases hb : P = m.brk
  · rw [if_pos hb]
    simp only [list_add_tail, if_true]
    rw [List.getLast?_concat, hb]
  · rw [if_neg hb]
    simp only [list_move_tail, list_add_tail, list_del, if_true]
    rw [List.getLast?_concat]

end WG


namespace WG

/-! ## `wg_whitelist_read_node` -/

/-- Bit `i` of the wire address made by `native_endian` from a stored key is bit `i` of the
key. -/
theorem wire_bit_native_endian (bits : Nat) (hb : bits = 32 ∨ bits = 128) (dst bs : List u8)
    (hw : bits / 8 ≤ bs.length) (i : Nat) (hi : i < bits) :
    wire_bit (native_endian dst bs bits) i = kbit bits bs i := by
  have hj := bit_at_a_lt bits hb i hi
  have hdiv : (8 * ((i / 8) ^^^ ((bits / 8 - 1) % 8)) + i % 8) / 8 =
      (i / 8) ^^^ ((bits / 8 - 1) % 8) := by omega
  have hmod : (8 * ((i / 8) ^^^ ((bits / 8 - 1) % 8)) + i % 8) % 8 = i % 8 := by omega
  have hlt : 8 * ((i / 8) ^^^ ((bits / 8 - 1) % 8)) + i % 8 < bits := by
    rcases hb with rfl | rfl <;> omega
  have h1 := kbit_native_endian bits hb dst bs hw _ hlt
  rw [kbit_eq_byte bits hb _ _ hlt, hdiv, hmod, Nat.xor_assoc, Nat.xor_self,
    Nat.xor_zero] at h1
  rw [kbit_eq_byte bits hb bs i hi]
  unfold wire_bit at h1 ⊢
  rw [h1, hdiv, hmod]

theorem getD_set (l : List u8) (k j : Nat) (v : u8) :
    (l.set k v).getD j 0 = if j = k ∧ k < l.length then v else l.getD j 0 := by
  rw [List.getD_eq_getElem?_getD, List.getD_eq_getElem?_getD, List.getElem?_set]
  by_cases h : k = j
  · subst h
    by_cases h2 : k < l.length
    · simp [h2]
    · simp [h2, List.getElem?_eq_none (Nat.le_of_not_lt h2)]
  · have : ¬ j = k := fun e => h e.symm
    simp [h, this]

theorem getD_memset_zero (buf : List u8) (off n j : Nat) (h : off + n ≤ buf.length) :
    (memset_zero buf off n).getD j 0 = if off ≤ j ∧ j < off + n then 0 else buf.getD j 0 := by
  unfold memset_zero
  have hl : (buf.take off).length = off := by simp; omega
  rw [List.getD_eq_getElem?_getD, List.getD_eq_getElem?_getD]
  by_cases h1 : j < off
  · rw [List.append_assoc, List.getElem?_append_left (by omega), List.getElem?_take_of_lt h1]
    rw [if_neg (show ¬ (off ≤ j ∧ j < off + n) by omega)]
  · rw [List.append_assoc, List.getElem?_append_right (by omega), hl]
    by_cases h2 : j < off + n
    · rw [List.getElem?_append_left (by simp; omega),
        if_pos (show off ≤ j ∧ j < off + n from ⟨by omega, h2⟩)]
      rw [List.getElem?_replicate]
      split_ifs <;> rfl
    · rw [List.getElem?_append_right (by simp; omega),
        if_neg (show ¬ (off ≤ j ∧ j < off + n) from fun hh => h2 hh.2)]
      simp only [List.length_replicate, List.getElem?_drop]
      congr 2
      omega

theorem memset_zero_length (buf : List u8) (off n : Nat) (h : off + n ≤ buf.length) :
    (memset_zero buf off n).length = buf.length := by
  unfold memset_zero
  simp
  omega

/-- The mask `~0U << (-cidr % 8U)` keeps the `cidr % 8` leading bits of the byte, all eight
when `cidr` is a multiple of 8. -/
theorem mask_last_byte_bit (b : u8) (cidr pos : Nat) (hc : cidr ≤ 128) (hp : pos < 8) :
    (mask_last_byte b cidr).val.testBit pos =
      (b.val.testBit pos && decide ((8 - cidr % 8) % 8 ≤ pos)) := by
  have hs : (2 ^ 32 - cidr) % 2 ^ 32 % 8 = (8 - cidr % 8) % 8 := by
    norm_num
    omega
  simp only [mask_last_byte]
  rw [hs]
  generalize (8 - cidr % 8) % 8 = s at *
  have hs8 : s < 8 ∨ True := Or.inr trivial
  have e := Nat.testBit_mod_two_pow (b.val &&& (2 ^ 32 - 1) <<< s % 2 ^ 32) 8 pos
  rw [show (2 : Nat) ^ 8 = 256 from rfl] at e
  rw [e, Nat.testBit_and, Nat.testBit_mod_two_pow, Nat.testBit_shiftLeft,
    Nat.testBit_two_pow_sub_one]
  by_cases h1 : s ≤ pos
  · simp [h1, hp]
    intro _
    omega
  · simp [h1, hp]

end WG


namespace WG

/-- What `wg_whitelist_read_node` returns for a node written by `copy_and_assign_cidr`: the
prefix length, the family, and the address whose leading `cidr` bits are those of the stored
key and whose other bits are zero. -/
theorem read_node_mk (bits : Nat) (hb : bits = 32 ∨ bits = 128) (cidr : Nat) (hc : cidr ≤ bits)
    (bs : List u8) (hbs : bs.length = 16) (pe l r : Option Nat) (buf : List u8)
    (hbuf : buf.length = 16) :
    (wg_whitelist_read_node (mk_node bits cidr bs pe l r) buf).2.1 = cidr ∧
    (wg_whitelist_read_node (mk_node bits cidr bs pe l r) buf).2.2 =
      (if bits = 32 then AF_INET else AF_INET6) ∧
    ∀ i, i < bits → wire_bit (wg_whitelist_read_node (mk_node bits cidr bs pe l r) buf).1 i =
      (decide (i < cidr) && kbit bits bs i) := by
  refine ⟨rfl, rfl, fun i hi => ?_⟩
  have hb8 : bits / 8 ≤ 16 := by rcases hb with rfl | rfl <;> decide
  have hbm : bits = 8 * (bits / 8) := by rcases hb with rfl | rfl <;> decide
  have hl1 : (native_endian buf bs bits).length = 16 := by
    rw [native_endian_length _ _ bits hb (by omega) (by omega), hbuf]
  have hcb : DIV_ROUND_UP cidr 8 ≤ bits / 8 := by
    unfold DIV_ROUND_UP; omega
  have hw : ∀ k, k < bits → ((native_endian buf bs bits).getD (k / 8) 0).val.testBit
      (7 - k % 8) = kbit bits bs k := fun k hk =>
    wire_bit_native_endian bits hb buf bs (by omega) k hk
  have hz : ∀ j, (memset_zero (native_endian buf bs bits) (DIV_ROUND_UP cidr 8)
      (bits / 8 - DIV_ROUND_UP cidr 8)).getD j 0 =
      if DIV_ROUND_UP cidr 8 ≤ j ∧ j < DIV_ROUND_UP cidr 8 + (bits / 8 - DIV_ROUND_UP cidr 8)
      then 0 else (native_endian buf bs bits).getD j 0 := fun j =>
    getD_memset_zero _ _ _ j (by omega)
  have hl2 : (memset_zero (native_endian buf bs bits) (DIV_ROUND_UP cidr 8)
      (bits / 8 - DIV_ROUND_UP cidr 8)).length = 16 := by
    rw [memset_zero_length _ _ _ (by omega), hl1]
  simp only [wg_whitelist_read_node, mk_node]
  unfold wire_bit
  by_cases h0 : cidr = 0
  · subst h0
    simp only [ne_eq, not_true_eq_false, if_false]
    rw [hz, if_pos (by unfold DIV_ROUND_UP; omega)]
    simp
  · simp only [ne_eq, h0, not_false_eq_true, if_true]
    have hcb1 : DIV_ROUND_UP cidr 8 - 1 < 16 := by omega
    have hcbv : DIV_ROUND_UP cidr 8 - 1 = (cidr - 1) / 8 := by unfold DIV_ROUND_UP; omega
    have hcbp : 1 ≤ DIV_ROUND_UP cidr 8 := by unfold DIV_ROUND_UP; omega
    have hget : (memset_zero (native_endian buf bs bits) (DIV_ROUND_UP cidr 8)
        (bits / 8 - DIV_ROUND_UP cidr 8))[DIV_ROUND_UP cidr 8 - 1]? =
        some ((native_endian buf bs bits).getD (DIV_ROUND_UP cidr 8 - 1) 0) := by
      have := hz (DIV_ROUND_UP cidr 8 - 1)
      rw [if_neg (by omega), List.getD_eq_getElem?_getD] at this
      rw [List.getElem?_eq_getElem (by omega)] at this ⊢
      simp only [Option.getD_some] at this
      rw [this]
    rw [hget]
    simp only
    rw [getD_set, hl2]
    by_cases hj : i / 8 = DIV_ROUND_UP cidr 8 - 1
    · rw [if_pos ⟨hj, hcb1⟩, mask_last_byte_bit _ cidr _ (by rcases hb with rfl | rfl <;> omega)
        (by omega), ← hj, hw i hi, Bool.and_comm]
      congr 1
      apply decide_eq_decide.2
      rw [hcbv] at hj
      omega
    · rw [if_neg (fun hh => hj hh.1), hz]
      by_cases hlt : i / 8 < DIV_ROUND_UP cidr 8 - 1
      · rw [if_neg (by omega), hw i hi]
        have : i < cidr := by rw [hcbv] at hlt; omega
        simp [this]
      · rw [if_pos (by omega)]
        have : ¬ i < cidr := by
          rw [hcbv] at hlt hj; omega
        simp [this]

end WG


namespace WG

/-! ## Removal on the tree -/

theorem ptr_eq_none : ∀ t : Tree, t.ptr = none → t = .nil
  | .nil, _ => rfl
  | .node _ _ _ _ _ _, h => by cases h

theorem TInv_removeT (bits pe : Nat) : ∀ (t : Tree) (lo : Nat) (pre : Nat → Bool),
    TInv bits lo pre t → TInv bits lo pre (removeT pe t)
  | .nil, _, _, _ => trivial
  | .node p c bs po l r, lo, pre, hi => by
    obtain ⟨h1, h2, h3, h4, h5, h6⟩ := hi
    have ihl := TInv_removeT bits pe l _ _ h5
    have ihr := TInv_removeT bits pe r _ _ h6
    have hpre : ∀ (b : Bool) (i : Nat), i < lo →
        pre i = (fun i => if i = c then b else kbit bits bs i) i := fun b i hi => by
      have : i ≠ c := by omega
      simp only [this, if_false]
      exact (h4 i hi).symm
    rw [removeT_node, finishT]
    split_ifs
    · exact TInv_mono bits _ _ _ _ _ (by omega) (hpre false) ihl
    · exact TInv_mono bits _ _ _ _ _ (by omega) (hpre true) ihr
    · exact ⟨h1, h2, h3, h4, ihl, ihr⟩
    · exact ⟨h1, h2, h3, h4, ihl, ihr⟩

theorem pathT_high_nil (bits : Nat) (k : List u8) (t : Tree) (lo : Nat) (pre : Nat → Bool)
    (h : TInv bits lo pre t) (hlo : bits < lo) : pathT bits k t = [] := by
  cases hp : pathT bits k t with
  | nil => rfl
  | cons e rest =>
    have := mem_pathT_ge bits k t lo pre h e (by rw [hp]; simp)
    omega

theorem route_splice (bits : Nat) (hb : bits = 32 ∨ bits = 128) (k : List u8)
    (p c : Nat) (bs : List u8) (pe : Nat) (l r L R : Tree)
    (hc : c ≤ bits)
    (hL : TInv bits (c + 1) (fun i => if i = c then false else kbit bits bs i) L)
    (hR : TInv bits (c + 1) (fun i => if i = c then true else kbit bits bs i) R)
    (hs : L.ptr = none ∨ R.ptr = none) (c2 : Nat)
    (ihl : route_at (pathT bits k L) c2 =
      if route_at (pathT bits k l) c2 = some pe then none else route_at (pathT bits k l) c2)
    (ihr : route_at (pathT bits k R) c2 =
      if route_at (pathT bits k r) c2 = some pe then none else route_at (pathT bits k r) c2) :
    route_at (pathT bits k (if L.ptr ≠ none then L else R)) c2 =
      if route_at (pathT bits k (.node p c bs (some pe) l r)) c2 = some pe then none
      else route_at (pathT bits k (.node p c bs (some pe) l r)) c2 := by
  -- what is left is one of the two subtrees, the other one being empty
  have hX : (if L.ptr ≠ none then L else R) = L ∧ R = .nil ∨
      (if L.ptr ≠ none then L else R) = R ∧ L = .nil := by
    by_cases hl : L.ptr = none
    · right; exact ⟨by simp [hl], ptr_eq_none L hl⟩
    · left
      refine ⟨by simp [hl], ?_⟩
      rcases hs with h | h
      · exact absurd h hl
      · exact ptr_eq_none R h
  have hgeL : ∀ e, e ∈ pathT bits k L → c + 1 ≤ e.2.1 := fun e he =>
    (mem_pathT_ge bits k L _ _ hL e he).1
  have hgeR : ∀ e, e ∈ pathT bits k R → c + 1 ≤ e.2.1 := fun e he =>
    (mem_pathT_ge bits k R _ _ hR e he).1
  have hge : ∀ e, e ∈ pathT bits k (if L.ptr ≠ none then L else R) → c + 1 ≤ e.2.1 := by
    rcases hX with ⟨h, _⟩ | ⟨h, _⟩ <;> rw [h] <;> assumption
  by_cases hm : c ≤ cbits bits bs k
  · by_cases hc2 : c = c2
    · -- the removed binding itself
      obtain ⟨rest, hrest⟩ := pathT_node_head bits k p c bs (some pe) l r hm
      rw [hrest, route_at_cons, if_pos hc2, if_pos rfl]
      apply route_at_none_of_lt
      intro e he
      have := hge e he
      omega
    · by_cases hcb : c = bits
      · have hp : pathT bits k (.node p c bs (some pe) l r) = [(p, c, some pe)] := by
          simp only [pathT, if_pos hm, if_pos hcb]
        rw [hp, route_at_cons, if_neg hc2, route_at_nil]
        have hn : pathT bits k (if L.ptr ≠ none then L else R) = [] := by
          rcases hX with ⟨h, _⟩ | ⟨h, _⟩ <;> rw [h]
          · exact pathT_high_nil bits k L _ _ hL (by omega)
          · exact pathT_high_nil bits k R _ _ hR (by omega)
        rw [hn, route_at_nil]
        simp
      · rw [pathT_node_pos bits k p c bs (some pe) l r hm hcb, route_at_cons, if_neg hc2]
        rcases Bool.eq_false_or_eq_true (kbit bits k c) with hd | hd
        · simp only [hd, if_true]
          rw [← ihr]
          rcases hX with ⟨h, hnil⟩ | ⟨h, _⟩
          · rw [h, hnil]
            rw [pathT_eq_nil bits hb k L _ _ hL ⟨c, by omega, by simp [hd]⟩]
            rfl
          · rw [h]
        · simp only [hd, Bool.false_eq_true, if_false]
          rw [← ihl]
          rcases hX with ⟨h, _⟩ | ⟨h, hnil⟩
          · rw [h]
          · rw [h, hnil]
            rw [pathT_eq_nil bits hb k R _ _ hR ⟨c, by omega, by simp [hd]⟩]
            rfl
  · rw [pathT_node_nil bits k p c bs (some pe) l r hm, route_at_nil]
    have hex : ∃ i, i < c ∧ kbit bits bs i ≠ kbit bits k i := by
      by_contra hcon
      push_neg at hcon
      exact hm ((cbits_ge_iff bits hb bs k c hc).2 hcon)
    obtain ⟨i, hi, hne⟩ := hex
    have hn : pathT bits k (if L.ptr ≠ none then L else R) = [] := by
      rcases hX with ⟨h, _⟩ | ⟨h, _⟩ <;> rw [h]
      · refine pathT_eq_nil bits hb k L _ _ hL ⟨i, by omega, ?_⟩
        have : i ≠ c := by omega
        simp only [this, if_false]
        exact fun e => hne e.symm
      · refine pathT_eq_nil bits hb k R _ _ hR ⟨i, by omega, ?_⟩
        have : i ≠ c := by omega
        simp only [this, if_false]
        exact fun e => hne e.symm
    rw [hn, route_at_nil]
    simp

/-- Bindings met by a search after a removal: those of the removed peer are gone, the others
are as before. -/
theorem route_at_removeT (bits : Nat) (hb : bits = 32 ∨ bits = 128) (k : List u8) (pe : Nat) :
    ∀ (t : Tree) (lo : Nat) (pre : Nat → Bool), TInv bits lo pre t → ∀ c2,
      route_at (pathT bits k (removeT pe t)) c2 =
        if route_at (pathT bits k t) c2 = some pe then none else route_at (pathT bits k t) c2
  | .nil, _, _, _, c2 => by
    rw [show removeT pe .nil = .nil from rfl, show pathT bits k .nil = [] from rfl, route_at_nil]
    simp
  | .node p c bs po l r, lo, pre, hi, c2 => by
    obtain ⟨h1, h2, h3, h4, h5, h6⟩ := hi
    have ihl := route_at_removeT bits hb k pe l _ _ h5 c2
    have ihr := route_at_removeT bits hb k pe r _ _ h6 c2
    have tl := TInv_removeT bits pe l _ _ h5
    have tr := TInv_removeT bits pe r _ _ h6
    rw [removeT_node, finishT]
    have hkeep : ∀ po2 : Option Nat, (po2 = po ∧ po ≠ some pe ∨ po2 = none ∧ po = some pe) →
        route_at (pathT bits k (.node p c bs po2 (removeT pe l) (removeT pe r))) c2 =
        if route_at (pathT bits k (.node p c bs po l r)) c2 = some pe then none
        else route_at (pathT bits k (.node p c bs po l r)) c2 := by
      intro po2 hpo
      by_cases hm : c ≤ cbits bits bs k
      · by_cases hcb : c = bits
        · have e1 : ∀ (x : Option Nat) (a b : Tree),
              pathT bits k (.node p c bs x a b) = [(p, c, x)] := fun x a b => by
            simp only [pathT, if_pos hm, if_pos hcb]
          rw [e1, e1, route_at_cons, route_at_cons, route_at_nil]
          by_cases hc2 : c = c2
          · simp only [hc2, if_true]
            rcases hpo with ⟨rfl, hn⟩ | ⟨rfl, hs⟩
            · rw [if_neg hn]
            · rw [if_pos hs]
          · simp [hc2]
        · rw [pathT_node_pos bits k p c bs po2 _ _ hm hcb,
            pathT_node_pos bits k p c bs po l r hm hcb, route_at_cons, route_at_cons]
          by_cases hc2 : c = c2
          · simp only [hc2, if_true]
            rcases hpo with ⟨rfl, hn⟩ | ⟨rfl, hs⟩
            · rw [if_neg hn]
            · rw [if_pos hs]
          · simp only [hc2, if_false]
            rcases Bool.eq_false_or_eq_true (kbit bits k c) with hd | hd
            · simp only [hd, if_true]; exact ihr
            · simp only [hd, Bool.false_eq_true, if_false]; exact ihl
      · rw [pathT_node_nil bits k p c bs po2 _ _ hm, pathT_node_nil bits k p c bs po l r hm,
          route_at_nil]
        simp
    by_cases hpo : po = some pe
    · rw [if_pos hpo]
      by_cases hs : (removeT pe l).ptr = none ∨ (removeT pe r).ptr = none
      · rw [if_pos hs]
        subst hpo
        exact route_splice bits hb k p c bs pe l r _ _ h2 tl tr hs c2 ihl ihr
      · rw [if_neg hs]
        exact hkeep none (Or.inr ⟨rfl, hpo⟩)
    · rw [if_neg hpo]
      exact hkeep po (Or.inl ⟨rfl, hpo⟩)

end WG


namespace WG

theorem mem_owned_node (pe p c x : Nat) (bs : List u8) (po : Option Nat) (l r : Tree) :
    x ∈ (Tree.node p c bs po l r).owned pe ↔
      (x = p ∧ po = some pe) ∨ x ∈ l.owned pe ∨ x ∈ r.owned pe := by
  simp only [Tree.owned, List.mem_append]
  by_cases h : po = some pe
  · simp [h]
  · simp [h]

/-- A node is owned by one peer. -/
theorem owned_unique (a b x : Nat) : ∀ t : Tree, t.ptrs.Nodup → x ∈ t.owned a →
    x ∈ t.owned b → a = b
  | .nil, _, h, _ => by simp [Tree.owned] at h
  | .node p c bs po l r, hnd, ha, hb => by
    simp only [Tree.ptrs, List.nodup_cons, List.mem_append, not_or, List.nodup_append] at hnd
    obtain ⟨⟨hpl, hpr⟩, hl, hr, hdis⟩ := hnd
    rw [mem_owned_node] at ha hb
    have ol := fun q => owned_subset_ptrs q l x
    have or2 := fun q => owned_subset_ptrs q r x
    rcases ha with ⟨h1, h2⟩ | ha | ha <;> rcases hb with ⟨h3, h4⟩ | hb | hb
    · rw [h2] at h4; exact Option.some.inj h4
    · exact absurd (h1 ▸ ol b hb) hpl
    · exact absurd (h1 ▸ or2 b hb) hpr
    · exact absurd (h3 ▸ ol a ha) hpl
    · exact owned_unique a b x l hl ha hb
    · exact absurd (or2 b hb) (fun h => hdis (ol a ha) h)
    · exact absurd (h3 ▸ or2 a ha) hpr
    · exact absurd (or2 a ha) (fun h => hdis (ol b hb) h)
    · exact owned_unique a b x r hr ha hb

/-- Nodes owned by a peer after the removal of another peer. -/
theorem mem_owned_removeT (pr pe x : Nat) : ∀ t : Tree,
    x ∈ (removeT pr t).owned pe ↔ x ∈ t.owned pe ∧ pe ≠ pr
  | .nil => by simp [removeT, Tree.owned]
  | .node p c bs po l r => by
    have ihl := mem_owned_removeT pr pe x l
    have ihr := mem_owned_removeT pr pe x r
    rw [removeT_node, finishT, mem_owned_node]
    by_cases hpo : po = some pr
    · rw [if_pos hpo]
      have hhead : ¬ (x = p ∧ po = some pe ∧ pe ≠ pr) := by
        rintro ⟨_, h1, h2⟩
        rw [hpo] at h1
        exact h2 (Option.some.inj h1).symm
      by_cases hs : (removeT pr l).ptr = none ∨ (removeT pr r).ptr = none
      · rw [if_pos hs]
        by_cases hl : (removeT pr l).ptr = none
        · have hnil := ptr_eq_none _ hl
          rw [if_neg (by simpa using hl), ihr]
          rw [hnil] at ihl
          simp only [Tree.owned, List.not_mem_nil, false_iff] at ihl
          clear * - ihl hhead
          tauto
        · have hnil := ptr_eq_none _ (hs.resolve_left hl)
          rw [if_pos hl, ihl]
          rw [hnil] at ihr
          simp only [Tree.owned, List.not_mem_nil, false_iff] at ihr
          clear * - ihr hhead
          tauto
      · rw [if_neg hs, mem_owned_node, ihl, ihr]
        clear * - hhead
        simp only [reduceCtorEq, and_false, false_or]
        tauto
    · rw [if_neg hpo, mem_owned_node, ihl, ihr]
      have hhead : x = p ∧ po = some pe → pe ≠ pr := by
        rintro ⟨_, h1⟩ h2
        rw [h2] at h1
        exact hpo h1
      clear * - hhead
      tauto

end WG


namespace WG

/-! ## Fuel -/

/-- More fuel does not change the outcome of a search that has ended. -/
theorem node_placement_loop_mono (m : Mem) (key : List u8) (cidr bits : Nat) :
    ∀ (f : Nat) (node parent : Option Nat),
      node_placement_loop m key cidr bits f node parent ≠ .out_of_fuel →
      ∀ d, node_placement_loop m key cidr bits (f + d) node parent =
        node_placement_loop m key cidr bits f node parent := by
  intro f
  induction f with
  | zero =>
    intro node parent h d
    cases node with
    | none => cases d <;> rfl
    | some p => exact absurd rfl h
  | succ f ih =>
    intro node parent h d
    rw [show f + 1 + d = (f + d) + 1 by omega]
    cases node with
    | none => rfl
    | some p =>
      simp only [node_placement_loop] at h ⊢
      cases hp : m.heap p with
      | none => rfl
      | some n =>
        simp only [hp] at h ⊢
        split_ifs with h1 h2
        · rfl
        · rw [if_pos h1, if_neg h2] at h
          cases hn : CHOOSE_NODE n key with
          | ok next =>
            simp only [hn] at h ⊢
            exact ih next (some p) h d
          | bad_access => rfl
          | assert_failed => rfl
          | out_of_fuel => rfl
        · rfl

theorem add_mono (m : Mem) (trie : Option Nat) (bits : Nat) (key : List u8) (cidr : Nat)
    (peer : Option Nat) (a1 a2 : Bool) (f : Nat)
    (h : add m trie bits key cidr peer a1 a2 f ≠ .out_of_fuel) (d : Nat) :
    add m trie bits key cidr peer a1 a2 (f + d) = add m trie bits key cidr peer a1 a2 f := by
  cases peer with
  | none => rfl
  | some pr =>
    simp only [add] at h ⊢
    split_ifs with hc
    · rfl
    · rw [if_neg hc] at h
      simp only [node_placement] at h ⊢
      have hne : node_placement_loop m key cidr bits f trie none ≠ .out_of_fuel := by
        intro e; rw [e] at h; exact h rfl
      rw [node_placement_loop_mono m key cidr bits f _ _ hne d]

/-- A call of `add` that returns 0 has performed `addT`, whatever the fuel and the
allocator. -/
theorem add_done_of_ok (bits : Nat) (hb : bits = 32 ∨ bits = 128) (m : Mem) (key : List u8)
    (hk : bits / 8 ≤ key.length) (cidr : Nat) (peer : Option Nat)
    (t : Tree) (lo : Nat) (pre : Nat → Bool) (fuel : Nat) (a1 a2 : Bool)
    (hl : Laid bits m.heap t) (hi : TInv bits lo pre t) (hnd : t.ptrs.Nodup)
    (hlt : ∀ q, q ∈ t.ptrs → q < m.brk) (m2 : Mem) (trie2 : Option Nat)
    (h : add m t.ptr bits key cidr peer a1 a2 fuel = .ok (0, m2, trie2)) :
    ∃ pr, peer = some pr ∧ cidr ≤ bits ∧ AddDone bits m key cidr pr t m2 trie2 := by
  cases peer with
  | none => simp [add, EINVAL] at h
  | some pr =>
    have hc : cidr ≤ bits := by
      by_contra hc
      simp [add, show cidr > bits by omega, EINVAL] at h
    refine ⟨pr, rfl, hc, ?_⟩
    have hne : t.ptr ≠ none := by
      intro e
      rw [e, add_null_root m bits key cidr hc pr a1 a2 fuel] at h
      cases a1 <;> simp [ENOMEM] at h
    obtain ⟨e, m3, trie3, he, hres, _⟩ := add_total bits hb m key hk cidr hc pr t lo pre
      (fuel + t.height) a1 a2 hl hi hnd hlt (by omega) hne
    rw [add_mono m t.ptr bits key cidr (some pr) a1 a2 fuel (by rw [h]; simp), h] at he
    simp only [Outcome.ok.injEq, Prod.mk.injEq] at he
    obtain ⟨rfl, rfl, rfl⟩ := he
    rcases hres with ⟨_, hd⟩ | ⟨he2, _⟩
    · exact hd
    · simp [ENOMEM] at he2

end WG


namespace WG

/-! ## Nodes reachable in the heap and nodes of the tree -/

theorem laid_children (bits : Nat) (h : Nat → Option whitelist_node) :
    ∀ (t : Tree), Laid bits h t → ∀ x, x ∈ t.ptrs →
      ∃ n, h x = some n ∧ (∀ q, n.bit0 = some q → q ∈ t.ptrs) ∧
        (∀ q, n.bit1 = some q → q ∈ t.ptrs)
  | .nil, _, x, hx => by simp [Tree.ptrs] at hx
  | .node p c bs pe l r, hl, x, hx => by
    obtain ⟨h1, h3, h4⟩ := hl
    simp only [Tree.ptrs, List.mem_cons, List.mem_append] at hx
    rcases hx with rfl | hx | hx
    · refine ⟨_, h1, fun q hq => ?_, fun q hq => ?_⟩
      · simp only [mk_node_bit0] at hq
        simp [Tree.ptrs, ptr_mem_ptrs l q hq]
      · simp only [mk_node_bit1] at hq
        simp [Tree.ptrs, ptr_mem_ptrs r q hq]
    · obtain ⟨n, e, a, b⟩ := laid_children bits h l h3 x hx
      exact ⟨n, e, fun q hq => by simp [Tree.ptrs, a q hq], fun q hq => by
        simp [Tree.ptrs, b q hq]⟩
    · obtain ⟨n, e, a, b⟩ := laid_children bits h r h4 x hx
      exact ⟨n, e, fun q hq => by simp [Tree.ptrs, a q hq], fun q hq => by
        simp [Tree.ptrs, b q hq]⟩

/-- Every node reachable from the root pointer is a node of the tree. -/
theorem reach_ptrs (bits : Nat) (h : Nat → Option whitelist_node) (t : Tree)
    (hl : Laid bits h t) (x : Nat) (hr : Reach h t.ptr x) : x ∈ t.ptrs := by
  generalize hroot : t.ptr = root at hr
  induction hr with
  | root p => exact ptr_mem_ptrs t p hroot
  | left r p q n _ hp hq ih =>
    obtain ⟨n2, e, a, _⟩ := laid_children bits h t hl p (ih hroot)
    rw [hp] at e
    cases e
    exact a q hq
  | right r p q n _ hp hq ih =>
    obtain ⟨n2, e, _, b⟩ := laid_children bits h t hl p (ih hroot)
    rw [hp] at e
    cases e
    exact b q hq

theorem reach_lift (h : Nat → Option whitelist_node) (r : Option Nat) (q x : Nat)
    (hx : Reach h (some q) x) (hq : Reach h r q) : Reach h r x := by
  generalize hroot : some q = root at hx
  induction hx with
  | root p => cases hroot; exact hq
  | left r2 p2 q2 n _ hp hq2 ih => exact Reach.left r p2 q2 n (ih hroot) hp hq2
  | right r2 p2 q2 n _ hp hq2 ih => exact Reach.right r p2 q2 n (ih hroot) hp hq2

/-- Every node of the tree is reachable from the root pointer. -/
theorem ptrs_reach (bits : Nat) (h : Nat → Option whitelist_node) :
    ∀ (t : Tree), Laid bits h t → ∀ x, x ∈ t.ptrs → Reach h t.ptr x
  | .nil, _, x, hx => by simp [Tree.ptrs] at hx
  | .node p c bs pe l r, hl, x, hx => by
    obtain ⟨h1, h3, h4⟩ := hl
    simp only [Tree.ptrs, List.mem_cons, List.mem_append] at hx
    rcases hx with rfl | hx | hx
    · exact Reach.root _
    · have ih := ptrs_reach bits h l h3 x hx
      cases hlp : l.ptr with
      | none => rw [ptr_eq_none l hlp] at hx; simp [Tree.ptrs] at hx
      | some q =>
        rw [hlp] at ih
        exact reach_lift h _ q x ih (Reach.left _ p q _ (Reach.root p) h1 (by simpa using hlp))
    · have ih := ptrs_reach bits h r h4 x hx
      cases hrp : r.ptr with
      | none => rw [ptr_eq_none r hrp] at hx; simp [Tree.ptrs] at hx
      | some q =>
        rw [hrp] at ih
        exact reach_lift h _ q x ih (Reach.right _ p q _ (Reach.root p) h1 (by simpa using hrp))

/-- A node of the tree is owned by the peer that its record names. -/
theorem mem_owned_iff (bits : Nat) (h : Nat → Option whitelist_node) (pe x : Nat) :
    ∀ (t : Tree), Laid bits h t →
      (x ∈ t.owned pe ↔ x ∈ t.ptrs ∧ ∃ n, h x = some n ∧ n.peer = some pe)
  | .nil, _ => by simp [Tree.ptrs, Tree.owned]
  | .node p c bs po l r, hl => by
    obtain ⟨h1, h3, h4⟩ := hl
    have ihl := mem_owned_iff bits h pe x l h3
    have ihr := mem_owned_iff bits h pe x r h4
    simp only [Tree.owned, Tree.ptrs, List.mem_append, List.mem_cons]
    rw [ihl, ihr]
    constructor
    · rintro (hx | hx | hx)
      · by_cases hpo : po = some pe
        · rw [if_pos hpo] at hx
          simp only [List.mem_singleton] at hx
          subst hx
          exact ⟨Or.inl rfl, _, h1, hpo⟩
        · rw [if_neg hpo] at hx; simp at hx
      · exact ⟨Or.inr (Or.inl hx.1), hx.2⟩
      · exact ⟨Or.inr (Or.inr hx.1), hx.2⟩
    · rintro ⟨hx | hx | hx, n, hn, hp⟩
      · subst hx
        rw [h1] at hn
        cases hn
        simp only [mk_node_peer] at hp
        left
        rw [if_pos hp]; simp
      · exact Or.inr (Or.inl ⟨hx, n, hn, hp⟩)
      · exact Or.inr (Or.inr ⟨hx, n, hn, hp⟩)

/-- In a full tree every node has two children or a peer. -/
theorem full_node (bits : Nat) (h : Nat → Option whitelist_node) :
    ∀ (t : Tree), Laid bits h t → Full t → ∀ x n, x ∈ t.ptrs → h x = some n →
      (n.bit0 ≠ none ∧ n.bit1 ≠ none) ∨ n.peer ≠ none
  | .nil, _, _, x, n, hx, _ => by simp [Tree.ptrs] at hx
  | .node p c bs po l r, hl, hf, x, n, hx, hn => by
    obtain ⟨h1, h3, h4⟩ := hl
    obtain ⟨f1, f2, f3⟩ := hf
    simp only [Tree.ptrs, List.mem_cons, List.mem_append] at hx
    rcases hx with rfl | hx | hx
    · rw [h1] at hn
      cases hn
      simpa using f1
    · exact full_node bits h l h3 f2 x n hx hn
    · exact full_node bits h r h4 f3 x n hx hn

/-- A laid-out tree all of whose nodes have two children or a peer is full. -/
theorem full_of_nodes (bits : Nat) (h : Nat → Option whitelist_node) :
    ∀ (t : Tree), Laid bits h t →
      (∀ x n, x ∈ t.ptrs → h x = some n → (n.bit0 ≠ none ∧ n.bit1 ≠ none) ∨ n.peer ≠ none) →
      Full t
  | .nil, _, _ => trivial
  | .node p c bs po l r, hl, hall => by
    obtain ⟨h1, h3, h4⟩ := hl
    refine ⟨?_, full_of_nodes bits h l h3 (fun x n hx hn => hall x n (by simp [Tree.ptrs, hx]) hn),
      full_of_nodes bits h r h4 (fun x n hx hn => hall x n (by simp [Tree.ptrs, hx]) hn)⟩
    simpa using hall p _ (by simp [Tree.ptrs]) h1

/-- In an ordered tree the prefix length of a child is greater than that of its parent. -/
theorem child_cidr (bits : Nat) (h : Nat → Option whitelist_node) :
    ∀ (t : Tree) (lo : Nat) (pre : Nat → Bool), Laid bits h t → TInv bits lo pre t →
      ∀ x n q nq, x ∈ t.ptrs → h x = some n → (n.bit0 = some q ∨ n.bit1 = some q) →
        h q = some nq → n.cidr < nq.cidr
  | .nil, _, _, _, _, x, n, _, _, hx, _, _, _ => by simp [Tree.ptrs] at hx
  | .node p c bs po l r, lo, pre, hl, hi, x, n, q, nq, hx, hn, hq, hnq => by
    obtain ⟨h1, h3, h4⟩ := hl
    obtain ⟨_, _, _, _, i5, i6⟩ := hi
    simp only [Tree.ptrs, List.mem_cons, List.mem_append] at hx
    rcases hx with rfl | hx | hx
    · rw [h1] at hn
      cases hn
      simp only [mk_node_bit0, mk_node_bit1, mk_node_cidr] at hq ⊢
      rcases hq with hq | hq
      · cases l with
        | nil => cases hq
        | node p2 c2 bs2 po2 l2 r2 =>
          simp only [ptr_node, Option.some.injEq] at hq
          subst hq
          rw [h3.1] at hnq
          cases hnq
          have := i5.1
          simp only [mk_node_cidr]; omega
      · cases r with
        | nil => cases hq
        | node p2 c2 bs2 po2 l2 r2 =>
          simp only [ptr_node, Option.some.injEq] at hq
          subst hq
          rw [h4.1] at hnq
          cases hnq
          have := i6.1
          simp only [mk_node_cidr]; omega
    · exact child_cidr bits h l _ _ h3 i5 x n q nq hx hn hq hnq
    · exact child_cidr bits h r _ _ h4 i6 x n q nq hx hn hq hnq

end WG


namespace WG

/-! ## One call on one of the two tries -/

theorem PairInv.swap {bits ubits : Nat} {m : Mem} {t u : Tree}
    (h : PairInv bits ubits m t u) : PairInv ubits bits m u t := by
  obtain ⟨h1, h2, h3, h4, h5, h6, h7⟩ := h
  refine ⟨h2, h1, h4, h3, List.nodup_append_comm.1 h5, ?_, ?_⟩
  · intro x hx
    exact h6 x (by simp only [List.mem_append] at hx ⊢; exact hx.symm)
  · intro pe
    refine ⟨(h7 pe).1, fun x => ?_⟩
    rw [(h7 pe).2 x]
    exact or_comm

theorem mem_lists_after_add (m : Mem) (P pr pe x : Nat)
    (hlt : ∀ y, y ∈ m.lists pe → y < m.brk) (hP : P ≤ m.brk) :
    (x ∈ (if P = m.brk then list_add_tail m m.brk pr else list_move_tail m P pr).lists pe ↔
      (x = P ∧ pe = pr) ∨ (x ∈ m.lists pe ∧ x ≠ P)) := by
  by_cases hb : P = m.brk
  · rw [if_pos hb]
    subst hb
    simp only [list_add_tail]
    by_cases hpe : pe = pr
    · simp only [hpe, if_true, List.mem_append, List.mem_singleton, and_true]
      constructor
      · rintro (h | h)
        · exact Or.inr ⟨h, fun e => by have := hlt x (hpe ▸ h); omega⟩
        · exact Or.inl h
      · rintro (h | h)
        · exact Or.inr h
        · exact Or.inl h.1
    · simp only [hpe, if_false, and_false, false_or]
      constructor
      · intro h; exact ⟨h, fun e => by have := hlt x h; omega⟩
      · intro h; exact h.1
  · rw [if_neg hb]
    simp only [list_move_tail, list_add_tail, list_del]
    by_cases hpe : pe = pr
    · simp only [hpe, if_true, List.mem_append, List.mem_singleton, List.mem_filter,
        decide_eq_true_eq, and_true]
      constructor
      · rintro (h | h)
        · exact Or.inr h
        · exact Or.inl h
      · rintro (h | h)
        · exact Or.inr h
        · exact Or.inl h
    · simp only [hpe, if_false, List.mem_filter, decide_eq_true_eq, and_false, false_or]

theorem nodup_lists_after_add (m : Mem) (P pr pe : Nat) (hn : (m.lists pe).Nodup)
    (hlt : ∀ y, y ∈ m.lists pe → y < m.brk) :
    ((if P = m.brk then list_add_tail m m.brk pr else list_move_tail m P pr).lists pe).Nodup := by
  by_cases hb : P = m.brk
  · rw [if_pos hb]
    simp only [list_add_tail]
    by_cases hpe : pe = pr
    · simp only [hpe, if_true]
      refine List.nodup_append.2 ⟨hpe ▸ hn, by simp, ?_⟩
      intro a ha hb2
      simp only [List.mem_singleton] at hb2
      have := hlt a (hpe ▸ ha)
      omega
    · simp only [hpe, if_false]; exact hn
  · rw [if_neg hb]
    simp only [list_move_tail, list_add_tail, list_del]
    by_cases hpe : pe = pr
    · simp only [hpe, if_true]
      refine List.nodup_append.2 ⟨(hpe ▸ hn).filter _, by simp, ?_⟩
      intro a ha hb2
      simp only [List.mem_singleton] at hb2
      simp only [List.mem_filter, decide_eq_true_eq] at ha
      exact ha.2 hb2
    · simp only [hpe, if_false]; exact hn.filter _

/-- An insert that returns 0 performs `addT` on its trie and keeps the other trie. -/
theorem insert_step (bits ubits : Nat) (hb : bits = 32 ∨ bits = 128) (m : Mem) (t u : Tree)
    (key : List u8) (hk : bits / 8 ≤ key.length) (cidr : Nat) (peer : Option Nat)
    (a1 a2 : Bool) (fuel : Nat) (m2 : Mem) (root : Option Nat)
    (hinv : PairInv bits ubits m t u)
    (h : add m t.ptr bits key cidr peer a1 a2 fuel = .ok (0, m2, root)) :
    ∃ pr, peer = some pr ∧ cidr ≤ bits ∧ root = (addT bits key cidr pr m.brk t).ptr ∧
      PairInv bits ubits m2 (addT bits key cidr pr m.brk t) u ∧
      AddDone bits m key cidr pr t m2 root := by
  obtain ⟨h1, h2, h3, h4, h5, h6, h7⟩ := hinv
  have hnd := List.nodup_append.1 h5
  have htlt : ∀ q, q ∈ t.ptrs → q < m.brk := fun q hq => h6 q (by simp [hq])
  have hult : ∀ q, q ∈ u.ptrs → q < m.brk := fun q hq => h6 q (by simp [hq])
  obtain ⟨pr, hpr, hc, hdone⟩ := add_done_of_ok bits hb m key hk cidr peer t 0 _ fuel a1 a2
    h1 h3 hnd.1 htlt m2 root h
  have hd2 := hdone
  obtain ⟨d1, d2, d3, d4, d5, d6, d7⟩ := hdone
  have hmem := mem_ptrs_addT bits hb key hk cidr pr m.brk hc t
  have hpl := placedT_mem bits key cidr m.brk t
  have hPle : placedT bits key cidr m.brk t ≤ m.brk := by
    rcases hpl with h | h
    · exact Nat.le_of_lt (htlt _ h)
    · omega
  have hll : ∀ pe y, y ∈ m.lists pe → y < m.brk := by
    intro pe y hy
    rcases ((h7 pe).2 y).1 hy with h | h
    · exact htlt y (owned_subset_ptrs pe t y h)
    · exact hult y (owned_subset_ptrs pe u y h)
  refine ⟨pr, hpr, hc, d1, ⟨d2, ?_, TInv_addT bits hb key hk cidr pr m.brk hc t 0 _ h3
    (Nat.zero_le _) (fun i hi => absurd hi (Nat.not_lt_zero _)), h4, ?_, ?_, ?_⟩, hd2⟩
  · apply Laid_congr ubits m.heap m2.heap u _ h2
    intro q hq
    exact d3 q (hult q hq) (fun hq2 => hnd.2.2 hq2 hq)
  · refine List.nodup_append.2 ⟨nodup_addT bits hb key hk cidr pr m.brk hc t hnd.1 htlt,
      hnd.2.1, ?_⟩
    intro a ha hb2
    rcases hmem a ha with h | h | h
    · exact hnd.2.2 h hb2
    · have := hult a hb2; omega
    · have := hult a hb2; omega
  · intro x hx
    rcases List.mem_append.1 hx with hx | hx
    · exact d6 x hx
    · have := hult x hx; omega
  · intro pe
    rw [d7]
    refine ⟨nodup_lists_after_add m _ pr pe (h7 pe).1 (hll pe), fun x => ?_⟩
    rw [mem_lists_after_add m _ pr pe x (hll pe) hPle,
      mem_owned_addT bits hb key hk cidr pr m.brk hc pe x t hnd.1 htlt, (h7 pe).2 x]
    have hu : x ∈ u.owned pe → x ≠ placedT bits key cidr m.brk t := by
      intro hx e
      have hxu := owned_subset_ptrs pe u x hx
      rcases hpl with h | h
      · exact hnd.2.2 h (e ▸ hxu)
      · have := hult x hxu; omega
    clear * - hu
    tauto

theorem nodup_of_sub (l1 l2 u : List Nat) (h : (l1 ++ u).Nodup) (hn : l2.Nodup)
    (hs : ∀ x, x ∈ l2 → x ∈ l1) : (l2 ++ u).Nodup := by
  have h1 := List.nodup_append.1 h
  exact List.nodup_append.2 ⟨hn, h1.2.1, fun a ha hb => h1.2.2 (hs a ha) hb⟩

/-- A call of `walk_remove_by_peer` that returns performs `removeT` on its trie and keeps the
other trie. -/
theorem remove_step (bits ubits : Nat) (m : Mem) (t u : Tree) (pr : Nat)
    (fuel : Nat) (m2 : Mem) (root : Option Nat)
    (hinv : PairInv bits ubits m t u)
    (h : walk_remove_by_peer m t.ptr (some pr) fuel = .ok (m2, root)) :
    root = (removeT pr t).ptr ∧ PairInv bits ubits m2 (removeT pr t) u := by
  obtain ⟨h1, h2, h3, h4, h5, h6, h7⟩ := hinv
  have hnd := List.nodup_append.1 h5
  obtain ⟨r1, r2, r3, r4, r5⟩ := walk_remove_by_peer_ok bits pr m t h1 hnd.1 fuel m2 root h
  refine ⟨r1, r2, ?_, TInv_removeT bits pr t 0 _ h3, h4, ?_, ?_, ?_⟩
  · apply Laid_congr ubits m.heap m2.heap u _ h2
    intro q hq
    exact r3 q (fun hq2 => hnd.2.2 hq2 hq)
  · exact nodup_of_sub t.ptrs _ u.ptrs h5 (nodup_removeT pr t hnd.1) (ptrs_removeT pr t)
  · intro x hx
    rw [r4]
    rcases List.mem_append.1 hx with hx | hx
    · exact h6 x (by simp [ptrs_removeT pr t x hx])
    · exact h6 x (by simp [hx])
  · intro pe
    rw [r5]
    refine ⟨(h7 pe).1.filter _, fun x => ?_⟩
    simp only [List.mem_filter, decide_eq_true_eq]
    rw [(h7 pe).2 x, mem_owned_removeT]
    have a1 : x ∈ t.owned pe → x ∈ t.owned pr → pe = pr :=
      fun ha hb => owned_unique pe pr x t hnd.1 ha hb
    have a2 : x ∈ u.owned pe → x ∉ t.owned pr := fun ha hb =>
      hnd.2.2 (owned_subset_ptrs pr t x hb) (owned_subset_ptrs pe u x ha)
    have a3 : pe = pr → x ∈ t.owned pe → x ∈ t.owned pr := fun e hx => e ▸ hx
    clear * - a1 a2 a3
    tauto

end WG


namespace WG

/-! ## Calls on a table -/

/-- The comparison made by `common_bits` between an inserted key and a looked-up key is the
comparison of the leading bits of the two wire addresses. -/
theorem covers_iff (bits : Nat) (hb : bits = 32 ∨ bits = 128) (ip q : List u8)
    (hip : ip.length = bits / 8) (hq : q.length = bits / 8) (cidr : Nat) (hc : cidr ≤ bits) :
    cidr ≤ cbits bits (key_bits bits (native_endian (List.replicate (bits / 8) 0) ip bits))
        (native_endian (List.replicate 16 0) q bits) ↔ same_lead ip q cidr := by
  have hlen : (native_endian (List.replicate (bits / 8) 0) ip bits).length = bits / 8 := by
    rw [native_endian_length _ _ bits hb (by omega) (by simp)]; simp
  rw [cbits_ge_iff bits hb _ _ cidr hc]
  constructor
  · intro h i hi
    have := h i hi
    rw [kbit_key_bits bits hb _ (by omega), kbit_native_endian bits hb _ ip (by omega) i
      (by omega), kbit_native_endian bits hb _ q (by omega) i (by omega)] at this
    exact this
  · intro h i hi
    rw [kbit_key_bits bits hb _ (by omega), kbit_native_endian bits hb _ ip (by omega) i
      (by omega), kbit_native_endian bits hb _ q (by omega) i (by omega)]
    exact h i hi

theorem key_length (bits : Nat) (hb : bits = 32 ∨ bits = 128) (ip : List u8)
    (hip : ip.length = bits / 8) :
    bits / 8 ≤ (native_endian (List.replicate (bits / 8) 0) ip bits).length := by
  rw [native_endian_length _ _ bits hb (by omega) (by simp)]; simp

/-- An IPv4 insert that returns 0 on a well-formed table performs `addT` on the IPv4 trie
and leaves the IPv6 trie alone. -/
theorem table_insert_v4 (table table2 : whitelist) (m m2 : Mem)
    (t4 t6 : Tree) (ip : List u8) (cidr : Nat) (peer : Option Nat) (a1 a2 : Bool) (fuel : Nat)
    (hinv : TableInv table m t4 t6) (hip : ip.length = 4)
    (h : wg_whitelist_insert_v4 table m ip cidr peer a1 a2 fuel = .ok (0, table2, m2)) :
    ∃ pr, peer = some pr ∧ cidr ≤ 32 ∧
      TableInv table2 m2
        (addT 32 (native_endian (List.replicate 4 0) ip 32) cidr pr m.brk t4) t6 ∧
      AddDone 32 m (native_endian (List.replicate 4 0) ip 32) cidr pr t4 m2 table2.root4 ∧
      table2.root6 = table.root6 := by
  obtain ⟨h1, h2, h3⟩ := hinv
  simp only [wg_whitelist_insert_v4] at h
  cases hadd : add m table.root4 32 (native_endian (List.replicate 4 0) ip 32) cidr peer a1 a2
    fuel with
  | ok res =>
    obtain ⟨e, m3, root⟩ := res
    rw [hadd] at h
    simp only [Outcome.ok.injEq, Prod.mk.injEq] at h
    obtain ⟨rfl, rfl, rfl⟩ := h
    rw [← h1] at hadd
    obtain ⟨pr, hpr, hc, hroot, hpair, hdone⟩ := insert_step 32 128 (Or.inl rfl) m t4 t6 _
      (key_length 32 (Or.inl rfl) ip hip) cidr peer a1 a2 fuel m3 root h3 hadd
    exact ⟨pr, hpr, hc, ⟨hroot.symm, h2, hpair⟩, hdone, rfl⟩
  | bad_access => rw [hadd] at h; cases h
  | assert_failed => rw [hadd] at h; cases h
  | out_of_fuel => rw [hadd] at h; cases h

/-- An IPv6 insert that returns 0 on a well-formed table performs `addT` on the IPv6 trie
and leaves the IPv4 trie alone. -/
theorem table_insert_v6 (table table2 : whitelist) (m m2 : Mem)
    (t4 t6 : Tree) (ip : List u8) (cidr : Nat) (peer : Option Nat) (a1 a2 : Bool) (fuel : Nat)
    (hinv : TableInv table m t4 t6) (hip : ip.length = 16)
    (h : wg_whitelist_insert_v6 table m ip cidr peer a1 a2 fuel = .ok (0, table2, m2)) :
    ∃ pr, peer = some pr ∧ cidr ≤ 128 ∧
      TableInv table2 m2 t4
        (addT 128 (native_endian (List.replicate 16 0) ip 128) cidr pr m.brk t6) ∧
      AddDone 128 m (native_endian (List.replicate 16 0) ip 128) cidr pr t6 m2 table2.root6 ∧
      table2.root4 = table.root4 := by
  obtain ⟨h1, h2, h3⟩ := hinv
  simp only [wg_whitelist_insert_v6] at h
  cases hadd : add m table.root6 128 (native_endian (List.replicate 16 0) ip 128) cidr peer
    a1 a2 fuel with
  | ok res =>
    obtain ⟨e, m3, root⟩ := res
    rw [hadd] at h
    simp only [Outcome.ok.injEq, Prod.mk.injEq] at h
    obtain ⟨rfl, rfl, rfl⟩ := h
    rw [← h2] at hadd
    obtain ⟨pr, hpr, hc, hroot, hpair, hdone⟩ := insert_step 128 32 (Or.inr rfl) m t6 t4 _
      (key_length 128 (Or.inr rfl) ip hip) cidr peer a1 a2 fuel m3 root h3.swap hadd
    exact ⟨pr, hpr, hc, ⟨h1, hroot.symm, hpair.swap⟩, hdone, rfl⟩
  | bad_access => rw [hadd] at h; cases h
  | assert_failed => rw [hadd] at h; cases h
  | out_of_fuel => rw [hadd] at h; cases h

/-- A removal that returns on a well-formed table performs `removeT` on both tries. -/
theorem table_remove (table table2 : whitelist) (m m2 : Mem)
    (t4 t6 : Tree) (peer : Option Nat) (fuel : Nat)
    (hinv : TableInv table m t4 t6)
    (h : wg_whitelist_remove_by_peer table m peer fuel = .ok (table2, m2)) :
    TableInv table2 m2 (removeO peer t4) (removeO peer t6) := by
  obtain ⟨h1, h2, h3⟩ := hinv
  cases peer with
  | none =>
    simp only [wg_whitelist_remove_by_peer, walk_remove_by_peer, Outcome.ok.injEq,
      Prod.mk.injEq] at h
    obtain ⟨rfl, rfl⟩ := h
    exact ⟨h1, h2, h3⟩
  | some pr =>
    simp only [wg_whitelist_remove_by_peer] at h
    rw [← h1, ← h2] at h
    cases hw1 : walk_remove_by_peer m t4.ptr (some pr) fuel with
    | ok res1 =>
      obtain ⟨m3, r4⟩ := res1
      rw [hw1] at h
      simp only at h
      cases hw2 : walk_remove_by_peer m3 t6.ptr (some pr) fuel with
      | ok res2 =>
        obtain ⟨m4, r6⟩ := res2
        rw [hw2] at h
        simp only [Outcome.ok.injEq, Prod.mk.injEq] at h
        obtain ⟨rfl, rfl⟩ := h
        obtain ⟨e4, p4⟩ := remove_step 32 128 m t4 t6 pr fuel m3 r4 h3 hw1
        obtain ⟨e6, p6⟩ := remove_step 128 32 m3 t6 (removeT pr t4) pr fuel m4 r6 p4.swap hw2
        exact ⟨e4.symm, e6.symm, p6.swap⟩
      | bad_access => rw [hw2] at h; cases h
      | assert_failed => rw [hw2] at h; cases h
      | out_of_fuel => rw [hw2] at h; cases h
    | bad_access => rw [hw1] at h; cases h
    | assert_failed => rw [hw1] at h; cases h
    | out_of_fuel => rw [hw1] at h; cases h

/-- The empty table of `wg_whitelist_init` is well formed. -/
theorem init_well_formed (table : whitelist) :
    WellFormed (wg_whitelist_init table) Mem.empty :=
  ⟨.nil, .nil, rfl, rfl, trivial, trivial, trivial, trivial, by simp [Tree.ptrs],
    by simp [Tree.ptrs], fun pe => ⟨by simp [Mem.empty], by simp [Mem.empty, Tree.owned]⟩⟩

/-- A call that returns, an insert with result 0, leads from a well-formed table to a
well-formed table. -/
theorem call_well_formed (c : Call) (table table2 : whitelist) (m m2 : Mem) (fuel : Nat)
    (h : WellFormed table m) (htyped : c.typed)
    (hrun : c.run table m fuel = .ok (0, table2, m2)) : WellFormed table2 m2 := by
  obtain ⟨t4, t6, hinv⟩ := h
  cases c with
  | insert_v4 ip cidr peer a1 a2 =>
    obtain ⟨pr, _, _, h, _⟩ := table_insert_v4 table table2 m m2 t4 t6 ip cidr peer a1 a2
      fuel hinv htyped hrun
    exact ⟨_, _, h⟩
  | insert_v6 ip cidr peer a1 a2 =>
    obtain ⟨pr, _, _, h, _⟩ := table_insert_v6 table table2 m m2 t4 t6 ip cidr peer a1 a2
      fuel hinv htyped hrun
    exact ⟨_, _, h⟩
  | remove_by_peer peer =>
    simp only [Call.run] at hrun
    cases hw : wg_whitelist_remove_by_peer table m peer fuel with
    | ok res =>
      obtain ⟨tb, m3⟩ := res
      rw [hw] at hrun
      simp only [Outcome.ok.injEq, Prod.mk.injEq, true_and] at hrun
      obtain ⟨rfl, rfl⟩ := hrun
      exact ⟨_, _, table_remove table tb m m3 t4 t6 peer fuel hinv hw⟩
    | bad_access => rw [hw] at hrun; cases hrun
    | assert_failed => rw [hw] at hrun; cases hrun
    | out_of_fuel => rw [hw] at hrun; cases hrun

/-- Every table reached from a well-formed table is well formed. -/
theorem reached_well_formed (s : whitelist × Mem) (cs : List Call) (table : whitelist)
    (m : Mem) (hs : WellFormed s.1 s.2) (h : Reached s cs table m) : WellFormed table m := by
  induction h with
  | first => exact hs
  | step cs c table table2 m m2 fuel _ htyped hrun ih =>
    exact call_well_formed c table table2 m m2 fuel ih htyped hrun

/-- An insert that returns 0 keeps the nodes full. -/
theorem call_nodes_full (c : Call) (table table2 : whitelist) (m m2 : Mem) (fuel : Nat)
    (h : WellFormed table m) (hfull : NodesFull table m) (htyped : c.typed)
    (hins : c.inserts = true)
    (hrun : c.run table m fuel = .ok (0, table2, m2)) : NodesFull table2 m2 := by
  obtain ⟨t4, t6, hinv⟩ := h
  have h3 := hinv.2.2
  have f4 : Full t4 := full_of_nodes 32 m.heap t4 h3.1 (fun x n hx hn =>
    hfull x n (Or.inl (hinv.1 ▸ ptrs_reach 32 m.heap t4 h3.1 x hx)) hn)
  have f6 : Full t6 := full_of_nodes 128 m.heap t6 h3.2.1 (fun x n hx hn =>
    hfull x n (Or.inr (hinv.2.1 ▸ ptrs_reach 128 m.heap t6 h3.2.1 x hx)) hn)
  cases c with
  | insert_v4 ip cidr peer a1 a2 =>
    obtain ⟨pr, _, hc, ⟨g1, g2, g3⟩, _⟩ := table_insert_v4 table table2 m m2 t4 t6 ip cidr
      peer a1 a2 fuel hinv htyped hrun
    have f4b := Full_addT 32 (Or.inl rfl) _ (key_length 32 (Or.inl rfl) ip htyped) cidr pr
      m.brk hc t4 f4
    intro x n hx hn
    rcases hx with hx | hx
    · rw [← g1] at hx
      exact full_node 32 m2.heap _ g3.1 f4b x n (reach_ptrs 32 m2.heap _ g3.1 x hx) hn
    · rw [← g2] at hx
      exact full_node 128 m2.heap _ g3.2.1 f6 x n (reach_ptrs 128 m2.heap _ g3.2.1 x hx) hn
  | insert_v6 ip cidr peer a1 a2 =>
    obtain ⟨pr, _, hc, ⟨g1, g2, g3⟩, _⟩ := table_insert_v6 table table2 m m2 t4 t6 ip cidr
      peer a1 a2 fuel hinv htyped hrun
    have f6b := Full_addT 128 (Or.inr rfl) _ (key_length 128 (Or.inr rfl) ip htyped) cidr pr
      m.brk hc t6 f6
    intro x n hx hn
    rcases hx with hx | hx
    · rw [← g1] at hx
      exact full_node 32 m2.heap _ g3.1 f4 x n (reach_ptrs 32 m2.heap _ g3.1 x hx) hn
    · rw [← g2] at hx
      exact full_node 128 m2.heap _ g3.2.1 f6b x n (reach_ptrs 128 m2.heap _ g3.2.1 x hx) hn
  | remove_by_peer peer => cases hins

/-- Inserts that return 0 keep the nodes full. -/
theorem reached_full (s : whitelist × Mem) (cs : List Call) (table : whitelist) (m : Mem)
    (hs : WellFormed s.1 s.2) (hfull : NodesFull s.1 s.2) (h : Reached s cs table m)
    (hins : ∀ c, c ∈ cs → c.inserts = true) : NodesFull table m := by
  induction h with
  | first => exact hfull
  | step cs c table table2 m m2 fuel hr htyped hrun ih =>
    exact call_nodes_full c table table2 m m2 fuel (reached_well_formed s cs table m hs hr)
      (ih (fun x hx => hins x (by simp [hx]))) htyped (hins c (by simp)) hrun

/-- A table with a single node is well formed. -/
theorem leaf_well_formed (bits ubits : Nat) (hb : bits = 32 ∨ bits = 128) (key : List u8)
    (hk : bits / 8 ≤ key.length) (cidr pr : Nat) (hc : cidr ≤ bits) :
    PairInv bits ubits (leaf_mem Mem.empty bits key cidr pr)
      (.node 0 cidr (key_bits bits key) (some pr) .nil .nil) .nil := by
  refine ⟨⟨by simp [leaf_mem, Mem.empty], trivial, trivial⟩, trivial,
    ⟨Nat.zero_le _, hc, key_bits_length bits hb key hk, fun i hi => absurd hi (Nat.not_lt_zero _),
      trivial, trivial⟩, trivial, by simp [Tree.ptrs], ?_, ?_⟩
  · intro x hx
    simp [Tree.ptrs] at hx
    simp [leaf_mem, Mem.empty, hx]
  · intro pe
    simp only [leaf_mem, list_add_tail, Mem.empty, Tree.owned, List.nil_append,
      List.append_nil, List.not_mem_nil, or_false]
    by_cases hpe : pe = pr
    · subst hpe; simp
    · have : ¬ (pr = pe) := fun e => hpe e.symm
      simp [hpe, this]

theorem seed_v4_well_formed (ip : List u8) (hip : ip.length = 4) (cidr pr : Nat)
    (hc : cidr ≤ 32) : WellFormed (seed_v4 ip cidr pr).1 (seed_v4 ip cidr pr).2 :=
  ⟨.node 0 cidr (key_bits 32 (native_endian (List.replicate 4 0) ip 32)) (some pr) .nil .nil,
    .nil, rfl, rfl, leaf_well_formed 32 128 (Or.inl rfl) _
    (key_length 32 (Or.inl rfl) ip hip) cidr pr hc⟩

theorem seed_v6_well_formed (ip : List u8) (hip : ip.length = 16) (cidr pr : Nat)
    (hc : cidr ≤ 128) : WellFormed (seed_v6 ip cidr pr).1 (seed_v6 ip cidr pr).2 :=
  ⟨.nil,
    .node 0 cidr (key_bits 128 (native_endian (List.replicate 16 0) ip 128)) (some pr) .nil .nil,
    rfl, rfl, (leaf_well_formed 128 32 (Or.inr rfl) _
    (key_length 128 (Or.inr rfl) ip hip) cidr pr hc).swap⟩

theorem reach_null (h : Nat → Option whitelist_node) (x : Nat) : ¬ Reach h none x := by
  intro hx
  have := reach_ptrs 32 h .nil trivial x hx
  simp [Tree.ptrs] at this

theorem seed_v4_full (ip : List u8) (cidr pr : Nat) :
    NodesFull (seed_v4 ip cidr pr).1 (seed_v4 ip cidr pr).2 := by
  have hl : Laid 32 (seed_v4 ip cidr pr).2.heap
      (.node 0 cidr (key_bits 32 (native_endian (List.replicate 4 0) ip 32)) (some pr)
        .nil .nil) := ⟨by simp [seed_v4, leaf_mem, Mem.empty], trivial, trivial⟩
  intro x n hx hn
  rcases hx with hx | hx
  · have hx2 := reach_ptrs 32 _ _ hl x hx
    simp only [Tree.ptrs, List.append_nil, List.mem_singleton] at hx2
    subst hx2
    rw [hl.1] at hn
    cases hn
    right; simp
  · exact absurd hx (reach_null _ x)

end WG


namespace WG

/-! ## Lookup is longest-prefix match -/

theorem lpm_from_none (f : Nat → Option Nat) : ∀ n, lpm_from f n = none ↔ ∀ c, c ≤ n → f c = none
  | 0 => by
    simp only [lpm_from]
    constructor
    · intro h c hc
      rw [Nat.le_zero.1 hc]; exact h
    · intro h; exact h 0 (Nat.le_refl _)
  | n + 1 => by
    have ih := lpm_from_none f n
    simp only [lpm_from]
    cases hf : f (n + 1) with
    | none =>
      simp only
      rw [ih]
      constructor
      · intro h c hc
        by_cases hcn : c = n + 1
        · rw [hcn]; exact hf
        · exact h c (by omega)
      · intro h c hc
        exact h c (by omega)
    | some p =>
      simp only [reduceCtorEq, false_iff]
      intro h
      rw [h (n + 1) (Nat.le_refl _)] at hf
      cases hf

theorem lpm_from_some (f : Nat → Option Nat) (p : Nat) : ∀ n, lpm_from f n = some p ↔
    ∃ c, c ≤ n ∧ f c = some p ∧ ∀ c2, c < c2 → c2 ≤ n → f c2 = none
  | 0 => by
    simp only [lpm_from]
    constructor
    · intro h; exact ⟨0, Nat.le_refl _, h, fun c2 h1 h2 => by omega⟩
    · rintro ⟨c, hc, h, _⟩
      rw [Nat.le_zero.1 hc] at h; exact h
  | n + 1 => by
    have ih := lpm_from_some f p n
    simp only [lpm_from]
    cases hf : f (n + 1) with
    | none =>
      simp only
      rw [ih]
      constructor
      · rintro ⟨c, hc, h, hmax⟩
        refine ⟨c, by omega, h, fun c2 h1 h2 => ?_⟩
        by_cases hcn : c2 = n + 1
        · rw [hcn]; exact hf
        · exact hmax c2 h1 (by omega)
      · rintro ⟨c, hc, h, hmax⟩
        have hcn : c ≠ n + 1 := by
          intro e; rw [e, hf] at h; cases h
        exact ⟨c, by omega, h, fun c2 h1 h2 => hmax c2 h1 (by omega)⟩
    | some p2 =>
      simp only [Option.some.injEq]
      constructor
      · intro h
        exact ⟨n + 1, Nat.le_refl _, by rw [hf, h], fun c2 h1 h2 => by omega⟩
      · rintro ⟨c, hc, h, hmax⟩
        by_cases hcn : c = n + 1
        · rw [hcn, hf] at h; exact Option.some.inj h
        · have := hmax (n + 1) (by omega) (Nat.le_refl _)
          rw [hf] at this; cases this

theorem route_at_some_mem (path : List (Nat × Nat × Option Nat)) (c p : Nat)
    (h : route_at path c = some p) : ∃ e, e ∈ path ∧ e.2.1 = c := by
  induction path with
  | nil => cases h
  | cons e rest ih =>
    simp only [route_at] at h
    by_cases hc : e.2.1 = c
    · exact ⟨e, by simp, hc⟩
    · rw [if_neg hc] at h
      obtain ⟨e2, h1, h2⟩ := ih h
      exact ⟨e2, by simp [h1], h2⟩

/-- On a path of increasing prefix lengths the last peer met is the longest-prefix match. -/
theorem path_best_lpm (n : Nat) : ∀ (path : List (Nat × Nat × Option Nat)) (best : Option Nat),
    path.Pairwise (fun a b => a.2.1 < b.2.1) → (∀ e, e ∈ path → e.2.1 ≤ n) →
    path_best best path =
      match lpm_from (route_at path) n with
      | some p => some p
      | none => best
  | [], best, _, _ => by
    have : lpm_from (route_at []) n = none := (lpm_from_none _ n).2 (fun c _ => rfl)
    rw [this]; rfl
  | e :: rest, best, hs, hle => by
    have hs2 := List.pairwise_cons.1 hs
    have ih := path_best_lpm n rest (if e.2.2.isSome then e.2.2 else best) hs2.2
      (fun x hx => hle x (by simp [hx]))
    have hen : e.2.1 ≤ n := hle e (by simp)
    rw [show path_best best (e :: rest) =
      path_best (if e.2.2.isSome then e.2.2 else best) rest from rfl, ih]
    have hcons : ∀ c, route_at (e :: rest) c = if e.2.1 = c then e.2.2 else route_at rest c :=
      fun c => rfl
    cases hr : lpm_from (route_at rest) n with
    | some p =>
      obtain ⟨c, hc, hp, hmax⟩ := (lpm_from_some _ p n).1 hr
      obtain ⟨e2, he2, hce⟩ := route_at_some_mem rest c p hp
      have hlt : e.2.1 < c := hce ▸ hs2.1 e2 he2
      have : lpm_from (route_at (e :: rest)) n = some p := by
        refine (lpm_from_some _ p n).2 ⟨c, hc, ?_, fun c2 h1 h2 => ?_⟩
        · rw [hcons, if_neg (by omega)]; exact hp
        · rw [hcons, if_neg (by omega)]; exact hmax c2 h1 h2
      rw [this]
    | none =>
      have hnone := (lpm_from_none _ n).1 hr
      cases hpe : e.2.2 with
      | none =>
        have : lpm_from (route_at (e :: rest)) n = none := by
          refine (lpm_from_none _ n).2 (fun c hc => ?_)
          rw [hcons]
          split_ifs
          · exact hpe
          · exact hnone c hc
        rw [this]
        simp
      | some p =>
        have : lpm_from (route_at (e :: rest)) n = some p := by
          refine (lpm_from_some _ p n).2 ⟨e.2.1, hen, ?_, fun c2 h1 h2 => ?_⟩
          · rw [hcons, if_pos rfl]; exact hpe
          · rw [hcons, if_neg (by omega)]; exact hnone c2 h2
        rw [this]
        simp

theorem pathT_sorted (bits : Nat) (key : List u8) :
    ∀ (t : Tree) (lo : Nat) (pre : Nat → Bool), TInv bits lo pre t →
      (pathT bits key t).Pairwise (fun a b => a.2.1 < b.2.1)
  | .nil, _, _, _ => by simp [pathT]
  | .node p c bs pe l r, lo, pre, hi => by
    obtain ⟨h1, hc, _, _, h5, h6⟩ := hi
    simp only [pathT]
    split_ifs
    · simp
    · refine List.pairwise_cons.2 ⟨fun e he => ?_, pathT_sorted bits key r _ _ h6⟩
      have := (mem_pathT_ge bits key r _ _ h6 e he).1
      simp only; omega
    · refine List.pairwise_cons.2 ⟨fun e he => ?_, pathT_sorted bits key l _ _ h5⟩
      have := (mem_pathT_ge bits key l _ _ h5 e he).1
      simp only; omega
    · simp

theorem pathT_laid (bits : Nat) (key : List u8) (h : Nat → Option whitelist_node) :
    ∀ (t : Tree), Laid bits h t → ∀ e, e ∈ pathT bits key t →
      ∃ n, h e.1 = some n ∧ n.peer = e.2.2
  | .nil, _, e, he => by simp [pathT] at he
  | .node p c bs pe l r, hl, e, he => by
    obtain ⟨h1, h3, h4⟩ := hl
    have ihl := pathT_laid bits key h l h3 e
    have ihr := pathT_laid bits key h r h4 e
    simp only [pathT] at he
    split_ifs at he
    · simp only [List.mem_singleton] at he
      subst he
      exact ⟨_, h1, rfl⟩
    · rcases List.mem_cons.1 he with rfl | he
      · exact ⟨_, h1, rfl⟩
      · exact ihr he
    · rcases List.mem_cons.1 he with rfl | he
      · exact ⟨_, h1, rfl⟩
      · exact ihl he
    · simp at he

theorem path_found_best (h : Nat → Option whitelist_node) :
    ∀ (path : List (Nat × Nat × Option Nat)) (found best : Option Nat),
      (∀ e, e ∈ path → ∃ n, h e.1 = some n ∧ n.peer = e.2.2) →
      ((found = none ∧ best = none) ∨ ∃ x n, found = some x ∧ h x = some n ∧ n.peer = best) →
      ((path_found found path = none ∧ path_best best path = none) ∨
        ∃ x n, path_found found path = some x ∧ h x = some n ∧ n.peer = path_best best path)
  | [], found, best, _, hf => hf
  | e :: rest, found, best, hl, hf => by
    rw [show path_found found (e :: rest) =
      path_found (if e.2.2.isSome then some e.1 else found) rest from rfl,
      show path_best best (e :: rest) =
      path_best (if e.2.2.isSome then e.2.2 else best) rest from rfl]
    apply path_found_best h rest _ _ (fun x hx => hl x (by simp [hx]))
    obtain ⟨n, hn, hpe⟩ := hl e (by simp)
    cases hs : e.2.2.isSome
    · simpa using hf
    · simp only [if_true]
      exact Or.inr ⟨e.1, n, rfl, hn, hpe⟩

/-- On a laid-out ordered trie `lookup` returns the last peer of the search path. -/
theorem lookup_path_best (bits : Nat) (hb : bits = 32 ∨ bits = 128) (m : Mem) (q : List u8)
    (hq : q.length = bits / 8) (t : Tree) (lo : Nat) (pre : Nat → Bool)
    (hl : Laid bits m.heap t) (hi : TInv bits lo pre t) (fuel : Nat) (hf : t.height ≤ fuel) :
    lookup m t.ptr bits q fuel =
      .ok (path_best none (pathT bits (native_endian (List.replicate 16 0) q bits) t)) := by
  have hk : bits / 8 ≤ (native_endian (List.replicate 16 0) q bits).length := by
    rw [native_endian_length _ _ bits hb (by omega) (by rcases hb with rfl | rfl <;> simp)]
    rcases hb with rfl | rfl <;> simp
  simp only [lookup, find_node]
  rw [find_node_loop_spec bits hb m _ hk t lo pre none fuel hl hi hf]
  rcases path_found_best m.heap _ none none (pathT_laid bits _ m.heap t hl)
    (Or.inl ⟨rfl, rfl⟩) with ⟨h1, h2⟩ | ⟨x, n, h1, h2, h3⟩
  · rw [h1, h2]
  · rw [h1]
    simp only [h2, h3]

theorem TInv_node_facts (bits : Nat) (h : Nat → Option whitelist_node) (x : Nat)
    (n : whitelist_node) (hn : h x = some n) :
    ∀ (t : Tree) (lo : Nat) (pre : Nat → Bool), Laid bits h t → TInv bits lo pre t →
      x ∈ t.ptrs → lo ≤ n.cidr ∧ n.cidr ≤ bits ∧ ∀ i, i < lo → kbit bits n.bits i = pre i
  | .nil, _, _, _, _, hx => by simp [Tree.ptrs] at hx
  | .node p c bs po l r, lo, pre, hl, hi, hx => by
    obtain ⟨h1, h3, h4⟩ := hl
    obtain ⟨i1, i2, _, i4, i5, i6⟩ := hi
    simp only [Tree.ptrs, List.mem_cons, List.mem_append] at hx
    rcases hx with rfl | hx | hx
    · rw [h1] at hn
      cases hn
      exact ⟨i1, i2, i4⟩
    · obtain ⟨a, b, c2⟩ := TInv_node_facts bits h x n hn l _ _ h3 i5 hx
      refine ⟨by omega, b, fun i hi => ?_⟩
      have := c2 i (by omega)
      rw [this, if_neg (by omega), i4 i hi]
    · obtain ⟨a, b, c2⟩ := TInv_node_facts bits h x n hn r _ _ h4 i6 hx
      refine ⟨by omega, b, fun i hi => ?_⟩
      have := c2 i (by omega)
      rw [this, if_neg (by omega), i4 i hi]

/-- Every node met by the search is a node of the tree whose prefix matches the key. -/
theorem pathT_sound (bits : Nat) (key : List u8) (h : Nat → Option whitelist_node) :
    ∀ (t : Tree), Laid bits h t → ∀ e, e ∈ pathT bits key t →
      e.1 ∈ t.ptrs ∧ ∃ n, h e.1 = some n ∧ n.cidr = e.2.1 ∧ n.peer = e.2.2 ∧
        prefix_matches n key bits = true
  | .nil, _, e, he => by simp [pathT] at he
  | .node p c bs pe l r, hl, e, he => by
    obtain ⟨h1, h3, h4⟩ := hl
    have ihl := pathT_sound bits key h l h3 e
    have ihr := pathT_sound bits key h r h4 e
    simp only [pathT] at he
    by_cases hm : c ≤ cbits bits bs key
    · rw [if_pos hm] at he
      have hroot : (p, c, pe).1 ∈ (Tree.node p c bs pe l r).ptrs ∧
          ∃ n, h (p, c, pe).1 = some n ∧ n.cidr = (p, c, pe).2.1 ∧ n.peer = (p, c, pe).2.2 ∧
            prefix_matches n key bits = true :=
        ⟨by simp [Tree.ptrs], _, h1, rfl, rfl, by rw [prefix_matches_mk]; simpa using hm⟩
      rcases List.mem_cons.1 he with rfl | he
      · exact hroot
      · split_ifs at he
        · simp at he
        · obtain ⟨a, b⟩ := ihr he
          exact ⟨by simp [Tree.ptrs, a], b⟩
        · obtain ⟨a, b⟩ := ihl he
          exact ⟨by simp [Tree.ptrs, a], b⟩
    · rw [if_neg hm] at he
      simp at he

/-- Every node of the tree whose prefix matches the key is met by the search. -/
theorem pathT_complete (bits : Nat) (hb : bits = 32 ∨ bits = 128) (key : List u8)
    (h : Nat → Option whitelist_node) (x : Nat) (n : whitelist_node) (hn : h x = some n)
    (hm : prefix_matches n key bits = true) :
    ∀ (t : Tree) (lo : Nat) (pre : Nat → Bool), Laid bits h t → TInv bits lo pre t →
      x ∈ t.ptrs → (x, n.cidr, n.peer) ∈ pathT bits key t
  | .nil, _, _, _, _, hx => by simp [Tree.ptrs] at hx
  | .node p c bs po l r, lo, pre, hl, hi, hx => by
    have hfacts := TInv_node_facts bits h x n hn _ lo pre hl hi hx
    obtain ⟨h1, h3, h4⟩ := hl
    obtain ⟨i1, i2, _, i4, i5, i6⟩ := hi
    have hagree : ∀ i, i < n.cidr → kbit bits n.bits i = kbit bits key i :=
      (common_bits_ge_iff bits hb n key n.cidr hfacts.2.1).1
        (by simpa [prefix_matches] using hm)
    simp only [pathT]
    by_cases hxp : x = p
    · subst hxp
      rw [h1] at hn
      cases hn
      have : c ≤ cbits bits bs key := by simpa [prefix_matches_mk] using hm
      rw [if_pos this]
      simp
    · simp only [Tree.ptrs, List.mem_cons, List.mem_append] at hx
      have hsub : ∀ (s : Tree) (b : Bool), x ∈ s.ptrs → Laid bits h s →
          TInv bits (c + 1) (fun i => if i = c then b else kbit bits bs i) s →
          c < n.cidr ∧ c ≤ cbits bits bs key ∧ kbit bits key c = b := by
        intro s b hxs hls his
        obtain ⟨a, _, c2⟩ := TInv_node_facts bits h x n hn s _ _ hls his hxs
        refine ⟨by omega, ?_, ?_⟩
        · rw [cbits_ge_iff bits hb bs key c i2]
          intro i hi
          have := c2 i (by omega)
          rw [if_neg (by omega)] at this
          rw [← this, hagree i (by omega)]
        · have := c2 c (by omega)
          rw [if_pos rfl] at this
          rw [← hagree c (by omega), this]
      rcases hx with hx | hx | hx
      · exact absurd hx hxp
      · obtain ⟨a, b, d⟩ := hsub l false hx h3 i5
        have hne : ¬ c = bits := by have := hfacts.2.1; omega
        rw [if_pos b, if_neg hne, d]
        simp only [Bool.false_eq_true, if_false]
        exact List.mem_cons_of_mem _
          (pathT_complete bits hb key h x n hn hm l _ _ h3 i5 hx)
      · obtain ⟨a, b, d⟩ := hsub r true hx h4 i6
        have hne : ¬ c = bits := by have := hfacts.2.1; omega
        rw [if_pos b, if_neg hne, d]
        simp only [if_true]
        exact List.mem_cons_of_mem _
          (pathT_complete bits hb key h x n hn hm r _ _ h4 i6 hx)

theorem route_at_some_entry (path : List (Nat × Nat × Option Nat)) (c p : Nat)
    (h : route_at path c = some p) : ∃ e, e ∈ path ∧ e.2.1 = c ∧ e.2.2 = some p := by
  induction path with
  | nil => cases h
  | cons e rest ih =>
    simp only [route_at] at h
    by_cases hc : e.2.1 = c
    · rw [if_pos hc] at h
      exact ⟨e, by simp, hc, h⟩
    · rw [if_neg hc] at h
      obtain ⟨e2, h1, h2⟩ := ih h
      exact ⟨e2, by simp [h1], h2⟩

theorem route_at_of_mem : ∀ (path : List (Nat × Nat × Option Nat)),
    path.Pairwise (fun a b => a.2.1 < b.2.1) → ∀ e, e ∈ path → route_at path e.2.1 = e.2.2
  | [], _, e, he => by simp at he
  | e0 :: rest, hs, e, he => by
    have hs2 := List.pairwise_cons.1 hs
    simp only [route_at]
    rcases List.mem_cons.1 he with rfl | he
    · rw [if_pos rfl]
    · have := hs2.1 e he
      rw [if_neg (by omega)]
      exact route_at_of_mem rest hs2.2 e he

/-- On a laid-out ordered trie `lookup` returns the longest-prefix match of the address among
the nodes of the trie. -/
theorem lookup_is_lpm (bits : Nat) (hb : bits = 32 ∨ bits = 128) (m : Mem) (q : List u8)
    (hq : q.length = bits / 8) (t : Tree) (pre : Nat → Bool)
    (hl : Laid bits m.heap t) (hi : TInv bits 0 pre t) (fuel : Nat) (hf : bits + 1 ≤ fuel) :
    ∃ r, lookup m t.ptr bits q fuel = .ok r ∧ IsLpm m t.ptr bits q r := by
  have hh := TInv_height bits t 0 _ hi
  refine ⟨_, lookup_path_best bits hb m q hq t 0 pre hl hi fuel (by omega), ?_⟩
  have hsort := pathT_sorted bits (native_endian (List.replicate 16 0) q bits) t 0 _ hi
  have hle := fun e he => (mem_pathT_ge bits (native_endian (List.replicate 16 0) q bits) t 0 _
    hi e he).2
  rw [path_best_lpm bits _ none hsort hle]
  have hmem : ∀ y k, Reach m.heap t.ptr y → m.heap y = some k → covers bits k q →
      route_at (pathT bits (native_endian (List.replicate 16 0) q bits) t) k.cidr = k.peer ∧
        k.cidr ≤ bits := by
    intro y k hy hk hcov
    have hin := pathT_complete bits hb _ m.heap y k hk hcov t 0 pre hl hi
      (reach_ptrs bits m.heap t hl y hy)
    exact ⟨route_at_of_mem _ hsort _ hin, hle _ hin⟩
  constructor
  · intro p hp
    cases hr : lpm_from (route_at (pathT bits (native_endian (List.replicate 16 0) q bits) t))
      bits with
    | none => rw [hr] at hp; cases hp
    | some p2 =>
      rw [hr] at hp
      simp only [Option.some.injEq] at hp
      subst hp
      obtain ⟨c, hc, hrc, hmax⟩ := (lpm_from_some _ p2 bits).1 hr
      obtain ⟨e, he, hec, hep⟩ := route_at_some_entry _ c p2 hrc
      obtain ⟨hx, n, hn, hnc, hnp, hnm⟩ := pathT_sound bits _ m.heap t hl e he
      refine ⟨e.1, n, ptrs_reach bits m.heap t hl e.1 hx, hn, by rw [hnp, hep], hnm, ?_⟩
      intro y k hy hk hkp hcov
      obtain ⟨h1, h2⟩ := hmem y k hy hk hcov
      by_contra hgt
      have := hmax k.cidr (by omega) h2
      rw [h1] at this
      exact hkp this
  · intro hp y k hy hk hcov
    cases hr : lpm_from (route_at (pathT bits (native_endian (List.replicate 16 0) q bits) t))
      bits with
    | some p2 => rw [hr] at hp; cases hp
    | none =>
      obtain ⟨h1, h2⟩ := hmem y k hy hk hcov
      rw [← h1]
      exact (lpm_from_none _ bits).1 hr k.cidr h2

/-- The peer that a lookup returns is carried by a reachable node. -/
theorem lookup_carried (m : Mem) (root : Option Nat) (bits : Nat) (q : List u8)
    (r : Option Nat) (h : IsLpm m root bits q r) (p : Nat) (hp : r = some p) :
    ∃ x n, Reach m.heap root x ∧ m.heap x = some n ∧ n.peer = some p := by
  obtain ⟨x, n, h1, h2, h3, _⟩ := h.1 p hp
  exact ⟨x, n, h1, h2, h3⟩

end WG


namespace WG

/-! ## Concrete runs -/

theorem run_calls_reached (fuel : Nat) (s0 : whitelist × Mem) :
    ∀ (cs cs0 : List Call) (s s2 : whitelist × Mem),
    Reached s0 cs0 s.1 s.2 → (∀ c, c ∈ cs → c.typed) → run_calls fuel cs s = some s2 →
    Reached s0 (cs0 ++ cs) s2.1 s2.2
  | [], cs0, s, s2, h, _, hr => by
    simp only [run_calls, Option.some.injEq] at hr
    subst hr
    simpa using h
  | c :: cs, cs0, s, s2, h, ht, hr => by
    simp only [run_calls] at hr
    split at hr
    · rename_i table m heq
      have := run_calls_reached fuel s0 cs (cs0 ++ [c]) (table, m) s2
        (Reached.step cs0 c s.1 table s.2 m fuel h (ht c (by simp)) heq)
        (fun x hx => ht x (by simp [hx])) hr
      simpa using this
    · cases hr

/-- The state after a run of calls that all return 0 is a reached one. -/
theorem reached_after (s : whitelist × Mem) (cs : List Call) (ht : ∀ c, c ∈ cs → c.typed)
    (hr : (run_calls 200 cs s).isSome = true) : Reached s cs (after s cs).1 (after s cs).2 := by
  obtain ⟨s2, hs⟩ := Option.isSome_iff_exists.1 hr
  have := run_calls_reached 200 s cs [] s s2 Reached.first ht hs
  simp only [after, hs, Option.getD_some]
  simpa using this

/-- The state after a run of calls on a well-formed table is well formed. -/
theorem after_well_formed (s : whitelist × Mem) (cs : List Call) (hs : WellFormed s.1 s.2)
    (ht : ∀ c, c ∈ cs → c.typed) (hr : (run_calls 200 cs s).isSome = true) :
    WellFormed (after s cs).1 (after s cs).2 :=
  reached_well_formed s cs _ _ hs (reached_after s cs ht hr)

theorem first_route_well_formed : WellFormed first_route.1 first_route.2 :=
  seed_v4_well_formed [10, 0, 0, 0] rfl 8 1 (by decide)

theorem scenario_well_formed : WellFormed scenario.1 scenario.2 :=
  after_well_formed first_route _ first_route_well_formed (by decide) (by decide!)

theorem siblings_well_formed : WellFormed siblings.1 siblings.2 :=
  after_well_formed first_route _ first_route_well_formed (by decide) (by decide!)

theorem ok_of_returned {α : Type} (x : Outcome α) (d : α) (h : x.returned = true) :
    x = .ok (x.get d) := by
  cases x <;> first | rfl | cases h

theorem ok_zero_of_returned (x : Outcome (Nat × whitelist × Mem)) (d : Nat × whitelist × Mem)
    (h1 : x.returned = true) (h2 : (x.get d).1 = 0) :
    x = .ok (0, (x.get d).2.1, (x.get d).2.2) := by
  cases x with
  | ok a =>
    simp only [Outcome.get] at h2 ⊢
    rw [← h2]
  | bad_access => cases h1
  | assert_failed => cases h1
  | out_of_fuel => cases h1

/-- With enough fuel `walk_remove_by_peer` returns one and the same result, or stops at the
failed assertion of `PUSH`. -/
theorem walk_remove_by_peer_total (bits pr : Nat) (m : Mem) (t : Tree)
    (hl : Laid bits m.heap t) (hnd : t.ptrs.Nodup) :
    ∃ N, (∃ m2 r, ∀ fuel, N ≤ fuel → walk_remove_by_peer m t.ptr (some pr) fuel = .ok (m2, r)) ∨
      ((∀ fuel, N ≤ fuel → walk_remove_by_peer m t.ptr (some pr) fuel = .assert_failed) ∧
        128 < t.height) := by
  obtain ⟨N, hN⟩ := walk_remove_by_peer_spec bits pr m t hl hnd
  refine ⟨N, ?_⟩
  rcases hN N (Nat.le_refl _) with ⟨m2, e, _⟩ | ⟨e, hh⟩
  · refine Or.inl ⟨m2, (removeT pr t).ptr, fun fuel hf => ?_⟩
    obtain ⟨d, rfl⟩ := Nat.exists_eq_add_of_le hf
    rw [walk_remove_by_peer_mono m t.ptr (some pr) N (by rw [e]; simp) d, e]
  · refine Or.inr ⟨fun fuel hf => ?_, hh⟩
    obtain ⟨d, rfl⟩ := Nat.exists_eq_add_of_le hf
    rw [walk_remove_by_peer_mono m t.ptr (some pr) N (by rw [e]; simp) d, e]

/-- With enough fuel `wg_whitelist_remove_by_peer` returns, unless the IPv6 trie is higher
than the stack of `walk_remove_by_peer`. -/
theorem table_remove_total (table : whitelist) (m : Mem) (t4 t6 : Tree)
    (hinv : TableInv table m t4 t6) (peer : Option Nat) :
    ∃ N, (∃ table2 m2, ∀ fuel, N ≤ fuel →
        wg_whitelist_remove_by_peer table m peer fuel = .ok (table2, m2)) ∨
      ((∀ fuel, N ≤ fuel → wg_whitelist_remove_by_peer table m peer fuel = .assert_failed) ∧
        128 < t6.height) := by
  obtain ⟨h1, h2, h3⟩ := hinv
  cases peer with
  | none =>
    exact ⟨0, Or.inl ⟨_, _, fun fuel _ => rfl⟩⟩
  | some pr =>
    have hnd := List.nodup_append.1 h3.2.2.2.2.1
    have hh4 := TInv_height 32 t4 0 _ h3.2.2.1
    obtain ⟨N1, hW1⟩ := walk_remove_by_peer_total 32 pr m t4 h3.1 hnd.1
    rcases hW1 with ⟨m3, r4, hw1⟩ | ⟨_, hbad⟩
    · obtain ⟨_, p4⟩ := remove_step 32 128 m t4 t6 pr N1 m3 r4 h3 (hw1 N1 (Nat.le_refl _))
      obtain ⟨N2, hW2⟩ := walk_remove_by_peer_total 128 pr m3 t6 p4.2.1 hnd.2.1
      rcases hW2 with ⟨m4, r6, hw2⟩ | ⟨hw2, hh⟩
      · refine ⟨max N1 N2, Or.inl ⟨{ root4 := r4, root6 := r6, seq := table.seq + 1 }, m4,
          fun fuel hf => ?_⟩⟩
        simp only [wg_whitelist_remove_by_peer]
        rw [← h1, ← h2, hw1 fuel (by omega)]
        simp only
        rw [hw2 fuel (by omega)]
      · refine ⟨max N1 N2, Or.inr ⟨fun fuel hf => ?_, hh⟩⟩
        simp only [wg_whitelist_remove_by_peer]
        rw [← h1, ← h2, hw1 fuel (by omega)]
        simp only
        rw [hw2 fuel (by omega)]
    · omega

end WG


namespace WG

/-! ## Consequences for well-formed tables -/

/-- After a removal that returns, no node of either trie carries the peer and the node list
of the peer is empty. -/
theorem remove_post (table table2 : whitelist) (m m2 : Mem)
    (h : WellFormed table m) (p : Nat) (fuel : Nat)
    (hr : wg_whitelist_remove_by_peer table m (some p) fuel = .ok (table2, m2)) :
    (∀ x n, (Reach m2.heap table2.root4 x ∨ Reach m2.heap table2.root6 x) →
      m2.heap x = some n → n.peer ≠ some p) ∧ m2.lists p = [] := by
  obtain ⟨t4, t6, hinv⟩ := h
  obtain ⟨h1, h2, h3⟩ := table_remove table table2 m m2 t4 t6 (some p) fuel hinv hr
  simp only [removeO] at h1 h2 h3
  constructor
  · intro x n hx hn hp
    rcases hx with hx | hx
    · rw [← h1] at hx
      have := (mem_owned_iff 32 m2.heap p x _ h3.1).2
        ⟨reach_ptrs 32 m2.heap _ h3.1 x hx, n, hn, hp⟩
      rw [owned_removeT] at this
      cases this
    · rw [← h2] at hx
      have := (mem_owned_iff 128 m2.heap p x _ h3.2.1).2
        ⟨reach_ptrs 128 m2.heap _ h3.2.1 x hx, n, hn, hp⟩
      rw [owned_removeT] at this
      cases this
  · apply List.eq_nil_iff_forall_not_mem.2
    intro x hx
    have := ((h3.2.2.2.2.2.2 p).2 x).1 hx
    rw [owned_removeT, owned_removeT] at this
    rcases this with h | h <;> cases h

/-- With enough fuel a removal on a well-formed table returns, unless the IPv6 trie has more
than 128 nodes on a path from the root. -/
theorem remove_total (table : whitelist) (m : Mem)
    (h : WellFormed table m) (peer : Option Nat) :
    ∃ N, ∀ fuel, N ≤ fuel →
      (∃ table2 m2, wg_whitelist_remove_by_peer table m peer fuel = .ok (table2, m2)) ∨
      (wg_whitelist_remove_by_peer table m peer fuel = .assert_failed ∧
        ∃ t6, t6.ptr = table.root6 ∧ Laid 128 m.heap t6 ∧ 128 < t6.height) := by
  obtain ⟨t4, t6, hinv⟩ := h
  obtain ⟨N, hN⟩ := table_remove_total table m t4 t6 hinv peer
  refine ⟨N, fun fuel hf => ?_⟩
  rcases hN with ⟨tb2, m2, hok⟩ | ⟨hbad, hh⟩
  · exact Or.inl ⟨tb2, m2, hok fuel hf⟩
  · exact Or.inr ⟨hbad fuel hf, t6, hinv.2.1, hinv.2.2.2.1, hh⟩

/-- A call of `add` that returns `ENOMEM` has changed no node that existed. -/
theorem add_fail_of_ok (bits : Nat) (hb : bits = 32 ∨ bits = 128) (m : Mem) (key : List u8)
    (hk : bits / 8 ≤ key.length) (cidr : Nat) (peer : Option Nat)
    (t : Tree) (lo : Nat) (pre : Nat → Bool) (fuel : Nat) (a1 a2 : Bool)
    (hl : Laid bits m.heap t) (hi : TInv bits lo pre t) (hnd : t.ptrs.Nodup)
    (hlt : ∀ q, q ∈ t.ptrs → q < m.brk) (m2 : Mem) (trie2 : Option Nat)
    (h : add m t.ptr bits key cidr peer a1 a2 fuel = .ok (ENOMEM, m2, trie2)) :
    ∃ pr, peer = some pr ∧ AddFail m pr m2 t.ptr trie2 := by
  cases peer with
  | none => simp [add, EINVAL, ENOMEM] at h
  | some pr =>
    have hc : cidr ≤ bits := by
      by_contra hc
      simp [add, show cidr > bits by omega, EINVAL, ENOMEM] at h
    refine ⟨pr, rfl, ?_⟩
    by_cases hne : t.ptr = none
    · rw [hne, add_null_root m bits key cidr hc pr a1 a2 fuel] at h
      cases a1 with
      | true => simp at h
      | false =>
        simp only [Bool.false_eq_true, if_false, Outcome.ok.injEq, Prod.mk.injEq,
          true_and] at h
        obtain ⟨rfl, rfl⟩ := h
        exact ⟨hne.symm, fun _ _ => rfl, Nat.le_refl _, by omega, Or.inl rfl⟩
    obtain ⟨e, m3, trie3, he, hres, _⟩ := add_total bits hb m key hk cidr hc pr t lo pre
      (fuel + t.height) a1 a2 hl hi hnd hlt (by omega) hne
    rw [add_mono m t.ptr bits key cidr (some pr) a1 a2 fuel (by rw [h]; simp), h] at he
    simp only [Outcome.ok.injEq, Prod.mk.injEq] at he
    obtain ⟨rfl, rfl, rfl⟩ := he
    rcases hres with ⟨he2, _⟩ | ⟨_, hd⟩
    · simp [ENOMEM] at he2
    · exact hd

/-- On a trie that has a node, with valid arguments and enough fuel `add` returns 0 or
`ENOMEM`. -/
theorem add_returns (bits : Nat) (hb : bits = 32 ∨ bits = 128) (m : Mem) (key : List u8)
    (hk : bits / 8 ≤ key.length) (cidr : Nat) (hc : cidr ≤ bits) (pr : Nat)
    (t u : Tree) (ubits : Nat) (hinv : PairInv bits ubits m t u) (hne : t.ptr ≠ none)
    (a1 a2 : Bool) (fuel : Nat) (hf : bits + 1 ≤ fuel) :
    ∃ e m2 trie2, add m t.ptr bits key cidr (some pr) a1 a2 fuel = .ok (e, m2, trie2) ∧
      (e = 0 ∨ e = ENOMEM) := by
  obtain ⟨h1, _, h3, _, h5, h6, _⟩ := hinv
  have hh := TInv_height bits t 0 _ h3
  obtain ⟨e, m2, trie2, he, hres, _⟩ := add_total bits hb m key hk cidr hc pr t 0 _ fuel a1 a2
    h1 h3 (List.nodup_append.1 h5).1 (fun q hq => h6 q (by simp [hq])) (by omega) hne
  refine ⟨e, m2, trie2, he, ?_⟩
  rcases hres with ⟨h, _⟩ | ⟨h, _⟩
  · exact Or.inl h
  · exact Or.inr h

end WG


namespace WG

theorem wf_child_cidr (table : whitelist) (m : Mem)
    (h : WellFormed table m) (x q : Nat) (n nq : whitelist_node)
    (hx : Reach m.heap table.root4 x ∨ Reach m.heap table.root6 x) (hn : m.heap x = some n)
    (hq : n.bit0 = some q ∨ n.bit1 = some q) (hnq : m.heap q = some nq) :
    n.cidr < nq.cidr := by
  obtain ⟨t4, t6, h1, h2, h3⟩ := h
  rcases hx with hx | hx
  · rw [← h1] at hx
    exact child_cidr 32 m.heap t4 0 _ h3.1 h3.2.2.1 x n q nq
      (reach_ptrs 32 m.heap t4 h3.1 x hx) hn hq hnq
  · rw [← h2] at hx
    exact child_cidr 128 m.heap t6 0 _ h3.2.1 h3.2.2.2.1 x n q nq
      (reach_ptrs 128 m.heap t6 h3.2.1 x hx) hn hq hnq

theorem wf_lists (table : whitelist) (m : Mem)
    (h : WellFormed table m) (pe : Nat) :
    (m.lists pe).Nodup ∧ ∀ x, x ∈ m.lists pe ↔
      (Reach m.heap table.root4 x ∨ Reach m.heap table.root6 x) ∧
        ∃ n, m.heap x = some n ∧ n.peer = some pe := by
  obtain ⟨t4, t6, h1, h2, h3⟩ := h
  refine ⟨(h3.2.2.2.2.2.2 pe).1, fun x => ?_⟩
  rw [(h3.2.2.2.2.2.2 pe).2 x, mem_owned_iff 32 m.heap pe x t4 h3.1,
    mem_owned_iff 128 m.heap pe x t6 h3.2.1, ← h1, ← h2]
  constructor
  · rintro (⟨a, b⟩ | ⟨a, b⟩)
    · exact ⟨Or.inl (ptrs_reach 32 m.heap t4 h3.1 x a), b⟩
    · exact ⟨Or.inr (ptrs_reach 128 m.heap t6 h3.2.1 x a), b⟩
  · rintro ⟨a | a, b⟩
    · exact Or.inl ⟨reach_ptrs 32 m.heap t4 h3.1 x a, b⟩
    · exact Or.inr ⟨reach_ptrs 128 m.heap t6 h3.2.1 x a, b⟩

/-- A memory that agrees with `m` below the allocator break shows readers the same tries. -/
theorem same_for_readers (table table2 : whitelist) (m m2 : Mem)
    (t4 t6 : Tree) (hinv : TableInv table m t4 t6)
    (hr4 : table2.root4 = table.root4) (hr6 : table2.root6 = table.root6)
    (hheap : ∀ q, q < m.brk → m2.heap q = m.heap q) : SameForReaders table table2 m m2 := by
  obtain ⟨h1, h2, h3⟩ := hinv
  have hlt := h3.2.2.2.2.2.1
  have l4 : Laid 32 m2.heap t4 := Laid_congr 32 m.heap m2.heap t4
    (fun q hq => hheap q (hlt q (by simp [hq]))) h3.1
  have l6 : Laid 128 m2.heap t6 := Laid_congr 128 m.heap m2.heap t6
    (fun q hq => hheap q (hlt q (by simp [hq]))) h3.2.1
  have hh4 := TInv_height 32 t4 0 _ h3.2.2.1
  have hh6 := TInv_height 128 t6 0 _ h3.2.2.2.1
  refine ⟨hr4, hr6, ?_, ?_, ?_⟩
  · rintro x (hx | hx)
    · rw [← h1] at hx
      exact hheap x (hlt x (by simp [reach_ptrs 32 m.heap t4 h3.1 x hx]))
    · rw [← h2] at hx
      exact hheap x (hlt x (by simp [reach_ptrs 128 m.heap t6 h3.2.1 x hx]))
  · intro q hq f hf
    rw [hr4, ← h1, lookup_path_best 32 (Or.inl rfl) m2 q hq t4 0 _ l4 h3.2.2.1 f (by omega),
      lookup_path_best 32 (Or.inl rfl) m q hq t4 0 _ h3.1 h3.2.2.1 f (by omega)]
  · intro q hq f hf
    rw [hr6, ← h2, lookup_path_best 128 (Or.inr rfl) m2 q hq t6 0 _ l6 h3.2.2.2.1 f
        (by omega),
      lookup_path_best 128 (Or.inr rfl) m q hq t6 0 _ h3.2.1 h3.2.2.2.1 f (by omega)]

theorem insert_v4_enomem (table table2 : whitelist) (m m2 : Mem)
    (h : WellFormed table m) (ip : List u8) (hip : ip.length = 4) (cidr : Nat)
    (peer : Option Nat) (a1 a2 : Bool) (fuel : Nat)
    (hr : wg_whitelist_insert_v4 table m ip cidr peer a1 a2 fuel = .ok (ENOMEM, table2, m2)) :
    SameForReaders table table2 m m2 := by
  obtain ⟨t4, t6, hinv⟩ := h
  have hinv0 := hinv
  obtain ⟨h1, h2, h3⟩ := hinv
  simp only [wg_whitelist_insert_v4] at hr
  cases hadd : add m table.root4 32 (native_endian (List.replicate 4 0) ip 32) cidr peer a1 a2
    fuel with
  | ok res =>
    obtain ⟨e, m3, root⟩ := res
    rw [hadd] at hr
    simp only [Outcome.ok.injEq, Prod.mk.injEq] at hr
    obtain ⟨rfl, rfl, rfl⟩ := hr
    rw [← h1] at hadd
    obtain ⟨pr, _, hfail⟩ := add_fail_of_ok 32 (Or.inl rfl) m _
      (key_length 32 (Or.inl rfl) ip hip) cidr peer t4 0 _ fuel a1 a2 h3.1 h3.2.2.1
      (List.nodup_append.1 h3.2.2.2.2.1).1 (fun q hq => h3.2.2.2.2.2.1 q (by simp [hq]))
      m3 root hadd
    exact same_for_readers table _ m m3 t4 t6 hinv0 (by rw [hfail.1, h1]) rfl hfail.2.1
  | bad_access => rw [hadd] at hr; cases hr
  | assert_failed => rw [hadd] at hr; cases hr
  | out_of_fuel => rw [hadd] at hr; cases hr

theorem insert_v6_enomem (table table2 : whitelist) (m m2 : Mem)
    (h : WellFormed table m) (ip : List u8) (hip : ip.length = 16) (cidr : Nat)
    (peer : Option Nat) (a1 a2 : Bool) (fuel : Nat)
    (hr : wg_whitelist_insert_v6 table m ip cidr peer a1 a2 fuel = .ok (ENOMEM, table2, m2)) :
    SameForReaders table table2 m m2 := by
  obtain ⟨t4, t6, hinv⟩ := h
  have hinv0 := hinv
  obtain ⟨h1, h2, h3⟩ := hinv
  simp only [wg_whitelist_insert_v6] at hr
  cases hadd : add m table.root6 128 (native_endian (List.replicate 16 0) ip 128) cidr peer
    a1 a2 fuel with
  | ok res =>
    obtain ⟨e, m3, root⟩ := res
    rw [hadd] at hr
    simp only [Outcome.ok.injEq, Prod.mk.injEq] at hr
    obtain ⟨rfl, rfl, rfl⟩ := hr
    rw [← h2] at hadd
    obtain ⟨pr, _, hfail⟩ := add_fail_of_ok 128 (Or.inr rfl) m _
      (key_length 128 (Or.inr rfl) ip hip) cidr peer t6 0 _ fuel a1 a2 h3.2.1 h3.2.2.2.1
      (List.nodup_append.1 h3.2.2.2.2.1).2.1 (fun q hq => h3.2.2.2.2.2.1 q (by simp [hq]))
      m3 root hadd
    exact same_for_readers table _ m m3 t4 t6 hinv0 rfl (by rw [hfail.1, h2]) hfail.2.1
  | bad_access => rw [hadd] at hr; cases hr
  | assert_failed => rw [hadd] at hr; cases hr
  | out_of_fuel => rw [hadd] at hr; cases hr

/-- On a well-formed table whose IPv4 trie has a node, an insert with valid arguments and
enough fuel returns 0 or `ENOMEM`. -/
theorem insert_v4_returns (table : whitelist) (m : Mem)
    (h : WellFormed table m) (hroot : table.root4 ≠ none) (ip : List u8)
    (hip : ip.length = 4) (cidr : Nat)
    (peer : Option Nat) (a1 a2 : Bool) (hok : ¬ (32 < cidr ∨ peer = none)) (fuel : Nat)
    (hf : 33 ≤ fuel) :
    ∃ e table2 m2, wg_whitelist_insert_v4 table m ip cidr peer a1 a2 fuel =
      .ok (e, table2, m2) ∧ (e = 0 ∨ e = ENOMEM) ∧ e ≠ EINVAL := by
  obtain ⟨t4, t6, h1, h2, h3⟩ := h
  cases peer with
  | none => exact absurd (Or.inr rfl) hok
  | some pr =>
    obtain ⟨e, m2, trie2, he, hres⟩ := add_returns 32 (Or.inl rfl) m _
      (key_length 32 (Or.inl rfl) ip hip) cidr (by omega) pr t4 t6 128 h3 (h1 ▸ hroot) a1 a2
      fuel hf
    rw [h1] at he
    refine ⟨e, { root4 := trie2, root6 := table.root6, seq := table.seq + 1 }, m2, ?_, hres, ?_⟩
    · simp only [wg_whitelist_insert_v4]
      rw [show (4 : Nat) = 32 / 8 from rfl, he]
    · rcases hres with rfl | rfl <;> decide

/-- On a well-formed table whose IPv6 trie has a node, an insert with valid arguments and
enough fuel returns 0 or `ENOMEM`. -/
theorem insert_v6_returns (table : whitelist) (m : Mem)
    (h : WellFormed table m) (hroot : table.root6 ≠ none) (ip : List u8)
    (hip : ip.length = 16) (cidr : Nat)
    (peer : Option Nat) (a1 a2 : Bool) (hok : ¬ (128 < cidr ∨ peer = none)) (fuel : Nat)
    (hf : 129 ≤ fuel) :
    ∃ e table2 m2, wg_whitelist_insert_v6 table m ip cidr peer a1 a2 fuel =
      .ok (e, table2, m2) ∧ (e = 0 ∨ e = ENOMEM) ∧ e ≠ EINVAL := by
  obtain ⟨t4, t6, h1, h2, h3⟩ := h
  cases peer with
  | none => exact absurd (Or.inr rfl) hok
  | some pr =>
    obtain ⟨e, m2, trie2, he, hres⟩ := add_returns 128 (Or.inr rfl) m _
      (key_length 128 (Or.inr rfl) ip hip) cidr (by omega) pr t6 t4 32 h3.swap (h2 ▸ hroot)
      a1 a2 fuel hf
    rw [h2] at he
    refine ⟨e, { root4 := table.root4, root6 := trie2, seq := table.seq + 1 }, m2, ?_, hres, ?_⟩
    · simp only [wg_whitelist_insert_v6]
      rw [show (16 : Nat) = 128 / 8 from rfl, he]
    · rcases hres with rfl | rfl <;> decide

theorem add_einval (m : Mem) (trie : Option Nat) (bits : Nat) (key : List u8) (cidr : Nat)
    (peer : Option Nat) (a1 a2 : Bool) (fuel : Nat) (hbad : bits < cidr ∨ peer = none) :
    add m trie bits key cidr peer a1 a2 fuel = .ok (EINVAL, m, trie) := by
  cases peer with
  | none => rfl
  | some pr =>
    have : cidr > bits := by
      rcases hbad with h | h
      · exact h
      · cases h
    simp [add, this]

theorem insert_v4_einval (table : whitelist) (m : Mem) (ip : List u8) (cidr : Nat)
    (peer : Option Nat) (a1 a2 : Bool) (fuel : Nat) (hbad : 32 < cidr ∨ peer = none) :
    wg_whitelist_insert_v4 table m ip cidr peer a1 a2 fuel =
      .ok (EINVAL, { table with seq := table.seq + 1 }, m) := by
  simp only [wg_whitelist_insert_v4]
  rw [add_einval m table.root4 32 (native_endian (List.replicate 4 0) ip 32) cidr peer a1 a2
    fuel hbad]

theorem insert_v6_einval (table : whitelist) (m : Mem) (ip : List u8) (cidr : Nat)
    (peer : Option Nat) (a1 a2 : Bool) (fuel : Nat) (hbad : 128 < cidr ∨ peer = none) :
    wg_whitelist_insert_v6 table m ip cidr peer a1 a2 fuel =
      .ok (EINVAL, { table with seq := table.seq + 1 }, m) := by
  simp only [wg_whitelist_insert_v6]
  rw [add_einval m table.root6 128 (native_endian (List.replicate 16 0) ip 128) cidr peer a1 a2
    fuel hbad]

end WG

namespace WG

/-- On a table whose IPv4 trie has no node, an insert with valid arguments never returns 0:
it returns `ENOMEM` when the allocation of line 251 fails, and otherwise it stops at the
load through the `NULL` pointer `down` at line 268. -/
theorem insert_v4_null_root (table : whitelist) (m : Mem) (hroot : table.root4 = none)
    (ip : List u8) (cidr : Nat) (hc : cidr ≤ 32) (pr : Nat) (a1 a2 : Bool) (fuel : Nat) :
    wg_whitelist_insert_v4 table m ip cidr (some pr) a1 a2 fuel =
      if a1 = true then .bad_access
      else .ok (ENOMEM, { table with seq := table.seq + 1 }, m) := by
  simp only [wg_whitelist_insert_v4, hroot]
  rw [add_null_root m 32 _ cidr hc pr a1 a2 fuel]
  cases a1
  · simp only [Bool.false_eq_true, if_false]
  · rfl

/-- On a table whose IPv6 trie has no node, an insert with valid arguments never returns 0. -/
theorem insert_v6_null_root (table : whitelist) (m : Mem) (hroot : table.root6 = none)
    (ip : List u8) (cidr : Nat) (hc : cidr ≤ 128) (pr : Nat) (a1 a2 : Bool) (fuel : Nat) :
    wg_whitelist_insert_v6 table m ip cidr (some pr) a1 a2 fuel =
      if a1 = true then .bad_access
      else .ok (ENOMEM, { table with seq := table.seq + 1 }, m) := by
  simp only [wg_whitelist_insert_v6, hroot]
  rw [add_null_root m 128 _ cidr hc pr a1 a2 fuel]
  cases a1
  · simp only [Bool.false_eq_true, if_false]
  · rfl

end WG


namespace WG

/-- After a successful `add` the last node of the list of the peer is reachable, carries the
peer and reads back as the inserted prefix. -/
theorem read_back (bits : Nat) (hb : bits = 32 ∨ bits = 128) (m m2 : Mem) (t : Tree)
    (ip : List u8) (hip : ip.length = bits / 8) (cidr pr : Nat) (hc : cidr ≤ bits)
    (root : Option Nat) (hi : TInv bits 0 (fun _ => false) t) (hnd : t.ptrs.Nodup)
    (hlt : ∀ y, y ∈ t.ptrs → y < m.brk)
    (hdone : AddDone bits m (native_endian (List.replicate (bits / 8) 0) ip bits) cidr pr t m2
      root)
    (buf : List u8) (hbuf : buf.length = 16) :
    ∃ x n, (m2.lists pr).getLast? = some x ∧ m2.heap x = some n ∧ Reach m2.heap root x ∧
      n.peer = some pr ∧ (wg_whitelist_read_node n buf).2.1 = cidr ∧
      (wg_whitelist_read_node n buf).2.2 = (if bits = 32 then AF_INET else AF_INET6) ∧
      ∀ i, i < bits → wire_bit (wg_whitelist_read_node n buf).1 i =
        (decide (i < cidr) && wire_bit ip i) := by
  have hk := key_length bits hb ip hip
  obtain ⟨d1, d2, _, _, _, _, d7⟩ := hdone
  obtain ⟨bs, l, r, hn, hlen, hbits⟩ := placed_node bits hb _ hk cidr pr m.brk hc m2.heap t 0 _
    hi d2
  obtain ⟨q1, q2, q3⟩ := read_node_mk bits hb cidr hc bs hlen (some pr) l r buf hbuf
  refine ⟨_, _, ?_, hn, ?_, rfl, q1, q2, fun i hi2 => ?_⟩
  · rw [d7]; exact last_after_add m _ pr
  · rw [d1]
    apply ptrs_reach bits m2.heap _ d2
    apply owned_subset_ptrs pr
    exact (mem_owned_addT bits hb _ hk cidr pr m.brk hc pr _ t hnd hlt).2 (Or.inl ⟨rfl, rfl⟩)
  · rw [q3 i hi2]
    by_cases hlt2 : i < cidr
    · rw [hbits i hlt2, kbit_native_endian bits hb _ ip (by omega) i hi2]
    · simp [hlt2]

theorem insert_v4_read_back (table table2 : whitelist) (m m2 : Mem)
    (h : WellFormed table m) (ip : List u8) (hip : ip.length = 4) (cidr : Nat)
    (peer : Option Nat) (a1 a2 : Bool) (fuel : Nat)
    (hr : wg_whitelist_insert_v4 table m ip cidr peer a1 a2 fuel = .ok (0, table2, m2))
    (buf : List u8) (hbuf : buf.length = 16) :
    ∃ pr x n, peer = some pr ∧ (m2.lists pr).getLast? = some x ∧ m2.heap x = some n ∧
      Reach m2.heap table2.root4 x ∧ n.peer = some pr ∧
      (wg_whitelist_read_node n buf).2 = (cidr, AF_INET) ∧
      ∀ i, i < 32 → wire_bit (wg_whitelist_read_node n buf).1 i =
        (decide (i < cidr) && wire_bit ip i) := by
  obtain ⟨t4, t6, hinv⟩ := h
  obtain ⟨pr, hpr, hc, _, hdone, _⟩ := table_insert_v4 table table2 m m2 t4 t6 ip cidr peer
    a1 a2 fuel hinv hip hr
  obtain ⟨_, _, h3⟩ := hinv
  obtain ⟨x, n, e1, e2, e3, e4, e5, e6, e7⟩ := read_back 32 (Or.inl rfl) m m2 t4 ip hip cidr pr
    hc _ h3.2.2.1 (List.nodup_append.1 h3.2.2.2.2.1).1
    (fun y hy => h3.2.2.2.2.2.1 y (by simp [hy])) hdone buf hbuf
  exact ⟨pr, x, n, hpr, e1, e2, e3, e4, Prod.ext e5 e6, e7⟩

theorem insert_v6_read_back (table table2 : whitelist) (m m2 : Mem)
    (h : WellFormed table m) (ip : List u8) (hip : ip.length = 16) (cidr : Nat)
    (peer : Option Nat) (a1 a2 : Bool) (fuel : Nat)
    (hr : wg_whitelist_insert_v6 table m ip cidr peer a1 a2 fuel = .ok (0, table2, m2))
    (buf : List u8) (hbuf : buf.length = 16) :
    ∃ pr x n, peer = some pr ∧ (m2.lists pr).getLast? = some x ∧ m2.heap x = some n ∧
      Reach m2.heap table2.root6 x ∧ n.peer = some pr ∧
      (wg_whitelist_read_node n buf).2 = (cidr, AF_INET6) ∧
      ∀ i, i < 128 → wire_bit (wg_whitelist_read_node n buf).1 i =
        (decide (i < cidr) && wire_bit ip i) := by
  obtain ⟨t4, t6, hinv⟩ := h
  obtain ⟨pr, hpr, hc, _, hdone, _⟩ := table_insert_v6 table table2 m m2 t4 t6 ip cidr peer
    a1 a2 fuel hinv hip hr
  obtain ⟨_, _, h3⟩ := hinv
  obtain ⟨x, n, e1, e2, e3, e4, e5, e6, e7⟩ := read_back 128 (Or.inr rfl) m m2 t6 ip hip cidr
    pr hc _ h3.2.2.2.1 (List.nodup_append.1 h3.2.2.2.2.1).2.1
    (fun y hy => h3.2.2.2.2.2.1 y (by simp [hy])) hdone buf hbuf
  exact ⟨pr, x, n, hpr, e1, e2, e3, e4, Prod.ext e5 e6, e7⟩

end WG


namespace WG

/-! ## `common_bits` and `CHOOSE_NODE` on wire addresses -/

theorem agree_from_eq (a b : List u8) : ∀ (n i x : Nat), x ≤ n →
    (∀ j, j < x → wire_bit a (i + j) = wire_bit b (i + j)) →
    (x < n → wire_bit a (i + x) ≠ wire_bit b (i + x)) → agree_from a b n i = x
  | 0, i, x, hx, _, _ => by
    rw [Nat.le_zero.1 hx]; rfl
  | n + 1, i, 0, _, _, hd => by
    have := hd (Nat.succ_pos n)
    simp only [Nat.add_zero] at this
    simp [agree_from, this]
  | n + 1, i, x + 1, hx, ha, hd => by
    have h0 := ha 0 (Nat.succ_pos x)
    simp only [Nat.add_zero] at h0
    simp only [agree_from, h0, if_true, Nat.add_right_cancel_iff]
    apply agree_from_eq a b n (i + 1) x (by omega)
    · intro j hj
      have := ha (j + 1) (by omega)
      rw [show i + 1 + j = i + (j + 1) by omega]; exact this
    · intro hlt
      have := hd (by omega)
      rw [show i + 1 + x = i + (x + 1) by omega]; exact this

/-- On keys made by `native_endian`, `common_bits` is the length of the common prefix of the
two wire addresses. -/
theorem common_bits_wire (bits : Nat) (hb : bits = 32 ∨ bits = 128) (a b d1 d2 : List u8)
    (ha : a.length = bits / 8) (hbl : b.length = bits / 8) (n : whitelist_node)
    (hn : n.bits = native_endian d1 a bits) :
    common_bits n (native_endian d2 b bits) bits = common_lead a b bits := by
  symm
  have hle := common_bits_le bits hb n (native_endian d2 b bits)
  have hge := (common_bits_ge_iff bits hb n (native_endian d2 b bits)
    (common_bits n (native_endian d2 b bits) bits) hle).1 (Nat.le_refl _)
  apply agree_from_eq a b bits 0 _ hle
  · intro j hj
    have := hge j hj
    rw [hn, kbit_native_endian bits hb d1 a (by omega) j (by omega),
      kbit_native_endian bits hb d2 b (by omega) j (by omega)] at this
    simpa using this
  · intro hlt
    have := cbits_differ bits hb n.bits (native_endian d2 b bits) hlt
    rw [← common_bits_eq_cbits, hn, kbit_native_endian bits hb d1 a (by omega) _ hlt,
      kbit_native_endian bits hb d2 b (by omega) _ hlt] at this
    simpa using this

theorem prefix_matches_wire (bits : Nat) (hb : bits = 32 ∨ bits = 128) (a b d1 d2 : List u8)
    (ha : a.length = bits / 8) (hbl : b.length = bits / 8) (n : whitelist_node)
    (hn : n.bits = native_endian d1 a bits) (hc : n.cidr ≤ bits) :
    prefix_matches n (native_endian d2 b bits) bits = true ↔ same_lead a b n.cidr := by
  simp only [prefix_matches, decide_eq_true_eq, ge_iff_le]
  rw [common_bits_ge_iff bits hb n _ n.cidr hc]
  constructor
  · intro h i hi
    have := h i hi
    rw [hn, kbit_native_endian bits hb d1 a (by omega) i (by omega),
      kbit_native_endian bits hb d2 b (by omega) i (by omega)] at this
    exact this
  · intro h i hi
    rw [hn, kbit_native_endian bits hb d1 a (by omega) i (by omega),
      kbit_native_endian bits hb d2 b (by omega) i (by omega)]
    exact h i hi

/-- `CHOOSE_NODE` on a node set up by `copy_and_assign_cidr` selects the child numbered by
bit `cidr` of the wire address. -/
theorem choose_index_wire (bits : Nat) (hb : bits = 32 ∨ bits = 128) (n0 : whitelist_node)
    (src a dst : List u8) (cidr : Nat) (hc : cidr < bits) (ha : a.length = bits / 8)
    (hd : bits / 8 ≤ dst.length) :
    choose_index (copy_and_assign_cidr n0 src cidr bits) (native_endian dst a bits) =
      .ok (if wire_bit a cidr then 1 else 0) := by
  rw [choose_index_eq bits hb _ _ cidr hc rfl rfl
    (by rw [native_endian_length _ _ bits hb (by omega) hd]; exact hd),
    kbit_native_endian bits hb dst a (by omega) cidr hc]

end WG


namespace WG

/-! ## Lookup of a packet -/

/-- On a well-formed table a lookup of an IPv4 address returns its longest-prefix match in the
IPv4 trie. -/
theorem wf_lookup_v4 (table : whitelist) (m : Mem) (h : WellFormed table m) (q : List u8)
    (hq : q.length = 4) (fuel : Nat) (hf : 33 ≤ fuel) :
    ∃ r, lookup m table.root4 32 q fuel = .ok r ∧ IsLpm m table.root4 32 q r := by
  obtain ⟨t4, t6, h1, h2, h3⟩ := h
  rw [← h1]
  exact lookup_is_lpm 32 (Or.inl rfl) m q hq t4 _ h3.1 h3.2.2.1 fuel hf

/-- On a well-formed table a lookup of an IPv6 address returns its longest-prefix match in the
IPv6 trie. -/
theorem wf_lookup_v6 (table : whitelist) (m : Mem) (h : WellFormed table m) (q : List u8)
    (hq : q.length = 16) (fuel : Nat) (hf : 129 ≤ fuel) :
    ∃ r, lookup m table.root6 128 q fuel = .ok r ∧ IsLpm m table.root6 128 q r := by
  obtain ⟨t4, t6, h1, h2, h3⟩ := h
  rw [← h2]
  exact lookup_is_lpm 128 (Or.inr rfl) m q hq t6 _ h3.2.1 h3.2.2.2.1 fuel hf

theorem lookup_dst_spec (table : whitelist) (m : Mem)
    (h : WellFormed table m) (skb : mbuf) :
    (skb.protocol = htons ETH_P_IP → skb.ip_daddr.length = 4 → ∀ fuel, 33 ≤ fuel →
      ∃ r, wg_whitelist_lookup_dst table m skb fuel = .ok r ∧
        IsLpm m table.root4 32 skb.ip_daddr r) ∧
    (skb.protocol = htons ETH_P_IPV6 → skb.ipv6_daddr.length = 16 → ∀ fuel, 129 ≤ fuel →
      ∃ r, wg_whitelist_lookup_dst table m skb fuel = .ok r ∧
        IsLpm m table.root6 128 skb.ipv6_daddr r) ∧
    (skb.protocol ≠ htons ETH_P_IP → skb.protocol ≠ htons ETH_P_IPV6 → ∀ fuel,
      wg_whitelist_lookup_dst table m skb fuel = .ok none) := by
  refine ⟨fun hp hl fuel hf => ?_, fun hp hl fuel hf => ?_, fun h1 h2 fuel => ?_⟩
  · simp only [wg_whitelist_lookup_dst, hp, if_true]
    exact wf_lookup_v4 table m h _ hl fuel hf
  · have hne : htons ETH_P_IPV6 ≠ htons ETH_P_IP := by decide
    simp only [wg_whitelist_lookup_dst, hp, hne, if_false, if_true]
    exact wf_lookup_v6 table m h _ hl fuel hf
  · simp only [wg_whitelist_lookup_dst, h1, h2, if_false]

theorem lookup_src_spec (table : whitelist) (m : Mem)
    (h : WellFormed table m) (skb : mbuf) :
    (skb.protocol = htons ETH_P_IP → skb.ip_saddr.length = 4 → ∀ fuel, 33 ≤ fuel →
      ∃ r, wg_whitelist_lookup_src table m skb fuel = .ok r ∧
        IsLpm m table.root4 32 skb.ip_saddr r) ∧
    (skb.protocol = htons ETH_P_IPV6 → skb.ipv6_saddr.length = 16 → ∀ fuel, 129 ≤ fuel →
      ∃ r, wg_whitelist_lookup_src table m skb fuel = .ok r ∧
        IsLpm m table.root6 128 skb.ipv6_saddr r) ∧
    (skb.protocol ≠ htons ETH_P_IP → skb.protocol ≠ htons ETH_P_IPV6 → ∀ fuel,
      wg_whitelist_lookup_src table m skb fuel = .ok none) := by
  refine ⟨fun hp hl fuel hf => ?_, fun hp hl fuel hf => ?_, fun h1 h2 fuel => ?_⟩
  · simp only [wg_whitelist_lookup_src, hp, if_true]
    exact wf_lookup_v4 table m h _ hl fuel hf
  · have hne : htons ETH_P_IPV6 ≠ htons ETH_P_IP := by decide
    simp only [wg_whitelist_lookup_src, hp, hne, if_false, if_true]
    exact wf_lookup_v6 table m h _ hl fuel hf
  · simp only [wg_whitelist_lookup_src, h1, h2, if_false]

/-! ## The two families do not meet -/

/-- An IPv4 insert that returns, whatever its result, leaves the IPv6 trie as it was: the
root pointer, every node reachable from it and every lookup. -/
theorem insert_v4_keeps_v6 (table table2 : whitelist) (m m2 : Mem)
    (h : WellFormed table m) (ip : List u8) (hip : ip.length = 4) (cidr : Nat)
    (peer : Option Nat) (a1 a2 : Bool) (fuel : Nat) (e : Nat)
    (hr : wg_whitelist_insert_v4 table m ip cidr peer a1 a2 fuel = .ok (e, table2, m2)) :
    table2.root6 = table.root6 ∧
    (∀ x, Reach m.heap table.root6 x → m2.heap x = m.heap x) ∧
    (∀ q, q.length = 16 → ∀ f, 129 ≤ f →
      lookup m2 table2.root6 128 q f = lookup m table.root6 128 q f) := by
  by_cases hbad : 32 < cidr ∨ peer = none
  · rw [insert_v4_einval table m ip cidr peer a1 a2 fuel hbad] at hr
    simp only [Outcome.ok.injEq, Prod.mk.injEq] at hr
    obtain ⟨_, rfl, rfl⟩ := hr
    exact ⟨rfl, fun _ _ => rfl, fun _ _ _ _ => rfl⟩
  · cases peer with
    | none => exact absurd (Or.inr rfl) hbad
    | some pr =>
      have herr : e = 0 ∨ e = ENOMEM := by
        simp only [wg_whitelist_insert_v4] at hr
        cases hadd : add m table.root4 32 (native_endian (List.replicate 4 0) ip 32) cidr
          (some pr) a1 a2 fuel with
        | ok res =>
          obtain ⟨e2, m3, root⟩ := res
          rw [hadd] at hr
          simp only [Outcome.ok.injEq, Prod.mk.injEq] at hr
          obtain ⟨rfl, _, _⟩ := hr
          exact add_errs m _ 32 _ cidr (by omega) pr a1 a2 fuel _ _ hadd
        | bad_access => rw [hadd] at hr; cases hr
        | assert_failed => rw [hadd] at hr; cases hr
        | out_of_fuel => rw [hadd] at hr; cases hr
      rcases herr with rfl | rfl
      · obtain ⟨t4, t6, hinv⟩ := h
        obtain ⟨_, _, _, ⟨g1, g2, g3⟩, hdone, hroot⟩ := table_insert_v4 table table2 m m2 t4 t6
          ip cidr (some pr) a1 a2 fuel hinv hip hr
        obtain ⟨h1, h2, h3⟩ := hinv
        have hnd := List.nodup_append.1 h3.2.2.2.2.1
        have hsame : ∀ x, x ∈ t6.ptrs → m2.heap x = m.heap x := fun x hx =>
          hdone.2.2.1 x (h3.2.2.2.2.2.1 x (by simp [hx])) (fun hx4 => hnd.2.2 hx4 hx)
        have hh6 := TInv_height 128 t6 0 _ h3.2.2.2.1
        refine ⟨hroot, fun x hx => ?_, fun q hq f hf => ?_⟩
        · rw [← h2] at hx
          exact hsame x (reach_ptrs 128 m.heap t6 h3.2.1 x hx)
        · rw [hroot, ← h2,
            lookup_path_best 128 (Or.inr rfl) m2 q hq t6 0 _ g3.2.1 h3.2.2.2.1 f (by omega),
            lookup_path_best 128 (Or.inr rfl) m q hq t6 0 _ h3.2.1 h3.2.2.2.1 f (by omega)]
      · obtain ⟨s1, s2, s3, s4, s5⟩ := insert_v4_enomem table table2 m m2 h ip hip cidr
          (some pr) a1 a2 fuel hr
        exact ⟨s2, fun x hx => s3 x (Or.inr hx), s5⟩

/-- An IPv6 insert that returns, whatever its result, leaves the IPv4 trie as it was. -/
theorem insert_v6_keeps_v4 (table table2 : whitelist) (m m2 : Mem)
    (h : WellFormed table m) (ip : List u8) (hip : ip.length = 16) (cidr : Nat)
    (peer : Option Nat) (a1 a2 : Bool) (fuel : Nat) (e : Nat)
    (hr : wg_whitelist_insert_v6 table m ip cidr peer a1 a2 fuel = .ok (e, table2, m2)) :
    table2.root4 = table.root4 ∧
    (∀ x, Reach m.heap table.root4 x → m2.heap x = m.heap x) ∧
    (∀ q, q.length = 4 → ∀ f, 33 ≤ f →
      lookup m2 table2.root4 32 q f = lookup m table.root4 32 q f) := by
  by_cases hbad : 128 < cidr ∨ peer = none
  · rw [insert_v6_einval table m ip cidr peer a1 a2 fuel hbad] at hr
    simp only [Outcome.ok.injEq, Prod.mk.injEq] at hr
    obtain ⟨_, rfl, rfl⟩ := hr
    exact ⟨rfl, fun _ _ => rfl, fun _ _ _ _ => rfl⟩
  · cases peer with
    | none => exact absurd (Or.inr rfl) hbad
    | some pr =>
      have herr : e = 0 ∨ e = ENOMEM := by
        simp only [wg_whitelist_insert_v6] at hr
        cases hadd : add m table.root6 128 (native_endian (List.replicate 16 0) ip 128) cidr
          (some pr) a1 a2 fuel with
        | ok res =>
          obtain ⟨e2, m3, root⟩ := res
          rw [hadd] at hr
          simp only [Outcome.ok.injEq, Prod.mk.injEq] at hr
          obtain ⟨rfl, _, _⟩ := hr
          exact add_errs m _ 128 _ cidr (by omega) pr a1 a2 fuel _ _ hadd
        | bad_access => rw [hadd] at hr; cases hr
        | assert_failed => rw [hadd] at hr; cases hr
        | out_of_fuel => rw [hadd] at hr; cases hr
      rcases herr with rfl | rfl
      · obtain ⟨t4, t6, hinv⟩ := h
        obtain ⟨_, _, _, ⟨g1, g2, g3⟩, hdone, hroot⟩ := table_insert_v6 table table2 m m2 t4 t6
          ip cidr (some pr) a1 a2 fuel hinv hip hr
        obtain ⟨h1, h2, h3⟩ := hinv
        have hnd := List.nodup_append.1 h3.2.2.2.2.1
        have hsame : ∀ x, x ∈ t4.ptrs → m2.heap x = m.heap x := fun x hx =>
          hdone.2.2.1 x (h3.2.2.2.2.2.1 x (by simp [hx])) (fun hx6 => hnd.2.2 hx hx6)
        have hh4 := TInv_height 32 t4 0 _ h3.2.2.1
        refine ⟨hroot, fun x hx => ?_, fun q hq f hf => ?_⟩
        · rw [← h1] at hx
          exact hsame x (reach_ptrs 32 m.heap t4 h3.1 x hx)
        · rw [hroot, ← h1,
            lookup_path_best 32 (Or.inl rfl) m2 q hq t4 0 _ g3.1 h3.2.2.1 f (by omega),
            lookup_path_best 32 (Or.inl rfl) m q hq t4 0 _ h3.1 h3.2.2.1 f (by omega)]
      · obtain ⟨s1, s2, s3, s4, s5⟩ := insert_v6_enomem table table2 m m2 h ip hip cidr
          (some pr) a1 a2 fuel hr
        exact ⟨s1, fun x hx => s3 x (Or.inl hx), s4⟩

/-- A call of `walk_remove_by_peer` on one trie that returns leaves the other trie as it was:
every node reachable from the other root and every lookup below it. -/
theorem walk_keeps_other (bits ubits : Nat) (hub : ubits = 32 ∨ ubits = 128) (m m2 : Mem)
    (t u : Tree) (hinv : PairInv bits ubits m t u) (peer : Option Nat) (fuel : Nat)
    (r : Option Nat) (hr : walk_remove_by_peer m t.ptr peer fuel = .ok (m2, r)) :
    (∀ x, Reach m.heap u.ptr x → m2.heap x = m.heap x) ∧
    (∀ q, q.length = ubits / 8 → ∀ f, ubits + 1 ≤ f →
      lookup m2 u.ptr ubits q f = lookup m u.ptr ubits q f) := by
  cases peer with
  | none =>
    simp only [walk_remove_by_peer, Outcome.ok.injEq, Prod.mk.injEq] at hr
    obtain ⟨rfl, _⟩ := hr
    exact ⟨fun _ _ => rfl, fun _ _ _ _ => rfl⟩
  | some pr =>
    obtain ⟨h1, h2, h3, h4, h5, h6, h7⟩ := hinv
    have hnd := List.nodup_append.1 h5
    obtain ⟨_, _, r3, _, _⟩ := walk_remove_by_peer_ok bits pr m t h1 hnd.1 fuel m2 r hr
    have hsame : ∀ x, x ∈ u.ptrs → m2.heap x = m.heap x := fun x hx =>
      r3 x (fun hxt => hnd.2.2 hxt hx)
    have l2 : Laid ubits m2.heap u := Laid_congr ubits m.heap m2.heap u hsame h2
    have hh := TInv_height ubits u 0 _ h4
    refine ⟨fun x hx => hsame x (reach_ptrs ubits m.heap u h2 x hx), fun q hq f hf => ?_⟩
    rw [lookup_path_best ubits hub m2 q hq u 0 _ l2 h4 f (by omega),
      lookup_path_best ubits hub m q hq u 0 _ h2 h4 f (by omega)]

end WG


namespace WG

/-! ## Insert of a prefix that is present -/

/-- The search of `node_placement` ends at the node of the prefix when the trie has one. -/
theorem node_placement_exact (bits : Nat) (hb : bits = 32 ∨ bits = 128) (m : Mem)
    (key : List u8) (hk : bits / 8 ≤ key.length) (cidr : Nat) (x : Nat) (n : whitelist_node)
    (hn : m.heap x = some n) (hc : n.cidr = cidr)
    (hm : prefix_matches n key bits = true) :
    ∀ (t : Tree) (lo : Nat) (pre : Nat → Bool) (parent : Option Nat) (fuel : Nat),
      Laid bits m.heap t → TInv bits lo pre t → t.height ≤ fuel → x ∈ t.ptrs →
      node_placement_loop m key cidr bits fuel t.ptr parent = .ok (true, some x)
  | .nil, _, _, _, _, _, _, _, hx => by simp [Tree.ptrs] at hx
  | .node p c bs po l r, lo, pre, parent, fuel, hl, hi, hf, hx => by
    have hfacts := TInv_node_facts bits m.heap x n hn _ lo pre hl hi hx
    obtain ⟨h1, h3, h4⟩ := hl
    obtain ⟨i1, i2, _, i4, i5, i6⟩ := hi
    have hagree : ∀ i, i < cidr → kbit bits n.bits i = kbit bits key i := by
      have := (common_bits_ge_iff bits hb n key n.cidr hfacts.2.1).1
        (by simpa [prefix_matches] using hm)
      rw [hc] at this
      exact this
    cases fuel with
    | zero => simp [Tree.height] at hf
    | succ fuel =>
      simp only [Tree.height] at hf
      simp only [ptr_node, node_placement_loop, h1, prefix_matches_mk, mk_node_cidr]
      by_cases hxp : x = p
      · subst hxp
        rw [h1] at hn
        cases hn
        simp only [mk_node_cidr] at hc
        subst hc
        have : c ≤ cbits bits bs key := by simpa [prefix_matches_mk] using hm
        simp [this]
      · simp only [Tree.ptrs, List.mem_cons, List.mem_append] at hx
        have hsub : ∀ (s : Tree) (b : Bool), x ∈ s.ptrs → Laid bits m.heap s →
            TInv bits (c + 1) (fun i => if i = c then b else kbit bits bs i) s →
            c < cidr ∧ c ≤ cbits bits bs key ∧ kbit bits key c = b := by
          intro s b hxs hls his
          obtain ⟨a, _, c2⟩ := TInv_node_facts bits m.heap x n hn s _ _ hls his hxs
          rw [hc] at a
          refine ⟨by omega, ?_, ?_⟩
          · rw [cbits_ge_iff bits hb bs key c i2]
            intro i hi
            have := c2 i (by omega)
            rw [if_neg (by omega)] at this
            rw [← this, hagree i (by omega)]
          · have := c2 c (by omega)
            rw [if_pos rfl] at this
            rw [← hagree c (by omega), this]
        rcases hx with hx | hx | hx
        · exact absurd hx hxp
        · obtain ⟨a, b, d⟩ := hsub l false hx h3 i5
          have hne : ¬ c = cidr := by omega
          simp only [show c ≤ cidr by omega, b, decide_True, and_self, if_true, hne, if_false]
          rw [CHOOSE_NODE_mk bits hb c bs po _ _ key (by omega) hk, d]
          simp only [Bool.false_eq_true, if_false]
          exact node_placement_exact bits hb m key hk cidr x n hn hc hm l _ _ _ fuel h3 i5
            (by omega) hx
        · obtain ⟨a, b, d⟩ := hsub r true hx h4 i6
          have hne : ¬ c = cidr := by omega
          simp only [show c ≤ cidr by omega, b, decide_True, and_self, if_true, hne, if_false]
          rw [CHOOSE_NODE_mk bits hb c bs po _ _ key (by omega) hk, d]
          simp only [if_true]
          exact node_placement_exact bits hb m key hk cidr x n hn hc hm r _ _ _ fuel h4 i6
            (by omega) hx

/-- When the trie has a node of the prefix, `add` only sets the peer of that node and moves
the node to the list of the peer. -/
theorem add_on_exact (bits : Nat) (hb : bits = 32 ∨ bits = 128) (m : Mem)
    (key : List u8) (hk : bits / 8 ≤ key.length) (cidr pr : Nat) (a1 a2 : Bool) (fuel : Nat)
    (t : Tree) (lo : Nat) (pre : Nat → Bool) (hl : Laid bits m.heap t)
    (hi : TInv bits lo pre t) (hf : t.height ≤ fuel) (x : Nat) (n : whitelist_node)
    (hx : x ∈ t.ptrs) (hn : m.heap x = some n) (hc : n.cidr = cidr)
    (hm : prefix_matches n key bits = true) :
    add m t.ptr bits key cidr (some pr) a1 a2 fuel =
      .ok (0, list_move_tail (m.store x { n with peer := some pr }) x pr, t.ptr) := by
  have hcb := (TInv_node_facts bits m.heap x n hn t lo pre hl hi hx).2.1
  rw [hc] at hcb
  have hnp := node_placement_exact bits hb m key hk cidr x n hn hc hm t lo pre none fuel hl hi
    hf hx
  cases t with
  | nil => simp [Tree.ptrs] at hx
  | node p c bs po l r =>
    simp only [add, show ¬ cidr > bits by omega, if_false, ptr_node, node_placement] at hnp ⊢
    rw [hnp]
    exact add_tail_exact m _ bits key cidr pr a1 a2 x n hn

end WG


namespace WG

theorem placed_facts (bits : Nat) (hb : bits = 32 ∨ bits = 128) (m m2 : Mem) (t : Tree)
    (key : List u8) (hk : bits / 8 ≤ key.length) (cidr pr : Nat) (hc : cidr ≤ bits)
    (root : Option Nat) (hi : TInv bits 0 (fun _ => false) t) (hnd : t.ptrs.Nodup)
    (hlt : ∀ y, y ∈ t.ptrs → y < m.brk) (hdone : AddDone bits m key cidr pr t m2 root) :
    ∃ x n, (m2.lists pr).getLast? = some x ∧ m2.heap x = some n ∧
      x ∈ (addT bits key cidr pr m.brk t).ptrs ∧ n.peer = some pr ∧ n.cidr = cidr ∧
      prefix_matches n key bits = true := by
  obtain ⟨d1, d2, _, _, _, _, d7⟩ := hdone
  obtain ⟨bs, l, r, hn, hlen, hbits⟩ := placed_node bits hb key hk cidr pr m.brk hc m2.heap t 0 _
    hi d2
  refine ⟨_, _, ?_, hn, ?_, rfl, rfl, ?_⟩
  · rw [d7]; exact last_after_add m _ pr
  · apply owned_subset_ptrs pr
    exact (mem_owned_addT bits hb key hk cidr pr m.brk hc pr _ t hnd hlt).2 (Or.inl ⟨rfl, rfl⟩)
  · rw [prefix_matches_mk]
    simp only [decide_eq_true_eq]
    exact (cbits_ge_iff bits hb bs key cidr hc).2 hbits

theorem with_seq (table : whitelist) :
    ({ root4 := table.root4, root6 := table.root6, seq := table.seq + 1 } : whitelist) =
      { table with seq := table.seq + 1 } := rfl

theorem insert_v4_exact (table : whitelist) (m : Mem)
    (h : WellFormed table m) (ip : List u8) (hip : ip.length = 4) (cidr pr : Nat)
    (a1 a2 : Bool) (fuel : Nat) (hf : 33 ≤ fuel) (x : Nat) (n : whitelist_node)
    (hx : Reach m.heap table.root4 x) (hn : m.heap x = some n) (hc : n.cidr = cidr)
    (hm : prefix_matches n (native_endian (List.replicate 4 0) ip 32) 32 = true) :
    wg_whitelist_insert_v4 table m ip cidr (some pr) a1 a2 fuel =
      .ok (0, { table with seq := table.seq + 1 },
        list_move_tail (m.store x { n with peer := some pr }) x pr) := by
  obtain ⟨t4, t6, h1, h2, h3⟩ := h
  have hh := TInv_height 32 t4 0 _ h3.2.2.1
  rw [← h1] at hx
  have := add_on_exact 32 (Or.inl rfl) m _ (key_length 32 (Or.inl rfl) ip hip) cidr pr a1 a2 fuel
    t4 0 _ h3.1 h3.2.2.1 (by omega) x n (reach_ptrs 32 m.heap t4 h3.1 x hx) hn hc hm
  rw [h1] at this
  simp only [wg_whitelist_insert_v4]
  rw [show (32 : Nat) / 8 = 4 from rfl] at this
  rw [this]

theorem insert_v6_exact (table : whitelist) (m : Mem)
    (h : WellFormed table m) (ip : List u8) (hip : ip.length = 16) (cidr pr : Nat)
    (a1 a2 : Bool) (fuel : Nat) (hf : 129 ≤ fuel) (x : Nat) (n : whitelist_node)
    (hx : Reach m.heap table.root6 x) (hn : m.heap x = some n) (hc : n.cidr = cidr)
    (hm : prefix_matches n (native_endian (List.replicate 16 0) ip 128) 128 = true) :
    wg_whitelist_insert_v6 table m ip cidr (some pr) a1 a2 fuel =
      .ok (0, { table with seq := table.seq + 1 },
        list_move_tail (m.store x { n with peer := some pr }) x pr) := by
  obtain ⟨t4, t6, h1, h2, h3⟩ := h
  have hh := TInv_height 128 t6 0 _ h3.2.2.2.1
  rw [← h2] at hx
  have := add_on_exact 128 (Or.inr rfl) m _ (key_length 128 (Or.inr rfl) ip hip) cidr pr a1 a2
    fuel t6 0 _ h3.2.1 h3.2.2.2.1 (by omega) x n (reach_ptrs 128 m.heap t6 h3.2.1 x hx) hn hc hm
  rw [h2] at this
  simp only [wg_whitelist_insert_v6]
  rw [show (128 : Nat) / 8 = 16 from rfl] at this
  rw [this]

theorem move_tail_last (l : List Nat) (x : Nat) (hn : l.Nodup) (hl : l.getLast? = some x) :
    l.filter (fun q => decide (q ≠ x)) ++ [x] = l := by
  obtain ⟨ys, rfl⟩ := List.getLast?_eq_some_iff.1 hl
  have hx : x ∉ ys := fun h => by
    have := (List.nodup_append.1 hn).2.2 h (by simp)
    exact this
  rw [List.filter_append, List.filter_eq_self.2 (fun a ha => by
    simp only [ne_eq, decide_not, Bool.not_eq_true', decide_eq_false_iff_not]
    exact fun e => hx (e ▸ ha))]
  simp

/-- Moving to the tail of the list of its peer a node that is the last of that list, and
storing the peer it has, changes nothing. -/
theorem move_tail_same (m : Mem) (x pr : Nat) (n : whitelist_node)
    (hn : m.heap x = some n) (hp : n.peer = some pr)
    (hlast : (m.lists pr).getLast? = some x) (hnd : (m.lists pr).Nodup)
    (hother : ∀ pe, pe ≠ pr → x ∉ m.lists pe) :
    (list_move_tail (m.store x { n with peer := some pr }) x pr).heap = m.heap ∧
    (list_move_tail (m.store x { n with peer := some pr }) x pr).brk = m.brk ∧
    (list_move_tail (m.store x { n with peer := some pr }) x pr).lists = m.lists := by
  refine ⟨?_, rfl, ?_⟩
  · funext q
    simp only [list_move_tail, list_add_tail, list_del, Mem.store]
    by_cases hq : q = x
    · subst hq
      rw [if_pos rfl, hn, ← hp]
    · rw [if_neg hq]
  · funext pe
    simp only [list_move_tail, list_add_tail, list_del, Mem.store]
    by_cases hpe : pe = pr
    · subst hpe
      rw [if_pos rfl]
      exact move_tail_last _ x hnd hlast
    · rw [if_neg hpe]
      apply List.filter_eq_self.2
      intro a ha
      simp only [ne_eq, decide_not, Bool.not_eq_true', decide_eq_false_iff_not]
      exact fun e => hother pe hpe (e ▸ ha)

theorem insert_v4_twice (table table1 : whitelist) (m m1 : Mem)
    (h : WellFormed table m) (ip : List u8) (hip : ip.length = 4) (cidr : Nat)
    (peer : Option Nat) (a1 a2 : Bool) (fuel : Nat)
    (hr : wg_whitelist_insert_v4 table m ip cidr peer a1 a2 fuel = .ok (0, table1, m1))
    (b1 b2 : Bool) (fuel2 : Nat) (hf : 33 ≤ fuel2) :
    ∃ m2, wg_whitelist_insert_v4 table1 m1 ip cidr peer b1 b2 fuel2 =
        .ok (0, { table1 with seq := table1.seq + 1 }, m2) ∧
      m2.heap = m1.heap ∧ m2.brk = m1.brk ∧ m2.lists = m1.lists := by
  have h1 : WellFormed table1 m1 :=
    call_well_formed (.insert_v4 ip cidr peer a1 a2) table table1 m m1 fuel h hip hr
  obtain ⟨t4, t6, hinv⟩ := h
  obtain ⟨pr, hpr, hc, hinv1, hdone, _⟩ := table_insert_v4 table table1 m m1 t4 t6 ip cidr
    peer a1 a2 fuel hinv hip hr
  obtain ⟨_, _, h3⟩ := hinv
  obtain ⟨x, n, e1, e2, e3, e4, e5, e6⟩ := placed_facts 32 (Or.inl rfl) m m1 t4 _
    (key_length 32 (Or.inl rfl) ip hip) cidr pr hc _ h3.2.2.1
    (List.nodup_append.1 h3.2.2.2.2.1).1 (fun y hy => h3.2.2.2.2.2.1 y (by simp [hy])) hdone
  have hx : Reach m1.heap table1.root4 x := by
    rw [← hinv1.1]
    exact ptrs_reach 32 m1.heap _ hinv1.2.2.1 x e3
  subst hpr
  refine ⟨_, insert_v4_exact table1 m1 h1 ip hip cidr pr b1 b2 fuel2 hf x n hx e2 e5 e6, ?_⟩
  refine move_tail_same m1 x pr n e2 e4 e1 (wf_lists table1 m1 h1 pr).1 ?_
  intro pe hpe hmem
  obtain ⟨_, n2, hn2, hp2⟩ := ((wf_lists table1 m1 h1 pe).2 x).1 hmem
  rw [e2] at hn2
  cases hn2
  rw [e4] at hp2
  exact hpe (Option.some.inj hp2).symm

theorem insert_v6_twice (table table1 : whitelist) (m m1 : Mem)
    (h : WellFormed table m) (ip : List u8) (hip : ip.length = 16) (cidr : Nat)
    (peer : Option Nat) (a1 a2 : Bool) (fuel : Nat)
    (hr : wg_whitelist_insert_v6 table m ip cidr peer a1 a2 fuel = .ok (0, table1, m1))
    (b1 b2 : Bool) (fuel2 : Nat) (hf : 129 ≤ fuel2) :
    ∃ m2, wg_whitelist_insert_v6 table1 m1 ip cidr peer b1 b2 fuel2 =
        .ok (0, { table1 with seq := table1.seq + 1 }, m2) ∧
      m2.heap = m1.heap ∧ m2.brk = m1.brk ∧ m2.lists = m1.lists := by
  have h1 : WellFormed table1 m1 :=
    call_well_formed (.insert_v6 ip cidr peer a1 a2) table table1 m m1 fuel h hip hr
  obtain ⟨t4, t6, hinv⟩ := h
  obtain ⟨pr, hpr, hc, hinv1, hdone, _⟩ := table_insert_v6 table table1 m m1 t4 t6 ip cidr
    peer a1 a2 fuel hinv hip hr
  obtain ⟨_, _, h3⟩ := hinv
  obtain ⟨x, n, e1, e2, e3, e4, e5, e6⟩ := placed_facts 128 (Or.inr rfl) m m1 t6 _
    (key_length 128 (Or.inr rfl) ip hip) cidr pr hc _ h3.2.2.2.1
    (List.nodup_append.1 h3.2.2.2.2.1).2.1 (fun y hy => h3.2.2.2.2.2.1 y (by simp [hy])) hdone
  have hx : Reach m1.heap table1.root6 x := by
    rw [← hinv1.2.1]
    exact ptrs_reach 128 m1.heap _ hinv1.2.2.2.1 x e3
  subst hpr
  refine ⟨_, insert_v6_exact table1 m1 h1 ip hip cidr pr b1 b2 fuel2 hf x n hx e2 e5 e6, ?_⟩
  refine move_tail_same m1 x pr n e2 e4 e1 (wf_lists table1 m1 h1 pr).1 ?_
  intro pe hpe hmem
  obtain ⟨_, n2, hn2, hp2⟩ := ((wf_lists table1 m1 h1 pe).2 x).1 hmem
  rw [e2] at hn2
  cases hn2
  rw [e4] at hp2
  exact hpe (Option.some.inj hp2).symm

/-- After `list_move_tail` the node is on the list of the new peer and on no other list. -/
theorem move_tail_lists (m : Mem) (x q : Nat) :
    x ∈ (list_move_tail m x q).lists q ∧ ∀ p, p ≠ q → x ∉ (list_move_tail m x q).lists p := by
  constructor
  · simp [list_move_tail, list_add_tail, list_del]
  · intro p hp
    simp [list_move_tail, list_add_tail, list_del, hp]

end WG


namespace WG

/-- The split case of `add` (lines 268-295): the branch node gets the common prefix length,
no peer, and `down` and the new leaf as its two different children. -/
theorem split_branch_facts (m : Mem) (trie : Option Nat) (bits : Nat)
    (hb : bits = 32 ∨ bits = 128) (key : List u8) (hk : bits / 8 ≤ key.length)
    (cidr pr newnode down : Nat) (parent : Option Nat)
    (dc : Nat) (dbs : List u8) (dpo dl dr : Option Nat)
    (pc : Nat) (pbs : List u8) (ppo pl pr2 : Option Nat)
    (hn : m.heap newnode = some (mk_node bits cidr (key_bits bits key) (some pr) none none))
    (hd : m.heap down = some (mk_node bits dc dbs dpo dl dr))
    (hnb : newnode ≠ m.brk) (hdb : down ≠ m.brk) (hcidr : cidr ≤ bits)
    (hdbs : bits / 8 ≤ dbs.length)
    (hstop : ¬ (dc ≤ cidr ∧ prefix_matches (mk_node bits dc dbs dpo dl dr) key bits = true))
    (hmin : min cidr (common_bits (mk_node bits dc dbs dpo dl dr) key bits) < cidr)
    (hpar : ∀ par, parent = some par → par ≠ newnode ∧ par ≠ m.brk ∧ pc < bits ∧
      m.heap par = some (mk_node bits pc pbs ppo pl pr2)) :
    ∃ m2 trie2 b0 b1 bs2,
      add_split m trie bits key cidr newnode parent down true = .ok (0, m2, trie2) ∧
      m2.heap m.brk = some (mk_node bits
        (min cidr (common_bits (mk_node bits dc dbs dpo dl dr) key bits)) bs2 none b0 b1) ∧
      min cidr (common_bits (mk_node bits dc dbs dpo dl dr) key bits) < dc ∧
      kbit bits dbs (min cidr (common_bits (mk_node bits dc dbs dpo dl dr) key bits)) ≠
        kbit bits key (min cidr (common_bits (mk_node bits dc dbs dpo dl dr) key bits)) ∧
      ((kbit bits key (min cidr (common_bits (mk_node bits dc dbs dpo dl dr) key bits)) = true ∧
          b0 = some down ∧ b1 = some newnode) ∨
        (kbit bits key (min cidr (common_bits (mk_node bits dc dbs dpo dl dr) key bits)) = false ∧
          b0 = some newnode ∧ b1 = some down)) ∧
      (parent = none → trie2 = some m.brk) ∧
      (∀ par, parent = some par → trie2 = trie ∧
        m2.heap par = some (mk_node bits pc pbs ppo
          (if kbit bits key pc then pl else some m.brk)
          (if kbit bits key pc then some m.brk else pr2))) := by
  rw [common_bits_eq_cbits] at hmin ⊢
  simp only [mk_node_bits] at hmin ⊢
  rw [prefix_matches_mk] at hstop
  simp only [decide_eq_true_eq] at hstop
  have hlt : cbits bits dbs key < cidr := by omega
  have hm2 : min cidr (cbits bits dbs key) = cbits bits dbs key := by omega
  rw [hm2]
  have hkb : bits / 8 ≤ (key_bits bits key).length := by
    rw [key_bits_length bits hb key hk]; rcases hb with rfl | rfl <;> decide
  obtain ⟨m2, trie2, e1, _, e3, e4, e5, _⟩ := add_split_branch m trie bits hb key cidr newnode
    down parent (key_bits bits key) (some pr) dc dbs dpo dl dr pc pbs ppo pl pr2 hn hd hnb hdb
    hcidr hkb hdbs hlt hpar
  have hne := cbits_differ bits hb dbs key (by omega)
  have hdc := (split_facts bits dc cidr dbs key hstop).2 hlt
  rw [kbit_key_bits bits hb key hk] at e3
  refine ⟨m2, trie2, _, _, _, e1, e3, hdc, hne, ?_, e4, ?_⟩
  · rcases Bool.eq_false_or_eq_true (kbit bits key (cbits bits dbs key)) with hj | hj
    · left
      have hi : kbit bits dbs (cbits bits dbs key) = false := by
        cases h : kbit bits dbs (cbits bits dbs key)
        · rfl
        · rw [h, hj] at hne; exact absurd rfl hne
      simp [hj, hi]
    · right
      have hi : kbit bits dbs (cbits bits dbs key) = true := by
        cases h : kbit bits dbs (cbits bits dbs key)
        · rw [h, hj] at hne; exact absurd rfl hne
        · rfl
      simp [hj, hi]
  · intro par hp
    have := e5 par hp
    rw [kbit_key_bits bits hb _ hkb, kbit_key_bits bits hb key hk] at this
    exact this

/-- The loop of `walk_remove_by_peer` on a trie that is a tree ends: with an empty stack, or
at the failed assertion of `PUSH` when the trie has more than 128 nodes on a path. -/
theorem walk_loop_ends (bits pr : Nat) (m : Mem) (t : Tree)
    (hl : Laid bits m.heap t) (hnd : t.ptrs.Nodup) (hne : t.ptr ≠ none) :
    ∃ N, ∀ fuel, N ≤ fuel →
      (∃ st2, walk_loop pr fuel { m := m, root := t.ptr, stack := [Slot.top], prev := none } =
          .ok st2 ∧ st2.stack = []) ∨
      (walk_loop pr fuel { m := m, root := t.ptr, stack := [Slot.top], prev := none } =
          .assert_failed ∧ 128 < t.height) := by
  have hpre : WalkPre bits { m := m, root := t.ptr, stack := [Slot.top], prev := none }
      Slot.top [] t :=
    ⟨rfl, rfl, hne, hl, hnd, (fun p hp => by cases hp), Or.inl rfl⟩
  rcases traverse bits pr _ _ (le_refl _) _ _ _ hpre with ⟨st2, ⟨k, hk⟩, hpost⟩ | ⟨⟨k, hk⟩, hb⟩
  · refine ⟨k, fun fuel hf => Or.inl ⟨st2, ?_, hpost.1⟩⟩
    obtain ⟨d, rfl⟩ := Nat.exists_eq_add_of_le hf
    rw [hk d, walk_loop_nil _ _ _ hpost.1]
  · refine ⟨k, fun fuel hf => Or.inr ⟨?_, by simpa using hb⟩⟩
    obtain ⟨d, rfl⟩ := Nat.exists_eq_add_of_le hf
    rw [hk d]

end WG


namespace WG

/-! ## The whole-trie walks of `wg_whitelist_free` -/

theorem kids_ptrs (l r : Tree) (ts : List Tree) :
    ∀ x, x ∈ forest_ptrs (kids l r ++ ts) ↔ x ∈ r.ptrs ∨ x ∈ l.ptrs ∨ x ∈ forest_ptrs ts := by
  intro x
  cases l <;> cases r <;> simp [kids, Tree.ptr, forest_ptrs, Tree.ptrs] <;> tauto

theorem kids_size (l r : Tree) (ts : List Tree) :
    forest_size (kids l r ++ ts) = r.size + l.size + forest_size ts := by
  cases l <;> cases r <;> simp [kids, Tree.ptr, forest_size, Tree.size]; all_goals omega

theorem kids_carriers (l r : Tree) (ts : List Tree) :
    ∀ x, x ∈ forest_carriers (kids l r ++ ts) ↔
      x ∈ r.carriers ∨ x ∈ l.carriers ∨ x ∈ forest_carriers ts := by
  intro x
  cases l <;> cases r <;> simp [kids, Tree.ptr, forest_carriers, Tree.carriers] <;> tauto

theorem kids_nil_nil : kids .nil .nil = [] := rfl

theorem kids_nil_node (p c : Nat) (bs : List u8) (po : Option Nat) (l r : Tree) :
    kids .nil (.node p c bs po l r) = [.node p c bs po l r] := rfl

theorem kids_node_nil (p c : Nat) (bs : List u8) (po : Option Nat) (l r : Tree) :
    kids (.node p c bs po l r) .nil = [.node p c bs po l r] := rfl

theorem kids_node_node (p c : Nat) (bs : List u8) (po : Option Nat) (l r : Tree)
    (p2 c2 : Nat) (bs2 : List u8) (po2 : Option Nat) (l2 r2 : Tree) :
    kids (.node p c bs po l r) (.node p2 c2 bs2 po2 l2 r2) =
      [.node p2 c2 bs2 po2 l2 r2, .node p c bs po l r] := rfl

theorem kids_bounded (p c : Nat) (bs : List u8) (po : Option Nat) (l r : Tree)
    (ts : List Tree) (h : Bounded 128 (.node p c bs po l r :: ts)) :
    Bounded 128 (kids l r ++ ts) := by
  obtain ⟨h1, h2⟩ := h
  cases l with
  | nil =>
    cases r with
    | nil => exact h2
    | node rp rc rbs rpo rl rr =>
      show Bounded 128 (Tree.node rp rc rbs rpo rl rr :: ts)
      refine ⟨?_, h2⟩
      simp only [Tree.height] at h1 ⊢
      omega
  | node lp lc lbs lpo ll lr =>
    cases r with
    | nil =>
      show Bounded 128 (Tree.node lp lc lbs lpo ll lr :: ts)
      refine ⟨?_, h2⟩
      simp only [Tree.height] at h1 ⊢
      omega
    | node rp rc rbs rpo rl rr =>
      show Bounded 128 (Tree.node rp rc rbs rpo rl rr :: Tree.node lp lc lbs lpo ll lr :: ts)
      refine ⟨?_, ?_, h2⟩
      · simp only [Tree.height, List.length_cons] at h1 ⊢
        omega
      · simp only [Tree.height] at h1 ⊢
        omega

/-- The two calls of `push_rcu` for the children of a node. -/
theorem push_kids (stack : List Nat) (ts : List Tree)
    (hs : ts.map Tree.ptr = stack.map some) (l r : Tree) :
    (∃ s1 s2, push_rcu stack l.ptr = .ok s1 ∧ push_rcu s1 r.ptr = .ok s2 ∧
      (kids l r ++ ts).map Tree.ptr = s2.map some) ∨
    ((push_rcu stack l.ptr = .assert_failed ∨
        ∃ s1, push_rcu stack l.ptr = .ok s1 ∧ push_rcu s1 r.ptr = .assert_failed) ∧
      ∀ p c bs po, ¬ Bounded 128 (.node p c bs po l r :: ts)) := by
  have hlen : ts.length = stack.length := by
    have := congrArg List.length hs
    simpa using this
  cases l with
  | nil =>
    cases r with
    | nil => exact Or.inl ⟨stack, stack, rfl, rfl, by simpa [kids, Tree.ptr] using hs⟩
    | node rp rc rbs rpo rl rr =>
      by_cases hlt : stack.length < 128
      · refine Or.inl ⟨stack, rp :: stack, rfl, by simp [push_rcu, Tree.ptr, hlt], ?_⟩
        simp [kids, Tree.ptr, hs]
      · refine Or.inr ⟨Or.inr ⟨stack, rfl, by simp [push_rcu, Tree.ptr, hlt]⟩, ?_⟩
        intro p c bs po hb
        have := hb.1
        simp only [Tree.height] at this
        omega
  | node lp lc lbs lpo ll lr =>
    by_cases hlt : stack.length < 128
    · cases r with
      | nil =>
        refine Or.inl ⟨lp :: stack, lp :: stack, by simp [push_rcu, Tree.ptr, hlt], rfl, ?_⟩
        simp [kids, Tree.ptr, hs]
      | node rp rc rbs rpo rl rr =>
        by_cases hlt2 : stack.length + 1 < 128
        · refine Or.inl ⟨lp :: stack, rp :: lp :: stack, by simp [push_rcu, Tree.ptr, hlt],
            by simp [push_rcu, Tree.ptr, hlt2], ?_⟩
          simp [kids, Tree.ptr, hs]
        · refine Or.inr ⟨Or.inr ⟨lp :: stack, by simp [push_rcu, Tree.ptr, hlt],
            by simp [push_rcu, Tree.ptr, hlt2]⟩, ?_⟩
          intro p c bs po hb
          have := hb.1
          simp only [Tree.height] at this
          omega
    · refine Or.inr ⟨Or.inl (by simp [push_rcu, Tree.ptr, hlt]), ?_⟩
      intro p c bs po hb
      have := hb.1
      simp only [Tree.height] at this
      omega

theorem forest_split (ts : List Tree) (node : Nat) (stack : List Nat)
    (hs : ts.map Tree.ptr = (node :: stack).map some) :
    ∃ c bs po l r ts2, ts = .node node c bs po l r :: ts2 ∧
      ts2.map Tree.ptr = stack.map some := by
  cases ts with
  | nil => simp at hs
  | cons t ts2 =>
    simp only [List.map_cons, List.cons.injEq] at hs
    cases t with
    | nil => simp [Tree.ptr] at hs
    | node p c bs po l r =>
      simp only [Tree.ptr, Option.some.injEq] at hs
      obtain ⟨rfl, h2⟩ := hs
      exact ⟨c, bs, po, l, r, ts2, rfl, h2⟩

theorem filter_carriers_step (lists : Nat → List Nat) (node : Nat) (po : Option Nat)
    (l r : Tree) (ts : List Tree) (c : Nat) (bs : List u8) :
    (fun pe => ((if po ≠ none then fun pe => (lists pe).filter (fun q => q ≠ node)
        else lists) pe).filter (fun x => decide (x ∉ forest_carriers (kids l r ++ ts)))) =
      fun pe => (lists pe).filter
        (fun x => decide (x ∉ forest_carriers (.node node c bs po l r :: ts))) := by
  funext pe
  by_cases hpo : po = none
  · simp only [hpo, ne_eq, not_true_eq_false, if_false]
    apply List.filter_congr
    intro x _
    have := kids_carriers l r ts x
    simp only [forest_carriers, Tree.carriers, List.mem_append, decide_eq_decide]
    simp only [ne_eq, not_true_eq_false, if_false, List.not_mem_nil, false_or]
    rw [this]
    tauto
  · simp only [ne_eq, hpo, not_false_eq_true, if_true, List.filter_filter]
    apply List.filter_congr
    intro x _
    have := kids_carriers l r ts x
    simp only [forest_carriers, Tree.carriers, List.mem_append, ne_eq, hpo, not_false_eq_true,
      if_true, List.mem_singleton]
    rw [Bool.and_comm]
    by_cases hx : x = node
    · simp [hx]
    · simp only [hx, not_false_eq_true, decide_True, Bool.true_and, false_or, decide_eq_decide]
      rw [this]
      tauto

/-- The loop of `root_remove_peer_lists` on a stack of subtrees: it returns with every node
that carries a peer unlinked, or stops at the assertion of `push_rcu` when the stack does not
fit, or runs out of fuel when the fuel is less than the number of nodes. -/
theorem remove_lists_loop_spec (bits : Nat) : ∀ (fuel : Nat) (ts : List Tree)
    (stack : List Nat) (m : Mem), ts.map Tree.ptr = stack.map some →
    (∀ t, t ∈ ts → Laid bits m.heap t) →
    (∃ m2, root_remove_peer_lists_loop fuel m stack = .ok m2 ∧ m2.heap = m.heap ∧
      m2.brk = m.brk ∧
      m2.lists = fun pe => (m.lists pe).filter (fun x => decide (x ∉ forest_carriers ts))) ∨
    (root_remove_peer_lists_loop fuel m stack = .assert_failed ∧ ¬ Bounded 128 ts) ∨
    (root_remove_peer_lists_loop fuel m stack = .out_of_fuel ∧ fuel < forest_size ts)
  | fuel, ts, [], m, hs, _ => by
    have : ts = [] := by simpa using hs
    subst this
    refine Or.inl ⟨m, by cases fuel <;> rfl, rfl, rfl, ?_⟩
    funext pe
    simp [forest_carriers]
  | 0, ts, node :: stack, m, hs, _ => by
    obtain ⟨c, bs, po, l, r, ts2, rfl, _⟩ := forest_split ts node stack hs
    exact Or.inr (Or.inr ⟨rfl, by simp [forest_size, Tree.size]⟩)
  | fuel + 1, ts, node :: stack, m, hs, hl => by
    obtain ⟨c, bs, po, l, r, ts2, rfl, hs2⟩ := forest_split ts node stack hs
    obtain ⟨h1, h3, h4⟩ := hl _ (List.mem_cons_self _ _)
    have hread := read_of_heap m node _ h1
    rcases push_kids stack ts2 hs2 l r with ⟨s1, s2, e1, e2, hs3⟩ | ⟨hfail, hnb⟩
    · have hrun : root_remove_peer_lists_loop (fuel + 1) m (node :: stack) =
          root_remove_peer_lists_loop fuel (if po ≠ none then list_del m node else m) s2 := by
        simp only [root_remove_peer_lists_loop, hread, bind, Outcome.bind, mk_node, e1, e2]
      have hl2 : ∀ t, t ∈ kids l r ++ ts2 →
          Laid bits (if po ≠ none then list_del m node else m).heap t := by
        intro t ht
        have hh : (if po ≠ none then list_del m node else m).heap = m.heap := by
          split_ifs <;> rfl
        rw [hh]
        rw [List.mem_append] at ht
        rcases ht with ht | ht
        · cases l <;> cases r <;> simp [kids, Tree.ptr] at ht
          · subst ht; exact h4
          · subst ht; exact h3
          · rcases ht with rfl | rfl
            · exact h4
            · exact h3
        · exact hl t (List.mem_cons_of_mem _ ht)
      rw [hrun]
      rcases remove_lists_loop_spec bits fuel (kids l r ++ ts2) s2 _ hs3 hl2 with
        ⟨m2, e, a, b, c2⟩ | ⟨e, hb⟩ | ⟨e, hf⟩
      · refine Or.inl ⟨m2, e, ?_, ?_, ?_⟩
        · rw [a]; split_ifs <;> rfl
        · rw [b]; split_ifs <;> rfl
        · rw [c2]
          have := filter_carriers_step m.lists node po l r ts2 c bs
          rw [← this]
          funext pe
          split_ifs <;> rfl
      · exact Or.inr (Or.inl ⟨e, fun hB => hb (kids_bounded node c bs po l r ts2 hB)⟩)
      · refine Or.inr (Or.inr ⟨e, ?_⟩)
        rw [kids_size] at hf
        simp only [forest_size, Tree.size]
        omega
    · refine Or.inr (Or.inl ⟨?_, hnb node c bs po⟩)
      rcases hfail with e1 | ⟨s1, e1, e2⟩
      · simp only [root_remove_peer_lists_loop, hread, bind, Outcome.bind, mk_node, e1]
      · simp only [root_remove_peer_lists_loop, hread, bind, Outcome.bind, mk_node, e1, e2]

end WG


namespace WG

theorem kids_forest_ptrs (l r : Tree) (ts : List Tree) :
    forest_ptrs (kids l r ++ ts) = r.ptrs ++ (l.ptrs ++ forest_ptrs ts) := by
  cases l <;> cases r <;> rfl

theorem kids_mem (l r t : Tree) (h : t ∈ kids l r) : t = l ∨ t = r := by
  cases l <;> cases r <;> simp [kids, Tree.ptr] at h
  · exact Or.inr h
  · exact Or.inl h
  · rcases h with h | h
    · exact Or.inr h
    · exact Or.inl h

/-- The loop of `root_free_rcu` on a stack of disjoint subtrees: it returns with every node
of the subtrees freed, or stops at the assertion of `push_rcu` when the stack does not fit, or
runs out of fuel when the fuel is less than the number of nodes. -/
theorem free_loop_spec (bits : Nat) : ∀ (fuel : Nat) (ts : List Tree)
    (stack : List Nat) (m : Mem), ts.map Tree.ptr = stack.map some →
    (∀ t, t ∈ ts → Laid bits m.heap t) → (forest_ptrs ts).Nodup →
    (∃ m2, root_free_rcu_loop fuel m stack = .ok m2 ∧
      (∀ x, m2.heap x = if x ∈ forest_ptrs ts then none else m.heap x) ∧
      m2.brk = m.brk ∧ m2.lists = m.lists) ∨
    (root_free_rcu_loop fuel m stack = .assert_failed ∧ ¬ Bounded 128 ts) ∨
    (root_free_rcu_loop fuel m stack = .out_of_fuel ∧ fuel < forest_size ts)
  | fuel, ts, [], m, hs, _, _ => by
    have : ts = [] := by simpa using hs
    subst this
    exact Or.inl ⟨m, by cases fuel <;> rfl, fun x => by simp [forest_ptrs], rfl, rfl⟩
  | 0, ts, node :: stack, m, hs, _, _ => by
    obtain ⟨c, bs, po, l, r, ts2, rfl, _⟩ := forest_split ts node stack hs
    exact Or.inr (Or.inr ⟨rfl, by simp [forest_size, Tree.size]⟩)
  | fuel + 1, ts, node :: stack, m, hs, hl, hnd => by
    obtain ⟨c, bs, po, l, r, ts2, rfl, hs2⟩ := forest_split ts node stack hs
    obtain ⟨h1, h3, h4⟩ := hl _ (List.mem_cons_self _ _)
    have hread := read_of_heap m node _ h1
    have hperm : (r.ptrs ++ (l.ptrs ++ forest_ptrs ts2)).Perm
        ((l.ptrs ++ r.ptrs) ++ forest_ptrs ts2) := by
      rw [← List.append_assoc]
      exact List.Perm.append_right _ List.perm_append_comm
    have hnd0 : (node :: ((l.ptrs ++ r.ptrs) ++ forest_ptrs ts2)).Nodup := by
      simpa [forest_ptrs, Tree.ptrs] using hnd
    have hnd2 : (forest_ptrs (kids l r ++ ts2)).Nodup := by
      rw [kids_forest_ptrs]
      exact hperm.nodup_iff.2 (List.nodup_cons.1 hnd0).2
    have hnot : ∀ q, q ∈ forest_ptrs (kids l r ++ ts2) → q ≠ node := by
      intro q hq e
      rw [kids_forest_ptrs] at hq
      exact (List.nodup_cons.1 hnd0).1 (e ▸ hperm.mem_iff.1 hq)
    rcases push_kids stack ts2 hs2 l r with ⟨s1, s2, e1, e2, hs3⟩ | ⟨hfail, hnb⟩
    · have hrun : root_free_rcu_loop (fuel + 1) m (node :: stack) =
          root_free_rcu_loop fuel (m.free node) s2 := by
        simp only [root_free_rcu_loop, hread, bind, Outcome.bind, mk_node, e1, e2]
      have hsub : ∀ t, t ∈ kids l r ++ ts2 → ∀ q, q ∈ t.ptrs →
          q ∈ forest_ptrs (kids l r ++ ts2) := by
        intro t ht q hq
        rw [kids_forest_ptrs]
        rw [List.mem_append] at ht
        rcases ht with ht | ht
        · rcases kids_mem l r t ht with rfl | rfl
          · exact List.mem_append_right _ (List.mem_append_left _ hq)
          · exact List.mem_append_left _ hq
        · refine List.mem_append_right _ (List.mem_append_right _ ?_)
          clear hperm hnd0 hnd2 hnot hs3 hs2 hs hl hnd
          induction ts2 with
          | nil => cases ht
          | cons a ts3 ih =>
            simp only [forest_ptrs, List.mem_append]
            rcases List.mem_cons.1 ht with rfl | ht
            · exact Or.inl hq
            · exact Or.inr (ih ht)
      have hl2 : ∀ t, t ∈ kids l r ++ ts2 → Laid bits (m.free node).heap t := by
        intro t ht
        have hlt : Laid bits m.heap t := by
          rw [List.mem_append] at ht
          rcases ht with ht | ht
          · rcases kids_mem l r t ht with rfl | rfl
            · exact h3
            · exact h4
          · exact hl t (List.mem_cons_of_mem _ ht)
        refine Laid_congr bits m.heap _ t (fun q hq => ?_) hlt
        have := hnot q (hsub t ht q hq)
        simp [Mem.free, this]
      rw [hrun]
      rcases free_loop_spec bits fuel (kids l r ++ ts2) s2 _ hs3 hl2 hnd2 with
        ⟨m2, e, a, b, c2⟩ | ⟨e, hb⟩ | ⟨e, hf⟩
      · refine Or.inl ⟨m2, e, fun x => ?_, b, c2⟩
        rw [a x]
        have hk := kids_ptrs l r ts2 x
        by_cases hx : x = node
        · subst hx
          simp [forest_ptrs, Tree.ptrs, Mem.free]
        · have e2 : x ∈ forest_ptrs (Tree.node node c bs po l r :: ts2) ↔
              x ∈ forest_ptrs (kids l r ++ ts2) := by
            rw [hk]
            simp only [forest_ptrs, Tree.ptrs, List.mem_append, List.mem_cons]
            tauto
          by_cases hm : x ∈ forest_ptrs (kids l r ++ ts2)
          · rw [if_pos hm, if_pos (e2.2 hm)]
          · rw [if_neg hm, if_neg (fun h => hm (e2.1 h))]
            simp [Mem.free, hx]
      · exact Or.inr (Or.inl ⟨e, fun hB => hb (kids_bounded node c bs po l r ts2 hB)⟩)
      · refine Or.inr (Or.inr ⟨e, ?_⟩)
        rw [kids_size] at hf
        simp only [forest_size, Tree.size]
        omega
    · refine Or.inr (Or.inl ⟨?_, hnb node c bs po⟩)
      rcases hfail with e1 | ⟨s1, e1, e2⟩
      · simp only [root_free_rcu_loop, hread, bind, Outcome.bind, mk_node, e1]
      · simp only [root_free_rcu_loop, hread, bind, Outcome.bind, mk_node, e1, e2]

/-- Unlinking and reclaiming one trie (`free_root`): it returns with every node freed and
every node that carried a peer unlinked, or stops at the assertion of `push_rcu` when the
trie has more than 128 nodes on a path, or runs out of fuel. -/
theorem free_root_spec (bits : Nat) (fuel : Nat) (t : Tree) (m : Mem)
    (hl : Laid bits m.heap t) (hnd : t.ptrs.Nodup) :
    (∃ m2, free_root m t.ptr fuel = .ok m2 ∧
      (∀ x, m2.heap x = if x ∈ t.ptrs then none else m.heap x) ∧ m2.brk = m.brk ∧
      m2.lists = fun pe => (m.lists pe).filter (fun x => decide (x ∉ t.carriers))) ∨
    (free_root m t.ptr fuel = .assert_failed ∧ 128 < t.height) ∨
    (free_root m t.ptr fuel = .out_of_fuel ∧ fuel < t.size) := by
  cases t with
  | nil =>
    refine Or.inl ⟨m, rfl, fun x => by simp [Tree.ptrs], rfl, ?_⟩
    funext pe
    simp [Tree.carriers]
  | node p c bs po l r =>
    have hb : ¬ Bounded 128 [Tree.node p c bs po l r] →
        128 < (Tree.node p c bs po l r).height := by
      intro h
      by_contra h2
      exact h ⟨by simpa using Nat.le_of_not_lt h2, trivial⟩
    have hsz : forest_size [Tree.node p c bs po l r] = (Tree.node p c bs po l r).size := by
      simp [forest_size]
    have hfp : forest_ptrs [Tree.node p c bs po l r] = (Tree.node p c bs po l r).ptrs := by
      simp [forest_ptrs]
    have hfc : forest_carriers [Tree.node p c bs po l r] =
        (Tree.node p c bs po l r).carriers := by
      simp [forest_carriers]
    have hone : ∀ t, t ∈ [Tree.node p c bs po l r] → Laid bits m.heap t := by
      intro t ht
      rw [List.mem_singleton.1 ht]
      exact hl
    rcases remove_lists_loop_spec bits fuel [Tree.node p c bs po l r] [p] m rfl hone with
      ⟨m1, e, a, b, c2⟩ | ⟨e, hB⟩ | ⟨e, hf⟩
    · have hone1 : ∀ t, t ∈ [Tree.node p c bs po l r] → Laid bits m1.heap t := by
        intro t ht
        rw [List.mem_singleton.1 ht, a]
        exact hl
      rcases free_loop_spec bits fuel [Tree.node p c bs po l r] [p] m1 rfl hone1
        (by rw [hfp]; exact hnd) with ⟨m2, e2, a2, b2, c3⟩ | ⟨e2, hB⟩ | ⟨e2, hf⟩
      · refine Or.inl ⟨m2, ?_, fun x => ?_, by rw [b2, b], ?_⟩
        · simp only [free_root, Tree.ptr, root_remove_peer_lists, root_free_rcu, e, bind,
            Outcome.bind, e2]
        · rw [a2 x, hfp, a]
        · rw [c3, c2, hfc]
      · refine Or.inr (Or.inl ⟨?_, hb hB⟩)
        simp only [free_root, Tree.ptr, root_remove_peer_lists, root_free_rcu, e, bind,
          Outcome.bind, e2]
      · refine Or.inr (Or.inr ⟨?_, by rw [← hsz]; exact hf⟩)
        simp only [free_root, Tree.ptr, root_remove_peer_lists, root_free_rcu, e, bind,
          Outcome.bind, e2]
    · refine Or.inr (Or.inl ⟨?_, hb hB⟩)
      simp only [free_root, Tree.ptr, root_remove_peer_lists, e, bind, Outcome.bind]
    · refine Or.inr (Or.inr ⟨?_, by rw [← hsz]; exact hf⟩)
      simp only [free_root, Tree.ptr, root_remove_peer_lists, e, bind, Outcome.bind]

theorem owned_subset_carriers (pe : Nat) : ∀ (t : Tree) (x : Nat), x ∈ t.owned pe →
    x ∈ t.carriers
  | .nil, x, h => h
  | .node p c bs po l r, x, h => by
    have hl := owned_subset_carriers pe l x
    have hr := owned_subset_carriers pe r x
    simp only [Tree.owned, Tree.carriers, List.mem_append] at h ⊢
    rcases h with h | h | h
    · left
      by_cases hpo : po = some pe
      · simpa [hpo] using h
      · simp [hpo] at h
    · exact Or.inr (Or.inl (hl h))
    · exact Or.inr (Or.inr (hr h))

end WG


namespace WG

/-- The outcomes of `wg_whitelist_free` on a table with the tries `t4` and `t6`. -/
theorem table_free (table : whitelist) (m : Mem) (t4 t6 : Tree)
    (hinv : TableInv table m t4 t6) (fuel : Nat) :
    (∃ m2, wg_whitelist_free table m fuel =
        .ok ({ root4 := none, root6 := none, seq := table.seq + 1 }, m2) ∧
      (∀ x, m2.heap x = if x ∈ t4.ptrs ++ t6.ptrs then none else m.heap x) ∧
      (∀ pe, m2.lists pe = []) ∧ m2.brk = m.brk) ∨
    (wg_whitelist_free table m fuel = .assert_failed ∧ 128 < t6.height) ∨
    (wg_whitelist_free table m fuel = .out_of_fuel ∧ fuel < max t4.size t6.size) := by
  obtain ⟨h1, h2, h3⟩ := hinv
  obtain ⟨p1, p2, p3, p4, p5, p6, p7⟩ := h3
  have hnd := List.nodup_append.1 p5
  have hh4 := TInv_height 32 t4 0 _ p3
  simp only [wg_whitelist_free]
  rw [← h1, ← h2]
  rcases free_root_spec 32 fuel t4 m p1 hnd.1 with ⟨m1, e, a, b, c⟩ | ⟨_, hbad⟩ | ⟨e, hf⟩
  · have hl6 : Laid 128 m1.heap t6 := by
      refine Laid_congr 128 m.heap _ t6 (fun q hq => ?_) p2
      rw [a q, if_neg (fun h4 => hnd.2.2 h4 hq)]
    rcases free_root_spec 128 fuel t6 m1 hl6 hnd.2.1 with
      ⟨m2, e2, a2, b2, c2⟩ | ⟨e2, hbad⟩ | ⟨e2, hf⟩
    · refine Or.inl ⟨m2, by rw [e]; simp only [e2], fun x => ?_, fun pe => ?_, by rw [b2, b]⟩
      · rw [a2 x, a x]
        simp only [List.mem_append]
        by_cases x6 : x ∈ t6.ptrs
        · simp [x6]
        · simp [x6]
      · rw [c2, c]
        simp only [List.filter_filter]
        rw [List.filter_eq_nil_iff]
        intro x hx
        rcases ((p7 pe).2 x).1 hx with h | h
        · simp [owned_subset_carriers pe t4 x h]
        · simp [owned_subset_carriers pe t6 x h]
    · exact Or.inr (Or.inl ⟨by rw [e]; simp only [e2], hbad⟩)
    · exact Or.inr (Or.inr ⟨by rw [e]; simp only [e2], by omega⟩)
  · omega
  · exact Or.inr (Or.inr ⟨by rw [e], by omega⟩)

theorem size_le_fuel_cases (fuel a b : Nat) (h : max a b ≤ fuel) : ¬ fuel < max a b := by
  omega

theorem lookup_null_root (m : Mem) (bits : Nat) (q : List u8) (f : Nat) :
    lookup m none bits q f = .ok none := by
  cases f <;> rfl

/-- With enough fuel `wg_whitelist_free` returns, unless the IPv6 trie is higher than the
stack of the whole-trie walks; whenever it returns the table is empty. -/
theorem wf_free (table : whitelist) (m : Mem)
    (h : WellFormed table m) :
    (∃ N, ∀ fuel, N ≤ fuel →
      (∃ table2 m2, wg_whitelist_free table m fuel = .ok (table2, m2)) ∨
      (wg_whitelist_free table m fuel = .assert_failed ∧
        ∃ t6, t6.ptr = table.root6 ∧ Laid 128 m.heap t6 ∧ 128 < t6.height)) ∧
    ∀ fuel table2 m2, wg_whitelist_free table m fuel = .ok (table2, m2) →
      table2.root4 = none ∧ table2.root6 = none ∧
      (∀ pe, m2.lists pe = []) ∧
      (∀ x, (Reach m.heap table.root4 x ∨ Reach m.heap table.root6 x) → m2.heap x = none) := by
  obtain ⟨t4, t6, hinv⟩ := h
  have hi := hinv
  obtain ⟨h1, h2, h3⟩ := hi
  refine ⟨⟨max t4.size t6.size, fun fuel hf => ?_⟩, fun fuel table2 m2 hr => ?_⟩
  · rcases table_free table m t4 t6 hinv fuel with ⟨m2, e, _⟩ | ⟨e, hbad⟩ | ⟨_, hlt⟩
    · exact Or.inl ⟨_, m2, e⟩
    · exact Or.inr ⟨e, t6, h2, h3.2.1, hbad⟩
    · omega
  · rcases table_free table m t4 t6 hinv fuel with ⟨m3, e, a, b, _⟩ | ⟨e, _⟩ | ⟨e, _⟩
    · rw [e] at hr
      simp only [Outcome.ok.injEq, Prod.mk.injEq] at hr
      obtain ⟨rfl, rfl⟩ := hr
      refine ⟨rfl, rfl, b, fun x hx => ?_⟩
      rw [a x, if_pos]
      rw [← h1, ← h2] at hx
      rcases hx with hx | hx
      · exact List.mem_append_left _ (reach_ptrs 32 m.heap t4 h3.1 x hx)
      · exact List.mem_append_right _ (reach_ptrs 128 m.heap t6 h3.2.1 x hx)
    · rw [e] at hr; cases hr
    · rw [e] at hr; cases hr

end WG


namespace WG

/-! ## The tables that the calls reach from the empty table -/

theorem walk_null_root (m : Mem) (peer : Option Nat) (fuel : Nat) :
    walk_remove_by_peer m none peer fuel = .ok (m, none) := by
  cases peer <;> rfl

/-- On a table without nodes `wg_whitelist_remove_by_peer` returns at once: both calls of
`walk_remove_by_peer` return at line 95 and no `PUSH` is run. -/
theorem remove_null_roots (table : whitelist) (m : Mem) (h4 : table.root4 = none)
    (h6 : table.root6 = none) (peer : Option Nat) (fuel : Nat) :
    wg_whitelist_remove_by_peer table m peer fuel =
      .ok ({ root4 := none, root6 := none, seq := table.seq + 1 }, m) := by
  simp only [wg_whitelist_remove_by_peer, h4, h6, walk_null_root]

/-- On a table without nodes `wg_whitelist_free` returns at once: no walk is started and
`push_rcu` is not run. -/
theorem free_null_roots (table : whitelist) (m : Mem) (h4 : table.root4 = none)
    (h6 : table.root6 = none) (fuel : Nat) :
    wg_whitelist_free table m fuel =
      .ok ({ root4 := none, root6 := none, seq := table.seq + 1 }, m) := by
  simp only [wg_whitelist_free, h4, h6, free_root]

/-- From the empty table of `wg_whitelist_init` the calls reach no table with a node: no
insert returns 0 on a `NULL` root, and a removal leaves the `NULL` roots as they are. -/
theorem reached_empty (cs : List Call) (table : whitelist) (m : Mem)
    (h : Reached start cs table m) :
    table.root4 = none ∧ table.root6 = none ∧ (∀ c, c ∈ cs → c.inserts = false) := by
  induction h with
  | first => exact ⟨rfl, rfl, fun c hc => by simp at hc⟩
  | step cs c table table2 m m2 fuel _ htyped hrun ih =>
    obtain ⟨h4, h6, hcs⟩ := ih
    cases c with
    | insert_v4 ip cidr peer a1 a2 =>
      exfalso
      simp only [Call.run] at hrun
      by_cases hbad : 32 < cidr ∨ peer = none
      · rw [insert_v4_einval _ m ip cidr peer a1 a2 fuel hbad] at hrun
        simp [EINVAL] at hrun
      · cases peer with
        | none => exact hbad (Or.inr rfl)
        | some pr =>
          rw [insert_v4_null_root _ m h4 ip cidr (by omega) pr a1 a2 fuel] at hrun
          cases a1 <;> simp [ENOMEM] at hrun
    | insert_v6 ip cidr peer a1 a2 =>
      exfalso
      simp only [Call.run] at hrun
      by_cases hbad : 128 < cidr ∨ peer = none
      · rw [insert_v6_einval _ m ip cidr peer a1 a2 fuel hbad] at hrun
        simp [EINVAL] at hrun
      · cases peer with
        | none => exact hbad (Or.inr rfl)
        | some pr =>
          rw [insert_v6_null_root _ m h6 ip cidr (by omega) pr a1 a2 fuel] at hrun
          cases a1 <;> simp [ENOMEM] at hrun
    | remove_by_peer peer =>
      simp only [Call.run, remove_null_roots table m h4 h6 peer fuel, Outcome.ok.injEq,
        Prod.mk.injEq, true_and] at hrun
      obtain ⟨rfl, _⟩ := hrun
      refine ⟨rfl, rfl, fun c hc => ?_⟩
      rcases List.mem_append.1 hc with hc | hc
      · exact hcs c hc
      · simp only [List.mem_singleton] at hc
        subst hc
        rfl

/-! ## The stack assertions on tries of at most 128 nodes on a path -/

theorem table_remove_mono (table : whitelist) (m : Mem) (peer : Option Nat) (f : Nat)
    (h : wg_whitelist_remove_by_peer table m peer f ≠ .out_of_fuel) (d : Nat) :
    wg_whitelist_remove_by_peer table m peer (f + d) =
      wg_whitelist_remove_by_peer table m peer f := by
  simp only [wg_whitelist_remove_by_peer] at h ⊢
  have h1 : walk_remove_by_peer m table.root4 peer f ≠ .out_of_fuel := by
    intro e; rw [e] at h; exact h rfl
  rw [walk_remove_by_peer_mono m table.root4 peer f h1 d]
  cases hw : walk_remove_by_peer m table.root4 peer f with
  | ok res =>
    obtain ⟨m3, r4⟩ := res
    rw [hw] at h
    simp only at h ⊢
    have h2 : walk_remove_by_peer m3 table.root6 peer f ≠ .out_of_fuel := by
      intro e; rw [e] at h; exact h rfl
    rw [walk_remove_by_peer_mono m3 table.root6 peer f h2 d]
  | bad_access => rfl
  | assert_failed => rfl
  | out_of_fuel => rfl

/-- On a well-formed table whose IPv6 trie has at most 128 nodes on a path, the assertion of
`PUSH` never fails in `wg_whitelist_remove_by_peer`, and with enough fuel the call
returns. -/
theorem remove_never_asserts (table : whitelist) (m : Mem) (t4 t6 : Tree)
    (hinv : TableInv table m t4 t6) (hh : t6.height ≤ 128) (peer : Option Nat) :
    (∀ fuel, wg_whitelist_remove_by_peer table m peer fuel ≠ .assert_failed) ∧
    ∃ N, ∀ fuel, N ≤ fuel →
      ∃ table2 m2, wg_whitelist_remove_by_peer table m peer fuel = .ok (table2, m2) := by
  obtain ⟨N, hN⟩ := table_remove_total table m t4 t6 hinv peer
  rcases hN with ⟨tb2, m2, hok⟩ | ⟨_, hbad⟩
  · refine ⟨fun fuel e => ?_, N, fun fuel hf => ⟨tb2, m2, hok fuel hf⟩⟩
    have := table_remove_mono table m peer fuel (by rw [e]; simp) N
    rw [hok (fuel + N) (by omega), e] at this
    cases this
  · omega

/-- On a well-formed table whose IPv6 trie has at most 128 nodes on a path, the assertion of
`push_rcu` never fails in `wg_whitelist_free`, and with enough fuel the call returns. -/
theorem free_never_asserts (table : whitelist) (m : Mem) (t4 t6 : Tree)
    (hinv : TableInv table m t4 t6) (hh : t6.height ≤ 128) :
    (∀ fuel, wg_whitelist_free table m fuel ≠ .assert_failed) ∧
    ∃ N, ∀ fuel, N ≤ fuel →
      ∃ table2 m2, wg_whitelist_free table m fuel = .ok (table2, m2) := by
  refine ⟨fun fuel e => ?_, max t4.size t6.size, fun fuel hf => ?_⟩
  · rcases table_free table m t4 t6 hinv fuel with ⟨m2, e2, _⟩ | ⟨_, hbad⟩ | ⟨e2, _⟩
    · rw [e2] at e; cases e
    · omega
    · rw [e2] at e; cases e
  · rcases table_free table m t4 t6 hinv fuel with ⟨m2, e2, _⟩ | ⟨_, hbad⟩ | ⟨_, hlt⟩
    · exact ⟨_, m2, e2⟩
    · omega
    · omega

theorem nil_of_null_root (t : Tree) (h : t.ptr = none) : t = .nil := by
  cases t with
  | nil => rfl
  | node p c bs pe l r => cases h

end WG


namespace WG

/-! ## The functions with a parameter for the index are the functions of the source -/

theorem CHOOSE_NODE_with_choose_index (n : whitelist_node) (key : List u8) :
    CHOOSE_NODE_with choose_index n key = CHOOSE_NODE n key := rfl

theorem find_node_loop_with_choose_index (m : Mem) (bits : Nat) (key : List u8) :
    ∀ (fuel : Nat) (node found : Option Nat),
      find_node_loop_with choose_index m bits key fuel node found =
        find_node_loop m bits key fuel node found
  | 0, none, _ => rfl
  | 0, some _, _ => rfl
  | _ + 1, none, _ => rfl
  | fuel + 1, some p, found => by
    simp only [find_node_loop_with, find_node_loop, CHOOSE_NODE_with_choose_index]
    cases m.heap p with
    | none => rfl
    | some node =>
      simp only
      by_cases hm : prefix_matches node key bits = true
      · simp only [hm, if_true]
        by_cases hcb : node.cidr = bits
        · simp only [hcb, if_true]
        · simp only [hcb, if_false]
          cases CHOOSE_NODE node key with
          | ok next => exact find_node_loop_with_choose_index m bits key fuel next _
          | bad_access => rfl
          | assert_failed => rfl
          | out_of_fuel => rfl
      · simp only [hm, if_false]
        rfl

theorem lookup_with_choose_index (m : Mem) (root : Option Nat) (bits : Nat) (be_ip : List u8)
    (fuel : Nat) : lookup_with choose_index m root bits be_ip fuel =
      lookup m root bits be_ip fuel := by
  simp only [lookup_with, lookup, find_node, find_node_loop_with_choose_index]

theorem node_placement_loop_with_choose_index (m : Mem) (key : List u8) (cidr bits : Nat) :
    ∀ (fuel : Nat) (node parent : Option Nat),
      node_placement_loop_with choose_index m key cidr bits fuel node parent =
        node_placement_loop m key cidr bits fuel node parent
  | 0, none, _ => rfl
  | 0, some _, _ => rfl
  | _ + 1, none, _ => rfl
  | fuel + 1, some p, parent => by
    simp only [node_placement_loop_with, node_placement_loop, CHOOSE_NODE_with_choose_index]
    cases m.heap p with
    | none => rfl
    | some node =>
      simp only
      split_ifs
      · rfl
      · cases CHOOSE_NODE node key with
        | ok next => exact node_placement_loop_with_choose_index m key cidr bits fuel next _
        | bad_access => rfl
        | assert_failed => rfl
        | out_of_fuel => rfl
      · rfl

theorem add_split_with_choose_index (m : Mem) (trie : Option Nat) (bits : Nat)
    (key : List u8) (cidr newnode : Nat) (parent : Option Nat) (down : Nat) (a2 : Bool) :
    add_split_with choose_index m trie bits key cidr newnode parent down a2 =
      add_split m trie bits key cidr newnode parent down a2 := rfl

theorem add_link_with_choose_index (m : Mem) (trie : Option Nat) (bits : Nat)
    (key : List u8) (cidr newnode : Nat) (node : Option Nat) (a2 : Bool) :
    add_link_with choose_index m trie bits key cidr newnode node a2 =
      add_link m trie bits key cidr newnode node a2 := by
  cases node with
  | none => cases trie <;> rfl
  | some nd => rfl

theorem add_tail_with_choose_index (m : Mem) (trie : Option Nat) (bits : Nat)
    (key : List u8) (cidr pr : Nat) (a1 a2 : Bool) (exact : Bool) (node : Option Nat) :
    add_tail_with choose_index m trie bits key cidr pr a1 a2 exact node =
      add_tail m trie bits key cidr pr a1 a2 exact node := by
  simp only [add_tail_with, add_tail]
  cases exact
  · simp only [Bool.false_eq_true, if_false]
    cases a1
    · rfl
    · simp only [kzalloc, if_true, add_link_with_choose_index]
  · rfl

/-- With `choose_index` for the parameter, `add_with` is `add`. -/
theorem add_with_choose_index (m : Mem) (trie : Option Nat) (bits : Nat) (key : List u8)
    (cidr : Nat) (peer : Option Nat) (a1 a2 : Bool) (fuel : Nat) :
    add_with choose_index m trie bits key cidr peer a1 a2 fuel =
      add m trie bits key cidr peer a1 a2 fuel := by
  cases peer with
  | none => rfl
  | some pr =>
    simp only [add_with, add, node_placement, node_placement_loop_with_choose_index]
    split_ifs
    · rfl
    · cases node_placement_loop m key cidr bits fuel trie none with
      | ok r => exact add_tail_with_choose_index _ _ _ _ _ _ _ _ _ _
      | bad_access => rfl
      | assert_failed => rfl
      | out_of_fuel => rfl

/-! ## The check never fails on a trie -/

theorem bad_access_bind {α β : Type} (f : α → Outcome β) :
    (Outcome.bad_access >>= f) = Outcome.bad_access := rfl

theorem assert_failed_bind {α β : Type} (f : α → Outcome β) :
    (Outcome.assert_failed >>= f) = Outcome.assert_failed := rfl

theorem out_of_fuel_bind {α β : Type} (f : α → Outcome β) :
    (Outcome.out_of_fuel >>= f) = Outcome.out_of_fuel := rfl

theorem checked_eq (bits : Nat) (hb : bits = 32 ∨ bits = 128) (n : whitelist_node)
    (key : List u8) (hc : n.cidr < bits)
    (ha : n.bit_at_a = (n.cidr / 8) ^^^ ((bits / 8 - 1) % 8)) :
    choose_index_checked bits n key = choose_index n key := by
  have := bit_at_a_lt bits hb n.cidr hc
  rw [← ha] at this
  simp only [choose_index_checked, hc, this, and_self, if_true]

theorem CHOOSE_NODE_checked_eq (bits : Nat) (hb : bits = 32 ∨ bits = 128) (n : whitelist_node)
    (key : List u8) (hc : n.cidr < bits)
    (ha : n.bit_at_a = (n.cidr / 8) ^^^ ((bits / 8 - 1) % 8)) :
    CHOOSE_NODE_with (choose_index_checked bits) n key = CHOOSE_NODE n key := by
  simp only [CHOOSE_NODE_with, checked_eq bits hb n key hc ha, CHOOSE_NODE]

theorem CHOOSE_NODE_child (n : whitelist_node) (key : List u8) (next : Option Nat)
    (h : CHOOSE_NODE n key = .ok next) : next = n.bit0 ∨ next = n.bit1 := by
  unfold CHOOSE_NODE at h
  cases hc : choose_index n key with
  | ok i =>
    rw [hc] at h
    simp only [Outcome.ok.injEq] at h
    rw [← h]
    unfold whitelist_node.bit
    split_ifs
    · exact Or.inl rfl
    · exact Or.inr rfl
  | bad_access => rw [hc] at h; cases h
  | assert_failed => rw [hc] at h; cases h
  | out_of_fuel => rw [hc] at h; cases h

/-- On a trie the checked loop of `find_node` is the loop of `find_node`. -/
theorem find_node_loop_checked (bits : Nat) (hb : bits = 32 ∨ bits = 128) (m : Mem)
    (key : List u8) :
    ∀ (t : Tree) (lo : Nat) (pre : Nat → Bool) (found : Option Nat) (fuel : Nat),
      Laid bits m.heap t → TInv bits lo pre t →
      find_node_loop_with (choose_index_checked bits) m bits key fuel t.ptr found =
        find_node_loop m bits key fuel t.ptr found
  | .nil, _, _, found, fuel, _, _ => by
    cases fuel <;> rfl
  | .node p c bs pe l r, lo, pre, found, fuel, hl, hi => by
    obtain ⟨h1, h3, h4⟩ := hl
    obtain ⟨_, hc, _, _, h5, h6⟩ := hi
    cases fuel with
    | zero => rfl
    | succ fuel =>
      simp only [ptr_node, find_node_loop_with, find_node_loop, h1]
      by_cases hm : prefix_matches (mk_node bits c bs pe l.ptr r.ptr) key bits = true
      · simp only [hm, if_true]
        by_cases hcb : (mk_node bits c bs pe l.ptr r.ptr).cidr = bits
        · simp only [hcb, if_true]
        · simp only [hcb, if_false]
          have hlt : (mk_node bits c bs pe l.ptr r.ptr).cidr < bits := by
            simp only [mk_node_cidr] at hcb ⊢
            omega
          rw [CHOOSE_NODE_checked_eq bits hb _ key hlt rfl]
          cases hch : CHOOSE_NODE (mk_node bits c bs pe l.ptr r.ptr) key with
          | ok next =>
            simp only
            rcases CHOOSE_NODE_child _ key next hch with e | e
            · rw [e]
              exact find_node_loop_checked bits hb m key l _ _ _ fuel h3 h5
            · rw [e]
              exact find_node_loop_checked bits hb m key r _ _ _ fuel h4 h6
          | bad_access => rfl
          | assert_failed => rfl
          | out_of_fuel => rfl
      · simp only [hm, if_false]
        rfl

end WG


namespace WG

/-- A node as `copy_and_assign_cidr` leaves it: the byte index of the decision bit follows
from the prefix length. -/
theorem checked_set_bit (bits : Nat) (hb : bits = 32 ∨ bits = 128) (n : whitelist_node)
    (hc : n.cidr < bits) (ha : n.bit_at_a = (n.cidr / 8) ^^^ ((bits / 8 - 1) % 8))
    (i : Nat) (v : Option Nat) (key : List u8) :
    choose_index_checked bits (n.set_bit i v) key = choose_index (n.set_bit i v) key := by
  apply checked_eq bits hb
  · unfold whitelist_node.set_bit; split_ifs <;> exact hc
  · unfold whitelist_node.set_bit; split_ifs <;> exact ha

theorem checked_copy (bits : Nat) (hb : bits = 32 ∨ bits = 128) (n : whitelist_node)
    (src : List u8) (c : Nat) (hc : c < bits) (key : List u8) :
    choose_index_checked bits (copy_and_assign_cidr n src c bits) key =
      choose_index (copy_and_assign_cidr n src c bits) key :=
  checked_eq bits hb _ key hc rfl

theorem checked_copy_set_bit (bits : Nat) (hb : bits = 32 ∨ bits = 128) (n : whitelist_node)
    (src : List u8) (c : Nat) (hc : c < bits) (i : Nat) (v : Option Nat) (key : List u8) :
    choose_index_checked bits ((copy_and_assign_cidr n src c bits).set_bit i v) key =
      choose_index ((copy_and_assign_cidr n src c bits).set_bit i v) key :=
  checked_set_bit bits hb _ hc rfl i v key

/-- Lines 268-295 of `add`: every node on which `CHOOSE_NODE` is evaluated passes the
check. -/
theorem add_split_checked (m : Mem) (trie : Option Nat) (bits : Nat)
    (hb : bits = 32 ∨ bits = 128) (key : List u8) (cidr : Nat) (hcidr : cidr ≤ bits)
    (newnode down : Nat) (parent : Option Nat) (a2 : Bool) (nn dn : whitelist_node)
    (hn : m.heap newnode = some nn) (hnc : nn.cidr = cidr)
    (hna : nn.bit_at_a = (nn.cidr / 8) ^^^ ((bits / 8 - 1) % 8))
    (hd : m.heap down = some dn) (hdc : dn.cidr ≤ bits)
    (hstop : ¬ (dn.cidr ≤ cidr ∧ prefix_matches dn key bits = true))
    (hnb : newnode ≠ m.brk) (hdb : down ≠ m.brk)
    (hpar : ∀ par, parent = some par → par ≠ newnode ∧ par ≠ m.brk ∧
      ∃ pn, m.heap par = some pn ∧ pn.cidr < bits ∧
        pn.bit_at_a = (pn.cidr / 8) ^^^ ((bits / 8 - 1) % 8)) :
    add_split_with (choose_index_checked bits) m trie bits key cidr newnode parent down a2 =
      add_split m trie bits key cidr newnode parent down a2 := by
  have hcb := common_bits_le bits hb dn key
  simp only [prefix_matches, decide_eq_true_eq, ge_iff_le] at hstop
  simp only [add_split_with, add_split, Mem.read, hn, hd, ok_bind]
  by_cases hmin : nn.cidr = min cidr (common_bits dn key bits)
  · have hlt : nn.cidr < bits := by omega
    simp only [hmin, if_true]
    rw [checked_eq bits hb nn dn.bits hlt hna]
    cases choose_index nn dn.bits with
    | ok i =>
      simp only [ok_bind, Mem.update, hn]
      cases parent with
      | none => rfl
      | some par =>
        obtain ⟨hp1, hp2, pn, hp3, hp4, hp5⟩ := hpar par rfl
        simp only [store_heap, hp1, if_false, hp3, ok_bind, if_true,
          checked_eq bits hb pn _ hp4 hp5]
    | bad_access => rfl
    | assert_failed => rfl
    | out_of_fuel => rfl
  · simp only [hmin, if_false]
    have hlt : min cidr (common_bits dn key bits) < bits := by omega
    cases a2 with
    | false => rfl
    | true =>
      simp only [kzalloc, if_true, Mem.read, Mem.update, hnb, if_false, hn, ok_bind,
        store_heap, hdb, hd, checked_copy bits hb _ _ _ hlt]
      cases choose_index (copy_and_assign_cidr zero_node nn.bits
          (min cidr (common_bits dn key bits)) bits) dn.bits with
      | ok i =>
        simp only [ok_bind, hnb, if_false, hn, if_true, checked_copy_set_bit bits hb _ _ _ hlt]
        cases choose_index ((copy_and_assign_cidr zero_node nn.bits
            (min cidr (common_bits dn key bits)) bits).set_bit i (some down)) nn.bits with
        | ok j =>
          simp only [ok_bind]
          cases parent with
          | none => rfl
          | some par =>
            obtain ⟨hp1, hp2, pn, hp3, hp4, hp5⟩ := hpar par rfl
            simp only [store_heap, hp2, if_false, hp3, ok_bind, if_true,
              checked_eq bits hb pn _ hp4 hp5]
        | bad_access => rfl
        | assert_failed => rfl
        | out_of_fuel => rfl
      | bad_access => rfl
      | assert_failed => rfl
      | out_of_fuel => rfl

end WG


namespace WG

/-- Lines 258-296 of `add`: every node on which `CHOOSE_NODE` is evaluated passes the
check. -/
theorem add_link_checked (m : Mem) (trie : Option Nat) (bits : Nat)
    (hb : bits = 32 ∨ bits = 128) (key : List u8) (cidr : Nat)
    (newnode : Nat) (node : Option Nat) (a2 : Bool)
    (hdown : ∀ d, d ≠ newnode → d + 1 ≠ m.brk →
      ∀ dn, m.heap d = some dn → dn.cidr ≤ bits →
        ¬ (dn.cidr ≤ cidr ∧ prefix_matches dn key bits = true) →
        ∀ parent, (∀ par, parent = some par → par ≠ newnode ∧ par ≠ m.brk ∧
          ∃ pn, m.heap par = some pn ∧ pn.cidr < bits ∧
            pn.bit_at_a = (pn.cidr / 8) ^^^ ((bits / 8 - 1) % 8)) → d ≠ m.brk →
        add_split_with (choose_index_checked bits) m trie bits key cidr newnode parent d a2 =
          add_split m trie bits key cidr newnode parent d a2)
    (hroot : node = none → ∀ d, trie = some d → d ≠ newnode ∧ d ≠ m.brk ∧ d + 1 ≠ m.brk ∧
      ∃ dn, m.heap d = some dn ∧ dn.cidr ≤ bits ∧
        ¬ (dn.cidr ≤ cidr ∧ prefix_matches dn key bits = true))
    (hnode : ∀ nd, node = some nd → nd ≠ newnode ∧ nd ≠ m.brk ∧
      ∃ pn, m.heap nd = some pn ∧ pn.cidr < bits ∧
        pn.bit_at_a = (pn.cidr / 8) ^^^ ((bits / 8 - 1) % 8) ∧
        ∀ i d, choose_index pn key = .ok i → pn.bit i = some d →
          d ≠ newnode ∧ d ≠ m.brk ∧ d + 1 ≠ m.brk ∧
          ∃ dn, m.heap d = some dn ∧ dn.cidr ≤ bits ∧
            ¬ (dn.cidr ≤ cidr ∧ prefix_matches dn key bits = true)) :
    add_link_with (choose_index_checked bits) m trie bits key cidr newnode node a2 =
      add_link m trie bits key cidr newnode node a2 := by
  cases node with
  | none =>
    cases trie with
    | none => rfl
    | some d =>
      obtain ⟨h1, h2, h3, dn, h4, h5, h6⟩ := hroot rfl d rfl
      simp only [add_link_with, add_link]
      exact hdown d h1 h3 dn h4 h5 h6 none (fun par hp => by cases hp) h2
  | some nd =>
    obtain ⟨h1, h2, pn, h3, h4, h5, h6⟩ := hnode nd rfl
    simp only [add_link_with, add_link, Mem.read, h3, ok_bind,
      checked_eq bits hb pn key h4 h5]
    cases hci : choose_index pn key with
    | ok i =>
      simp only [ok_bind]
      cases hbit : pn.bit i with
      | none => simp only
      | some d =>
        obtain ⟨d1, d2, d3, dn, d4, d5, d6⟩ := h6 i d hci hbit
        simp only
        exact hdown d d1 d3 dn d4 d5 d6 (some nd)
          (fun par hp => by cases hp; exact ⟨h1, h2, pn, h3, h4, h5⟩) d2
    | bad_access => simp only [bad_access_bind]
    | assert_failed => simp only [assert_failed_bind]
    | out_of_fuel => simp only [out_of_fuel_bind]

theorem add_tail_with_leaf_mem (ch : whitelist_node → List u8 → Outcome Nat) (m : Mem)
    (trie : Option Nat) (bits : Nat) (key : List u8) (cidr pr : Nat) (a2 : Bool)
    (node : Option Nat) :
    add_tail_with ch m trie bits key cidr pr true a2 false node =
      add_link_with ch (leaf_mem m bits key cidr pr) trie bits key cidr m.brk node a2 := by
  simp only [add_tail_with, kzalloc, Mem.update, if_true, Bool.false_eq_true, if_false,
    ok_bind, store_heap, list_add_tail_heap]
  congr 1
  simp only [leaf_mem, Mem.store, list_add_tail, new_leaf_eq]
  congr 1
  funext q
  by_cases hq : q = m.brk <;> simp [hq]

/-- Lines 245-296 of `add` after a `node_placement` with the result `(exact, node)`: every
node on which `CHOOSE_NODE` is evaluated passes the check. -/
theorem add_tail_checked (m : Mem) (trie : Option Nat) (bits : Nat)
    (hb : bits = 32 ∨ bits = 128) (key : List u8) (cidr : Nat) (hcidr : cidr ≤ bits)
    (pr : Nat) (a1 a2 : Bool) (exact : Bool) (node : Option Nat)
    (hp : exact = false → Placed bits m key cidr trie node) :
    add_tail_with (choose_index_checked bits) m trie bits key cidr pr a1 a2 exact node =
      add_tail m trie bits key cidr pr a1 a2 exact node := by
  cases exact with
  | true =>
    simp only [add_tail_with, add_tail, if_true]
  | false =>
    obtain ⟨hroot, hnode⟩ := hp rfl
    cases a1 with
    | false =>
      simp only [add_tail_with, add_tail, Bool.false_eq_true, if_false, kzalloc]
      try rfl
    | true =>
      rw [add_tail_with_leaf_mem, add_tail_leaf_mem]
      have hheap : ∀ x, x ≠ m.brk → (leaf_mem m bits key cidr pr).heap x = m.heap x := by
        intro x hx
        show (if x = m.brk then _ else _) = _
        rw [if_neg hx]
      have hbrk : (leaf_mem m bits key cidr pr).brk = m.brk + 1 := rfl
      have hstop : ∀ d, Stopped bits m key cidr d →
          d ≠ m.brk ∧ d ≠ (leaf_mem m bits key cidr pr).brk ∧
          d + 1 ≠ (leaf_mem m bits key cidr pr).brk ∧
          ∃ dn, (leaf_mem m bits key cidr pr).heap d = some dn ∧ dn.cidr ≤ bits ∧
            ¬ (dn.cidr ≤ cidr ∧ prefix_matches dn key bits = true) := by
        rintro d ⟨d1, dn, d2, d3, d4⟩
        rw [hbrk]
        refine ⟨by omega, by omega, by omega, dn, ?_, d3, d4⟩
        rw [hheap d (by omega)]
        exact d2
      have hleaf : (leaf_mem m bits key cidr pr).heap m.brk =
          some (mk_node bits cidr (key_bits bits key) (some pr) none none) := by
        show (if m.brk = m.brk then _ else _) = _
        rw [if_pos rfl]
      have hnb : m.brk ≠ (leaf_mem m bits key cidr pr).brk := by
        rw [hbrk]; omega
      refine add_link_checked (leaf_mem m bits key cidr pr) trie bits hb key cidr m.brk
        node a2 ?_ ?_ ?_
      · intro d d1 d2 dn d3 d4 d5 parent hpar d6
        exact add_split_checked (leaf_mem m bits key cidr pr) trie bits hb key cidr hcidr
          m.brk d parent a2 (mk_node bits cidr (key_bits bits key) (some pr) none none) dn
          hleaf rfl rfl d3 d4 d5 hnb d6 hpar
      · intro hnone d hd
        exact hstop d (hroot hnone d hd)
      · intro nd hnd
        obtain ⟨n1, pn, n2, n3, n4, n5⟩ := hnode nd hnd
        rw [hbrk]
        refine ⟨by omega, by omega, pn, ?_, by omega, n4, fun i d hi hd => ?_⟩
        · rw [hheap nd (by omega)]
          exact n2
        · have := hstop d (n5 i d hi hd)
          rw [hbrk] at this
          exact this

end WG


namespace WG

theorem CHOOSE_NODE_bit (n : whitelist_node) (key : List u8) (next : Option Nat)
    (h : CHOOSE_NODE n key = .ok next) (i : Nat) (hi : choose_index n key = .ok i) :
    n.bit i = next := by
  unfold CHOOSE_NODE at h
  rw [hi] at h
  simpa using h

/-- On a trie the checked loop of `node_placement` is the loop of `node_placement`. -/
theorem node_placement_loop_checked (bits : Nat) (hb : bits = 32 ∨ bits = 128) (m : Mem)
    (key : List u8) (cidr : Nat) (hcidr : cidr ≤ bits) :
    ∀ (t : Tree) (lo : Nat) (pre : Nat → Bool) (parent : Option Nat) (fuel : Nat),
      Laid bits m.heap t → TInv bits lo pre t →
      node_placement_loop_with (choose_index_checked bits) m key cidr bits fuel t.ptr parent =
        node_placement_loop m key cidr bits fuel t.ptr parent
  | .nil, _, _, parent, fuel, _, _ => by
    cases fuel <;> rfl
  | .node p c bs pe l r, lo, pre, parent, fuel, hl, hi => by
    obtain ⟨h1, h3, h4⟩ := hl
    obtain ⟨_, hc, _, _, h5, h6⟩ := hi
    cases fuel with
    | zero => rfl
    | succ fuel =>
      simp only [ptr_node, node_placement_loop_with, node_placement_loop, h1]
      by_cases hm : (mk_node bits c bs pe l.ptr r.ptr).cidr ≤ cidr ∧
          prefix_matches (mk_node bits c bs pe l.ptr r.ptr) key bits = true
      · simp only [hm, and_self, if_true]
        by_cases hcb : (mk_node bits c bs pe l.ptr r.ptr).cidr = cidr
        · simp only [hcb, if_true]
        · simp only [hcb, if_false]
          have hlt : (mk_node bits c bs pe l.ptr r.ptr).cidr < bits := by
            have := hm.1
            omega
          rw [CHOOSE_NODE_checked_eq bits hb _ key hlt rfl]
          cases hch : CHOOSE_NODE (mk_node bits c bs pe l.ptr r.ptr) key with
          | ok next =>
            simp only
            rcases CHOOSE_NODE_child _ key next hch with e | e
            · rw [e]
              exact node_placement_loop_checked bits hb m key cidr hcidr l _ _ _ fuel h3 h5
            · rw [e]
              exact node_placement_loop_checked bits hb m key cidr hcidr r _ _ _ fuel h4 h6
          | bad_access => simp only
          | assert_failed => simp only
          | out_of_fuel => simp only
      · simp only [hm, if_false]

/-- What `node_placement` returns on a trie when it is not exact. -/
theorem node_placement_placed (bits : Nat) (m : Mem) (key : List u8) (cidr : Nat)
    (trie : Option Nat) :
    ∀ (t : Tree) (lo : Nat) (pre : Nat → Bool) (parent : Option Nat) (fuel : Nat)
      (nd : Option Nat),
      Laid bits m.heap t → TInv bits lo pre t → (∀ q, q ∈ t.ptrs → q < m.brk) →
      (parent = none → t.ptr = trie) →
      (∀ par, parent = some par → par < m.brk ∧ ∃ pn, m.heap par = some pn ∧
        pn.cidr < cidr ∧ pn.bit_at_a = (pn.cidr / 8) ^^^ ((bits / 8 - 1) % 8) ∧
        ∀ next, CHOOSE_NODE pn key = .ok next → next = t.ptr) →
      node_placement_loop m key cidr bits fuel t.ptr parent = .ok (false, nd) →
      Placed bits m key cidr trie nd
  | .nil, _, _, parent, fuel, nd, _, _, _, hroot, hpar, hr => by
    have hnd : nd = parent := by
      cases fuel <;> simp [node_placement_loop] at hr <;> exact hr.symm
    subst hnd
    refine ⟨fun hn d hd => ?_, fun par hp => ?_⟩
    · rw [← hroot hn] at hd
      cases hd
    · obtain ⟨p1, pn, p2, p3, p4, p5⟩ := hpar par hp
      refine ⟨p1, pn, p2, p3, p4, fun i d hi hd => ?_⟩
      have hcn : CHOOSE_NODE pn key = .ok (pn.bit i) := by
        unfold CHOOSE_NODE; rw [hi]
      have := p5 _ hcn
      rw [hd] at this
      cases this
  | .node p c bs pe l r, lo, pre, parent, fuel, nd, hl, hi, hlt, hroot, hpar, hr => by
    have hl0 := hl
    obtain ⟨h1, h3, h4⟩ := hl
    obtain ⟨_, hc, _, _, h5, h6⟩ := hi
    have hstopped : ¬ ((mk_node bits c bs pe l.ptr r.ptr).cidr ≤ cidr ∧
        prefix_matches (mk_node bits c bs pe l.ptr r.ptr) key bits = true) →
        Stopped bits m key cidr p := fun hm =>
      ⟨hlt p (by simp [Tree.ptrs]), _, h1, hc, hm⟩
    cases fuel with
    | zero => simp [node_placement_loop] at hr
    | succ fuel =>
      simp only [ptr_node, node_placement_loop, h1] at hr
      by_cases hm : (mk_node bits c bs pe l.ptr r.ptr).cidr ≤ cidr ∧
          prefix_matches (mk_node bits c bs pe l.ptr r.ptr) key bits = true
      · simp only [hm, and_self, if_true] at hr
        by_cases hcb : (mk_node bits c bs pe l.ptr r.ptr).cidr = cidr
        · rw [if_pos hcb] at hr
          cases hr
        · rw [if_neg hcb] at hr
          have hlt2 : (mk_node bits c bs pe l.ptr r.ptr).cidr < cidr := by
            have := hm.1
            omega
          cases hch : CHOOSE_NODE (mk_node bits c bs pe l.ptr r.ptr) key with
          | ok next =>
            rw [hch] at hr
            simp only at hr
            have hpar2 : ∀ (sub : Tree), next = sub.ptr → ∀ par, some p = some par →
                par < m.brk ∧ ∃ pn, m.heap par = some pn ∧
                pn.cidr < cidr ∧ pn.bit_at_a = (pn.cidr / 8) ^^^ ((bits / 8 - 1) % 8) ∧
                ∀ next, CHOOSE_NODE pn key = .ok next → next = sub.ptr := by
              intro sub hs par hp
              cases hp
              refine ⟨hlt p (by simp [Tree.ptrs]), _, h1, hlt2, rfl, fun nx hnx => ?_⟩
              rw [hch] at hnx
              cases hnx
              exact hs
            rcases CHOOSE_NODE_child _ key next hch with e | e
            · have e2 : next = l.ptr := e
              rw [e2] at hr
              exact node_placement_placed bits m key cidr trie l _ _ (some p) fuel nd h3 h5
                (fun q hq => hlt q (by simp [Tree.ptrs, hq])) (fun h => by cases h)
                (hpar2 l e2) hr
            · have e2 : next = r.ptr := e
              rw [e2] at hr
              exact node_placement_placed bits m key cidr trie r _ _ (some p) fuel nd h4 h6
                (fun q hq => hlt q (by simp [Tree.ptrs, hq])) (fun h => by cases h)
                (hpar2 r e2) hr
          | bad_access => rw [hch] at hr; cases hr
          | assert_failed => rw [hch] at hr; cases hr
          | out_of_fuel => rw [hch] at hr; cases hr
      · simp only [hm, if_false, Outcome.ok.injEq, Prod.mk.injEq, true_and] at hr
        subst hr
        refine ⟨fun hn d hd => ?_, fun par hp => ?_⟩
        · rw [← hroot hn] at hd
          cases hd
          exact hstopped hm
        · obtain ⟨p1, pn, p2, p3, p4, p5⟩ := hpar par hp
          refine ⟨p1, pn, p2, p3, p4, fun i d hi hd => ?_⟩
          have hcn : CHOOSE_NODE pn key = .ok (pn.bit i) := by
            unfold CHOOSE_NODE; rw [hi]
          have := p5 _ hcn
          rw [hd] at this
          cases this
          exact hstopped hm

/-- On a trie every evaluation of `CHOOSE_NODE` in `add` passes the check. -/
theorem add_checked (bits : Nat) (hb : bits = 32 ∨ bits = 128) (m : Mem) (key : List u8)
    (cidr : Nat) (peer : Option Nat) (a1 a2 : Bool) (fuel : Nat) (t : Tree)
    (lo : Nat) (pre : Nat → Bool) (hl : Laid bits m.heap t) (hi : TInv bits lo pre t)
    (hlt : ∀ q, q ∈ t.ptrs → q < m.brk) :
    add_with (choose_index_checked bits) m t.ptr bits key cidr peer a1 a2 fuel =
      add m t.ptr bits key cidr peer a1 a2 fuel := by
  cases peer with
  | none => rfl
  | some pr =>
    by_cases hc : cidr > bits
    · simp only [add_with, add, hc, if_true]
    · have hcidr : cidr ≤ bits := by omega
      cases t with
      | nil =>
        have h1 : node_placement_loop_with (choose_index_checked bits) m key cidr bits fuel
            none none = .ok (false, none) := by cases fuel <;> rfl
        have h2 : node_placement m none key cidr bits fuel = .ok (false, none) := by
          cases fuel <;> rfl
        simp only [add_with, add, hc, if_false, ptr_nil, h1, h2]
        exact add_tail_checked m none bits hb key cidr hcidr pr a1 a2 false none
          (fun _ => ⟨fun _ d hd => (by cases hd), fun nd h => (by cases h)⟩)
      | node p c bs pe l r =>
        have hnp := node_placement_loop_checked bits hb m key cidr hcidr
          (.node p c bs pe l r) lo pre none fuel hl hi
        simp only [ptr_node] at hnp
        simp only [add_with, add, hc, if_false, ptr_node, node_placement, hnp]
        cases hr : node_placement_loop m key cidr bits fuel (some p) none with
        | ok res =>
          obtain ⟨ex, nd⟩ := res
          simp only
          apply add_tail_checked m (some p) bits hb key cidr hcidr pr a1 a2 ex nd
          intro hex
          subst hex
          exact node_placement_placed bits m key cidr (some p) (.node p c bs pe l r) lo pre
            none fuel nd hl hi hlt (fun _ => rfl) (fun par hp => by cases hp) hr
        | bad_access => simp only
        | assert_failed => simp only
        | out_of_fuel => simp only

/-- On a trie every evaluation of `CHOOSE_NODE` in `lookup` passes the check. -/
theorem lookup_checked (bits : Nat) (hb : bits = 32 ∨ bits = 128) (m : Mem) (q : List u8)
    (fuel : Nat) (t : Tree) (lo : Nat) (pre : Nat → Bool) (hl : Laid bits m.heap t)
    (hi : TInv bits lo pre t) :
    lookup_with (choose_index_checked bits) m t.ptr bits q fuel = lookup m t.ptr bits q fuel := by
  simp only [lookup_with, lookup, find_node,
    find_node_loop_checked bits hb m _ t lo pre none fuel hl hi]

end WG


namespace WG

/-! ## `add` is its prepared call followed by one store -/

theorem outcome_bind_assoc {α β γ : Type} (x : Outcome α) (f : α → Outcome β)
    (g : β → Outcome γ) : ((x >>= f) >>= g) = (x >>= fun a => f a >>= g) := by
  cases x <;> rfl

theorem finish_bind {α : Type} (trie : Option Nat) (x : Outcome α)
    (f : α → Outcome (Nat × Mem × Option Store)) :
    finish trie (x >>= f) = (x >>= fun a => finish trie (f a)) := by
  cases x <;> rfl

theorem finish_ite (trie : Option Nat) (c : Prop) [Decidable c]
    (a b : Outcome (Nat × Mem × Option Store)) :
    finish trie (if c then a else b) = if c then finish trie a else finish trie b := by
  split_ifs <;> rfl

theorem finish_none (trie : Option Nat) (r : Nat) (m : Mem) :
    finish trie (.ok (r, m, none)) = .ok (r, m, trie) := rfl

theorem finish_root (trie : Option Nat) (r : Nat) (m : Mem) (v : Option Nat) :
    finish trie (.ok (r, m, some (.root v))) = .ok (r, m, v) := rfl

theorem finish_child (trie : Option Nat) (r : Nat) (m : Mem) (x i : Nat) (v : Option Nat) :
    finish trie (.ok (r, m, some (.child x i v))) =
      (m.update x (fun n => n.set_bit i v) >>= fun m2 => .ok (r, m2, trie)) := by
  simp only [finish, publish, ok_bind]
  cases m.update x (fun n => n.set_bit i v) <;> rfl

theorem finish_peer (trie : Option Nat) (r : Nat) (m : Mem) (x pr : Nat) :
    finish trie (.ok (r, m, some (.peer x pr))) =
      (m.update x (fun n => { n with peer := some pr }) >>= fun m2 =>
        .ok (r, list_move_tail m2 x pr, trie)) := by
  simp only [finish, publish, ok_bind]
  cases m.update x (fun n => { n with peer := some pr }) <;> rfl

theorem finish_bad_access (trie : Option Nat) : finish trie .bad_access = .bad_access := rfl

theorem finish_assert_failed (trie : Option Nat) :
    finish trie .assert_failed = .assert_failed := rfl

theorem finish_out_of_fuel (trie : Option Nat) : finish trie .out_of_fuel = .out_of_fuel := rfl

/-- Lines 268-295 of `add` are the prepared lines 268-295 followed by their store. -/
theorem add_split_finish (m : Mem) (trie : Option Nat) (bits : Nat) (key : List u8)
    (cidr newnode : Nat) (parent : Option Nat) (down : Nat) (a2 : Bool) :
    add_split m trie bits key cidr newnode parent down a2 =
      finish trie (add_split_prepare m bits key cidr newnode parent down a2) := by
  cases parent <;> cases a2 <;>
    simp only [add_split, add_split_prepare, finish_bind, finish_ite, finish_none, finish_root,
      finish_child, kzalloc, if_true, Bool.false_eq_true, if_false]

/-- Lines 258-296 of `add` are the prepared lines followed by their store. -/
theorem add_link_finish (m : Mem) (trie : Option Nat) (bits : Nat) (key : List u8)
    (cidr newnode : Nat) (node : Option Nat) (a2 : Bool) :
    add_link m trie bits key cidr newnode node a2 =
      finish trie (add_link_prepare m trie bits key cidr newnode node a2) := by
  cases node with
  | none =>
    cases trie with
    | none => rfl
    | some d => exact add_split_finish m (some d) bits key cidr newnode none d a2
  | some nd =>
    simp only [add_link, add_link_prepare, finish_bind]
    congr 1
    funext n
    congr 1
    funext i
    cases n.bit i with
    | none => simp only [finish_child]
    | some d => exact add_split_finish m trie bits key cidr newnode (some nd) d a2

/-- Lines 245-296 of `add` are the prepared lines followed by their store. -/
theorem add_tail_finish (m : Mem) (trie : Option Nat) (bits : Nat) (key : List u8)
    (cidr pr : Nat) (a1 a2 : Bool) (exact : Bool) (node : Option Nat) :
    add_tail m trie bits key cidr pr a1 a2 exact node =
      finish trie (add_tail_prepare m trie bits key cidr pr a1 a2 exact node) := by
  cases exact with
  | true =>
    cases node with
    | none => rfl
    | some nd => simp only [add_tail, add_tail_prepare, if_true, finish_peer]
  | false =>
    cases a1 with
    | false =>
      simp only [add_tail, add_tail_prepare, Bool.false_eq_true, if_false, kzalloc, finish_none]
    | true =>
      simp only [add_tail, add_tail_prepare, Bool.false_eq_true, if_false, kzalloc, if_true,
        finish_bind, add_link_finish]

/-- The function `add` is the prepared call followed by the one store that is left. -/
theorem add_finish (m : Mem) (trie : Option Nat) (bits : Nat) (key : List u8) (cidr : Nat)
    (peer : Option Nat) (a1 a2 : Bool) (fuel : Nat) :
    add m trie bits key cidr peer a1 a2 fuel =
      finish trie (add_prepare m trie bits key cidr peer a1 a2 fuel) := by
  cases peer with
  | none => rfl
  | some pr =>
    by_cases hc : cidr > bits
    · simp only [add, add_prepare, hc, if_true, finish_none]
    · simp only [add, add_prepare, hc, if_false]
      cases node_placement m trie key cidr bits fuel with
      | ok res => exact add_tail_finish m trie bits key cidr pr a1 a2 res.1 res.2
      | bad_access => rfl
      | assert_failed => rfl
      | out_of_fuel => rfl

end WG


namespace WG

/-! ## What the prepared call writes -/

theorem bind_ok {α β : Type} {x : Outcome α} {f : α → Outcome β} {b : β}
    (h : (x >>= f) = .ok b) : ∃ a, x = .ok a ∧ f a = .ok b := by
  cases x with
  | ok a => exact ⟨a, rfl, h⟩
  | bad_access => cases h
  | assert_failed => cases h
  | out_of_fuel => cases h

theorem read_ok {m : Mem} {p : Nat} {n : whitelist_node} (h : m.read p = .ok n) :
    m.heap p = some n := by
  unfold Mem.read at h
  cases hp : m.heap p with
  | none => rw [hp] at h; cases h
  | some n2 => rw [hp] at h; cases h; rfl

theorem update_ok {m m2 : Mem} {p : Nat} {f : whitelist_node → whitelist_node}
    (h : m.update p f = .ok m2) : ∃ n, m.heap p = some n ∧ m2 = m.store p (f n) := by
  unfold Mem.update at h
  cases hp : m.heap p with
  | none => rw [hp] at h; cases h
  | some n => rw [hp] at h; cases h; exact ⟨n, rfl, rfl⟩

/-- The prepared lines 268-295 write the new leaf and the new branch node only, and leave a
store of one of the two into the root or into a child slot of `parent`. -/
theorem add_split_prepare_spec (m : Mem) (bits : Nat) (key : List u8)
    (cidr newnode : Nat) (parent : Option Nat) (down : Nat) (a2 : Bool)
    (r : Nat) (m1 : Mem) (st : Option Store)
    (h : add_split_prepare m bits key cidr newnode parent down a2 = .ok (r, m1, st)) :
    (∀ x, x ≠ newnode → x ≠ m.brk → m1.heap x = m.heap x) ∧
    (r = 0 ∨ (r = ENOMEM ∧ st = none)) ∧
    (r = 0 → ∃ y, (y = newnode ∨ y = m.brk) ∧
      (parent = none → st = some (.root (some y))) ∧
      (∀ par, parent = some par → ∃ j, st = some (.child par j (some y)))) := by
  unfold add_split_prepare at h
  obtain ⟨dn, -, h⟩ := bind_ok h
  obtain ⟨nn, -, h⟩ := bind_ok h
  simp only at h
  split_ifs at h with hmin
  · obtain ⟨i, -, h⟩ := bind_ok h
    obtain ⟨ma, hu, h⟩ := bind_ok h
    obtain ⟨n0, -, rfl⟩ := update_ok hu
    have hframe : ∀ x, x ≠ newnode → x ≠ m.brk →
        (m.store newnode (n0.set_bit i (some down))).heap x = m.heap x := by
      intro x hx _
      simp [hx]
    cases parent with
    | none =>
      simp only [Outcome.ok.injEq, Prod.mk.injEq] at h
      obtain ⟨rfl, rfl, rfl⟩ := h
      exact ⟨hframe, Or.inl rfl, fun _ => ⟨newnode, Or.inl rfl, fun _ => rfl,
        (fun par hp => by cases hp)⟩⟩
    | some par =>
      simp only at h
      obtain ⟨pn, -, h⟩ := bind_ok h
      obtain ⟨nn2, -, h⟩ := bind_ok h
      obtain ⟨j, -, h⟩ := bind_ok h
      simp only [Outcome.ok.injEq, Prod.mk.injEq] at h
      obtain ⟨rfl, rfl, rfl⟩ := h
      exact ⟨hframe, Or.inl rfl, fun _ => ⟨newnode, Or.inl rfl, (fun hp => by cases hp),
        (fun par2 hp => by cases hp; exact ⟨j, rfl⟩)⟩⟩
  · cases a2 with
    | false =>
      simp only [kzalloc, Bool.false_eq_true, if_false, Outcome.ok.injEq, Prod.mk.injEq] at h
      obtain ⟨rfl, rfl, rfl⟩ := h
      refine ⟨fun x hx _ => ?_, Or.inr ⟨rfl, rfl⟩, fun h0 => by cases h0⟩
      simp [Mem.free, hx]
    | true =>
      simp only [kzalloc, if_true] at h
      obtain ⟨nn2, -, h⟩ := bind_ok h
      obtain ⟨mb, hu1, h⟩ := bind_ok h
      obtain ⟨n1, -, rfl⟩ := update_ok hu1
      obtain ⟨bn, -, h⟩ := bind_ok h
      obtain ⟨dn2, -, h⟩ := bind_ok h
      obtain ⟨i, -, h⟩ := bind_ok h
      obtain ⟨mc, hu2, h⟩ := bind_ok h
      obtain ⟨n2, -, rfl⟩ := update_ok hu2
      obtain ⟨bn2, -, h⟩ := bind_ok h
      obtain ⟨nn3, -, h⟩ := bind_ok h
      obtain ⟨j, -, h⟩ := bind_ok h
      obtain ⟨md, hu3, h⟩ := bind_ok h
      obtain ⟨n3, -, rfl⟩ := update_ok hu3
      have hframe : ∀ x, x ≠ newnode → x ≠ m.brk →
          (Mem.store (Mem.store (Mem.store
            { heap := fun q => if q = m.brk then some zero_node else m.heap q,
              brk := m.brk + 1, lists := m.lists } m.brk
            (copy_and_assign_cidr n1 nn2.bits (min cidr (common_bits dn key bits)) bits))
            m.brk (n2.set_bit i (some down))) m.brk (n3.set_bit j (some newnode))).heap x =
            m.heap x := by
        intro x _ hx
        simp [hx]
      cases parent with
      | none =>
        simp only [Outcome.ok.injEq, Prod.mk.injEq] at h
        obtain ⟨rfl, rfl, rfl⟩ := h
        exact ⟨hframe, Or.inl rfl, fun _ => ⟨m.brk, Or.inr rfl, fun _ => rfl,
          (fun par hp => by cases hp)⟩⟩
      | some par =>
        simp only at h
        obtain ⟨pn, -, h⟩ := bind_ok h
        obtain ⟨bn3, -, h⟩ := bind_ok h
        obtain ⟨k, -, h⟩ := bind_ok h
        simp only [Outcome.ok.injEq, Prod.mk.injEq] at h
        obtain ⟨rfl, rfl, rfl⟩ := h
        exact ⟨hframe, Or.inl rfl, fun _ => ⟨m.brk, Or.inr rfl, (fun hp => by cases hp),
          (fun par2 hp => by cases hp; exact ⟨k, rfl⟩)⟩⟩

end WG


namespace WG

/-- The prepared lines 258-296 write the new leaf and the new branch node only, and leave a
store of one of the two into the root or into a child slot of `node`. -/
theorem add_link_prepare_spec (m : Mem) (trie : Option Nat) (bits : Nat) (key : List u8)
    (cidr newnode : Nat) (node : Option Nat) (a2 : Bool)
    (r : Nat) (m1 : Mem) (st : Option Store)
    (h : add_link_prepare m trie bits key cidr newnode node a2 = .ok (r, m1, st)) :
    (∀ x, x ≠ newnode → x ≠ m.brk → m1.heap x = m.heap x) ∧
    (r = 0 ∨ (r = ENOMEM ∧ st = none)) ∧
    (r = 0 → ∃ y, (y = newnode ∨ y = m.brk) ∧
      (node = none → st = some (.root (some y))) ∧
      (∀ nd, node = some nd → ∃ j, st = some (.child nd j (some y)))) := by
  cases node with
  | none =>
    cases trie with
    | none => cases h
    | some d => exact add_split_prepare_spec m bits key cidr newnode none d a2 r m1 st h
  | some nd =>
    simp only [add_link_prepare] at h
    obtain ⟨n, -, h⟩ := bind_ok h
    obtain ⟨i, -, h⟩ := bind_ok h
    cases hbit : n.bit i with
    | none =>
      rw [hbit] at h
      simp only [Outcome.ok.injEq, Prod.mk.injEq] at h
      obtain ⟨rfl, rfl, rfl⟩ := h
      exact ⟨fun _ _ _ => rfl, Or.inl rfl, fun _ => ⟨newnode, Or.inl rfl,
        (fun hp => by cases hp), (fun nd2 hp => by cases hp; exact ⟨i, rfl⟩)⟩⟩
    | some d =>
      rw [hbit] at h
      exact add_split_prepare_spec m bits key cidr newnode (some nd) d a2 r m1 st h

/-- The prepared lines 245-296 write no node that was there before the call; what they leave
is the store of the peer into the node of the prefix, or the store of a new node into the root
or into a child slot of `node`. -/
theorem add_tail_prepare_spec (m : Mem) (trie : Option Nat) (bits : Nat) (key : List u8)
    (cidr pr : Nat) (a1 a2 : Bool) (exact : Bool) (node : Option Nat)
    (r : Nat) (m1 : Mem) (st : Option Store)
    (h : add_tail_prepare m trie bits key cidr pr a1 a2 exact node = .ok (r, m1, st)) :
    (∀ x, x < m.brk → m1.heap x = m.heap x) ∧
    (r = 0 ∨ (r = ENOMEM ∧ st = none)) ∧
    (r = 0 → (exact = true ∧ ∃ nd, node = some nd ∧ st = some (.peer nd pr)) ∨
      (exact = false ∧ ∃ y, m.brk ≤ y ∧
        (node = none → st = some (.root (some y))) ∧
        (∀ nd, node = some nd → ∃ j, st = some (.child nd j (some y))))) := by
  cases exact with
  | true =>
    cases node with
    | none => cases h
    | some nd =>
      simp only [add_tail_prepare, if_true, Outcome.ok.injEq, Prod.mk.injEq] at h
      obtain ⟨rfl, rfl, rfl⟩ := h
      exact ⟨fun _ _ => rfl, Or.inl rfl, fun _ => Or.inl ⟨rfl, nd, rfl, rfl⟩⟩
  | false =>
    cases a1 with
    | false =>
      simp only [add_tail_prepare, Bool.false_eq_true, if_false, kzalloc, Outcome.ok.injEq,
        Prod.mk.injEq] at h
      obtain ⟨rfl, rfl, rfl⟩ := h
      exact ⟨fun _ _ => rfl, Or.inr ⟨rfl, rfl⟩, fun h0 => by cases h0⟩
    | true =>
      simp only [add_tail_prepare, Bool.false_eq_true, if_false, kzalloc, if_true] at h
      obtain ⟨ma, hu1, h⟩ := bind_ok h
      obtain ⟨n1, -, rfl⟩ := update_ok hu1
      obtain ⟨mb, hu2, h⟩ := bind_ok h
      obtain ⟨n2, -, rfl⟩ := update_ok hu2
      obtain ⟨f1, f2, f3⟩ := add_link_prepare_spec _ trie bits key cidr m.brk node a2 r m1 st h
      refine ⟨fun x hx => ?_, f2, fun h0 => Or.inr ⟨rfl, ?_⟩⟩
      · rw [f1 x (by omega) (by simp; omega)]
        simp [show x ≠ m.brk by omega]
      · obtain ⟨y, hy, g1, g2⟩ := f3 h0
        refine ⟨y, ?_, g1, g2⟩
        rcases hy with rfl | rfl
        · exact Nat.le_refl _
        · simp

/-- The prepared call of `add` writes no node that was there before the call.  When it
returns 0 it leaves one store: of a new node into the root or into a child slot of the node
found by `node_placement`, or of the peer into the node of the prefix. -/
theorem add_prepare_spec (m : Mem) (trie : Option Nat) (bits : Nat) (key : List u8)
    (cidr : Nat) (peer : Option Nat) (a1 a2 : Bool) (fuel : Nat)
    (r : Nat) (m1 : Mem) (st : Option Store)
    (h : add_prepare m trie bits key cidr peer a1 a2 fuel = .ok (r, m1, st)) :
    (∀ x, x < m.brk → m1.heap x = m.heap x) ∧
    (r = 0 → ∃ pr exact node, peer = some pr ∧
      node_placement_loop m key cidr bits fuel trie none = .ok (exact, node) ∧
      ((exact = true ∧ ∃ nd, node = some nd ∧ st = some (.peer nd pr)) ∨
        (exact = false ∧ ∃ y, m.brk ≤ y ∧
          (node = none → st = some (.root (some y))) ∧
          (∀ nd, node = some nd → ∃ j, st = some (.child nd j (some y)))))) := by
  cases peer with
  | none =>
    simp only [add_prepare, Outcome.ok.injEq, Prod.mk.injEq] at h
    obtain ⟨rfl, rfl, rfl⟩ := h
    exact ⟨fun _ _ => rfl, fun h0 => by cases h0⟩
  | some pr =>
    by_cases hc : cidr > bits
    · simp only [add_prepare, hc, if_true, Outcome.ok.injEq, Prod.mk.injEq] at h
      obtain ⟨rfl, rfl, rfl⟩ := h
      exact ⟨fun _ _ => rfl, fun h0 => by cases h0⟩
    · simp only [add_prepare, hc, if_false, node_placement] at h
      cases hnp : node_placement_loop m key cidr bits fuel trie none with
      | ok res =>
        obtain ⟨ex, nd⟩ := res
        rw [hnp] at h
        obtain ⟨f1, _, f3⟩ := add_tail_prepare_spec m trie bits key cidr pr a1 a2 ex nd
          r m1 st h
        exact ⟨f1, fun h0 => ⟨pr, ex, nd, rfl, rfl, f3 h0⟩⟩
      | bad_access => rw [hnp] at h; cases h
      | assert_failed => rw [hnp] at h; cases h
      | out_of_fuel => rw [hnp] at h; cases h

end WG


namespace WG

/-- The node returned by `node_placement` is a node of the trie. -/
theorem node_placement_mem (bits : Nat) (m : Mem) (key : List u8) (cidr : Nat) :
    ∀ (t : Tree) (parent : Option Nat) (fuel : Nat) (ex : Bool) (nd : Nat),
      Laid bits m.heap t →
      node_placement_loop m key cidr bits fuel t.ptr parent = .ok (ex, some nd) →
      nd ∈ t.ptrs ∨ parent = some nd
  | .nil, parent, fuel, ex, nd, _, hr => by
    cases fuel <;> simp [node_placement_loop] at hr <;> exact Or.inr hr.2
  | .node p c bs pe l r, parent, fuel, ex, nd, hl, hr => by
    obtain ⟨h1, h3, h4⟩ := hl
    cases fuel with
    | zero => simp [node_placement_loop] at hr
    | succ fuel =>
      simp only [ptr_node, node_placement_loop, h1] at hr
      by_cases hm : (mk_node bits c bs pe l.ptr r.ptr).cidr ≤ cidr ∧
          prefix_matches (mk_node bits c bs pe l.ptr r.ptr) key bits = true
      · simp only [hm, and_self, if_true] at hr
        by_cases hcb : (mk_node bits c bs pe l.ptr r.ptr).cidr = cidr
        · rw [if_pos hcb] at hr
          simp only [Outcome.ok.injEq, Prod.mk.injEq, Option.some.injEq] at hr
          left
          rw [← hr.2]
          simp [Tree.ptrs]
        · rw [if_neg hcb] at hr
          cases hch : CHOOSE_NODE (mk_node bits c bs pe l.ptr r.ptr) key with
          | ok next =>
            rw [hch] at hr
            simp only at hr
            rcases CHOOSE_NODE_child _ key next hch with e | e
            · have e2 : next = l.ptr := e
              rw [e2] at hr
              rcases node_placement_mem bits m key cidr l (some p) fuel ex nd h3 hr with h | h
              · left; simp [Tree.ptrs, h]
              · left; cases h; simp [Tree.ptrs]
            · have e2 : next = r.ptr := e
              rw [e2] at hr
              rcases node_placement_mem bits m key cidr r (some p) fuel ex nd h4 hr with h | h
              · left; simp [Tree.ptrs, h]
              · left; cases h; simp [Tree.ptrs]
          | bad_access => rw [hch] at hr; cases hr
          | assert_failed => rw [hch] at hr; cases hr
          | out_of_fuel => rw [hch] at hr; cases hr
      · simp only [hm, if_false, Outcome.ok.injEq, Prod.mk.injEq] at hr
        exact Or.inr hr.2

theorem finish_ok {trie : Option Nat} {x : Outcome (Nat × Mem × Option Store)} {r : Nat}
    {m2 : Mem} {trie2 : Option Nat} (h : finish trie x = .ok (r, m2, trie2)) :
    ∃ m1 st, x = .ok (r, m1, st) ∧ publish m1 trie st = .ok (m2, trie2) := by
  unfold finish at h
  obtain ⟨⟨r1, m1, st⟩, h1, h⟩ := bind_ok h
  simp only at h
  obtain ⟨⟨m3, t3⟩, h2, h⟩ := bind_ok h
  simp only [Outcome.ok.injEq, Prod.mk.injEq] at h
  obtain ⟨rfl, rfl, rfl⟩ := h
  exact ⟨m1, st, h1, h2⟩

theorem bit_lt_brk (bits : Nat) (m : Mem) (t : Tree) (hl : Laid bits m.heap t)
    (hlt : ∀ q, q ∈ t.ptrs → q < m.brk) (x : Nat) (hx : x ∈ t.ptrs) (n : whitelist_node)
    (hn : m.heap x = some n) (i y : Nat) (hy : m.brk ≤ y) : n.bit i ≠ some y := by
  obtain ⟨n2, e, a, b⟩ := laid_children bits m.heap t hl x hx
  rw [hn] at e
  cases e
  intro hb
  unfold whitelist_node.bit at hb
  split_ifs at hb
  · have := hlt y (a y hb); omega
  · have := hlt y (b y hb); omega

/-- A call of `add` on a trie that returns 0 is published by a single store. -/
theorem add_published (bits : Nat) (m : Mem) (key : List u8) (cidr : Nat)
    (peer : Option Nat) (a1 a2 : Bool) (fuel : Nat) (t : Tree) (hl : Laid bits m.heap t)
    (hlt : ∀ q, q ∈ t.ptrs → q < m.brk) (m2 : Mem) (trie2 : Option Nat)
    (h : add m t.ptr bits key cidr peer a1 a2 fuel = .ok (0, m2, trie2)) :
    ∃ m1 st, add_prepare m t.ptr bits key cidr peer a1 a2 fuel = .ok (0, m1, some st) ∧
      Published m t.ptr m1 st m2 trie2 := by
  rw [add_finish] at h
  obtain ⟨m1, st, hprep, hpub⟩ := finish_ok h
  obtain ⟨hframe, hshape⟩ := add_prepare_spec m t.ptr bits key cidr peer a1 a2 fuel 0 m1 st
    hprep
  obtain ⟨pr, ex, node, -, hnp, hex⟩ := hshape rfl
  have hrootne : ∀ y, m.brk ≤ y → some y ≠ t.ptr := by
    intro y hy e
    have := hlt y (ptr_mem_ptrs t y e.symm)
    omega
  have hroot : ∀ y, m.brk ≤ y → st = some (.root (some y)) →
      ∃ m1 st, add_prepare m t.ptr bits key cidr peer a1 a2 fuel = .ok (0, m1, some st) ∧
        Published m t.ptr m1 st m2 trie2 := by
    intro y hy hst
    subst hst
    simp only [publish, Outcome.ok.injEq, Prod.mk.injEq] at hpub
    obtain ⟨rfl, rfl⟩ := hpub
    exact ⟨m1, _, hprep, hframe, rfl, fun _ _ => rfl, fun x hx _ => hframe x hx, rfl,
      hrootne y hy⟩
  · rcases hex with ⟨-, nd, rfl, hst⟩ | ⟨-, y, hy, hnone, hsome⟩
    · subst hst
      have hmem : nd ∈ t.ptrs := by
        rcases node_placement_mem bits m key cidr t none fuel ex nd hl hnp with h | h
        · exact h
        · cases h
      have hnd := hlt nd hmem
      simp only [publish] at hpub
      obtain ⟨m3, hu, hpub⟩ := bind_ok hpub
      obtain ⟨n, hn, rfl⟩ := update_ok hu
      simp only [Outcome.ok.injEq, Prod.mk.injEq] at hpub
      obtain ⟨rfl, rfl⟩ := hpub
      rw [hframe nd hnd] at hn
      refine ⟨m1, _, hprep, hframe, ?_, fun x hx => ?_, fun x hx hne => ?_, rfl, hnd,
        ptrs_reach bits m.heap t hl nd hmem, n, hn, ?_⟩
      · simp only [publish, hu, ok_bind]
      · simp [show x ≠ nd by omega]
      · have : x ≠ nd := fun e => hne (by rw [e]; rfl)
        simp [this, hframe x hx]
      · simp
    · cases node with
      | none => exact hroot y hy (hnone rfl)
      | some nd =>
        obtain ⟨j, hst⟩ := hsome nd rfl
        subst hst
        have hmem : nd ∈ t.ptrs := by
          rcases node_placement_mem bits m key cidr t none fuel ex nd hl hnp with h | h
          · exact h
          · cases h
        have hnd := hlt nd hmem
        simp only [publish] at hpub
        obtain ⟨m3, hu, hpub⟩ := bind_ok hpub
        obtain ⟨n, hn, rfl⟩ := update_ok hu
        simp only [Outcome.ok.injEq, Prod.mk.injEq] at hpub
        obtain ⟨rfl, rfl⟩ := hpub
        rw [hframe nd hnd] at hn
        refine ⟨m1, _, hprep, hframe, ?_, fun x hx => ?_, fun x hx hne => ?_, rfl, hnd,
          ptrs_reach bits m.heap t hl nd hmem, n, hn,
          bit_lt_brk bits m t hl hlt nd hmem n hn j y hy, ?_⟩
        · simp only [publish, hu, ok_bind]
        · simp [show x ≠ nd by omega]
        · have : x ≠ nd := fun e => hne (by rw [e]; rfl)
          simp [this, hframe x hx]
        · simp

end WG


namespace WG

/-- An IPv4 insert that returns 0 is published by a single store. -/
theorem insert_v4_published (table : whitelist) (m : Mem)
    (h : WellFormed table m) (ip : List u8) (cidr : Nat) (peer : Option Nat) (a1 a2 : Bool)
    (fuel : Nat) (table2 : whitelist) (m2 : Mem)
    (hr : wg_whitelist_insert_v4 table m ip cidr peer a1 a2 fuel = .ok (0, table2, m2)) :
    ∃ m1 st, add_prepare m table.root4 32 (native_endian (List.replicate 4 0) ip 32) cidr peer
        a1 a2 fuel = .ok (0, m1, some st) ∧
      Published m table.root4 m1 st m2 table2.root4 ∧ table2.root6 = table.root6 := by
  obtain ⟨t4, t6, h1, h2, h3⟩ := h
  simp only [wg_whitelist_insert_v4] at hr
  cases hadd : add m table.root4 32 (native_endian (List.replicate 4 0) ip 32) cidr peer a1 a2
    fuel with
  | ok res =>
    obtain ⟨e, m3, root⟩ := res
    rw [hadd] at hr
    simp only [Outcome.ok.injEq, Prod.mk.injEq] at hr
    obtain ⟨rfl, rfl, rfl⟩ := hr
    rw [← h1] at hadd ⊢
    obtain ⟨m1, st, a, b⟩ := add_published 32 m _ cidr peer a1 a2 fuel t4 h3.1
      (fun q hq => h3.2.2.2.2.2.1 q (by simp [hq])) m3 root hadd
    exact ⟨m1, st, a, b, rfl⟩
  | bad_access => rw [hadd] at hr; cases hr
  | assert_failed => rw [hadd] at hr; cases hr
  | out_of_fuel => rw [hadd] at hr; cases hr

/-- An IPv6 insert that returns 0 is published by a single store. -/
theorem insert_v6_published (table : whitelist) (m : Mem)
    (h : WellFormed table m) (ip : List u8) (cidr : Nat) (peer : Option Nat) (a1 a2 : Bool)
    (fuel : Nat) (table2 : whitelist) (m2 : Mem)
    (hr : wg_whitelist_insert_v6 table m ip cidr peer a1 a2 fuel = .ok (0, table2, m2)) :
    ∃ m1 st, add_prepare m table.root6 128 (native_endian (List.replicate 16 0) ip 128) cidr
        peer a1 a2 fuel = .ok (0, m1, some st) ∧
      Published m table.root6 m1 st m2 table2.root6 ∧ table2.root4 = table.root4 := by
  obtain ⟨t4, t6, h1, h2, h3⟩ := h
  simp only [wg_whitelist_insert_v6] at hr
  cases hadd : add m table.root6 128 (native_endian (List.replicate 16 0) ip 128) cidr peer
    a1 a2 fuel with
  | ok res =>
    obtain ⟨e, m3, root⟩ := res
    rw [hadd] at hr
    simp only [Outcome.ok.injEq, Prod.mk.injEq] at hr
    obtain ⟨rfl, rfl, rfl⟩ := hr
    rw [← h2] at hadd ⊢
    obtain ⟨m1, st, a, b⟩ := add_published 128 m _ cidr peer a1 a2 fuel t6 h3.2.1
      (fun q hq => h3.2.2.2.2.2.1 q (by simp [hq])) m3 root hadd
    exact ⟨m1, st, a, b, rfl⟩
  | bad_access => rw [hadd] at hr; cases hr
  | assert_failed => rw [hadd] at hr; cases hr
  | out_of_fuel => rw [hadd] at hr; cases hr

/-- On a well-formed table the checked `add` and `lookup` are `add` and `lookup`. -/
theorem wf_checked (table : whitelist) (m : Mem)
    (h : WellFormed table m) :
    (∀ key cidr peer a1 a2 fuel,
      add_with (choose_index_checked 32) m table.root4 32 key cidr peer a1 a2 fuel =
        add m table.root4 32 key cidr peer a1 a2 fuel) ∧
    (∀ key cidr peer a1 a2 fuel,
      add_with (choose_index_checked 128) m table.root6 128 key cidr peer a1 a2 fuel =
        add m table.root6 128 key cidr peer a1 a2 fuel) ∧
    (∀ q fuel, lookup_with (choose_index_checked 32) m table.root4 32 q fuel =
      lookup m table.root4 32 q fuel) ∧
    (∀ q fuel, lookup_with (choose_index_checked 128) m table.root6 128 q fuel =
      lookup m table.root6 128 q fuel) := by
  obtain ⟨t4, t6, h1, h2, h3⟩ := h
  obtain ⟨p1, p2, p3, p4, p5, p6, p7⟩ := h3
  have l4 : ∀ q, q ∈ t4.ptrs → q < m.brk := fun q hq => p6 q (by simp [hq])
  have l6 : ∀ q, q ∈ t6.ptrs → q < m.brk := fun q hq => p6 q (by simp [hq])
  rw [← h1, ← h2]
  exact ⟨fun key cidr peer a1 a2 fuel =>
      add_checked 32 (Or.inl rfl) m key cidr peer a1 a2 fuel t4 0 _ p1 p3 l4,
    fun key cidr peer a1 a2 fuel =>
      add_checked 128 (Or.inr rfl) m key cidr peer a1 a2 fuel t6 0 _ p2 p4 l6,
    fun q fuel => lookup_checked 32 (Or.inl rfl) m q fuel t4 0 _ p1 p3,
    fun q fuel => lookup_checked 128 (Or.inr rfl) m q fuel t6 0 _ p2 p4⟩

/-- With enough fuel `add` returns on a trie of a well-formed table that has a node. -/
theorem wf_add_returns (table : whitelist) (m : Mem)
    (h : WellFormed table m) :
    (table.root4 ≠ none → ∀ ip, ip.length = 4 → ∀ cidr peer a1 a2 fuel, 33 ≤ fuel →
      (add m table.root4 32 (native_endian (List.replicate 4 0) ip 32) cidr peer a1 a2
        fuel).returned = true) ∧
    (table.root6 ≠ none → ∀ ip, ip.length = 16 → ∀ cidr peer a1 a2 fuel, 129 ≤ fuel →
      (add m table.root6 128 (native_endian (List.replicate 16 0) ip 128) cidr peer a1 a2
        fuel).returned = true) := by
  obtain ⟨t4, t6, h1, h2, h3⟩ := h
  rw [← h1, ← h2]
  constructor
  · intro hne ip hip cidr peer a1 a2 fuel hf
    cases peer with
    | none => rfl
    | some pr =>
      by_cases hc : cidr > 32
      · simp only [add, hc, if_true]; rfl
      · obtain ⟨e, m2, trie2, he, _⟩ := add_returns 32 (Or.inl rfl) m _
          (key_length 32 (Or.inl rfl) ip hip) cidr (by omega) pr t4 t6 128 h3 hne a1 a2 fuel hf
        rw [show (32 : Nat) / 8 = 4 from rfl] at he
        rw [he]; rfl
  · intro hne ip hip cidr peer a1 a2 fuel hf
    cases peer with
    | none => rfl
    | some pr =>
      by_cases hc : cidr > 128
      · simp only [add, hc, if_true]; rfl
      · obtain ⟨e, m2, trie2, he, _⟩ := add_returns 128 (Or.inr rfl) m _
          (key_length 128 (Or.inr rfl) ip hip) cidr (by omega) pr t6 t4 32 h3.swap hne a1 a2
          fuel hf
        rw [show (128 : Nat) / 8 = 16 from rfl] at he
        rw [he]; rfl

end WG


namespace WG

/-! ## The contract of the table -/

/-- C1 on the code: the first insert of the scenario of the specification, 10.0.0.0/8 for
peer 1 into the empty table of `wg_whitelist_init`, does not return 0.  When the allocation
of line 251 succeeds the call stops at the load through the `NULL` pointer `down` at line
268, whatever the fuel; when it fails the call returns `ENOMEM` and the table stays empty.
Once the trie holds the node of 10.0.0.0/8 (written into memory directly, `first_route`),
the insert of 10.1.0.0/16 for peer 2 returns 0 and the lookups of the scenario give peer 2
for 10.1.2.3, peer 1 for 10.2.2.3 and no peer for 11.0.0.0. -/
theorem first_insert_loads_through_null :
    (∀ a2 fuel, wg_whitelist_insert_v4 start.1 start.2 [10, 0, 0, 0] 8 (some 1) true a2 fuel =
      .bad_access) ∧
    (∀ a2 fuel, wg_whitelist_insert_v4 start.1 start.2 [10, 0, 0, 0] 8 (some 1) false a2 fuel =
      .ok (ENOMEM, { start.1 with seq := start.1.seq + 1 }, start.2)) ∧
    (run_calls 200 [.insert_v4 [10, 1, 0, 0] 16 (some 2) true true] first_route).isSome = true ∧
    lookup scenario.2 scenario.1.root4 32 [10, 1, 2, 3] 40 = .ok (some 2) ∧
    lookup scenario.2 scenario.1.root4 32 [10, 2, 2, 3] 40 = .ok (some 1) ∧
    lookup scenario.2 scenario.1.root4 32 [11, 0, 0, 0] 40 = .ok none := by
  refine ⟨fun a2 fuel => ?_, fun a2 fuel => ?_, ?_⟩
  · rw [insert_v4_null_root start.1 start.2 rfl [10, 0, 0, 0] 8 (by decide) 1 true a2 fuel]
    rfl
  · rw [insert_v4_null_root start.1 start.2 rfl [10, 0, 0, 0] 8 (by decide) 1 false a2 fuel]
    rfl
  · decide!

end WG


namespace WG

/-- C2 (removal of a peer).  On every well-formed table, which every table is that the calls
reach from the empty table (`init_well_formed`, `reached_well_formed`), and for every
non-null peer `p`: with enough fuel `wg_whitelist_remove_by_peer` returns, the only other
outcome being the failed stack assertion of `walk_remove_by_peer` on an IPv6 trie with more
than 128 nodes on a path; on a table that the calls reach from the empty table it returns
whatever the fuel; and whenever it returns, no node reachable from `root4` or `root6`
carries `p` and no lookup in either family returns `p`. -/
theorem remove_by_peer_drops_peer (table : whitelist) (m : Mem)
    (h : WellFormed table m) (p : Nat) :
    (∃ N, ∀ fuel, N ≤ fuel →
      (∃ table2 m2, wg_whitelist_remove_by_peer table m (some p) fuel = .ok (table2, m2)) ∨
      (wg_whitelist_remove_by_peer table m (some p) fuel = .assert_failed ∧
        ∃ t6, t6.ptr = table.root6 ∧ Laid 128 m.heap t6 ∧ 128 < t6.height)) ∧
    (∀ cs, Reached start cs table m → ∀ fuel, ∃ table2 m2,
      wg_whitelist_remove_by_peer table m (some p) fuel = .ok (table2, m2)) ∧
    ∀ fuel table2 m2, wg_whitelist_remove_by_peer table m (some p) fuel = .ok (table2, m2) →
      (∀ x n, (Reach m2.heap table2.root4 x ∨ Reach m2.heap table2.root6 x) →
        m2.heap x = some n → n.peer ≠ some p) ∧
      (∀ q, q.length = 4 → ∀ f, 33 ≤ f →
        ∃ r, lookup m2 table2.root4 32 q f = .ok r ∧ r ≠ some p) ∧
      (∀ q, q.length = 16 → ∀ f, 129 ≤ f →
        ∃ r, lookup m2 table2.root6 128 q f = .ok r ∧ r ≠ some p) := by
  refine ⟨remove_total table m h (some p), fun cs hc fuel =>
    ⟨_, _, remove_null_roots table m (reached_empty cs table m hc).1
      (reached_empty cs table m hc).2.1 (some p) fuel⟩, fun fuel table2 m2 hr => ?_⟩
  have h2 : WellFormed table2 m2 := by
    obtain ⟨t4, t6, hinv⟩ := h
    exact ⟨_, _, table_remove table table2 m m2 t4 t6 (some p) fuel hinv hr⟩
  have hpost := (remove_post table table2 m m2 h p fuel hr).1
  refine ⟨hpost, fun q hq f hf => ?_, fun q hq f hf => ?_⟩
  · obtain ⟨r, hr1, hr2⟩ := wf_lookup_v4 table2 m2 h2 q hq f hf
    refine ⟨r, hr1, fun e => ?_⟩
    obtain ⟨x, n, a, b, c⟩ := lookup_carried m2 _ 32 q r hr2 p e
    exact hpost x n (Or.inl a) b c
  · obtain ⟨r, hr1, hr2⟩ := wf_lookup_v6 table2 m2 h2 q hq f hf
    refine ⟨r, hr1, fun e => ?_⟩
    obtain ⟨x, n, a, b, c⟩ := lookup_carried m2 _ 128 q r hr2 p e
    exact hpost x n (Or.inr a) b c

/-- On the table of the scenario of the specification (the node of 10.0.0.0/8 for peer 1
written into memory, 10.1.0.0/16 for peer 2 inserted) the removal of peer 2 returns and
leaves the root node of the IPv4 trie, the node 0, with another peer. -/
theorem remove_by_peer_drops_peer_witness :
    ∃ n, (after_remove scenario 2).2.heap 0 = some n ∧ n.peer ≠ some 2 := by
  have e1 : (after_remove scenario 2).1.root4 = some 0 := by decide!
  obtain ⟨n, hn⟩ := Option.isSome_iff_exists.1
    (show ((after_remove scenario 2).2.heap 0).isSome = true by decide!)
  exact ⟨n, hn, ((remove_by_peer_drops_peer scenario.1 scenario.2 scenario_well_formed 2).2.2 200
    (after_remove scenario 2).1 (after_remove scenario 2).2
    (ok_of_returned _ start (by decide!))).1 0 n (Or.inl (e1 ▸ Reach.root 0)) hn⟩

/-- C3 on the code: no insert into the empty table of `wg_whitelist_init` returns 0, in
either family and whatever the arguments, the memory, the allocator and the fuel; so the
table of the witness, built by the inserts of 10.0.0.0/8 and 10.1.0.0/16, is never reached.
On the table that holds these two routes (`scenario`, its first node written into memory
directly) the removal of peer 2 returns and the lookup of 10.1.2.3 then gives peer 1. -/
theorem insert_into_empty_table_never_succeeds :
    (∀ (table : whitelist) (m : Mem) (ip : List u8) (cidr : Nat) (peer : Option Nat)
        (a1 a2 : Bool) (fuel : Nat) (table2 : whitelist) (m2 : Mem),
      wg_whitelist_insert_v4 (wg_whitelist_init table) m ip cidr peer a1 a2 fuel ≠
        .ok (0, table2, m2)) ∧
    (∀ (table : whitelist) (m : Mem) (ip : List u8) (cidr : Nat) (peer : Option Nat)
        (a1 a2 : Bool) (fuel : Nat) (table2 : whitelist) (m2 : Mem),
      wg_whitelist_insert_v6 (wg_whitelist_init table) m ip cidr peer a1 a2 fuel ≠
        .ok (0, table2, m2)) ∧
    (wg_whitelist_remove_by_peer scenario.1 scenario.2 (some 2) 200).returned = true ∧
    lookup (after_remove scenario 2).2 (after_remove scenario 2).1.root4 32 [10, 1, 2, 3] 40 =
      .ok (some 1) := by
  refine ⟨?_, ?_, by decide!⟩
  · intro table m ip cidr peer a1 a2 fuel table2 m2 hr
    by_cases hbad : 32 < cidr ∨ peer = none
    · rw [insert_v4_einval _ m ip cidr peer a1 a2 fuel hbad] at hr
      simp [EINVAL] at hr
    · cases peer with
      | none => exact hbad (Or.inr rfl)
      | some pr =>
        rw [insert_v4_null_root _ m rfl ip cidr (by omega) pr a1 a2 fuel] at hr
        cases a1 <;> simp [ENOMEM] at hr
  · intro table m ip cidr peer a1 a2 fuel table2 m2 hr
    by_cases hbad : 128 < cidr ∨ peer = none
    · rw [insert_v6_einval _ m ip cidr peer a1 a2 fuel hbad] at hr
      simp [EINVAL] at hr
    · cases peer with
      | none => exact hbad (Or.inr rfl)
      | some pr =>
        rw [insert_v6_null_root _ m rfl ip cidr (by omega) pr a1 a2 fuel] at hr
        cases a1 <;> simp [ENOMEM] at hr

end WG


namespace WG

/-- C5 (insert rejects misuse).  For every table and memory, `wg_whitelist_insert_v4` (32
bits) and `wg_whitelist_insert_v6` (128 bits) return `EINVAL` when `cidr` exceeds the key
width or the peer is null, leaving both roots, the node heap and every peer list as they
were; with valid arguments a call that returns has result 0 or `ENOMEM`, never `EINVAL`.  On
a well-formed table whose trie has a node, a call with valid arguments and enough fuel does
return. -/
theorem insert_rejects_misuse (table : whitelist) (m : Mem) (ip : List u8) (cidr : Nat)
    (peer : Option Nat) (a1 a2 : Bool) :
    ((32 < cidr ∨ peer = none) → ∀ fuel,
      wg_whitelist_insert_v4 table m ip cidr peer a1 a2 fuel =
        .ok (EINVAL, { table with seq := table.seq + 1 }, m)) ∧
    (¬ (32 < cidr ∨ peer = none) → ∀ fuel e table2 m2,
      wg_whitelist_insert_v4 table m ip cidr peer a1 a2 fuel = .ok (e, table2, m2) →
        (e = 0 ∨ e = ENOMEM) ∧ e ≠ EINVAL) ∧
    ((128 < cidr ∨ peer = none) → ∀ fuel,
      wg_whitelist_insert_v6 table m ip cidr peer a1 a2 fuel =
        .ok (EINVAL, { table with seq := table.seq + 1 }, m)) ∧
    (¬ (128 < cidr ∨ peer = none) → ∀ fuel e table2 m2,
      wg_whitelist_insert_v6 table m ip cidr peer a1 a2 fuel = .ok (e, table2, m2) →
        (e = 0 ∨ e = ENOMEM) ∧ e ≠ EINVAL) ∧
    (WellFormed table m → table.root4 ≠ none → ip.length = 4 →
      ¬ (32 < cidr ∨ peer = none) → ∀ fuel, 33 ≤ fuel →
        ∃ e table2 m2, wg_whitelist_insert_v4 table m ip cidr peer a1 a2 fuel =
          .ok (e, table2, m2)) ∧
    (WellFormed table m → table.root6 ≠ none → ip.length = 16 →
      ¬ (128 < cidr ∨ peer = none) → ∀ fuel, 129 ≤ fuel →
        ∃ e table2 m2, wg_whitelist_insert_v6 table m ip cidr peer a1 a2 fuel =
          .ok (e, table2, m2)) := by
  have hne : ∀ e, (e = 0 ∨ e = ENOMEM) → e ≠ EINVAL := by
    rintro e (rfl | rfl) <;> decide
  refine ⟨fun hbad fuel => insert_v4_einval table m ip cidr peer a1 a2 fuel hbad, ?_,
    fun hbad fuel => insert_v6_einval table m ip cidr peer a1 a2 fuel hbad, ?_, ?_, ?_⟩
  · intro hok fuel e table2 m2 hr
    cases peer with
    | none => exact absurd (Or.inr rfl) hok
    | some pr =>
      simp only [wg_whitelist_insert_v4] at hr
      cases hadd : add m table.root4 32 (native_endian (List.replicate 4 0) ip 32) cidr
        (some pr) a1 a2 fuel with
      | ok res =>
        obtain ⟨e2, m3, root⟩ := res
        rw [hadd] at hr
        simp only [Outcome.ok.injEq, Prod.mk.injEq] at hr
        obtain ⟨rfl, _, _⟩ := hr
        have := add_errs m _ 32 _ cidr (by omega) pr a1 a2 fuel _ _ hadd
        exact ⟨this, hne _ this⟩
      | bad_access => rw [hadd] at hr; cases hr
      | assert_failed => rw [hadd] at hr; cases hr
      | out_of_fuel => rw [hadd] at hr; cases hr
  · intro hok fuel e table2 m2 hr
    cases peer with
    | none => exact absurd (Or.inr rfl) hok
    | some pr =>
      simp only [wg_whitelist_insert_v6] at hr
      cases hadd : add m table.root6 128 (native_endian (List.replicate 16 0) ip 128) cidr
        (some pr) a1 a2 fuel with
      | ok res =>
        obtain ⟨e2, m3, root⟩ := res
        rw [hadd] at hr
        simp only [Outcome.ok.injEq, Prod.mk.injEq] at hr
        obtain ⟨rfl, _, _⟩ := hr
        have := add_errs m _ 128 _ cidr (by omega) pr a1 a2 fuel _ _ hadd
        exact ⟨this, hne _ this⟩
      | bad_access => rw [hadd] at hr; cases hr
      | assert_failed => rw [hadd] at hr; cases hr
      | out_of_fuel => rw [hadd] at hr; cases hr
  · intro hwf hroot hip hok fuel hf
    obtain ⟨e, table2, m2, hr, _⟩ := insert_v4_returns table m hwf hroot ip hip cidr peer a1 a2
      hok fuel hf
    exact ⟨e, table2, m2, hr⟩
  · intro hwf hroot hip hok fuel hf
    obtain ⟨e, table2, m2, hr, _⟩ := insert_v6_returns table m hwf hroot ip hip cidr peer a1 a2
      hok fuel hf
    exact ⟨e, table2, m2, hr⟩

/-- On the table of the scenario of the specification an insert of a 33-bit IPv4 prefix
returns `EINVAL` and changes nothing but the sequence number, and the insert of 10.2.0.0/16
for peer 3 returns. -/
theorem insert_rejects_misuse_witness :
    wg_whitelist_insert_v4 scenario.1 scenario.2 [10, 0, 0, 0] 33 (some 1) true true 40 =
      .ok (EINVAL, { scenario.1 with seq := scenario.1.seq + 1 }, scenario.2) ∧
    ∃ e table2 m2, wg_whitelist_insert_v4 scenario.1 scenario.2 [10, 2, 0, 0] 16 (some 3)
      true true 40 = .ok (e, table2, m2) :=
  ⟨(insert_rejects_misuse scenario.1 scenario.2 [10, 0, 0, 0] 33 (some 1) true true).1
      (Or.inl (by decide)) 40,
    (insert_rejects_misuse scenario.1 scenario.2 [10, 2, 0, 0] 16 (some 3) true
      true).2.2.2.2.1 scenario_well_formed (by decide!) rfl (by decide) 40 (by decide)⟩

/-- C6 (an insert that fails for lack of memory is not seen by readers).  On every
well-formed table, whenever an insert returns `ENOMEM`, whichever of the allocations of `add`
failed, both root pointers and every node reachable from them are unchanged and every lookup
returns what it returned before. -/
theorem insert_enomem_unseen (table table2 : whitelist) (m m2 : Mem)
    (h : WellFormed table m) (ip : List u8) (cidr : Nat) (peer : Option Nat) (a1 a2 : Bool)
    (fuel : Nat) :
    (ip.length = 4 →
      wg_whitelist_insert_v4 table m ip cidr peer a1 a2 fuel = .ok (ENOMEM, table2, m2) →
      SameForReaders table table2 m m2) ∧
    (ip.length = 16 →
      wg_whitelist_insert_v6 table m ip cidr peer a1 a2 fuel = .ok (ENOMEM, table2, m2) →
      SameForReaders table table2 m m2) :=
  ⟨fun hip hr => insert_v4_enomem table table2 m m2 h ip hip cidr peer a1 a2 fuel hr,
    fun hip hr => insert_v6_enomem table table2 m m2 h ip hip cidr peer a1 a2 fuel hr⟩

/-- On the table of the scenario of the specification the insert of 10.2.0.0/16 needs a
branch node; when the allocation of the branch node fails the insert returns `ENOMEM` and
readers see the tries as before. -/
theorem insert_enomem_unseen_witness :
    (wg_whitelist_insert_v4 scenario.1 scenario.2 [10, 2, 0, 0] 16 (some 3)
      true false 200).returned = true ∧
    ((wg_whitelist_insert_v4 scenario.1 scenario.2 [10, 2, 0, 0] 16 (some 3)
      true false 200).get (0, start)).1 = ENOMEM ∧
    SameForReaders scenario.1
      ((wg_whitelist_insert_v4 scenario.1 scenario.2 [10, 2, 0, 0] 16 (some 3)
        true false 200).get (0, start)).2.1 scenario.2
      ((wg_whitelist_insert_v4 scenario.1 scenario.2 [10, 2, 0, 0] 16 (some 3)
        true false 200).get (0, start)).2.2 :=
  ⟨by decide!, by decide!,
    (insert_enomem_unseen scenario.1 _ scenario.2 _ scenario_well_formed [10, 2, 0, 0] 16
      (some 3) true false 200).1 rfl (ok_of_returned _ (0, start) (by decide!))⟩

/-- C7 (structure after inserts).  From a well-formed table in which every node reachable
from a root has two non-null children or carries a peer, as in the empty table of
`wg_whitelist_init`, every sequence of inserts that returned 0 leads to a table in which
every reachable node has two non-null children or carries a peer. -/
theorem insert_nodes_full (s : whitelist × Mem) (cs : List Call) (table : whitelist)
    (m : Mem) (hs : WellFormed s.1 s.2) (hfull : NodesFull s.1 s.2)
    (h : Reached s cs table m) (hins : ∀ c, c ∈ cs → c.inserts = true) (x : Nat)
    (n : whitelist_node)
    (hx : Reach m.heap table.root4 x ∨ Reach m.heap table.root6 x) (hn : m.heap x = some n) :
    (n.bit0 ≠ none ∧ n.bit1 ≠ none) ∨ n.peer ≠ none :=
  reached_full s cs table m hs hfull h hins x n hx hn

/-- After the insert of 10.1.0.0/16 for peer 2 into the table that holds the node of
10.0.0.0/8, the root node of the IPv4 trie, the node 0, has two children or a peer. -/
theorem insert_nodes_full_witness :
    ∃ n, scenario.2.heap 0 = some n ∧
      ((n.bit0 ≠ none ∧ n.bit1 ≠ none) ∨ n.peer ≠ none) := by
  have e1 : scenario.1.root4 = some 0 := by decide!
  obtain ⟨n, hn⟩ := Option.isSome_iff_exists.1
    (show (scenario.2.heap 0).isSome = true by decide!)
  exact ⟨n, hn, insert_nodes_full first_route _ scenario.1 scenario.2 first_route_well_formed
    (seed_v4_full _ _ _) (reached_after first_route _ (by decide) (by decide!)) (by decide) 0 n
    (Or.inl (e1 ▸ Reach.root 0)) hn⟩

/-- C8 (the decision bit increases).  On every table reached from a well-formed table, in
particular after any sequence of inserts that returned 0 on the empty table of
`wg_whitelist_init`, the prefix length of a non-null child of a reachable node is greater
than the prefix length of the node. -/
theorem child_cidr_increases (s : whitelist × Mem) (cs : List Call) (table : whitelist)
    (m : Mem) (hs : WellFormed s.1 s.2) (h : Reached s cs table m) (x q : Nat)
    (n nq : whitelist_node)
    (hx : Reach m.heap table.root4 x ∨ Reach m.heap table.root6 x) (hn : m.heap x = some n)
    (hq : n.bit0 = some q ∨ n.bit1 = some q) (hnq : m.heap q = some nq) :
    n.cidr < nq.cidr :=
  wf_child_cidr table m (reached_well_formed s cs table m hs h) x q n nq hx hn hq hnq

/-- After the insert of 10.1.0.0/16 for peer 2 into the table that holds the node of
10.0.0.0/8, the node 1 of 10.1.0.0/16 is a child of the root node 0 of 10.0.0.0/8 and has the
longer prefix. -/
theorem child_cidr_increases_witness :
    ∃ n nq, scenario.2.heap 0 = some n ∧ scenario.2.heap 1 = some nq ∧
      n.bit0 = some 1 ∧ n.cidr < nq.cidr := by
  have e1 : scenario.1.root4 = some 0 := by decide!
  obtain ⟨n, hn⟩ := Option.isSome_iff_exists.1
    (show (scenario.2.heap 0).isSome = true by decide!)
  obtain ⟨nq, hnq⟩ := Option.isSome_iff_exists.1
    (show (scenario.2.heap 1).isSome = true by decide!)
  have e2 : (scenario.2.heap 0).bind (fun k => k.bit0) = some 1 := by decide!
  have hq : n.bit0 = some 1 := by rw [hn] at e2; exact e2
  exact ⟨n, nq, hn, hnq, hq, child_cidr_increases first_route _ scenario.1 scenario.2
    first_route_well_formed (reached_after first_route _ (by decide) (by decide!)) 0 1 n nq
    (Or.inl (e1 ▸ Reach.root 0)) hn (Or.inl hq) hnq⟩

/-- C9 on the code: in the table `siblings` (the node of 10.0.0.0/8 for peer 1 written into
memory, 11.0.0.0/8 for peer 2 inserted) the root is the branch node 2 of prefix length 7
without a peer, with the node 0 of peer 1 and the node 1 of peer 2 as its children, so every
reachable node has two children or a peer; the removal of peer 2 returns and leaves the
reachable root node 2 without a peer and with the single child 0. -/
theorem remove_by_peer_leaves_bare_branch :
    siblings.1.root4 = some 2 ∧ siblings.1.root6 = none ∧
    (siblings.2.heap 2).map (fun n => (n.peer, n.bit0, n.bit1, n.cidr)) =
      some (none, some 0, some 1, 7) ∧
    (siblings.2.heap 0).map (fun n => (n.peer, n.bit0, n.bit1, n.cidr)) =
      some (some 1, none, none, 8) ∧
    (siblings.2.heap 1).map (fun n => (n.peer, n.bit0, n.bit1, n.cidr)) =
      some (some 2, none, none, 8) ∧
    NodesFull siblings.1 siblings.2 ∧
    (wg_whitelist_remove_by_peer siblings.1 siblings.2 (some 2) 200).returned = true ∧
    ∃ x n, Reach (after_remove siblings 2).2.heap (after_remove siblings 2).1.root4 x ∧
      (after_remove siblings 2).2.heap x = some n ∧ n.peer = none ∧ n.bit0 = some 0 ∧
      n.bit1 = none := by
  have hshape : siblings.1.root4 = some 2 ∧ siblings.1.root6 = none ∧
      (siblings.2.heap 2).map (fun n => (n.peer, n.bit0, n.bit1, n.cidr)) =
        some (none, some 0, some 1, 7) ∧
      (siblings.2.heap 0).map (fun n => (n.peer, n.bit0, n.bit1, n.cidr)) =
        some (some 1, none, none, 8) ∧
      (siblings.2.heap 1).map (fun n => (n.peer, n.bit0, n.bit1, n.cidr)) =
        some (some 2, none, none, 8) ∧
      (wg_whitelist_remove_by_peer siblings.1 siblings.2 (some 2) 200).returned = true ∧
      (after_remove siblings 2).1.root4 = some 2 ∧
      ((after_remove siblings 2).2.heap 2).map (fun n => (n.peer, n.bit0, n.bit1)) =
        some (none, some 0, none) := by decide!
  obtain ⟨s1, s2, s3, s4, s5, s6, e1, e2⟩ := hshape
  refine ⟨s1, s2, s3, s4, s5, reached_full first_route _ _ _ first_route_well_formed
    (seed_v4_full _ _ _) (reached_after first_route _ (by decide) (by decide!)) (by decide),
    s6, ?_⟩
  cases hn : (after_remove siblings 2).2.heap 2 with
  | none => rw [hn] at e2; cases e2
  | some n =>
    rw [hn] at e2
    simp only [Option.map_some', Option.some.injEq, Prod.mk.injEq] at e2
    exact ⟨2, n, e1 ▸ Reach.root 2, hn, e2.1, e2.2.1, e2.2.2⟩

/-- C10 (peer back-references).  On every table reached from a well-formed table, in
particular after any sequence of inserts and removals that returned on the empty table of
`wg_whitelist_init`, the node list of a peer holds, each once, exactly the nodes reachable
from a root whose peer field is that peer; after a removal of the peer that returns, its list
is empty; and the insert of a prefix that a reachable node already carries, for a peer `q`,
returns 0 and leaves that node on the list of `q` and on no other list. -/
theorem peer_lists_exact (s : whitelist × Mem) (cs : List Call) (table : whitelist)
    (m : Mem) (hs : WellFormed s.1 s.2) (h : Reached s cs table m) (pe : Nat) :
    (m.lists pe).Nodup ∧
    (∀ x, x ∈ m.lists pe ↔
      (Reach m.heap table.root4 x ∨ Reach m.heap table.root6 x) ∧
        ∃ n, m.heap x = some n ∧ n.peer = some pe) ∧
    (∀ fuel table2 m2,
      wg_whitelist_remove_by_peer table m (some pe) fuel = .ok (table2, m2) →
      m2.lists pe = []) ∧
    (∀ ip, ip.length = 4 → ∀ (cidr q : Nat) (a1 a2 : Bool) (fuel : Nat), 33 ≤ fuel →
      ∀ x n, Reach m.heap table.root4 x → m.heap x = some n → n.cidr = cidr →
        prefix_matches n (native_endian (List.replicate 4 0) ip 32) 32 = true →
        ∃ table2 m2, wg_whitelist_insert_v4 table m ip cidr (some q) a1 a2 fuel =
            .ok (0, table2, m2) ∧
          x ∈ m2.lists q ∧ ∀ p, p ≠ q → x ∉ m2.lists p) ∧
    (∀ ip, ip.length = 16 → ∀ (cidr q : Nat) (a1 a2 : Bool) (fuel : Nat), 129 ≤ fuel →
      ∀ x n, Reach m.heap table.root6 x → m.heap x = some n → n.cidr = cidr →
        prefix_matches n (native_endian (List.replicate 16 0) ip 128) 128 = true →
        ∃ table2 m2, wg_whitelist_insert_v6 table m ip cidr (some q) a1 a2 fuel =
            .ok (0, table2, m2) ∧
          x ∈ m2.lists q ∧ ∀ p, p ≠ q → x ∉ m2.lists p) :=
  have hwf := reached_well_formed s cs table m hs h
  ⟨(wf_lists table m hwf pe).1, (wf_lists table m hwf pe).2,
    fun fuel table2 m2 hr => (remove_post table table2 m m2 hwf pe fuel hr).2,
    fun ip hip cidr q a1 a2 fuel hf x n hx hn hc hm =>
      ⟨_, _, insert_v4_exact table m hwf ip hip cidr q a1 a2 fuel hf x n hx hn hc hm,
        move_tail_lists _ x q⟩,
    fun ip hip cidr q a1 a2 fuel hf x n hx hn hc hm =>
      ⟨_, _, insert_v6_exact table m hwf ip hip cidr q a1 a2 fuel hf x n hx hn hc hm,
        move_tail_lists _ x q⟩⟩

/-- After the insert of 10.1.0.0/16 for peer 2 into the table that holds the node of
10.0.0.0/8 the list of peer 2 holds the reachable nodes of peer 2, each once. -/
theorem peer_lists_exact_witness :
    (scenario.2.lists 2).Nodup ∧
    (∀ x, x ∈ scenario.2.lists 2 ↔
      (Reach scenario.2.heap scenario.1.root4 x ∨
        Reach scenario.2.heap scenario.1.root6 x) ∧
        ∃ n, scenario.2.heap x = some n ∧ n.peer = some 2) :=
  ⟨(peer_lists_exact first_route _ scenario.1 scenario.2 first_route_well_formed
      (reached_after first_route _ (by decide) (by decide!)) 2).1,
    (peer_lists_exact first_route _ scenario.1 scenario.2 first_route_well_formed
      (reached_after first_route _ (by decide) (by decide!)) 2).2.1⟩

end WG


namespace WG

/-- C4 (round trip of insert and `wg_whitelist_read_node`).  On every well-formed table,
after an insert of `ip/cidr` for a peer that returned 0, the node that carries the route (the
last node of the list of the peer, reachable from the root of its family) is read back by
`wg_whitelist_read_node` as the prefix length `cidr`, the family `AF_INET` for 32-bit keys and
`AF_INET6` for 128-bit keys, and the address whose first `cidr` bits are those of `ip` and
whose other bits are zero. -/
theorem insert_read_node_round_trip (table table2 : whitelist) (m m2 : Mem)
    (h : WellFormed table m) (ip : List u8) (cidr : Nat) (peer : Option Nat) (a1 a2 : Bool)
    (fuel : Nat) (buf : List u8) (hbuf : buf.length = 16) :
    (ip.length = 4 →
      wg_whitelist_insert_v4 table m ip cidr peer a1 a2 fuel = .ok (0, table2, m2) →
      ∃ pr x n, peer = some pr ∧ (m2.lists pr).getLast? = some x ∧ m2.heap x = some n ∧
        Reach m2.heap table2.root4 x ∧ n.peer = some pr ∧
        (wg_whitelist_read_node n buf).2 = (cidr, AF_INET) ∧
        ∀ i, i < 32 → wire_bit (wg_whitelist_read_node n buf).1 i =
          (decide (i < cidr) && wire_bit ip i)) ∧
    (ip.length = 16 →
      wg_whitelist_insert_v6 table m ip cidr peer a1 a2 fuel = .ok (0, table2, m2) →
      ∃ pr x n, peer = some pr ∧ (m2.lists pr).getLast? = some x ∧ m2.heap x = some n ∧
        Reach m2.heap table2.root6 x ∧ n.peer = some pr ∧
        (wg_whitelist_read_node n buf).2 = (cidr, AF_INET6) ∧
        ∀ i, i < 128 → wire_bit (wg_whitelist_read_node n buf).1 i =
          (decide (i < cidr) && wire_bit ip i)) :=
  ⟨fun hip hr => insert_v4_read_back table table2 m m2 h ip hip cidr peer a1 a2 fuel hr buf
      hbuf,
    fun hip hr => insert_v6_read_back table table2 m m2 h ip hip cidr peer a1 a2 fuel hr buf
      hbuf⟩

/-- On the table of the scenario of the specification the insert of 10.1.255.255/13 for
peer 3 returns 0 and its node reads back with prefix length 13 in the family `AF_INET`. -/
theorem insert_read_node_round_trip_witness :
    ∃ pr x n, some 3 = some pr ∧
      ((after_insert_v4 scenario [10, 1, 255, 255] 13 3).2.lists pr).getLast? = some x ∧
      (after_insert_v4 scenario [10, 1, 255, 255] 13 3).2.heap x = some n ∧
      Reach (after_insert_v4 scenario [10, 1, 255, 255] 13 3).2.heap
        (after_insert_v4 scenario [10, 1, 255, 255] 13 3).1.root4 x ∧
      n.peer = some pr ∧
      (wg_whitelist_read_node n (List.replicate 16 0)).2 = (13, AF_INET) ∧
      ∀ i, i < 32 → wire_bit (wg_whitelist_read_node n (List.replicate 16 0)).1 i =
        (decide (i < 13) && wire_bit [10, 1, 255, 255] i) :=
  (insert_read_node_round_trip scenario.1
    (after_insert_v4 scenario [10, 1, 255, 255] 13 3).1 scenario.2
    (after_insert_v4 scenario [10, 1, 255, 255] 13 3).2
    scenario_well_formed [10, 1, 255, 255] 13 (some 3) true true
    200 (List.replicate 16 0) rfl).1 rfl
    (ok_zero_of_returned _ (0, start) (by decide!) (by decide!))

end WG


namespace WG

/-- C12 (lookup dispatch).  For every table `wg_whitelist_lookup_dst` is the lookup in the
IPv4 trie (`root4`, 32 bits) of the destination address of an IPv4 packet, the lookup in the
IPv6 trie (`root6`, 128 bits) of the destination address of an IPv6 packet, and no peer for
any other protocol; `wg_whitelist_lookup_src` does the same with the source address.  On a
well-formed table these lookups return the longest-prefix match of the address in the trie of
its family.  An insert in one family that returns, whatever its result, changes no node and no
lookup result of the other family; neither does a removal in one family, which is a call of
`walk_remove_by_peer` on the root of that family (`wg_whitelist_remove_by_peer` runs one on
each root). -/
theorem lookup_dispatch (table : whitelist) (m : Mem) (h : WellFormed table m) (skb : mbuf) :
    ((skb.protocol = htons ETH_P_IP → ∀ fuel,
        wg_whitelist_lookup_dst table m skb fuel = lookup m table.root4 32 skb.ip_daddr fuel ∧
        wg_whitelist_lookup_src table m skb fuel = lookup m table.root4 32 skb.ip_saddr fuel) ∧
      (skb.protocol = htons ETH_P_IPV6 → ∀ fuel,
        wg_whitelist_lookup_dst table m skb fuel =
          lookup m table.root6 128 skb.ipv6_daddr fuel ∧
        wg_whitelist_lookup_src table m skb fuel =
          lookup m table.root6 128 skb.ipv6_saddr fuel)) ∧
    ((skb.protocol = htons ETH_P_IP → skb.ip_daddr.length = 4 → ∀ fuel, 33 ≤ fuel →
        ∃ r, wg_whitelist_lookup_dst table m skb fuel = .ok r ∧
          IsLpm m table.root4 32 skb.ip_daddr r) ∧
      (skb.protocol = htons ETH_P_IPV6 → skb.ipv6_daddr.length = 16 → ∀ fuel, 129 ≤ fuel →
        ∃ r, wg_whitelist_lookup_dst table m skb fuel = .ok r ∧
          IsLpm m table.root6 128 skb.ipv6_daddr r) ∧
      (skb.protocol ≠ htons ETH_P_IP → skb.protocol ≠ htons ETH_P_IPV6 → ∀ fuel,
        wg_whitelist_lookup_dst table m skb fuel = .ok none)) ∧
    ((skb.protocol = htons ETH_P_IP → skb.ip_saddr.length = 4 → ∀ fuel, 33 ≤ fuel →
        ∃ r, wg_whitelist_lookup_src table m skb fuel = .ok r ∧
          IsLpm m table.root4 32 skb.ip_saddr r) ∧
      (skb.protocol = htons ETH_P_IPV6 → skb.ipv6_saddr.length = 16 → ∀ fuel, 129 ≤ fuel →
        ∃ r, wg_whitelist_lookup_src table m skb fuel = .ok r ∧
          IsLpm m table.root6 128 skb.ipv6_saddr r) ∧
      (skb.protocol ≠ htons ETH_P_IP → skb.protocol ≠ htons ETH_P_IPV6 → ∀ fuel,
        wg_whitelist_lookup_src table m skb fuel = .ok none)) ∧
    (∀ ip cidr peer a1 a2 fuel e table2 m2, ip.length = 4 →
      wg_whitelist_insert_v4 table m ip cidr peer a1 a2 fuel = .ok (e, table2, m2) →
      table2.root6 = table.root6 ∧
      (∀ x, Reach m.heap table.root6 x → m2.heap x = m.heap x) ∧
      (∀ q, q.length = 16 → ∀ f, 129 ≤ f →
        lookup m2 table2.root6 128 q f = lookup m table.root6 128 q f)) ∧
    (∀ ip cidr peer a1 a2 fuel e table2 m2, ip.length = 16 →
      wg_whitelist_insert_v6 table m ip cidr peer a1 a2 fuel = .ok (e, table2, m2) →
      table2.root4 = table.root4 ∧
      (∀ x, Reach m.heap table.root4 x → m2.heap x = m.heap x) ∧
      (∀ q, q.length = 4 → ∀ f, 33 ≤ f →
        lookup m2 table2.root4 32 q f = lookup m table.root4 32 q f)) ∧
    (∀ peer fuel m2 r, walk_remove_by_peer m table.root4 peer fuel = .ok (m2, r) →
      (∀ x, Reach m.heap table.root6 x → m2.heap x = m.heap x) ∧
      (∀ q, q.length = 16 → ∀ f, 129 ≤ f →
        lookup m2 table.root6 128 q f = lookup m table.root6 128 q f)) ∧
    (∀ peer fuel m2 r, walk_remove_by_peer m table.root6 peer fuel = .ok (m2, r) →
      (∀ x, Reach m.heap table.root4 x → m2.heap x = m.heap x) ∧
      (∀ q, q.length = 4 → ∀ f, 33 ≤ f →
        lookup m2 table.root4 32 q f = lookup m table.root4 32 q f)) := by
  have hne : htons ETH_P_IPV6 ≠ htons ETH_P_IP := by decide
  refine ⟨⟨fun hp fuel => ?_, fun hp fuel => ?_⟩, lookup_dst_spec table m h skb,
    lookup_src_spec table m h skb,
    fun ip cidr peer a1 a2 fuel e table2 m2 hip hr =>
      insert_v4_keeps_v6 table table2 m m2 h ip hip cidr peer a1 a2 fuel e hr,
    fun ip cidr peer a1 a2 fuel e table2 m2 hip hr =>
      insert_v6_keeps_v4 table table2 m m2 h ip hip cidr peer a1 a2 fuel e hr, ?_, ?_⟩
  · simp only [wg_whitelist_lookup_dst, wg_whitelist_lookup_src, hp, if_true, and_self]
  · simp only [wg_whitelist_lookup_dst, wg_whitelist_lookup_src, hp, hne, if_false, if_true,
      and_self]
  · intro peer fuel m2 r hr
    obtain ⟨t4, t6, h1, h2, h3⟩ := h
    rw [← h1] at hr
    rw [← h2]
    exact walk_keeps_other 32 128 (Or.inr rfl) m m2 t4 t6 h3 peer fuel r hr
  · intro peer fuel m2 r hr
    obtain ⟨t4, t6, h1, h2, h3⟩ := h
    rw [← h2] at hr
    rw [← h1]
    exact walk_keeps_other 128 32 (Or.inl rfl) m m2 t6 t4 h3.swap peer fuel r hr

/-- On the table of the scenario of the specification the lookup of the destination of an
IPv4 packet to 10.1.2.3 returns the longest-prefix match of that address in the IPv4 trie. -/
theorem lookup_dispatch_witness :
    ∃ r, wg_whitelist_lookup_dst scenario.1 scenario.2
      { protocol := htons ETH_P_IP, ip_daddr := [10, 1, 2, 3], ip_saddr := [10, 2, 2, 3],
        ipv6_daddr := [], ipv6_saddr := [] } 40 = .ok r ∧
      IsLpm scenario.2 scenario.1.root4 32 [10, 1, 2, 3] r :=
  (lookup_dispatch scenario.1 scenario.2 scenario_well_formed
    { protocol := htons ETH_P_IP, ip_daddr := [10, 1, 2, 3], ip_saddr := [10, 2, 2, 3],
      ipv6_daddr := [], ipv6_saddr := [] }).2.1.1 rfl rfl 40 (by decide)

/-- C13 on the code: `wg_peer_get` panics, whatever the peer and its reference count; it
neither increments the count nor returns the peer. -/
theorem wg_peer_get_panics (peer refcount : Nat) :
    wg_peer_get peer refcount = .panicked "XXX" ∧
    wg_peer_get peer refcount ≠ .returned (peer, refcount + 1) :=
  ⟨rfl, fun h => by cases h⟩

/-- C16 (`common_bits` is the length of the common prefix).  For 32-bit and 128-bit keys,
for a node whose stored key and a key that both come from wire addresses through
`native_endian`, `common_bits` is the number of leading bits, counted from the most
significant bit of the first wire byte, on which the two addresses agree: `bits` when all
bits agree, 0 when the first bit differs; and `prefix_matches` holds exactly when the first
`cidr` bits of the two addresses are equal. -/
theorem common_bits_is_common_lead (bits : Nat) (hb : bits = 32 ∨ bits = 128)
    (a b d1 d2 : List u8) (ha : a.length = bits / 8) (hbl : b.length = bits / 8)
    (n : whitelist_node) (hn : n.bits = native_endian d1 a bits) :
    common_bits n (native_endian d2 b bits) bits = common_lead a b bits ∧
    (same_lead a b bits → common_bits n (native_endian d2 b bits) bits = bits) ∧
    (wire_bit a 0 ≠ wire_bit b 0 → common_bits n (native_endian d2 b bits) bits = 0) ∧
    (n.cidr ≤ bits →
      (prefix_matches n (native_endian d2 b bits) bits = true ↔ same_lead a b n.cidr)) := by
  have e := common_bits_wire bits hb a b d1 d2 ha hbl n hn
  refine ⟨e, fun hs => ?_, fun hd => ?_, fun hc =>
    prefix_matches_wire bits hb a b d1 d2 ha hbl n hn hc⟩
  · rw [e]
    exact agree_from_eq a b bits 0 bits (Nat.le_refl _)
      (fun j hj => by rw [Nat.zero_add]; exact hs j hj) (fun hlt => absurd hlt (Nat.lt_irrefl _))
  · rw [e]
    exact agree_from_eq a b bits 0 0 (Nat.zero_le _) (fun j hj => absurd hj (Nat.not_lt_zero _))
      (fun _ => hd)

/-- The keys of 10.1.0.0 and 10.2.0.0 have 14 bits in common. -/
theorem common_bits_is_common_lead_witness :
    common_bits { zero_node with bits := native_endian (List.replicate 16 0) [10, 1, 0, 0] 32 }
      (native_endian (List.replicate 4 0) [10, 2, 0, 0] 32) 32 = 14 := by
  rw [(common_bits_is_common_lead 32 (Or.inl rfl) [10, 1, 0, 0] [10, 2, 0, 0]
    (List.replicate 16 0) (List.replicate 4 0) rfl rfl
    { zero_node with bits := native_endian (List.replicate 16 0) [10, 1, 0, 0] 32 } rfl).1]
  decide

/-- C17 (decision bit).  For 32-bit and 128-bit keys, for a node set up by
`copy_and_assign_cidr` with `cidr < bits` and a key made by `native_endian` from the wire
address `a`, `CHOOSE_NODE` selects the child numbered by bit `cidr` of `a`, counted from the
most significant bit of the first wire byte; the node addresses that bit by the byte index
`(cidr / 8) ^ ((bits / 8 - 1) % 8)` and the bit offset `7 - cidr % 8`. -/
theorem choose_node_selects_wire_bit (bits : Nat) (hb : bits = 32 ∨ bits = 128)
    (n0 : whitelist_node) (src a dst : List u8) (cidr : Nat) (hc : cidr < bits)
    (ha : a.length = bits / 8) (hd : bits / 8 ≤ dst.length) :
    (copy_and_assign_cidr n0 src cidr bits).bit_at_a = (cidr / 8) ^^^ ((bits / 8 - 1) % 8) ∧
    (copy_and_assign_cidr n0 src cidr bits).bit_at_b = 7 - cidr % 8 ∧
    choose_index (copy_and_assign_cidr n0 src cidr bits) (native_endian dst a bits) =
      .ok (if wire_bit a cidr then 1 else 0) ∧
    CHOOSE_NODE (copy_and_assign_cidr n0 src cidr bits) (native_endian dst a bits) =
      .ok ((copy_and_assign_cidr n0 src cidr bits).bit (if wire_bit a cidr then 1 else 0)) := by
  have e := choose_index_wire bits hb n0 src a dst cidr hc ha hd
  refine ⟨rfl, rfl, e, ?_⟩
  simp only [CHOOSE_NODE, e]

/-- Bit 15 of 10.1.0.0 is 1, so a node of prefix length 15 sends the key of 10.1.0.0 to its
child 1. -/
theorem choose_node_selects_wire_bit_witness :
    choose_index (copy_and_assign_cidr zero_node [0, 0, 0, 0] 15 32)
      (native_endian (List.replicate 4 0) [10, 1, 0, 0] 32) = .ok 1 := by
  rw [(choose_node_selects_wire_bit 32 (Or.inl rfl) zero_node [0, 0, 0, 0] [10, 1, 0, 0]
    (List.replicate 4 0) 15 (by decide) rfl (by decide)).2.2.1]
  decide

end WG


namespace WG

/-- C14 (split case of `add`, lines 268-295).  The new leaf `newnode` is prepared, the search
stopped at the non-null node `down`, and `c = min(cidr, common_bits(down, key))` is smaller
than `cidr`.  Then the call returns 0, the node allocated at line 279 has prefix length `c`
and no peer, `c` is smaller than `cidr` and than the prefix length of `down`, bit `c` of the
prefix of `down` differs from bit `c` of the key, `down` and `newnode` are the two children of
the branch node in the slots of these bits, and the branch node is stored in the root
or in the slot of `parent` that the key selects. -/
theorem split_makes_branch (m : Mem) (trie : Option Nat) (bits : Nat)
    (hb : bits = 32 ∨ bits = 128) (key : List u8) (hk : bits / 8 ≤ key.length)
    (cidr pr newnode down : Nat) (parent : Option Nat)
    (dc : Nat) (dbs : List u8) (dpo dl dr : Option Nat)
    (pc : Nat) (pbs : List u8) (ppo pl pr2 : Option Nat)
    (hn : m.heap newnode = some (mk_node bits cidr (key_bits bits key) (some pr) none none))
    (hd : m.heap down = some (mk_node bits dc dbs dpo dl dr))
    (hnb : newnode ≠ m.brk) (hdb : down ≠ m.brk) (hcidr : cidr ≤ bits)
    (hdbs : bits / 8 ≤ dbs.length)
    (hstop : ¬ (dc ≤ cidr ∧ prefix_matches (mk_node bits dc dbs dpo dl dr) key bits = true))
    (hmin : min cidr (common_bits (mk_node bits dc dbs dpo dl dr) key bits) < cidr)
    (hpar : ∀ par, parent = some par → par ≠ newnode ∧ par ≠ m.brk ∧ pc < bits ∧
      m.heap par = some (mk_node bits pc pbs ppo pl pr2)) :
    ∃ m2 trie2 b0 b1 bs2,
      add_split m trie bits key cidr newnode parent down true = .ok (0, m2, trie2) ∧
      m2.heap m.brk = some (mk_node bits
        (min cidr (common_bits (mk_node bits dc dbs dpo dl dr) key bits)) bs2 none b0 b1) ∧
      min cidr (common_bits (mk_node bits dc dbs dpo dl dr) key bits) < dc ∧
      kbit bits dbs (min cidr (common_bits (mk_node bits dc dbs dpo dl dr) key bits)) ≠
        kbit bits key (min cidr (common_bits (mk_node bits dc dbs dpo dl dr) key bits)) ∧
      ((kbit bits key (min cidr (common_bits (mk_node bits dc dbs dpo dl dr) key bits)) = true ∧
          b0 = some down ∧ b1 = some newnode) ∨
        (kbit bits key (min cidr (common_bits (mk_node bits dc dbs dpo dl dr) key bits)) = false ∧
          b0 = some newnode ∧ b1 = some down)) ∧
      (parent = none → trie2 = some m.brk) ∧
      (∀ par, parent = some par → trie2 = trie ∧
        m2.heap par = some (mk_node bits pc pbs ppo
          (if kbit bits key pc then pl else some m.brk)
          (if kbit bits key pc then some m.brk else pr2))) :=
  split_branch_facts m trie bits hb key hk cidr pr newnode down parent dc dbs dpo dl dr pc pbs
    ppo pl pr2 hn hd hnb hdb hcidr hdbs hstop hmin hpar

/-- The insert of 11.0.0.0/8 for peer 2 below the root 10.0.0.0/8: the branch node is the
node 2, it has prefix length 7, no peer, and becomes the root. -/
theorem split_makes_branch_witness :
    ∃ m2 trie2 b0 b1 bs2,
      add_split split_demo (some 0) 32 (native_endian (List.replicate 4 0) [11, 0, 0, 0] 32) 8
        1 none 0 true = .ok (0, m2, trie2) ∧
      m2.heap 2 = some (mk_node 32 7 bs2 none b0 b1) ∧ trie2 = some 2 := by
  obtain ⟨m2, trie2, b0, b1, bs2, e1, e2, _, _, _, e6, _⟩ :=
    split_makes_branch split_demo (some 0) 32 (Or.inl rfl)
      (native_endian (List.replicate 4 0) [11, 0, 0, 0] 32) (by decide) 8 2 1 0 none
      8 (key_bits 32 (native_endian (List.replicate 4 0) [10, 0, 0, 0] 32)) (some 1) none none
      0 [] none none none (by decide!) (by decide!) (by decide!) (by decide!) (by decide)
      (by decide) (by decide) (by decide) (fun par hp => by cases hp)
  have hbrk : split_demo.brk = 2 := by decide!
  have hmin : min 8 (common_bits (mk_node 32 8
      (key_bits 32 (native_endian (List.replicate 4 0) [10, 0, 0, 0] 32)) (some 1) none none)
      (native_endian (List.replicate 4 0) [11, 0, 0, 0] 32) 32) = 7 := by decide
  rw [hbrk, hmin] at e2
  rw [hbrk] at e6
  exact ⟨m2, trie2, b0, b1, bs2, e1, e2, e6 rfl⟩

/-- C15 (overwrite on an exact prefix).  On every well-formed table, when a node reachable
from the root has the target prefix length and matches the key, the insert returns 0 with the
memory in which that node has the new peer and is moved to the tail of the list of the new
peer: no node is allocated and no other field of any node is written.  An insert that
returned 0, made a second time with the same address, prefix length and peer, returns 0 and
leaves every node, the allocator break and every list of a peer as they were. -/
theorem insert_overwrites_exact (table : whitelist) (m : Mem)
    (h : WellFormed table m) :
    (∀ ip, ip.length = 4 → ∀ (cidr pr : Nat) (a1 a2 : Bool) (fuel : Nat), 33 ≤ fuel →
      ∀ x n, Reach m.heap table.root4 x → m.heap x = some n → n.cidr = cidr →
        prefix_matches n (native_endian (List.replicate 4 0) ip 32) 32 = true →
        wg_whitelist_insert_v4 table m ip cidr (some pr) a1 a2 fuel =
          .ok (0, { table with seq := table.seq + 1 },
            list_move_tail (m.store x { n with peer := some pr }) x pr)) ∧
    (∀ ip, ip.length = 16 → ∀ (cidr pr : Nat) (a1 a2 : Bool) (fuel : Nat), 129 ≤ fuel →
      ∀ x n, Reach m.heap table.root6 x → m.heap x = some n → n.cidr = cidr →
        prefix_matches n (native_endian (List.replicate 16 0) ip 128) 128 = true →
        wg_whitelist_insert_v6 table m ip cidr (some pr) a1 a2 fuel =
          .ok (0, { table with seq := table.seq + 1 },
            list_move_tail (m.store x { n with peer := some pr }) x pr)) ∧
    (∀ ip, ip.length = 4 → ∀ (cidr : Nat) (peer : Option Nat) (a1 a2 : Bool) (fuel : Nat)
      (table1 : whitelist) (m1 : Mem),
      wg_whitelist_insert_v4 table m ip cidr peer a1 a2 fuel = .ok (0, table1, m1) →
      ∀ (b1 b2 : Bool) (fuel2 : Nat), 33 ≤ fuel2 →
        ∃ m2, wg_whitelist_insert_v4 table1 m1 ip cidr peer b1 b2 fuel2 =
            .ok (0, { table1 with seq := table1.seq + 1 }, m2) ∧
          m2.heap = m1.heap ∧ m2.brk = m1.brk ∧ m2.lists = m1.lists) ∧
    (∀ ip, ip.length = 16 → ∀ (cidr : Nat) (peer : Option Nat) (a1 a2 : Bool) (fuel : Nat)
      (table1 : whitelist) (m1 : Mem),
      wg_whitelist_insert_v6 table m ip cidr peer a1 a2 fuel = .ok (0, table1, m1) →
      ∀ (b1 b2 : Bool) (fuel2 : Nat), 129 ≤ fuel2 →
        ∃ m2, wg_whitelist_insert_v6 table1 m1 ip cidr peer b1 b2 fuel2 =
            .ok (0, { table1 with seq := table1.seq + 1 }, m2) ∧
          m2.heap = m1.heap ∧ m2.brk = m1.brk ∧ m2.lists = m1.lists) :=
  ⟨fun ip hip cidr pr a1 a2 fuel hf x n hx hn hc hm =>
      insert_v4_exact table m h ip hip cidr pr a1 a2 fuel hf x n hx hn hc hm,
    fun ip hip cidr pr a1 a2 fuel hf x n hx hn hc hm =>
      insert_v6_exact table m h ip hip cidr pr a1 a2 fuel hf x n hx hn hc hm,
    fun ip hip cidr peer a1 a2 fuel table1 m1 hr b1 b2 fuel2 hf =>
      insert_v4_twice table table1 m m1 h ip hip cidr peer a1 a2 fuel hr b1 b2 fuel2 hf,
    fun ip hip cidr peer a1 a2 fuel table1 m1 hr b1 b2 fuel2 hf =>
      insert_v6_twice table table1 m m1 h ip hip cidr peer a1 a2 fuel hr b1 b2 fuel2 hf⟩

/-- On the table that holds the node of 10.0.0.0/8 for peer 1, after the insert of
10.1.0.0/16 for peer 2 a second insert of 10.1.0.0/16 for peer 2, with no memory to
allocate, returns 0 and leaves the memory as it was. -/
theorem insert_overwrites_exact_witness :
    ∃ m2, wg_whitelist_insert_v4 (after_insert_v4 first_route [10, 1, 0, 0] 16 2).1
        (after_insert_v4 first_route [10, 1, 0, 0] 16 2).2 [10, 1, 0, 0] 16 (some 2)
        false false 40 =
        .ok (0, { (after_insert_v4 first_route [10, 1, 0, 0] 16 2).1 with
          seq := (after_insert_v4 first_route [10, 1, 0, 0] 16 2).fst.seq + 1 }, m2) ∧
      m2.heap = (after_insert_v4 first_route [10, 1, 0, 0] 16 2).2.heap ∧
      m2.brk = (after_insert_v4 first_route [10, 1, 0, 0] 16 2).2.brk ∧
      m2.lists = (after_insert_v4 first_route [10, 1, 0, 0] 16 2).2.lists :=
  (insert_overwrites_exact first_route.1 first_route.2
    first_route_well_formed).2.2.1 [10, 1, 0, 0] rfl 16 (some 2)
    true true 200 _ _ (ok_zero_of_returned _ (0, start) (by decide!) (by decide!))
    false false 40 (by decide)

/-- The walk ends.  On every heap that holds a tree (every node at one place of the tree)
the loop of `walk_remove_by_peer`, entered with the root slot on the stack, ends after
finitely many iterations whatever the peer: with enough fuel it returns with an empty stack,
the only other outcome being the failed assertion of `PUSH` when the tree has more than 128
nodes on a path.  The iterations that re-enter a node with `prev = NULL` after a leaf was
removed are part of the loop that is run. -/
theorem walk_terminates (bits pr : Nat) (m : Mem) (t : Tree)
    (hl : Laid bits m.heap t) (hnd : t.ptrs.Nodup) (hne : t.ptr ≠ none) :
    ∃ N, ∀ fuel, N ≤ fuel →
      (∃ st2, walk_loop pr fuel { m := m, root := t.ptr, stack := [Slot.top], prev := none } =
          .ok st2 ∧ st2.stack = []) ∨
      (walk_loop pr fuel { m := m, root := t.ptr, stack := [Slot.top], prev := none } =
          .assert_failed ∧ 128 < t.height) :=
  walk_loop_ends bits pr m t hl hnd hne

/-- With the siblings 10.0.0.0/8 of peer 1 and 11.0.0.0/8 of peer 2 below a branch node, the
walk for peer 1 removes the left leaf, enters the branch node again with `prev = NULL`,
descends into the right leaf, and ends with an empty stack. -/
theorem walk_terminates_witness :
    ∃ N, ∀ fuel, N ≤ fuel →
      ∃ st2, walk_loop 1 fuel
        { m := siblings.2, root := siblings.fst.root4, stack := [Slot.top],
          prev := none } = .ok st2 ∧ st2.stack = [] := by
  obtain ⟨t4, t6, h1, _, h3⟩ := siblings_well_formed
  have hh := TInv_height 32 t4 0 _ h3.2.2.1
  have hroot : siblings.fst.root4 = some 2 := by decide!
  obtain ⟨N, hN⟩ := walk_terminates 32 1 siblings.2 t4 h3.1
    (List.nodup_append.1 h3.2.2.2.2.1).1 (by rw [h1, hroot]; simp)
  refine ⟨N, fun fuel hf => ?_⟩
  rw [← h1]
  rcases hN fuel hf with hok | ⟨_, hbad⟩
  · exact hok
  · omega

end WG


namespace WG

/-- C11 (`wg_whitelist_free` empties the table).  On every well-formed table, which every
table is that the calls reach from the empty table, with enough fuel `wg_whitelist_free`
returns, the only other outcome being the failed assertion of `push_rcu` when the IPv6 trie
has more than 128 nodes on a path; on a table that the calls reach from the empty table it
returns whatever the fuel; and whenever it returns, `root4` and `root6` are null,
every lookup in either family returns no peer, the node list of every peer is empty, and
every node that was reachable is reclaimed. -/
theorem free_empties_table (table : whitelist) (m : Mem)
    (h : WellFormed table m) :
    (∃ N, ∀ fuel, N ≤ fuel →
      (∃ table2 m2, wg_whitelist_free table m fuel = .ok (table2, m2)) ∨
      (wg_whitelist_free table m fuel = .assert_failed ∧
        ∃ t6, t6.ptr = table.root6 ∧ Laid 128 m.heap t6 ∧ 128 < t6.height)) ∧
    (∀ cs, Reached start cs table m → ∀ fuel, ∃ table2 m2,
      wg_whitelist_free table m fuel = .ok (table2, m2)) ∧
    ∀ fuel table2 m2, wg_whitelist_free table m fuel = .ok (table2, m2) →
      table2.root4 = none ∧ table2.root6 = none ∧
      (∀ q f, lookup m2 table2.root4 32 q f = .ok none) ∧
      (∀ q f, lookup m2 table2.root6 128 q f = .ok none) ∧
      (∀ pe, m2.lists pe = []) ∧
      (∀ x, (Reach m.heap table.root4 x ∨ Reach m.heap table.root6 x) → m2.heap x = none) := by
  refine ⟨(wf_free table m h).1, fun cs hc fuel =>
    ⟨_, _, free_null_roots table m (reached_empty cs table m hc).1
      (reached_empty cs table m hc).2.1 fuel⟩, fun fuel table2 m2 hr => ?_⟩
  obtain ⟨a, b, c, d⟩ := (wf_free table m h).2 fuel table2 m2 hr
  refine ⟨a, b, fun q f => ?_, fun q f => ?_, c, d⟩
  · rw [a]; exact lookup_null_root m2 32 q f
  · rw [b]; exact lookup_null_root m2 128 q f

/-- On the table of the scenario of the specification `wg_whitelist_free` returns, the roots
are null, the lists of the peers 1 and 2 are empty and 10.1.2.3 is routed to no peer. -/
theorem free_empties_table_witness :
    (after_free scenario).1.root4 = none ∧ (after_free scenario).2.lists 1 = [] ∧
    (after_free scenario).2.lists 2 = [] ∧
    lookup (after_free scenario).2 (after_free scenario).1.root4 32 [10, 1, 2, 3] 40 =
      .ok none := by
  obtain ⟨a, _, c, _, e, _⟩ := (free_empties_table scenario.1 scenario.2
    scenario_well_formed).2.2 400
    (after_free scenario).1 (after_free scenario).2 (ok_of_returned _ start (by decide!))
  exact ⟨a, e 1, e 2, c _ _⟩

/-- C18 (the stack of `walk_remove_by_peer`).  The tables that the calls reach from the empty
table of `wg_whitelist_init` have no node, since no insert returns 0 on a `NULL` root; on
them `wg_whitelist_remove_by_peer` returns before any `PUSH`.  On every well-formed table
whose IPv6 trie has at most 128 nodes on a path (an IPv4 trie has at most 33) the assertion
of `PUSH` holds at every `PUSH`, whatever the fuel, and with enough fuel the call returns; so
it does on the path of the 128 prefixes `::/127`, ..., `::/0`. -/
theorem walk_stack_suffices :
    (∀ cs table m, Reached start cs table m →
      table.root4 = none ∧ table.root6 = none ∧
      ∀ peer fuel, ∃ table2 m2,
        wg_whitelist_remove_by_peer table m peer fuel = .ok (table2, m2)) ∧
    (∀ table m t4 t6, TableInv table m t4 t6 → t6.height ≤ 128 → ∀ peer,
      (∀ fuel, wg_whitelist_remove_by_peer table m peer fuel ≠ .assert_failed) ∧
      ∃ N, ∀ fuel, N ≤ fuel →
        ∃ table2 m2, wg_whitelist_remove_by_peer table m peer fuel = .ok (table2, m2)) ∧
    (run_calls 200 (chain_calls 127) (seed_v6 (List.replicate 16 0) 127 1)).isSome = true ∧
    (wg_whitelist_remove_by_peer (deep_chain 127).1 (deep_chain 127).2 (some 1)
      400).returned = true := by
  refine ⟨fun cs table m h => ?_, fun table m t4 t6 hinv hh peer =>
    remove_never_asserts table m t4 t6 hinv hh peer, by decide!⟩
  obtain ⟨h4, h6, _⟩ := reached_empty cs table m h
  exact ⟨h4, h6, fun peer fuel => ⟨_, _, remove_null_roots table m h4 h6 peer fuel⟩⟩

/-- On the table of the scenario of the specification, whose IPv4 trie has two nodes, the
removal of peer 2 never stops at the assertion of `PUSH`, and it returns with enough fuel. -/
theorem walk_stack_suffices_witness :
    (∀ fuel, wg_whitelist_remove_by_peer scenario.1 scenario.2 (some 2) fuel ≠
      .assert_failed) ∧
    ∃ N, ∀ fuel, N ≤ fuel → ∃ table2 m2,
      wg_whitelist_remove_by_peer scenario.1 scenario.2 (some 2) fuel = .ok (table2, m2) := by
  obtain ⟨t4, t6, hinv⟩ := scenario_well_formed
  have h6 : t6 = .nil := nil_of_null_root t6 (by rw [hinv.2.1]; decide!)
  exact walk_stack_suffices.2.1 scenario.1 scenario.2 t4 t6 hinv (by rw [h6]; decide) (some 2)

/-- C19 (the stack of the whole-trie walks).  The tables that the calls reach from the empty
table of `wg_whitelist_init` have no node; on them `wg_whitelist_free` returns without a call
of `push_rcu`.  On every well-formed table whose IPv6 trie has at most 128 nodes on a path
(an IPv4 trie has at most 33) the assertion of `push_rcu` holds at every push of
`root_remove_peer_lists` and `root_free_rcu`, whatever the fuel, and with enough fuel
`wg_whitelist_free` returns; so it does on the trie of the 128 host routes with 127, ..., 0
leading ones. -/
theorem free_stack_suffices :
    (∀ cs table m, Reached start cs table m →
      table.root4 = none ∧ table.root6 = none ∧
      ∀ fuel, ∃ table2 m2, wg_whitelist_free table m fuel = .ok (table2, m2)) ∧
    (∀ table m t4 t6, TableInv table m t4 t6 → t6.height ≤ 128 →
      (∀ fuel, wg_whitelist_free table m fuel ≠ .assert_failed) ∧
      ∃ N, ∀ fuel, N ≤ fuel →
        ∃ table2 m2, wg_whitelist_free table m fuel = .ok (table2, m2)) ∧
    (run_calls 200 (comb_calls 127) (seed_v6 (ones_lead 127) 128 1)).isSome = true ∧
    (wg_whitelist_free (comb 127).1 (comb 127).2 400).returned = true := by
  refine ⟨fun cs table m h => ?_, fun table m t4 t6 hinv hh =>
    free_never_asserts table m t4 t6 hinv hh, by decide!⟩
  obtain ⟨h4, h6, _⟩ := reached_empty cs table m h
  exact ⟨h4, h6, fun fuel => ⟨_, _, free_null_roots table m h4 h6 fuel⟩⟩

/-- On the table of the scenario of the specification, whose IPv4 trie has two nodes,
`wg_whitelist_free` never stops at the assertion of `push_rcu`, and it returns with enough
fuel. -/
theorem free_stack_suffices_witness :
    (∀ fuel, wg_whitelist_free scenario.1 scenario.2 fuel ≠ .assert_failed) ∧
    ∃ N, ∀ fuel, N ≤ fuel → ∃ table2 m2,
      wg_whitelist_free scenario.1 scenario.2 fuel = .ok (table2, m2) := by
  obtain ⟨t4, t6, hinv⟩ := scenario_well_formed
  have h6 : t6 = .nil := nil_of_null_root t6 (by rw [hinv.2.1]; decide!)
  exact free_stack_suffices.2.1 scenario.1 scenario.2 t4 t6 hinv (by rw [h6]; decide)

/-- C20 on the code: the table `deep_chain 128` holds an IPv6 trie that is one path of 129
nodes: `root6` is the node 128, and for every `k` below 129 the node `k` carries peer 1, has
the prefix length `128 - k`, no right child, and the node `k - 1` as its left child (none
for the node 0).  It is the node of `::/128` written into memory followed by the inserts of
`::/127`, ..., `::/0`, which all return 0.  On this tree the loop of `walk_remove_by_peer`,
entered with the root slot on the stack, does not end with an empty stack: it stops at the
failed `MPASS(len < 128)` of `PUSH`. -/
theorem walk_loop_stops_on_deep_chain :
    (run_calls 200 (chain_calls 128) (seed_v6 (List.replicate 16 0) 128 1)).isSome = true ∧
    (deep_chain 128).1.root6 = some 128 ∧
    (∀ k, k < 129 →
      ((deep_chain 128).2.heap k).map (fun n => (n.peer, n.bit0, n.bit1, n.cidr)) =
        some (some 1, (if k = 0 then none else some (k - 1)), none, 128 - k)) ∧
    (walk_loop 1 400
      { m := (deep_chain 128).2, root := (deep_chain 128).fst.root6,
        stack := [Slot.top], prev := none }).asserted = true := by
  decide!

/-- C21 on the code: the table `scenario` holds the node 0 of 10.0.0.0/8 for peer 1 as the
root of the IPv4 trie and the node 1 of 10.1.0.0/16 for peer 2 as its left child.  The insert
of 10.2.0.0/16 for peer 3 whose allocation of line 251 succeeds and whose allocation of line
279 fails returns `ENOMEM`; the list of peer 3 was empty before the call and holds the node 2
after it, and the node 2 is freed. -/
theorem enomem_leaves_freed_node_listed :
    scenario.1.root4 = some 0 ∧
    (scenario.2.heap 0).map (fun n => (n.peer, n.bit0, n.bit1, n.cidr)) =
      some (some 1, some 1, none, 8) ∧
    (scenario.2.heap 1).map (fun n => (n.peer, n.bit0, n.bit1, n.cidr)) =
      some (some 2, none, none, 16) ∧
    enomem_demo.returned = true ∧ (enomem_demo.get (0, start)).1 = ENOMEM ∧
    scenario.2.lists 3 = [] ∧
    (enomem_demo.get (0, start)).2.2.lists 3 = [2] ∧
    (enomem_demo.get (0, start)).2.2.heap 2 = none := by
  decide!

/-- The bound of 128 nodes on a path is needed.  On the table `deep_chain 128`, whose IPv6
trie is one path of 129 nodes (the node of `::/128` written into memory, then the inserts of
`::/127`, ..., `::/0`), `wg_whitelist_remove_by_peer` stops at the failed assertion of
`PUSH`; on the table `comb 128`, whose IPv6 trie has 129 nodes on a path (the node of the
host route of 128 ones written into memory, then the inserts of the host routes with 127,
..., 0 leading ones), `wg_whitelist_free` stops at the failed assertion of `push_rcu`.  No
sequence of calls builds these tables from the empty table. -/
theorem path_of_129_nodes_overflows :
    (run_calls 200 (chain_calls 128) (seed_v6 (List.replicate 16 0) 128 1)).isSome = true ∧
    (wg_whitelist_remove_by_peer (deep_chain 128).1 (deep_chain 128).2 (some 1)
      400).asserted = true ∧
    (run_calls 200 (comb_calls 128) (seed_v6 (ones_lead 128) 128 1)).isSome = true ∧
    (wg_whitelist_free (comb 128).1 (comb 128).2 400).asserted = true := by
  decide!

end WG


namespace WG

/-- C22, as the code has it (single-pointer publication).  The function `add` is its prepared
call followed by one store.  For every insert on a well-formed table that returns 0 the prepared
call returns with one store left, and the insert is published by that store: before it no
node that was there before the call is written, the nodes allocated by the call are complete,
and the store writes the root or one child slot of a reachable node with a pointer that
differs from the one it replaces, or the peer of a reachable node; every other node that was
there before the call, and the root of the other family, are unchanged. -/
theorem insert_published_by_one_store (table : whitelist) (m : Mem)
    (h : WellFormed table m) :
    (∀ (m0 : Mem) (trie : Option Nat) (bits : Nat) (key : List u8) (cidr : Nat)
      (peer : Option Nat) (a1 a2 : Bool) (fuel : Nat),
      add m0 trie bits key cidr peer a1 a2 fuel =
        finish trie (add_prepare m0 trie bits key cidr peer a1 a2 fuel)) ∧
    (∀ (ip : List u8) (cidr : Nat) (peer : Option Nat) (a1 a2 : Bool) (fuel : Nat)
      (table2 : whitelist) (m2 : Mem),
      wg_whitelist_insert_v4 table m ip cidr peer a1 a2 fuel = .ok (0, table2, m2) →
      ∃ m1 st, add_prepare m table.root4 32 (native_endian (List.replicate 4 0) ip 32) cidr
          peer a1 a2 fuel = .ok (0, m1, some st) ∧
        Published m table.root4 m1 st m2 table2.root4 ∧ table2.root6 = table.root6) ∧
    (∀ (ip : List u8) (cidr : Nat) (peer : Option Nat) (a1 a2 : Bool) (fuel : Nat)
      (table2 : whitelist) (m2 : Mem),
      wg_whitelist_insert_v6 table m ip cidr peer a1 a2 fuel = .ok (0, table2, m2) →
      ∃ m1 st, add_prepare m table.root6 128 (native_endian (List.replicate 16 0) ip 128) cidr
          peer a1 a2 fuel = .ok (0, m1, some st) ∧
        Published m table.root6 m1 st m2 table2.root6 ∧ table2.root4 = table.root4) :=
  ⟨fun m0 trie bits key cidr peer a1 a2 fuel =>
      add_finish m0 trie bits key cidr peer a1 a2 fuel,
    fun ip cidr peer a1 a2 fuel table2 m2 hr =>
      insert_v4_published table m h ip cidr peer a1 a2 fuel table2 m2 hr,
    fun ip cidr peer a1 a2 fuel table2 m2 hr =>
      insert_v6_published table m h ip cidr peer a1 a2 fuel table2 m2 hr⟩

/-- On the table of the scenario of the specification the insert of 10.2.0.0/16 for peer 3 is
published by a single store. -/
theorem insert_published_by_one_store_witness :
    ∃ m1 st, add_prepare scenario.2 scenario.fst.root4 32
        (native_endian (List.replicate 4 0) [10, 2, 0, 0] 32) 16 (some 3) true true 200 =
        .ok (0, m1, some st) ∧
      Published scenario.2 scenario.fst.root4 m1 st
        (after_insert_v4 scenario [10, 2, 0, 0] 16 3).2
        (after_insert_v4 scenario [10, 2, 0, 0] 16 3).fst.root4 ∧
      (after_insert_v4 scenario [10, 2, 0, 0] 16 3).fst.root6 = scenario.fst.root6 :=
  (insert_published_by_one_store scenario.1 scenario.2 scenario_well_formed).2.1
    [10, 2, 0, 0] 16 (some 3) true true
    200 _ _ (ok_zero_of_returned _ (0, start) (by decide!) (by decide!))

/-- C22 as stated fails: the table `scenario` holds the node 0 of 10.0.0.0/8 for peer 1 as
the root of the IPv4 trie and the node 1 of 10.1.0.0/16 for peer 2 as its left child; an
insert of 10.1.0.0/16 for peer 2 returns 0 and leaves the root pointers and every node as
they were, so it changes no pointer field. -/
theorem reinsert_changes_no_pointer :
    scenario.1.root4 = some 0 ∧
    (scenario.2.heap 0).map (fun n => (n.peer, n.bit0, n.bit1, n.cidr)) =
      some (some 1, some 1, none, 8) ∧
    (scenario.2.heap 1).map (fun n => (n.peer, n.bit0, n.bit1, n.cidr)) =
      some (some 2, none, none, 16) ∧
    ∃ m2, wg_whitelist_insert_v4 scenario.1 scenario.2 [10, 1, 0, 0] 16 (some 2)
        true true 40 = .ok (0, { scenario.1 with seq := scenario.fst.seq + 1 }, m2) ∧
      m2.heap = scenario.2.heap := by
  refine ⟨by decide!, by decide!, by decide!, ?_⟩
  obtain ⟨m2, e, a, _⟩ := insert_v4_twice first_route.1 scenario.1 first_route.2 scenario.2
    first_route_well_formed [10, 1, 0, 0] rfl 16 (some 2) true true 200
    (ok_zero_of_returned _ (0, start) (by decide!) (by decide!)) true true 40 (by decide)
  exact ⟨m2, e, a⟩

/-- C23 (the decision bit is read in range).  With `choose_index` for the index, `add_with`
and `lookup_with` are `add` and `lookup`.  On every well-formed table, for every key, prefix
length, peer and fuel, `add` and `lookup` with the index behind the check that the node has a
prefix length below `bits` and a byte index below `bits / 8` give the result of `add` and
`lookup`: the check never fails.  With enough fuel the checked lookups return the
longest-prefix match, and the checked `add` returns on a trie that has a node. -/
theorem decision_bit_read_in_range (table : whitelist) (m : Mem)
    (h : WellFormed table m) :
    ((∀ (m0 : Mem) (trie : Option Nat) (bits : Nat) (key : List u8) (cidr : Nat)
        (peer : Option Nat) (a1 a2 : Bool) (fuel : Nat),
        add_with choose_index m0 trie bits key cidr peer a1 a2 fuel =
          add m0 trie bits key cidr peer a1 a2 fuel) ∧
      (∀ (m0 : Mem) (root : Option Nat) (bits : Nat) (q : List u8) (fuel : Nat),
        lookup_with choose_index m0 root bits q fuel = lookup m0 root bits q fuel)) ∧
    ((∀ key cidr peer a1 a2 fuel,
        add_with (choose_index_checked 32) m table.root4 32 key cidr peer a1 a2 fuel =
          add m table.root4 32 key cidr peer a1 a2 fuel) ∧
      (∀ key cidr peer a1 a2 fuel,
        add_with (choose_index_checked 128) m table.root6 128 key cidr peer a1 a2 fuel =
          add m table.root6 128 key cidr peer a1 a2 fuel) ∧
      (∀ q fuel, lookup_with (choose_index_checked 32) m table.root4 32 q fuel =
        lookup m table.root4 32 q fuel) ∧
      (∀ q fuel, lookup_with (choose_index_checked 128) m table.root6 128 q fuel =
        lookup m table.root6 128 q fuel)) ∧
    ((table.root4 ≠ none → ∀ ip, ip.length = 4 → ∀ cidr peer a1 a2 fuel, 33 ≤ fuel →
        (add_with (choose_index_checked 32) m table.root4 32
          (native_endian (List.replicate 4 0) ip 32) cidr peer a1 a2 fuel).returned = true) ∧
      (table.root6 ≠ none → ∀ ip, ip.length = 16 → ∀ cidr peer a1 a2 fuel, 129 ≤ fuel →
        (add_with (choose_index_checked 128) m table.root6 128
          (native_endian (List.replicate 16 0) ip 128) cidr peer a1 a2 fuel).returned = true) ∧
      (∀ q, q.length = 4 → ∀ fuel, 33 ≤ fuel →
        ∃ r, lookup_with (choose_index_checked 32) m table.root4 32 q fuel = .ok r ∧
          IsLpm m table.root4 32 q r) ∧
      (∀ q, q.length = 16 → ∀ fuel, 129 ≤ fuel →
        ∃ r, lookup_with (choose_index_checked 128) m table.root6 128 q fuel = .ok r ∧
          IsLpm m table.root6 128 q r)) := by
  obtain ⟨c1, c2, c3, c4⟩ := wf_checked table m h
  obtain ⟨r1, r2⟩ := wf_add_returns table m h
  refine ⟨⟨add_with_choose_index, lookup_with_choose_index⟩, ⟨c1, c2, c3, c4⟩, ?_, ?_, ?_, ?_⟩
  · intro hne ip hip cidr peer a1 a2 fuel hf
    rw [c1]; exact r1 hne ip hip cidr peer a1 a2 fuel hf
  · intro hne ip hip cidr peer a1 a2 fuel hf
    rw [c2]; exact r2 hne ip hip cidr peer a1 a2 fuel hf
  · intro q hq fuel hf
    rw [c3]; exact wf_lookup_v4 table m h q hq fuel hf
  · intro q hq fuel hf
    rw [c4]; exact wf_lookup_v6 table m h q hq fuel hf

/-- On the table of the scenario of the specification the checked insert of 10.2.0.0/16 for
peer 3 returns, as the insert does. -/
theorem decision_bit_read_in_range_witness :
    (add_with (choose_index_checked 32) scenario.2 scenario.fst.root4 32
      (native_endian (List.replicate 4 0) [10, 2, 0, 0] 32) 16 (some 3) true true
      40).returned = true :=
  (decision_bit_read_in_range scenario.1 scenario.2 scenario_well_formed).2.2.1
    (by decide!) [10, 2, 0, 0] rfl 16 (some 3) true true 40 (by decide)

end WG

